import Mathlib

/-!
A shallow embedding of `main.go` of lem-in.

Go strings are modelled by Lean `String`s (valid UTF-8 only), Go slices by
`List`s, nil-pointer dereferences, out-of-range accesses and `log.Fatalf` by
`none`.  Go `int`s that only count upwards (ant numbers, indices) are natural
numbers; `strconv.Atoi` saturates at the 64-bit bounds as the library does.
Recursive procedures that need not terminate on every graph carry a fuel
argument bounding the recursion depth.  `DFSLog` and `BFSCount` are the two
searches with a ghost log and a ghost counter; `DFSLog_erase` and
`BFSCount_erase` show that they compute what `DFS` and `BFS` compute.
-/

namespace LemIn

/-! ## Library functions used by the program -/

/-- Worker of `Split`: `cur` holds the characters of the field being read. -/
def splitAux (sep : Char) : List Char → List Char → List String
  | [], cur => [String.mk cur]
  | c :: cs, cur =>
    if c = sep then String.mk cur :: splitAux sep cs [] else splitAux sep cs (cur ++ [c])

/-- Model of `strings.Split(s, sep)` for a one-character separator (the program
only splits on `"-"` and `" "`): the fields between the separators, always at
least one field. -/
def Split (s : String) (sep : Char) : List String := splitAux sep s.data []

/-- Model of `strings.Join(words, sep)`. -/
def Join : List String → String → String
  | [], _ => ""
  | [w], _ => w
  | w :: w2 :: ws, sep => w ++ sep ++ Join (w2 :: ws) sep

/-- Model of `unicode.IsSpace`. -/
def isSpace (c : Char) : Bool :=
  c.toNat = 9 || c.toNat = 10 || c.toNat = 11 || c.toNat = 12 || c.toNat = 13 ||
  c.toNat = 32 || c.toNat = 0x85 || c.toNat = 0xA0 || c.toNat = 0x1680 ||
  (0x2000 ≤ c.toNat && c.toNat ≤ 0x200A) || c.toNat = 0x2028 || c.toNat = 0x2029 ||
  c.toNat = 0x202F || c.toNat = 0x205F || c.toNat = 0x3000

/-- Worker of `Fields`: `cur` holds the characters of the word being read. -/
def fieldsAux : List Char → List Char → List String
  | [], cur => if cur = [] then [] else [String.mk cur]
  | c :: cs, cur =>
    if isSpace c then
      (if cur = [] then fieldsAux cs [] else String.mk cur :: fieldsAux cs [])
    else fieldsAux cs (cur ++ [c])

/-- Model of `strings.Fields(s)`: the maximal runs of non-space characters. -/
def Fields (s : String) : List String := fieldsAux s.data []

/-- The decimal digit `d` as a character. -/
def digitChar (d : Nat) : Char := Char.ofNat (48 + d)

/-- Decimal digits of `n`, most significant first; `fuel` bounds the number of
digits. -/
def itoaDigits : Nat → Nat → List Char
  | 0, _ => []
  | fuel + 1, n =>
    if n < 10 then [digitChar n] else itoaDigits fuel (n / 10) ++ [digitChar (n % 10)]

/-- Model of `strconv.Itoa` on non-negative integers. -/
def Itoa (n : Nat) : String := String.mk (itoaDigits (n + 1) n)

/-- Value of a string of decimal digits, `none` if it holds another character
or is empty. -/
def parseDigits : List Char → Option Nat
  | [] => none
  | cs => cs.foldl
      (fun acc c => acc.bind fun v =>
        if 48 ≤ c.toNat ∧ c.toNat ≤ 57 then some (10 * v + (c.toNat - 48)) else none)
      (some 0)

/-- Model of the value returned by `strconv.Atoi` when its error is discarded:
`0` on a syntax error, the nearest 64-bit bound when out of range. -/
def Atoi (s : String) : Int :=
  match s.data with
  | '+' :: ds =>
    match parseDigits ds with
    | none => 0
    | some v => min (v : Int) (2 ^ 63 - 1)
  | '-' :: ds =>
    match parseDigits ds with
    | none => 0
    | some v => - min (v : Int) (2 ^ 63)
  | ds =>
    match parseDigits ds with
    | none => 0
    | some v => min (v : Int) (2 ^ 63 - 1)

/-- One pass of the inner loop of an insertion sort: `x`, placed after the
sorted prefix `pre`, is swapped leftwards while `less x y` holds for its left
neighbour `y`. -/
def insertLast {α : Type} (less : α → α → Bool) (pre : List α) (x : α) : List α :=
  (pre.reverse.dropWhile (fun y => less x y)).reverse ++
    x :: (pre.reverse.takeWhile (fun y => less x y)).reverse

/-- Model of `sort.Slice(xs, less)`: an insertion sort, which is what the Go
library (1.19 and later) runs on slices of at most 12 elements.  On longer
slices the library switches to pattern-defeating quicksort; the result is then
still a permutation of the input that is sorted for `less`, but elements that
compare equal may come out in another order. -/
def sortSlice {α : Type} (less : α → α → Bool) (xs : List α) : List α :=
  xs.foldl (insertLast less) []

/-- Model of `fmt.Sprint` applied to a `[]string`. -/
def Sprint (xs : List String) : String := "[" ++ Join xs " " ++ "]"

/-- Go's `len(s)` of a string: its length in bytes. -/
def strLen (s : String) : Nat := s.utf8ByteSize

/-! ## The colony graph -/

/-- The Room structure: room name, the names of the connected rooms, and the
visited flag. -/
structure Room where
  Roomname : String
  Connections : List String
  Visited : Bool
deriving DecidableEq

/-- The Graph structure: all rooms, the names of the start and end rooms and
the number of ants. -/
structure Graph where
  Rooms : List Room
  StartRoomName : String
  EndRoomName : String
  Ants : Int
deriving DecidableEq

/-- Lookup in a list of rooms: the first room with the given name. -/
def findRoom (name : String) : List Room → Option Room
  | [] => none
  | r :: rs => if r.Roomname = name then some r else findRoom name rs

/-- `g.getRoom(name)`: the first room of that name, `none` for Go's `nil`. -/
def Graph.getRoom (g : Graph) (name : String) : Option Room := findRoom name g.Rooms

/-- Update through the pointer returned by `getRoom`: the first room with the
given name is replaced by its image under `f`. -/
def modifyRoom (name : String) (f : Room → Room) : List Room → List Room
  | [] => []
  | r :: rs => if r.Roomname = name then f r :: rs else r :: modifyRoom name f rs

/-- Graph-level version of `modifyRoom`. -/
def Graph.modify (g : Graph) (name : String) (f : Room → Room) : Graph :=
  { g with Rooms := modifyRoom name f g.Rooms }

/-- `contains(s, name)`. -/
def contains (s : List String) (name : String) : Bool :=
  match s with
  | [] => false
  | str :: rest => if str = name then true else contains rest name

/-- `g.AddRoom(name)`. -/
def Graph.AddRoom (g : Graph) (name : String) : Graph :=
  { g with Rooms := g.Rooms ++ [{ Roomname := name, Connections := [], Visited := false }] }

/-- Appends `c` to the connection list of a room. -/
def Room.addConn (c : String) (r : Room) : Room :=
  { r with Connections := r.Connections ++ [c] }

/-- `g.AddLinks(from, to)`; `none` stands for the two `log.Fatalf` exits. -/
def Graph.AddLinks (g : Graph) (from_ to_ : String) : Option Graph :=
  match g.getRoom from_, g.getRoom to_ with
  | some fromRoom, some toRoom =>
    if contains fromRoom.Connections to_ || contains toRoom.Connections from_ then none
    else if fromRoom.Roomname = g.EndRoomName then
      some (g.modify to_ (Room.addConn fromRoom.Roomname))
    else if toRoom.Roomname = g.EndRoomName then
      some (g.modify from_ (Room.addConn toRoom.Roomname))
    else if toRoom.Roomname = g.StartRoomName then
      some (g.modify to_ (Room.addConn fromRoom.Roomname))
    else if fromRoom.Roomname = g.StartRoomName then
      some (g.modify from_ (Room.addConn toRoom.Roomname))
    else
      some ((g.modify from_ (Room.addConn toRoom.Roomname)).modify to_
        (Room.addConn fromRoom.Roomname))
  | _, _ => none

/-- The graph of a colony, as `PopulateGraph` builds it from a validated file:
the number of ants is stored, the rooms are declared with `AddRoom` on a graph
whose start and end names are set, then every link is added with `AddLinks`,
in order; `none` when one of the `AddLinks` calls is fatal. -/
def colony (ants : Int) (start end_ : String) (rooms : List String)
    (links : List (String × String)) : Option Graph :=
  links.foldlM (fun g l => g.AddLinks l.1 l.2)
    (rooms.foldl Graph.AddRoom
      { Rooms := [], StartRoomName := start, EndRoomName := end_, Ants := ants })

/-- The graph of the diamond colony with two ants: rooms `start`, `A`, `B`,
`end` and links `start-A`, `A-end`, `start-B`, `B-end`. -/
def diamondGraph : Graph :=
  { Rooms := [
      { Roomname := "start", Connections := ["A", "B"], Visited := false },
      { Roomname := "A", Connections := ["end"], Visited := false },
      { Roomname := "B", Connections := ["end"], Visited := false },
      { Roomname := "end", Connections := [], Visited := false }],
    StartRoomName := "start", EndRoomName := "end", Ants := 2 }

/-- The graph of the two-room colony: `start` linked directly to `end`. -/
def twoRoomGraph (ants : Int) : Graph :=
  { Rooms := [
      { Roomname := "start", Connections := ["end"], Visited := false },
      { Roomname := "end", Connections := [], Visited := false }],
    StartRoomName := "start", EndRoomName := "end", Ants := ants }

/-- `DeepCopyGraph(g)`. -/
def DeepCopyGraph (g : Graph) : Graph :=
  { Rooms := g.Rooms.map fun room =>
      { Roomname := room.Roomname, Connections := room.Connections, Visited := room.Visited },
    StartRoomName := g.StartRoomName,
    EndRoomName := g.EndRoomName,
    Ants := g.Ants }

/-! ## Route enumeration -/

/-- The visited flag of a room is raised. -/
def Room.markVisited (r : Room) : Room := { r with Visited := true }

/-- Effect on the start room of the loop of `DFS` that overwrites every
occurrence of the end room's name in its connection list by `""`. -/
def Room.blankEnd (end_ : String) (r : Room) : Room :=
  { r with Connections := r.Connections.map fun c => if c = end_ then "" else c }

/-- The assignment `cs[0], cs[i] = cs[i], cs[0]`. -/
def swapFront (cs : List String) (i : Nat) : List String :=
  (cs.set 0 (cs.getD i "")).set i (cs.getD 0 "")

/-- The loop of `DFS` that swaps every connection equal to the end room's name
with the connection at index 0, on the connection list. -/
def endToFrontList (end_ : String) (conns : List String) : List String :=
  (List.range conns.length).foldl
    (fun cs i => if cs.getD i "" = end_ then swapFront cs i else cs) conns

/-- Effect of that loop on the room `curr`. -/
def Room.endToFront (end_ : String) (r : Room) : Room :=
  { r with Connections := endToFrontList end_ r.Connections }

/-- The path handed on by `DFS` after `current` has been looked up: the name
is appended without separator for the end room, with `-` for an inner room,
and not at all for the start room. -/
def dfsPath (g : Graph) (curr : Room) (current path : String) : String :=
  if curr.Roomname = g.EndRoomName then path ++ current
  else if ¬ (curr.Roomname = g.StartRoomName) then path ++ current ++ "-"
  else path

/-- The block `if current == end { ... }` of `DFS`: the path is recorded, the
end room is blanked in the start room's connections and the search re-enters
the start room with an empty path.  The result is the new graph, path list and
value of the variable `path`; `self` stands for the recursive call. -/
def dfsReenter (self : String → String → Graph → String → List String →
      Option (Graph × List String))
    (current end_ : String) (g1 : Graph) (path1 : String) (pathList : List String) :
    Option (Graph × List String × String) :=
  if current = end_ then
    match g1.getRoom g1.StartRoomName with
    | none => none
    | some _ =>
      match self g1.StartRoomName end_
          (g1.modify g1.StartRoomName (Room.blankEnd g1.EndRoomName)) ""
          (pathList ++ [path1]) with
      | none => none
      | some r => some (r.1, r.2, "")
  else some (g1, pathList, path1)

/-- Iteration `i` of the loop `for _, roomName := range curr.Connections` of
`DFS`.  The element is read from the current graph, as a Go `range` over a
slice does. -/
def dfsVisit (self : String → String → Graph → String → List String →
      Option (Graph × List String))
    (current end_ path : String) (acc : Graph × List String) (i : Nat) :
    Option (Graph × List String) :=
  match acc.1.getRoom current with
  | none => none
  | some c =>
    if c.Connections.getD i "" = "" then some acc
    else
      match acc.1.getRoom (c.Connections.getD i "") with
      | none => none
      | some currRoom =>
        if ¬ currRoom.Visited then self currRoom.Roomname end_ acc.1 path acc.2
        else some acc

/-- The body of `DFS`, its recursive calls made through `self`. -/
def dfsBody (self : String → String → Graph → String → List String →
      Option (Graph × List String))
    (current end_ : String) (g : Graph) (path : String) (pathList : List String) :
    Option (Graph × List String) :=
  match g.getRoom current with
  | none => none
  | some curr =>
    let g1 := if current ≠ end_ then g.modify current Room.markVisited else g
    match dfsReenter self current end_ g1 (dfsPath g curr current path) pathList with
    | none => none
    | some (g2, pl2, path2) =>
      let g3 := g2.modify current (Room.endToFront g2.EndRoomName)
      match g3.getRoom current with
      | none => none
      | some c3 =>
        (List.range c3.Connections.length).foldlM (dfsVisit self current end_ path2) (g3, pl2)

/-- `DFS(current, end, g, path, pathList)`: the graph and the path list after
the call.  `fuel` bounds the recursion depth; `none` is a nil dereference or
exhausted fuel. -/
def DFS : Nat → String → String → Graph → String → List String →
    Option (Graph × List String)
  | 0 => fun _ _ _ _ _ => none
  | fuel + 1 => dfsBody (DFS fuel)

/-- `graph.isVisited(str)`; `none` is the nil dereference for an unknown room. -/
def Graph.isVisited (graph : Graph) (str : String) : Option Bool :=
  (graph.getRoom str).map Room.Visited

/-- The body of `ShortestPath`, its recursive calls made through `self`; the
global `pathArray` is passed in and returned next to the result slice. -/
def shortestPathBody (self : Graph → String → String → List String → List String →
      Option (List String × List String))
    (graph : Graph) (start end_ : String) (path pathArray : List String) :
    Option (List String × List String) :=
  let path1 := path ++ [start]
  if start = end_ then some (path1, pathArray)
  else
    match graph.getRoom start with
    | none => none
    | some r =>
      (r.Connections.foldlM
        (fun (pa : List String) node =>
          if contains path1 node then some pa
          else
            match graph.isVisited node with
            | none => none
            | some true => some pa
            | some false =>
              match self graph node end_ path1 pa with
              | none => none
              | some (newPath, pa2) =>
                if newPath.length > 0 ∧ contains newPath graph.StartRoomName ∧
                    contains newPath end_ then
                  some (pa2 ++ [Sprint newPath])
                else some pa2)
        pathArray).map fun pa => ([], pa)

/-- `ShortestPath(graph, start, end, path)` together with the global
`pathArray` it appends to: the returned slice and the new `pathArray`. -/
def ShortestPath : Nat → Graph → String → String → List String → List String →
    Option (List String × List String)
  | 0 => fun _ _ _ _ _ => none
  | fuel + 1 => shortestPathBody (ShortestPath fuel)

/-- The slice expression `s[1 : len(s)-1]`, which panics on strings shorter
than two bytes.  It is only applied to outputs of `Sprint`, whose first and
last characters are the one-byte brackets. -/
def stripBrackets (s : String) : Option String :=
  if strLen s < 2 then none else some (String.mk s.data.tail.dropLast)

/-- One iteration of the loop of `BFS`, on the graph, the result list `paths`
and the global `pathArray`. -/
def bfsIter (fuel : Nat) (st : Graph × List String × List String) :
    Option (Graph × List String × List String) :=
  let g := st.1
  let paths := st.2.1
  match ShortestPath fuel g g.StartRoomName g.EndRoomName [] st.2.2 with
  | none => none
  | some (_, pathArray) =>
    let shortStorer0 := pathArray.headD ""
    let shortStorer1 :=
      pathArray.foldl (fun acc v => if strLen v < strLen acc then v else acc) shortStorer0
    match (if pathArray.length ≠ 0 then stripBrackets shortStorer1 else some shortStorer1) with
    | none => none
    | some shortStorer =>
      let shortStorerSlc := (Split shortStorer ' ').tail
      match shortStorerSlc.dropLast.foldlM
          (fun (g2 : Graph) z =>
            match g2.getRoom z with
            | none => none
            | some _ => some (g2.modify z Room.markVisited)) g with
      | none => none
      | some g3 =>
        let pathStr := Join shortStorerSlc "-"
        if strLen pathStr ≠ 0 then
          some (g3, (if contains paths pathStr then paths else paths ++ [pathStr]), [])
        else some (g3, paths, pathArray)

/-- `BFS(start, end, g, paths, ShortestPath)` together with the global
`pathArray`: graph, `*paths` and `pathArray` after the call. -/
def BFS (fuel : Nat) (start _end : String) (g : Graph) (paths pathArray : List String) :
    Option (Graph × List String × List String) :=
  match g.getRoom start with
  | none => none
  | some begin =>
    (List.range begin.Connections.length).foldlM (fun st _ => bfsIter fuel st)
      (g, paths, pathArray)

/-! ## Ranking, scheduling and formatting -/

/-- `lenSorter(paths)`: the slice is sorted with `len(a) < len(b)` on the route
strings. -/
def lenSorter (paths : List String) : List String :=
  sortSlice (fun a b => decide (strLen a < strLen b)) paths

/-- The running minimum of the inner loop of `AntSender`: `acc` is
`(minStepsIndex, minSteps)` and `j` the index of the first entry of the list. -/
def scanMin : List Nat → Nat → Nat × Nat → Nat × Nat
  | [], _, acc => acc
  | steps :: rest, j, acc => scanMin rest (j + 1) (if steps < acc.2 then (j, steps) else acc)

/-- The values `len(path) + len(queue[j])` for all routes. -/
def stepsOf (pathLists queue : List (List String)) : List Nat :=
  List.zipWith (fun p q => p.length + q.length) pathLists queue

/-- The statement `xs[idx] = f(xs[idx])`. -/
def modifyAt {α : Type} (f : α → α) : List α → Nat → List α
  | [], _ => []
  | x :: xs, 0 => f x :: xs
  | x :: xs, idx + 1 => x :: modifyAt f xs idx

/-- The route index chosen for the next ant, given the hop lists and the
queues; `none` is the out-of-range access `pathLists[0]` on an empty list. -/
def minStepsIndex (pathLists queue : List (List String)) : Option Nat :=
  match pathLists, queue with
  | p0 :: _, q0 :: _ => some (scanMin (stepsOf pathLists queue) 0 (0, p0.length + q0.length)).1
  | _, _ => none

/-- One iteration of the assignment loop of `AntSender`: ant `i` is appended to
the queue of the chosen route. -/
def assignAnt (pathLists : List (List String)) (queue : List (List String)) (i : Nat) :
    Option (List (List String)) :=
  (minStepsIndex pathLists queue).map fun idx => modifyAt (fun q => q ++ [Itoa i]) queue idx

/-- The queues built by the assignment loop of `AntSender` for ants `1..n`. -/
def assignQueues (n : Nat) (pathLists : List (List String)) : Option (List (List String)) :=
  (List.range' 1 n).foldlM (assignAnt pathLists) (List.replicate pathLists.length [])

/-- The `container` of `AntSender`: for every route, for every ant queued on
it, the move tokens of that ant along the route. -/
def buildContainer (pathLists queue : List (List String)) : List (List (List String)) :=
  List.zipWith (fun q p => q.map fun ant => p.map fun room => "L" ++ ant ++ "-" ++ room)
    queue pathLists

/-- The body of the innermost merge loop: the token is appended as a new turn
when `idx` is not an existing turn, otherwise concatenated to turn `idx`. -/
def placeMove (finalMoves : List String) (idx : Nat) (room : String) : List String :=
  if idx ≥ finalMoves.length then finalMoves ++ [room ++ " "]
  else modifyAt (fun t => t ++ (room ++ " ")) finalMoves idx

/-- The loop over `k, room` of the merge, for the ant at queue position `j`. -/
def placeMoves (j : Nat) : List String → Nat → List String → List String
  | [], _, finalMoves => finalMoves
  | room :: rest, k, finalMoves => placeMoves j rest (k + 1) (placeMove finalMoves (j + k) room)

/-- The loop over `j, moves` of the merge, for one route. -/
def placePaths : List (List String) → Nat → List String → List String
  | [], _, finalMoves => finalMoves
  | moves :: rest, j, finalMoves => placePaths rest (j + 1) (placeMoves j moves 0 finalMoves)

/-- The `finalMoves` built from the container. -/
def mergeMoves (container : List (List (List String))) : List String :=
  container.foldl (fun finalMoves paths => placePaths paths 0 finalMoves) []

/-- The sort key of `LexicalLsort`: `Atoi` of `strings.Split(w, "-")[0][1:]`.
`none` is the panic of the slice expression on an empty first field; a first
byte that is part of a longer character leaves a string `Atoi` rejects. -/
def antKey (w : String) : Option Int :=
  match (Split w '-').head?.map String.data with
  | some (c :: rest) => some (if c.utf8Size = 1 then Atoi (String.mk rest) else 0)
  | _ => none

/-- The comparison function that `LexicalLsort` passes to `sort.Slice`: the
ant numbers read from the two words are compared. -/
def tokLess (a b : String) : Bool := decide ((antKey a).getD 0 < (antKey b).getD 0)

/-- `LexicalLsort(s)`.  The comparison function is called on every word as soon
as there are two of them. -/
def LexicalLsort (s : String) : Option String :=
  let words := Fields s
  if 2 ≤ words.length ∧ words.any (fun w => (antKey w).isNone) then none
  else some (Join (sortSlice tokLess words) " ")

/-- `ProcessStrings(strs)`. -/
def ProcessStrings (strs : List String) : Option (List String) := strs.mapM LexicalLsort

/-- `AntSender(n, pathList)`; `none` is a run-time panic.  The ant count is a
natural number: a Go `int` that is not positive behaves like `0`, and the loop
counter `i` does not wrap for `n < 2^63 - 1`. -/
def AntSender (n : Nat) (pathList : List String) : Option (List String) :=
  let pathLists := pathList.map fun path => Split path '-'
  match assignQueues n pathLists with
  | none => none
  | some queue => ProcessStrings (mergeMoves (buildContainer pathLists queue))

/-- `shorterSearch(DFSSearch, BFSSearch)`. -/
def shorterSearch (DFSSearch BFSSearch : List String) : List String :=
  if DFSSearch.length > BFSSearch.length then BFSSearch else DFSSearch

/-- The hop count of a route string: the number of its `-`-separated room
names. -/
def hopCount (route : String) : Nat := (Split route '-').length

/-! ## Token-level view of the schedule, used to state and prove the claims -/

/-- The string holding the given tokens, each followed by one space: the form
of the entries of `finalMoves`. -/
def renderTurn (toks : List String) : String :=
  String.mk (toks.flatMap fun tok => tok.data ++ [' '])

/-- Token-level view of `placeMove`: the turns are lists of tokens. -/
def addTok (fm : List (List String)) (idx : Nat) (tok : String) : List (List String) :=
  if idx ≥ fm.length then fm ++ [[tok]] else modifyAt (fun t => t ++ [tok]) fm idx

/-- Token-level view of `placeMoves`. -/
def placeToks (j : Nat) : List String → Nat → List (List String) → List (List String)
  | [], _, fm => fm
  | room :: rest, k, fm => placeToks j rest (k + 1) (addTok fm (j + k) room)

/-- Token-level view of `placePaths`. -/
def placePathsToks : List (List String) → Nat → List (List String) → List (List String)
  | [], _, fm => fm
  | moves :: rest, j, fm => placePathsToks rest (j + 1) (placeToks j moves 0 fm)

/-- Token-level view of `mergeMoves`. -/
def mergeToks (container : List (List (List String))) : List (List String) :=
  container.foldl (fun fm paths => placePathsToks paths 0 fm) []

/-- The token that an ant whose moves are `moves` and who starts in turn `s`
contributes to turn `t`. -/
def moveAt (moves : List String) (s t : Nat) : List String :=
  if s ≤ t then (moves[t - s]?).toList else []

/-- The tokens that the ants of one route, queued from position `j` on,
contribute to turn `t`, in queue order. -/
def pathsAt : List (List String) → Nat → Nat → List String
  | [], _, _ => []
  | moves :: rest, j, t => moveAt moves j t ++ pathsAt rest (j + 1) t

/-- The move token `L{id}-{room}` of an ant number and a room name. -/
def moveToken (e : Nat × String) : String := "L" ++ Itoa e.1 ++ "-" ++ e.2

/-- The (ant, room) pairs that the ants `ids` queued on the route with rooms
`p`, from queue position `j` on, contribute to turn `t`. -/
def routeEntries : List Nat → List String → Nat → Nat → List (Nat × String)
  | [], _, _, _ => []
  | i :: rest, p, j, t =>
    (if j ≤ t then ((p[t - j]?).map fun room => (i, room)).toList else []) ++
      routeEntries rest p (j + 1) t

/-- The (ant, room) pairs of turn `t`, in the order in which the merge loop of
`AntSender` meets them: route by route, each route in queue order. -/
def turnEntries (ids : List (List Nat)) (pathLists : List (List String)) (t : Nat) :
    List (Nat × String) :=
  (List.zipWith (fun q p => routeEntries q p 0 t) ids pathLists).flatten

/-- The sort key of an (ant, room) pair: the value `Atoi` reads back from the
ant's decimal name. -/
def entryKey (e : Nat × String) : Int := min (e.1 : Int) (2 ^ 63 - 1)

/-- Connections of the room named `a` in `g`; empty when `a` is not declared. -/
def Graph.conns (g : Graph) (a : String) : List String :=
  ((g.getRoom a).map Room.Connections).getD []

/-- The relation between a room before and after steps of `DFS`: same name,
same number of connections, every connection either blanked or one of the old
ones, and the visited flag is never lowered. -/
def RoomRel (r0 r : Room) : Prop :=
  r.Roomname = r0.Roomname ∧ r.Connections.length = r0.Connections.length ∧
  (∀ c ∈ r.Connections, c = "" ∨ c ∈ r0.Connections) ∧
  (r0.Visited = true → r.Visited = true)

/-- The relation between a graph before and after steps of `DFS`. -/
def GraphRel (g0 g : Graph) : Prop :=
  List.Forall₂ RoomRel g0.Rooms g.Rooms ∧ g.StartRoomName = g0.StartRoomName ∧
  g.EndRoomName = g0.EndRoomName

/-- Number of rooms whose visited flag is not set. -/
def unvisited (g : Graph) : Nat := g.Rooms.countP fun r => !r.Visited

/-- The conditions on a graph under which `DFS` is analysed: start and end
differ, the end name is not empty, the start room is declared, no room is
visited, the end room has no connections, and every connection is a declared
room other than the start room, with a non-empty name. -/
def WellFormed (g : Graph) : Prop :=
  g.StartRoomName ≠ g.EndRoomName ∧ g.EndRoomName ≠ "" ∧
  (g.getRoom g.StartRoomName).isSome ∧
  ∀ r ∈ g.Rooms, r.Visited = false ∧ (r.Roomname = g.EndRoomName → r.Connections = []) ∧
    ∀ c ∈ r.Connections, c ≠ "" ∧ c ≠ g.StartRoomName ∧ (g.getRoom c).isSome

/-- The conditions on a graph under which `DFS` terminates: start and end
differ, the start room is declared, no room is visited, the end room has no
connections, and every connection is a declared room other than the start
room. -/
def Searchable (g : Graph) : Prop :=
  g.StartRoomName ≠ g.EndRoomName ∧ (g.getRoom g.StartRoomName).isSome ∧
  ∀ r ∈ g.Rooms, r.Visited = false ∧ (r.Roomname = g.EndRoomName → r.Connections = []) ∧
    ∀ c ∈ r.Connections, c ≠ g.StartRoomName ∧ (g.getRoom c).isSome

/-- The value of the variable `path` of `DFS` after the rooms of `chain` have
been entered in turn from the start room. -/
def encodeChain (chain : List String) : String :=
  chain.foldl (fun acc r => acc ++ r ++ "-") ""

/-- The room list `rooms` starts at a connection of the start room of `g`,
follows connections of `g` and has no repeated room. -/
def ChainOK (g : Graph) (rooms : List String) : Prop :=
  rooms.Nodup ∧ List.Chain' (fun a b => b ∈ g.conns a) (g.StartRoomName :: rooms)

/-- The route string `p` was recorded for a chain of rooms leading from the
start room to the end room. -/
def GoodPath (g : Graph) (p : String) : Prop :=
  ∃ chain : List String, p = encodeChain chain ++ g.EndRoomName ∧
    ChainOK g (chain ++ [g.EndRoomName])

/-- The room `x` is declared in `g` and its visited flag is set. -/
def visitedIn (g : Graph) (x : String) : Prop :=
  ∃ r, g.getRoom x = some r ∧ r.Visited = true

/-- What a call `DFS(current, end, g, path, ..)` with `fuel` may assume in the
analysis of a run that started on `g0`: the graph evolved from `g0`, and
either the end room is entered with the path of a chain leading to it, or the
start room is (re-)entered with an empty path while it is unvisited or no
longer lists the end room (a connection `""` is skipped by the loop), or an unvisited inner room is entered with the path
of the visited chain leading to it.  In each case `fuel` covers the depth
still needed. -/
def DfsPre (g0 g : Graph) (fuel : Nat) (current path : String) : Prop :=
  GraphRel g0 g ∧
  ((current = g0.EndRoomName ∧ 3 * unvisited g + 2 ≤ fuel ∧
      ∃ chain, path = encodeChain chain ∧ ChainOK g0 (chain ++ [current])) ∨
   (current = g0.StartRoomName ∧ path = "" ∧ 3 * unvisited g + 1 ≤ fuel ∧
      ((∃ r, g.getRoom current = some r ∧ r.Visited = false) ∨
        g0.EndRoomName = "" ∨ g0.EndRoomName ∉ g.conns current)) ∨
   (current ≠ g0.EndRoomName ∧ current ≠ g0.StartRoomName ∧ 3 * unvisited g ≤ fuel ∧
      (∃ r, g.getRoom current = some r ∧ r.Visited = false) ∧
      ∃ chain, path = encodeChain chain ∧ ChainOK g0 (chain ++ [current]) ∧
        ∀ x ∈ chain, x ≠ g0.EndRoomName ∧ visitedIn g x))

/-- What such a call guarantees: the graph evolved from the one it was given
and every path in the list is an old one or a good one. -/
def DfsPost (g0 g : Graph) (pl : List String) (res : Graph × List String) : Prop :=
  GraphRel g res.1 ∧ ∀ p ∈ res.2, p ∈ pl ∨ GoodPath g0 p

/-- The invariant of the construction of a colony graph over the declared
names `names` with start `s` and end `e`: the rooms are the declared ones, no
room is visited, the end room has no connections and every connection is a
declared name other than the start room. -/
def ColonyInv (names : List String) (s e : String) (g : Graph) : Prop :=
  g.Rooms.map Room.Roomname = names ∧ g.StartRoomName = s ∧ g.EndRoomName = e ∧
  ∀ r ∈ g.Rooms, r.Visited = false ∧ (r.Roomname = e → r.Connections = []) ∧
    ∀ c ∈ r.Connections, c ∈ names ∧ c ≠ s

/-- The room list `rooms` is a route of the colony `g`: its rooms are pairwise
distinct, the first one is a connection of the start room, the last one is the
end room, and every room is a connection of the room before it. -/
def IsRoute (g : Graph) (rooms : List String) : Prop :=
  rooms.Nodup ∧ (∃ first, rooms.head? = some first ∧ first ∈ g.conns g.StartRoomName) ∧
  rooms.getLast? = some g.EndRoomName ∧ List.Chain' (fun a b => b ∈ g.conns a) rooms

/-! ## The pipeline of `main` and the room check of the validator -/

/-- The part of `main` that follows the construction of the graph `gdfs`: both
searches are run, the route lists are sorted and scheduled, and either the
failure lines or the turns of the shorter schedule are printed.  The result is
the list of the lines printed after the echo of the input file; `none` is a
run-time panic or exhausted fuel. -/
def main (fuel : Nat) (gdfs : Graph) : Option (List String) :=
  let gbfs := DeepCopyGraph gdfs
  match DFS fuel gdfs.StartRoomName gdfs.EndRoomName gdfs "" [] with
  | none => none
  | some (_, allPathsDFS) =>
    match BFS fuel gbfs.StartRoomName gbfs.EndRoomName gbfs [] [] with
    | none => none
    | some (_, allPathsBFS, _) =>
      let antNum := gdfs.Ants.toNat
      match AntSender antNum (lenSorter allPathsDFS) with
      | none => none
      | some DFSSearch =>
        match AntSender antNum (lenSorter allPathsBFS) with
        | none => none
        | some BFSSearch =>
          if DFSSearch.length = 0 ∨ BFSSearch.length = 0 then
            some ((if DFSSearch.length = 0 then ["DFS Search Failed"] else []) ++
              (if BFSSearch.length = 0 then ["BFS Search Failed"] else []))
          else some (shorterSearch DFSSearch BFSSearch)

/-- The graph of the colony with rooms `start`, `A`, `B`, `end`, links
`start-A`, `A-end`, `A-B`, `B-end` and three ants. -/
def crossGraph : Graph :=
  { Rooms := [
      { Roomname := "start", Connections := ["A"], Visited := false },
      { Roomname := "A", Connections := ["end", "B"], Visited := false },
      { Roomname := "B", Connections := ["A", "end"], Visited := false },
      { Roomname := "end", Connections := [], Visited := false }],
    StartRoomName := "start", EndRoomName := "end", Ants := 3 }

/-- The graph of the colony with rooms `start`, `end`, `a`, `b`, links
`start-a`, `end-b` and one ant: the end room cannot be reached. -/
def cutGraph : Graph :=
  { Rooms := [
      { Roomname := "start", Connections := ["a"], Visited := false },
      { Roomname := "end", Connections := [], Visited := false },
      { Roomname := "a", Connections := [], Visited := false },
      { Roomname := "b", Connections := ["end"], Visited := false }],
    StartRoomName := "start", EndRoomName := "end", Ants := 1 }

/-- Worker of `stringsContains`: some suffix of the list starts with `sub`. -/
def containsAux (sub : List Char) : List Char → Bool
  | [] => sub.isEmpty
  | c :: cs => sub.isPrefixOf (c :: cs) || containsAux sub cs

/-- Model of `strings.Contains(s, substr)`: `substr` occurs in `s` as a
contiguous block.  Both strings are valid UTF-8, so a block of bytes equal to
`substr` starts and ends at character borders and whole characters can be
compared. -/
def stringsContains (s substr : String) : Bool := containsAux substr.data s.data

/-- `Contains(slice, elem)` of the validator; the separator is the string
literal of the source, four characters. -/
def Contains (slice : List String) (elem : String) : Bool :=
  stringsContains (Join slice "ðŸ˜Ž") elem

/-- `CheckRoomsInConnectionsPresent(OnlyConnections, AllRooms)`: `some true`
when the function returns, `some false` when it leaves through `NoGo`, `none`
for the out-of-range access `roomNames[1]` on a line without `-`. -/
def CheckRoomsInConnectionsPresent : List String → List String → Option Bool
  | [], _ => some true
  | connectionStr :: rest, AllRooms =>
    let roomNames := Split connectionStr '-'
    match roomNames[0]? with
    | none => none
    | some room0 =>
      if !Contains AllRooms room0 then some false
      else
        match roomNames[1]? with
        | none => none
        | some room1 =>
          if !Contains AllRooms room1 then some false
          else CheckRoomsInConnectionsPresent rest AllRooms

/-! ## Construction of a graph step by step, used to state the claims on `AddLinks` -/

/-- A step of the construction of a graph: a room is declared or two rooms are
linked. -/
inductive BuildStep where
  | room (name : String)
  | link (a b : String)
deriving DecidableEq

/-- A graph is taken through construction steps with `AddRoom` and `AddLinks`,
in order; `none` when an `AddLinks` call is fatal. -/
def Graph.build (g : Graph) (steps : List BuildStep) : Option Graph :=
  steps.foldlM
    (fun g2 st =>
      match st with
      | BuildStep.room name => some (g2.AddRoom name)
      | BuildStep.link a b => g2.AddLinks a b) g

/-- The links among construction steps, in order. -/
def linksOf : List BuildStep → List (String × String)
  | [] => []
  | BuildStep.room _ :: rest => linksOf rest
  | BuildStep.link a b :: rest => (a, b) :: linksOf rest

/-- The invariant of the construction of a graph with start `s` and end `e`
after the links `done` have been added: `y` is in the list of `x` exactly when
the two were linked, `x` is not the end room and `y` is not the start room. -/
def LinkInv (s e : String) (done : List (String × String)) (g : Graph) : Prop :=
  g.StartRoomName = s ∧ g.EndRoomName = e ∧
  ∀ x y, y ∈ g.conns x ↔ x ≠ e ∧ y ≠ s ∧ ((x, y) ∈ done ∨ (y, x) ∈ done)

/-- The room names declared by construction steps, in order. -/
def roomsOf : List BuildStep → List String
  | [] => []
  | BuildStep.room name :: rest => name :: roomsOf rest
  | BuildStep.link _ _ :: rest => roomsOf rest

/-! ## The exhaustive search with a log of the rooms entered -/

/-- The block `if current == end { ... }` of `DFS`, with the log handed to the
recursive call. -/
def dfsReenterLog (self : String → String → Graph → String → List String → List String →
      Option (Graph × List String × List String))
    (current end_ : String) (g1 : Graph) (path1 : String) (pathList log : List String) :
    Option (Graph × List String × List String × String) :=
  if current = end_ then
    match g1.getRoom g1.StartRoomName with
    | none => none
    | some _ =>
      match self g1.StartRoomName end_
          (g1.modify g1.StartRoomName (Room.blankEnd g1.EndRoomName)) ""
          (pathList ++ [path1]) log with
      | none => none
      | some r => some (r.1, r.2.1, r.2.2, "")
  else some (g1, pathList, log, path1)

/-- Iteration `i` of the loop over the connections in `DFS`, with the log. -/
def dfsVisitLog (self : String → String → Graph → String → List String → List String →
      Option (Graph × List String × List String))
    (current end_ path : String) (acc : Graph × List String × List String) (i : Nat) :
    Option (Graph × List String × List String) :=
  match acc.1.getRoom current with
  | none => none
  | some c =>
    if c.Connections.getD i "" = "" then some acc
    else
      match acc.1.getRoom (c.Connections.getD i "") with
      | none => none
      | some currRoom =>
        if ¬ currRoom.Visited then self currRoom.Roomname end_ acc.1 path acc.2.1 acc.2.2
        else some acc

/-- The body of `DFS` with a log: the name of the room is appended to the log
when the call has looked it up; nothing else differs from `dfsBody`. -/
def dfsBodyLog (self : String → String → Graph → String → List String → List String →
      Option (Graph × List String × List String))
    (current end_ : String) (g : Graph) (path : String) (pathList log : List String) :
    Option (Graph × List String × List String) :=
  match g.getRoom current with
  | none => none
  | some curr =>
    let g1 := if current ≠ end_ then g.modify current Room.markVisited else g
    match dfsReenterLog self current end_ g1 (dfsPath g curr current path) pathList
        (log ++ [current]) with
    | none => none
    | some (g2, pl2, log2, path2) =>
      let g3 := g2.modify current (Room.endToFront g2.EndRoomName)
      match g3.getRoom current with
      | none => none
      | some c3 =>
        (List.range c3.Connections.length).foldlM (dfsVisitLog self current end_ path2)
          (g3, pl2, log2)

/-- `DFS` instrumented with the log of the rooms entered, in call order: the
graph, the path list and the log after the call. -/
def DFSLog : Nat → String → String → Graph → String → List String → List String →
    Option (Graph × List String × List String)
  | 0 => fun _ _ _ _ _ _ => none
  | fuel + 1 => dfsBodyLog (DFSLog fuel)

/-- The share of a room in `endBudget`. -/
def endWeight (s e : String) (r : Room) : Nat :=
  if r.Visited = true ∧ r.Roomname ≠ s then 0 else r.Connections.count e

/-- The number of connection entries naming the end room `e` that a search may
still follow: those of the start room `s` and of the unvisited rooms. -/
def endBudget (s e : String) (g : Graph) : Nat := (g.Rooms.map (endWeight s e)).sum

/-- What a stretch of a run of `DFSLog` from `g` to `g2` that logged `new`
guarantees: the graph evolved, every inner room logged was unvisited before
and is visited after, no inner room is logged twice, and in the list of a
room that was visited before no entry has become the end room's name. -/
def LogStep (s e : String) (g g2 : Graph) (new : List String) : Prop :=
  GraphRel g g2 ∧
  (∀ x ∈ new, x ≠ s → x ≠ e →
    (∃ r, g.getRoom x = some r ∧ r.Visited = false) ∧ visitedIn g2 x) ∧
  (∀ x, x ≠ s → x ≠ e → new.count x ≤ 1) ∧
  ∀ (y : String) (r r2 : Room), g.getRoom y = some r → r.Visited = true →
    g2.getRoom y = some r2 →
    ∀ k, r2.Connections.getD k "" = e → r.Connections.getD k "" = e

/-- The facts about the graph that hold throughout a run of `DFSLog` on a
graph with start `s` and end `e`: the two names, which differ, and the end
room has no connections. -/
def LogInv (s e : String) (g : Graph) : Prop :=
  g.StartRoomName = s ∧ g.EndRoomName = e ∧ s ≠ e ∧
  ∀ r, g.getRoom e = some r → r.Connections = []

/-- What a call `DFSLog(current, ..)` on `g` may assume in the analysis of the
log: the end room is entered, with a non-empty name, or the start room while
it is unvisited or does not list the end room, or an unvisited inner room; the
start room is visited in all cases but the second. -/
def LogPre (s e : String) (g : Graph) (current : String) : Prop :=
  LogInv s e g ∧
  ((current = e ∧ e ≠ "" ∧ visitedIn g s) ∨
   (current = s ∧
      ((∃ r, g.getRoom s = some r ∧ r.Visited = false) ∨ (e ≠ "" ∧ e ∉ g.conns s))) ∨
   (current ≠ s ∧ current ≠ e ∧ visitedIn g s ∧
      ∃ r, g.getRoom current = some r ∧ r.Visited = false))

/-- What such a call that took `g` to `g2` and logged `new` guarantees:
`LogStep`, and the entries of the end room in `new` are paid for by
`endBudget`; a call that enters the end room costs one entry more and uses up
the entries of the end room in the start room's list.  The start room is
logged once for every entry of the end room, and once more by a call that
enters the start room itself. -/
def LogPost (s e : String) (g : Graph) (current : String) (g2 : Graph) (new : List String) :
    Prop :=
  LogStep s e g g2 new ∧
  (current = e →
    new.count e + endBudget s e g2 + (g.conns s).count e ≤ endBudget s e g + 1) ∧
  (current ≠ e → new.count e + endBudget s e g2 ≤ endBudget s e g) ∧
  new.count s = new.count e + (if current = s then 1 else 0)

/-! ## Predicates on the shortest-path-biased search, used to state and prove the claims -/

/-- The room `x` is declared in `g` and its visited flag is not set. -/
def unvisitedIn (g : Graph) (x : String) : Prop :=
  ∃ r, g.getRoom x = some r ∧ r.Visited = false

/-- The string `c` is a candidate that `ShortestPath`, called for the room
`start` with the rooms `path` before it, may record: the printed form of
`path`, `start`, further rooms `mid` and the end room, where each room is a
connection of the one before it, no room occurs twice and the rooms after
`start` are unvisited. -/
def Candidate (g : Graph) (path : List String) (start : String) (c : String) : Prop :=
  ∃ mid : List String, c = Sprint (path ++ start :: (mid ++ [g.EndRoomName])) ∧
    List.Chain (fun a b => b ∈ g.conns a) start (mid ++ [g.EndRoomName]) ∧
    (path ++ start :: (mid ++ [g.EndRoomName])).Nodup ∧
    ∀ x ∈ mid ++ [g.EndRoomName], unvisitedIn g x

/-- The conditions on a graph under which `BFS` is analysed: the start room is
declared, the end room's name is not empty, no room name contains a space and
every connection is a declared room. -/
def BfsReady (g : Graph) : Prop :=
  (g.getRoom g.StartRoomName).isSome ∧ g.EndRoomName ≠ "" ∧
  ∀ r ∈ g.Rooms, (∀ c ∈ r.Roomname.data, c ≠ ' ') ∧
    ∀ c ∈ r.Connections, (g.getRoom c).isSome

/-- The graph after the visited flags of the rooms `rooms` have been raised,
in order. -/
def markAll (g : Graph) (rooms : List String) : Graph :=
  rooms.foldl (fun g2 z => g2.modify z Room.markVisited) g

/-- One iteration of the loop of `BFS` together with a counter of the
iterations in which `ShortestPath` recorded a candidate, that is, left
`pathArray` non-empty. -/
def bfsIterCount (fuel : Nat) (st : (Graph × List String × List String) × Nat) :
    Option ((Graph × List String × List String) × Nat) :=
  match ShortestPath fuel st.1.1 st.1.1.StartRoomName st.1.1.EndRoomName [] st.1.2.2 with
  | none => none
  | some (_, pathArray) =>
    match bfsIter fuel st.1 with
    | none => none
    | some st2 => some (st2, if pathArray.length ≠ 0 then st.2 + 1 else st.2)

/-- `BFS` together with the number of repetitions in which a candidate was
recorded. -/
def BFSCount (fuel : Nat) (start _end : String) (g : Graph) (paths pathArray : List String) :
    Option ((Graph × List String × List String) × Nat) :=
  match g.getRoom start with
  | none => none
  | some begin =>
    (List.range begin.Connections.length).foldlM (fun st _ => bfsIterCount fuel st)
      ((g, paths, pathArray), 0)

/-- The graph of the colony with rooms `start`, `A`, `end` and links
`start-end`, `start-A`, `A-end`: the start room is linked directly to the end
room. -/
def shortcutGraph : Graph :=
  { Rooms := [
      { Roomname := "start", Connections := ["end", "A"], Visited := false },
      { Roomname := "A", Connections := ["end"], Visited := false },
      { Roomname := "end", Connections := [], Visited := false }],
    StartRoomName := "start", EndRoomName := "end", Ants := 1 }

/-- The graph of the colony with rooms `start`, `a`, `end` and the single link
`start-a`: no room is linked to the end room. -/
def isolatedEndGraph : Graph :=
  { Rooms := [
      { Roomname := "start", Connections := ["a"], Visited := false },
      { Roomname := "a", Connections := [], Visited := false },
      { Roomname := "end", Connections := [], Visited := false }],
    StartRoomName := "start", EndRoomName := "end", Ants := 1 }

/-- Every route of `paths` is the `-`-joined list of room names without `-`
whose first room is visited in `g`. -/
def RoutesInv (g : Graph) (paths : List String) : Prop :=
  ∀ p ∈ paths, ∃ x rest, p = Join (x :: rest) "-" ∧ visitedIn g x ∧
    ∀ w ∈ x :: rest, ∀ c ∈ w.data, c ≠ '-'

/-! ## Predicates on a run of `DFS` that records no route -/

/-- The frame of a stretch of a `DFS` run that records no route, from `g` to
`g2`, with end room `e`: every room of `g` is still declared, a room that was
visited is unchanged, the end room is not newly visited and the connections of
a room are a rearrangement of the old ones. -/
def DfsFrame (e : String) (g g2 : Graph) : Prop :=
  ∀ x r, g.getRoom x = some r → ∃ r2, g2.getRoom x = some r2 ∧
    (r.Visited = true → r2 = r) ∧ (r2.Visited = true → r.Visited = true ∨ x ≠ e) ∧
    r2.Connections.Perm r.Connections

/-- Every room that got visited between `g` and `g2` has, in `g2`, only
visited rooms (and blanks) in its connection list. -/
def DfsClosed (g g2 : Graph) : Prop :=
  ∀ x, unvisitedIn g x → visitedIn g2 x → ∀ y ∈ g2.conns x, y ≠ "" → visitedIn g2 y

/-! ## Predicates on turns and on distributions of ants -/

/-- No `-` of the text `l` starts a word: each one follows a character that is
not white space.  The flag `b` tells whether the character before `l` is such
a character. -/
def dashInWord : Bool → List Char → Bool
  | _, [] => true
  | b, c :: l => (decide (c ≠ '-') || b) && dashInWord (!isSpace c) l

/-- The number of turns that independent lanes need, as the specification of
the length of a schedule: the greatest value of `len(R_j) + c_j - 1` over the
routes with `c_j > 0`, for the hop counts `lens` and the ant counts `counts`;
`0` when no route has an ant. -/
def lanesTurns : List Nat → List Nat → Nat
  | len :: lens, c :: counts => max (if c = 0 then 0 else len + c - 1) (lanesTurns lens counts)
  | _, _ => 0

/-! ## The searches on a heap of rooms, used to state the claim on `DeepCopyGraph` -/

/-- A graph as the program holds it: `Rooms` is a slice of pointers to rooms.
A pointer is an address of the heap, the list of the `Room` values allocated
so far, and `Graph` above is the graph with the values the pointers point to
(`loadGraph`).  The connection slice of a room is part of the room's value:
every room owns its array, as `AddLinks` appends to the room's own slice and
`DeepCopyGraph` allocates a new array with `make`. -/
structure GraphRef where
  Rooms : List Nat
  StartRoomName : String
  EndRoomName : String
  Ants : Int
deriving DecidableEq

/-- The loop of `getRoom` over a slice of pointers: the first pointer to a room
with the given name, with the value it points to.  Every pointer of a graph
was returned by an allocation; a pointer that is no address of the heap does
not occur and is skipped. -/
def findPtr (heap : List Room) (name : String) : List Nat → Option (Nat × Room)
  | [] => none
  | a :: rest =>
    match heap[a]? with
    | some r => if r.Roomname = name then some (a, r) else findPtr heap name rest
    | none => findPtr heap name rest

/-- `g.getRoom(name)` on the heap: the pointer returned and the room it points
to; `none` for Go's `nil`. -/
def getRoomH (heap : List Room) (g : GraphRef) (name : String) : Option (Nat × Room) :=
  findPtr heap name g.Rooms

/-- The graph of the values that the pointers of `g` point to. -/
def loadGraph (heap : List Room) (g : GraphRef) : Graph :=
  { Rooms := g.Rooms.filterMap fun a => heap[a]?,
    StartRoomName := g.StartRoomName,
    EndRoomName := g.EndRoomName,
    Ants := g.Ants }

/-- One iteration of the loop of `DeepCopyGraph` on the heap, for the pointer
`a` to a room of the old graph: a new room with the same name, a new array
holding the same connections and the same flag is allocated at the end of the
heap, and its address is appended to the rooms of the new graph.  `acc` holds
the heap and the rooms of the new graph. -/
def deepCopyRoomH (acc : List Room × List Nat) (a : Nat) : List Room × List Nat :=
  match acc.1[a]? with
  | some room =>
    let newRoom : Room :=
      { Roomname := room.Roomname,
        Connections := room.Connections,
        Visited := room.Visited }
    (acc.1 ++ [newRoom], acc.2 ++ [acc.1.length])
  | none => acc

/-- `DeepCopyGraph(g)` on the heap: the new heap and the new graph, whose rooms
are the newly allocated ones. -/
def DeepCopyGraphH (heap : List Room) (g : GraphRef) : List Room × GraphRef :=
  let r := g.Rooms.foldl deepCopyRoomH (heap, [])
  let newGraph : GraphRef :=
    { Rooms := r.2,
      StartRoomName := g.StartRoomName,
      EndRoomName := g.EndRoomName,
      Ants := g.Ants }
  (r.1, newGraph)

/-- The path handed on by `DFS`, as `dfsPath`, for a graph of pointers. -/
def dfsPathH (g : GraphRef) (curr : Room) (current path : String) : String :=
  if curr.Roomname = g.EndRoomName then path ++ current
  else if ¬ (curr.Roomname = g.StartRoomName) then path ++ current ++ "-"
  else path

/-- The block `if current == end { ... }` of `DFS` on the heap: the end room is
blanked through the pointer to the start room. -/
def dfsReenterH (self : String → String → List Room → String → List String →
      Option (List Room × List String))
    (g : GraphRef) (current end_ : String) (heap1 : List Room) (path1 : String)
    (pathList : List String) : Option (List Room × List String × String) :=
  if current = end_ then
    match getRoomH heap1 g g.StartRoomName with
    | none => none
    | some s =>
      match self g.StartRoomName end_
          (modifyAt (Room.blankEnd g.EndRoomName) heap1 s.1) "" (pathList ++ [path1]) with
      | none => none
      | some r => some (r.1, r.2, "")
  else some (heap1, pathList, path1)

/-- Iteration `i` of the loop `for _, roomName := range curr.Connections` of
`DFS` on the heap: the element is read through the pointer `curr`. -/
def dfsVisitH (self : String → String → List Room → String → List String →
      Option (List Room × List String))
    (g : GraphRef) (curr : Nat) (end_ path : String) (acc : List Room × List String)
    (i : Nat) : Option (List Room × List String) :=
  match acc.1[curr]? with
  | none => none
  | some c =>
    if c.Connections.getD i "" = "" then some acc
    else
      match getRoomH acc.1 g (c.Connections.getD i "") with
      | none => none
      | some currRoom =>
        if ¬ currRoom.2.Visited then self currRoom.2.Roomname end_ acc.1 path acc.2
        else some acc

/-- The body of `DFS` on the heap: `curr` is the pointer returned by
`getRoom`, and the flag and the connections are written through it. -/
def dfsBodyH (self : String → String → List Room → String → List String →
      Option (List Room × List String))
    (g : GraphRef) (current end_ : String) (heap : List Room) (path : String)
    (pathList : List String) : Option (List Room × List String) :=
  match getRoomH heap g current with
  | none => none
  | some curr =>
    let heap1 := if current ≠ end_ then modifyAt Room.markVisited heap curr.1 else heap
    match dfsReenterH self g current end_ heap1 (dfsPathH g curr.2 current path) pathList with
    | none => none
    | some (heap2, pl2, path2) =>
      let heap3 := modifyAt (Room.endToFront g.EndRoomName) heap2 curr.1
      match heap3[curr.1]? with
      | none => none
      | some c3 =>
        (List.range c3.Connections.length).foldlM (dfsVisitH self g curr.1 end_ path2)
          (heap3, pl2)

/-- `DFS(current, end, g, path, pathList)` on the heap: the heap and the path
list after the call. -/
def DFSH (g : GraphRef) : Nat → String → String → List Room → String → List String →
    Option (List Room × List String)
  | 0 => fun _ _ _ _ _ => none
  | fuel + 1 => dfsBodyH (DFSH g fuel) g

/-- `graph.isVisited(str)` on the heap. -/
def isVisitedH (heap : List Room) (graph : GraphRef) (str : String) : Option Bool :=
  (getRoomH heap graph str).map fun r => r.2.Visited

/-- The body of `ShortestPath` on the heap, which it only reads. -/
def shortestPathBodyH (self : String → String → List String → List String →
      Option (List String × List String))
    (heap : List Room) (graph : GraphRef) (start end_ : String) (path pathArray : List String) :
    Option (List String × List String) :=
  let path1 := path ++ [start]
  if start = end_ then some (path1, pathArray)
  else
    match getRoomH heap graph start with
    | none => none
    | some r =>
      (r.2.Connections.foldlM
        (fun (pa : List String) node =>
          if contains path1 node then some pa
          else
            match isVisitedH heap graph node with
            | none => none
            | some true => some pa
            | some false =>
              match self node end_ path1 pa with
              | none => none
              | some (newPath, pa2) =>
                if newPath.length > 0 ∧ contains newPath graph.StartRoomName ∧
                    contains newPath end_ then
                  some (pa2 ++ [Sprint newPath])
                else some pa2)
        pathArray).map fun pa => ([], pa)

/-- `ShortestPath(graph, start, end, path)` on the heap. -/
def ShortestPathH (heap : List Room) (graph : GraphRef) : Nat → String → String →
    List String → List String → Option (List String × List String)
  | 0 => fun _ _ _ _ => none
  | fuel + 1 => shortestPathBodyH (ShortestPathH heap graph fuel) heap graph

/-- One iteration of the loop of `BFS` on the heap: the rooms of the chosen
candidate are marked through the pointers returned by `getRoom`. -/
def bfsIterH (fuel : Nat) (g : GraphRef) (st : List Room × List String × List String) :
    Option (List Room × List String × List String) :=
  let heap := st.1
  let paths := st.2.1
  match ShortestPathH heap g fuel g.StartRoomName g.EndRoomName [] st.2.2 with
  | none => none
  | some (_, pathArray) =>
    let shortStorer0 := pathArray.headD ""
    let shortStorer1 :=
      pathArray.foldl (fun acc v => if strLen v < strLen acc then v else acc) shortStorer0
    match (if pathArray.length ≠ 0 then stripBrackets shortStorer1 else some shortStorer1) with
    | none => none
    | some shortStorer =>
      let shortStorerSlc := (Split shortStorer ' ').tail
      match shortStorerSlc.dropLast.foldlM
          (fun (heap2 : List Room) z =>
            match getRoomH heap2 g z with
            | none => none
            | some p => some (modifyAt Room.markVisited heap2 p.1)) heap with
      | none => none
      | some heap3 =>
        let pathStr := Join shortStorerSlc "-"
        if strLen pathStr ≠ 0 then
          some (heap3, (if contains paths pathStr then paths else paths ++ [pathStr]), [])
        else some (heap3, paths, pathArray)

/-- `BFS(start, end, g, paths, ShortestPath)` on the heap, together with the
global `pathArray`. -/
def BFSH (fuel : Nat) (start _end : String) (heap : List Room) (g : GraphRef)
    (paths pathArray : List String) : Option (List Room × List String × List String) :=
  match getRoomH heap g start with
  | none => none
  | some begin =>
    (List.range begin.2.Connections.length).foldlM (fun st _ => bfsIterH fuel g st)
      (heap, paths, pathArray)

/-- Two runs of `DFS` in a row, each on a fresh `DeepCopyGraph(g)` with an
empty path list: the final heap and the two route lists. -/
def dfsTwice (fuel : Nat) (heap : List Room) (g : GraphRef) :
    Option (List Room × List String × List String) :=
  let c1 := DeepCopyGraphH heap g
  match DFSH c1.2 fuel c1.2.StartRoomName c1.2.EndRoomName c1.1 "" [] with
  | none => none
  | some (heap2, paths1) =>
    let c2 := DeepCopyGraphH heap2 g
    match DFSH c2.2 fuel c2.2.StartRoomName c2.2.EndRoomName c2.1 "" [] with
    | none => none
    | some (heap4, paths2) => some (heap4, paths1, paths2)

/-- Two runs of `BFS` in a row, each on a fresh `DeepCopyGraph(g)` with an
empty path list; the global `pathArray` is empty before the first run and the
second run starts with what the first one left in it.  The result holds the
final heap, the two route lists and the final `pathArray`. -/
def bfsTwice (fuel : Nat) (heap : List Room) (g : GraphRef) :
    Option (List Room × List String × List String × List String) :=
  let c1 := DeepCopyGraphH heap g
  match BFSH fuel c1.2.StartRoomName c1.2.EndRoomName c1.1 c1.2 [] [] with
  | none => none
  | some (heap2, paths1, pathArray1) =>
    let c2 := DeepCopyGraphH heap2 g
    match BFSH fuel c2.2.StartRoomName c2.2.EndRoomName c2.1 c2.2 [] pathArray1 with
    | none => none
    | some (heap4, paths2, pathArray2) => some (heap4, paths1, paths2, pathArray2)

/-- The relation between the heap before and after a search on the graph `g`:
no room was allocated or renamed, and only rooms of `g` were written. -/
def HeapRel (g : GraphRef) (heap heap2 : List Room) : Prop :=
  heap2.length = heap.length ∧
  (∀ a : Nat, (heap2[a]?).map Room.Roomname = (heap[a]?).map Room.Roomname) ∧
  ∀ a : Nat, a ∉ g.Rooms → heap2[a]? = heap[a]?

/-- The heap of the diamond colony: its four rooms at the addresses 0 to 3. -/
def diamondHeap : List Room := diamondGraph.Rooms

/-- The diamond colony as a graph of pointers into `diamondHeap`. -/
def diamondRef : GraphRef :=
  { Rooms := [0, 1, 2, 3], StartRoomName := "start", EndRoomName := "end", Ants := 2 }

/-! ## The library models: sorting -/

theorem insertLast_perm {α : Type} (less : α → α → Bool) (pre : List α) (x : α) :
    (insertLast less pre x).Perm (x :: pre) := by
  have h := List.takeWhile_append_dropWhile (fun y => less x y) pre.reverse
  have hp : (pre.reverse.takeWhile (fun y => less x y) ++
      pre.reverse.dropWhile (fun y => less x y)).Perm pre := by
    rw [h]; exact List.reverse_perm pre
  unfold insertLast
  refine (List.perm_middle).trans (List.Perm.cons x ?_)
  refine List.Perm.trans ?_ hp
  refine List.Perm.trans List.perm_append_comm ?_
  exact List.Perm.append (List.reverse_perm _) (List.reverse_perm _)

theorem foldl_insertLast_perm {α : Type} (less : α → α → Bool) (xs acc : List α) :
    (xs.foldl (insertLast less) acc).Perm (acc ++ xs) := by
  induction xs generalizing acc with
  | nil => simp
  | cons x xs ih =>
    simp only [List.foldl_cons]
    refine (ih _).trans ?_
    refine (List.Perm.append_right xs (insertLast_perm less acc x)).trans ?_
    simpa using (@List.perm_middle α x acc xs).symm

theorem sortSlice_perm {α : Type} (less : α → α → Bool) (xs : List α) :
    (sortSlice less xs).Perm xs := by
  simpa [sortSlice] using foldl_insertLast_perm less xs []

theorem dropWhile_key_le {α κ : Type} [LinearOrder κ] (key : α → κ) (x : α) (R : List α)
    (hR : R.Pairwise (fun a b => key b ≤ key a)) :
    ∀ y ∈ R.dropWhile (fun y => decide (key x < key y)), key y ≤ key x := by
  induction R with
  | nil => simp
  | cons a R ih =>
    rw [List.pairwise_cons] at hR
    by_cases ha : key x < key a
    · simpa [List.dropWhile_cons, ha] using ih hR.2
    · intro y hy
      simp only [List.dropWhile_cons, ha, decide_False] at hy
      have hax : key a ≤ key x := not_lt.mp ha
      rcases List.mem_cons.mp hy with h | h
      · rw [h]; exact hax
      · exact (hR.1 y h).trans hax

theorem insertLast_sorted {α κ : Type} [LinearOrder κ] (key : α → κ) (pre : List α) (x : α)
    (hpre : pre.Pairwise (fun a b => key a ≤ key b)) :
    (insertLast (fun a b => decide (key a < key b)) pre x).Pairwise
      (fun a b => key a ≤ key b) := by
  have hR : pre.reverse.Pairwise (fun a b => key b ≤ key a) := List.pairwise_reverse.mpr hpre
  have hsplit := List.takeWhile_append_dropWhile (fun y => decide (key x < key y)) pre.reverse
  have hT : ∀ y ∈ pre.reverse.takeWhile (fun y => decide (key x < key y)), key x < key y := by
    intro y hy
    simpa using List.mem_takeWhile_imp hy
  have hD := dropWhile_key_le key x pre.reverse hR
  rw [← hsplit, List.pairwise_append] at hR
  obtain ⟨hTp, hDp, hcross⟩ := hR
  unfold insertLast
  rw [List.pairwise_append]
  refine ⟨List.pairwise_reverse.mpr hDp, ?_, ?_⟩
  · rw [List.pairwise_cons]
    refine ⟨fun b hb => (hT b (List.mem_reverse.mp hb)).le, List.pairwise_reverse.mpr hTp⟩
  · intro a ha b hb
    have ha2 := List.mem_reverse.mp ha
    rcases List.mem_cons.mp hb with h | h
    · rw [h]; exact hD a ha2
    · exact hcross b (List.mem_reverse.mp h) a ha2

theorem sortSlice_sorted {α κ : Type} [LinearOrder κ] (key : α → κ) (xs : List α) :
    (sortSlice (fun a b => decide (key a < key b)) xs).Pairwise (fun a b => key a ≤ key b) := by
  have h : ∀ (ys acc : List α), acc.Pairwise (fun a b => key a ≤ key b) →
      (ys.foldl (insertLast (fun a b => decide (key a < key b))) acc).Pairwise
        (fun a b => key a ≤ key b) := by
    intro ys
    induction ys with
    | nil => intro acc hacc; simpa using hacc
    | cons y ys ih =>
      intro acc hacc
      simp only [List.foldl_cons]
      exact ih _ (insertLast_sorted key acc y hacc)
  exact h xs [] List.Pairwise.nil

/-! ## Ranking and selection -/

/-- C8: `shorterSearch(d, b)` returns one of its two arguments unchanged, the
number of turns of the result is the minimum of the two numbers of turns, and
on a tie the exhaustive schedule `d` is returned. -/
theorem shorterSearch_spec (d b : List String) :
    (shorterSearch d b = d ∨ shorterSearch d b = b) ∧
    (shorterSearch d b).length = min d.length b.length ∧
    (d.length = b.length → shorterSearch d b = d) := by
  unfold shorterSearch
  by_cases h : d.length > b.length
  · rw [if_pos h]
    exact ⟨Or.inr rfl, by omega, fun he => by omega⟩
  · rw [if_neg h]
    exact ⟨Or.inl rfl, by omega, fun _ => rfl⟩

/-- C9, as stated, fails: on the routes `AAAAAAAAAA-end` (2 hops, 14 bytes) and
`B-C-end` (3 hops, 7 bytes) `lenSorter` puts the 3-hop route first, so its
output is not ordered by hop count. -/
theorem lenSorter_not_sorted_by_hopCount :
    lenSorter ["AAAAAAAAAA-end", "B-C-end"] = ["B-C-end", "AAAAAAAAAA-end"] ∧
    ¬ ((lenSorter ["AAAAAAAAAA-end", "B-C-end"]).map hopCount).Pairwise (fun a b => a ≤ b) := by
  decide

/-- C9, amended: for every list of route strings the output of `lenSorter` is
ordered non-decreasing by the byte length of the route strings. -/
theorem lenSorter_sorted_by_strLen (paths : List String) :
    (lenSorter paths).Pairwise (fun a b => strLen a ≤ strLen b) :=
  sortSlice_sorted strLen paths

/-- C10, as stated, fails: `lenSorter` keeps both copies of a route that occurs
twice in its input. -/
theorem lenSorter_keeps_duplicates :
    lenSorter ["end", "end"] = ["end", "end"] ∧ ¬ (lenSorter ["end", "end"]).Nodup := by
  decide

/-- C10, amended: the output of `lenSorter` is a permutation of its input, so
it is free of duplicates exactly when the input is; `lenSorter` removes no
route. -/
theorem lenSorter_perm_nodup (paths : List String) :
    (lenSorter paths).Perm paths ∧ ((lenSorter paths).Nodup ↔ paths.Nodup) :=
  ⟨sortSlice_perm _ paths, (sortSlice_perm _ paths).nodup_iff⟩

/-! ## The library models: decimal numerals -/

theorem digitChar_toNat (d : Nat) (hd : d < 10) : (digitChar d).toNat = 48 + d := by
  interval_cases d <;> rfl

/-- The left fold that `parseDigits` runs over the characters. -/
theorem parse_fold_itoaDigits (fuel : Nat) : ∀ n, n < fuel →
    itoaDigits fuel n ≠ [] ∧
    (itoaDigits fuel n).foldl
      (fun acc c => acc.bind fun v =>
        if 48 ≤ c.toNat ∧ c.toNat ≤ 57 then some (10 * v + (c.toNat - 48)) else none)
      (some 0) = some n := by
  induction fuel with
  | zero => intro n hn; omega
  | succ fuel ih =>
    intro n hn
    unfold itoaDigits
    by_cases h10 : n < 10
    · rw [if_pos h10]
      refine ⟨by simp, ?_⟩
      simp only [List.foldl_cons, List.foldl_nil, Option.some_bind, digitChar_toNat n h10]
      rw [if_pos (by omega)]
      congr 1
      omega
    · rw [if_neg h10]
      refine ⟨by simp, ?_⟩
      obtain ⟨-, hfold⟩ := ih (n / 10) (by omega)
      rw [List.foldl_append, hfold]
      simp only [List.foldl_cons, List.foldl_nil, Option.some_bind,
        digitChar_toNat (n % 10) (Nat.mod_lt n (by norm_num))]
      rw [if_pos (by omega)]
      congr 1
      omega

theorem parseDigits_Itoa (n : Nat) : parseDigits (Itoa n).data = some n := by
  obtain ⟨hne, hfold⟩ := parse_fold_itoaDigits (n + 1) n (Nat.lt_succ_self n)
  show parseDigits (itoaDigits (n + 1) n) = some n
  cases hd : itoaDigits (n + 1) n with
  | nil => exact absurd hd hne
  | cons c cs => rw [hd] at hfold; exact hfold

theorem Itoa_injective : Function.Injective Itoa := by
  intro a b hab
  have ha := parseDigits_Itoa a
  rw [hab, parseDigits_Itoa b] at ha
  exact (Option.some.inj ha).symm

theorem itoaDigits_digit (fuel : Nat) : ∀ n, ∀ c ∈ itoaDigits fuel n, ∃ d, d < 10 ∧ c = digitChar d := by
  induction fuel with
  | zero => intro n c hc; simp [itoaDigits] at hc
  | succ fuel ih =>
    intro n c hc
    unfold itoaDigits at hc
    by_cases h10 : n < 10
    · rw [if_pos h10] at hc
      exact ⟨n, h10, by simpa using hc⟩
    · rw [if_neg h10] at hc
      rcases List.mem_append.mp hc with h | h
      · exact ih _ c h
      · exact ⟨n % 10, Nat.mod_lt n (by norm_num), by simpa using h⟩

theorem Itoa_digit (n : Nat) : ∀ c ∈ (Itoa n).data, ∃ d, d < 10 ∧ c = digitChar d :=
  itoaDigits_digit (n + 1) n

theorem digitChar_not_space (d : Nat) (hd : d < 10) : isSpace (digitChar d) = false := by
  interval_cases d <;> rfl

theorem digitChar_ne_dash (d : Nat) (hd : d < 10) : digitChar d ≠ '-' := by
  interval_cases d <;> decide

theorem digitChar_utf8Size (d : Nat) (hd : d < 10) : (digitChar d).utf8Size = 1 := by
  interval_cases d <;> rfl

/-! ## The assignment loop of `AntSender` -/

theorem scanMin_inv (L : List Nat) : ∀ (P : List Nat) (mi ms : Nat),
    P[mi]? = some ms → (∀ (k v : Nat), P[k]? = some v → ms ≤ v) →
    (∀ (k v : Nat), k < mi → P[k]? = some v → ms < v) →
    (P ++ L)[(scanMin L P.length (mi, ms)).1]? = some (scanMin L P.length (mi, ms)).2 ∧
    (∀ (k v : Nat), (P ++ L)[k]? = some v → (scanMin L P.length (mi, ms)).2 ≤ v) ∧
    (∀ (k v : Nat), k < (scanMin L P.length (mi, ms)).1 → (P ++ L)[k]? = some v →
      (scanMin L P.length (mi, ms)).2 < v) := by
  induction L with
  | nil => intro P mi ms h1 h2 h3; simpa [scanMin] using ⟨h1, h2, h3⟩
  | cons s L ih =>
    intro P mi ms h1 h2 h3
    have hmi : mi < P.length := (List.getElem?_eq_some.mp h1).1
    have hlen : (P ++ [s]).length = P.length + 1 := by simp
    have happ : P ++ s :: L = (P ++ [s]) ++ L := by simp
    simp only [scanMin]
    rw [happ, ← hlen]
    have hget : ∀ (k v : Nat), (P ++ [s])[k]? = some v → (P[k]? = some v ∨ (k = P.length ∧ v = s)) := by
      intro k v hk
      by_cases hkl : k < P.length
      · left; rwa [List.getElem?_append_left hkl] at hk
      · right
        have hk2 := (List.getElem?_eq_some.mp hk).1
        have : k = P.length := by simp at hk2; omega
        subst this
        simp at hk
        exact ⟨rfl, hk.symm⟩
    by_cases hs : s < ms
    · rw [if_pos hs]
      apply ih
      · simp
      · intro k v hk
        rcases hget k v hk with h | ⟨_, h⟩
        · exact (Nat.le_of_lt hs).trans (h2 k v h)
        · rw [h]
      · intro k v hkl hk
        rcases hget k v hk with h | ⟨h, _⟩
        · exact lt_of_lt_of_le hs (h2 k v h)
        · simp at hkl; omega
    · rw [if_neg hs]
      apply ih
      · rw [List.getElem?_append_left hmi]; exact h1
      · intro k v hk
        rcases hget k v hk with h | ⟨_, h⟩
        · exact h2 k v h
        · rw [h]; exact not_lt.mp hs
      · intro k v hkl hk
        rcases hget k v hk with h | ⟨h, _⟩
        · exact h3 k v hkl h
        · omega

theorem modifyAt_length {α : Type} (f : α → α) (xs : List α) (i : Nat) :
    (modifyAt f xs i).length = xs.length := by
  induction xs generalizing i with
  | nil => rfl
  | cons x xs ih => cases i <;> simp [modifyAt, ih]

theorem modifyAt_getElem? {α : Type} (f : α → α) (xs : List α) (i k : Nat) :
    (modifyAt f xs i)[k]? = if k = i then xs[k]?.map f else xs[k]? := by
  induction xs generalizing i k with
  | nil => simp [modifyAt]
  | cons x xs ih =>
    cases i with
    | zero => cases k <;> simp [modifyAt]
    | succ i => cases k <;> simp [modifyAt, ih]

theorem stepsOf_getElem? (pathLists queue : List (List String)) (k : Nat)
    (hlen : queue.length = pathLists.length) (hk : k < pathLists.length) :
    (stepsOf pathLists queue)[k]? = some ((pathLists.getD k []).length + (queue.getD k []).length) := by
  unfold stepsOf
  rw [List.getElem?_eq_some]
  have h1 : k < (List.zipWith (fun p q => p.length + q.length) pathLists queue).length := by
    simp [hlen, hk]
  refine ⟨h1, ?_⟩
  simp [List.getD_eq_getElem?_getD, List.getElem?_eq_getElem, hk, hlen ▸ hk]

/-- The index chosen by `minStepsIndex` attains the least value of
`len(path) + len(queue[j])` and is the first index doing so. -/
theorem minStepsIndex_spec (pathLists queue : List (List String))
    (hne : pathLists ≠ []) (hlen : queue.length = pathLists.length) :
    ∃ j, minStepsIndex pathLists queue = some j ∧ j < pathLists.length ∧
      (∀ k, k < pathLists.length →
        (pathLists.getD j []).length + (queue.getD j []).length ≤
          (pathLists.getD k []).length + (queue.getD k []).length) ∧
      (∀ k, k < j →
        (pathLists.getD j []).length + (queue.getD j []).length <
          (pathLists.getD k []).length + (queue.getD k []).length) := by
  cases pathLists with
  | nil => exact absurd rfl hne
  | cons p0 ps =>
    cases queue with
    | nil => simp at hlen
    | cons q0 qs =>
      have hS : stepsOf (p0 :: ps) (q0 :: qs) = [p0.length + q0.length] ++ stepsOf ps qs := by
        simp [stepsOf]
      have hstep : scanMin (stepsOf (p0 :: ps) (q0 :: qs)) 0 (0, p0.length + q0.length) =
          scanMin (stepsOf ps qs) ([p0.length + q0.length]).length (0, p0.length + q0.length) := by
        rw [hS]; simp [scanMin]
      obtain ⟨h1, h2, h3⟩ := scanMin_inv (stepsOf ps qs) [p0.length + q0.length] 0
        (p0.length + q0.length) (by simp)
        (by intro k v hk; cases k <;> simp at hk; omega)
        (by intro k v hk; omega)
      rw [← hstep, ← hS] at h1 h2 h3
      have hlenS : (stepsOf (p0 :: ps) (q0 :: qs)).length = (p0 :: ps).length := by
        simp only [stepsOf, List.length_zipWith, hlen, min_self]
      have hj : (scanMin (stepsOf (p0 :: ps) (q0 :: qs)) 0 (0, p0.length + q0.length)).1 <
          (p0 :: ps).length := by
        rw [← hlenS]; exact (List.getElem?_eq_some.mp h1).1
      have hval := stepsOf_getElem? (p0 :: ps) (q0 :: qs) _ hlen hj
      rw [h1] at hval
      have hm := Option.some.inj hval
      refine ⟨_, rfl, hj, ?_, ?_⟩
      · intro k hk
        rw [← hm]
        exact h2 k _ (stepsOf_getElem? (p0 :: ps) (q0 :: qs) k hlen hk)
      · intro k hk
        rw [← hm]
        exact h3 k _ hk (stepsOf_getElem? (p0 :: ps) (q0 :: qs) k hlen (lt_trans hk hj))

theorem modifyAt_getD {α : Type} (f : α → α) (xs : List α) (i k : Nat) (d : α) :
    (modifyAt f xs i).getD k d = if k = i ∧ k < xs.length then f (xs.getD k d) else xs.getD k d := by
  rw [List.getD_eq_getElem?_getD, List.getD_eq_getElem?_getD, modifyAt_getElem?]
  by_cases hk : k < xs.length
  · by_cases hi : k = i
    · subst hi; simp [hk]
    · simp [hi]
  · have : xs[k]? = none := List.getElem?_eq_none (not_lt.mp hk)
    simp [hk, this]

theorem modifyAt_map {α β : Type} (f : β → β) (f2 : α → α) (g : α → β)
    (hfg : ∀ x, f (g x) = g (f2 x)) (xs : List α) (i : Nat) :
    modifyAt f (xs.map g) i = (modifyAt f2 xs i).map g := by
  induction xs generalizing i with
  | nil => rfl
  | cons x xs ih => cases i <;> simp [modifyAt, hfg, ih]

theorem flatten_modifyAt_perm {α : Type} (a : α) (xs : List (List α)) (i : Nat)
    (hi : i < xs.length) :
    (modifyAt (fun q => q ++ [a]) xs i).flatten.Perm (xs.flatten ++ [a]) := by
  induction xs generalizing i with
  | nil => simp at hi
  | cons x xs ih =>
    cases i with
    | zero =>
      simp only [modifyAt, List.flatten_cons, List.append_assoc]
      exact List.Perm.append_left x List.perm_append_comm
    | succ i =>
      simp only [modifyAt, List.flatten_cons, List.append_assoc]
      exact List.Perm.append_left x (ih i (by simpa using hi))

theorem assignQueues_succ (n : Nat) (pathLists : List (List String)) :
    assignQueues (n + 1) pathLists =
      (assignQueues n pathLists).bind fun q => assignAnt pathLists q (n + 1) := by
  unfold assignQueues
  rw [List.range'_concat, List.foldlM_append]
  simp [Nat.add_comm]

/-- The assignment loop never fails on a non-empty route list; its queues hold
the decimal names of ant numbers that together are a rearrangement of `1..n`. -/
theorem assignQueues_ids (pathLists : List (List String)) (hne : pathLists ≠ []) (n : Nat) :
    ∃ ids : List (List Nat),
      assignQueues n pathLists = some (ids.map (List.map Itoa)) ∧
      ids.length = pathLists.length ∧ ids.flatten.Perm (List.range' 1 n) := by
  induction n with
  | zero =>
    refine ⟨List.replicate pathLists.length [], ?_, by simp, ?_⟩
    · simp [assignQueues]
    · simp
  | succ n ih =>
    obtain ⟨ids, hq, hlen, hperm⟩ := ih
    have hlen2 : (ids.map (List.map Itoa)).length = pathLists.length := by simpa using hlen
    obtain ⟨j, hj, hjlt, -, -⟩ := minStepsIndex_spec pathLists _ hne hlen2
    refine ⟨modifyAt (fun q => q ++ [n + 1]) ids j, ?_, ?_, ?_⟩
    · rw [assignQueues_succ, hq]
      simp only [Option.some_bind, assignAnt, hj, Option.map_some']
      rw [modifyAt_map (fun q => q ++ [Itoa (n + 1)]) (fun q => q ++ [n + 1])]
      intro x; simp
    · rw [modifyAt_length, hlen]
    · refine (flatten_modifyAt_perm (n + 1) ids j (hlen ▸ hjlt)).trans ?_
      rw [List.range'_concat]
      simpa [Nat.add_comm] using List.Perm.append_right [n + 1] hperm

theorem assignQueues_length (pathLists : List (List String)) (n : Nat)
    (q : List (List String)) (h : assignQueues n pathLists = some q) (hne : pathLists ≠ []) :
    q.length = pathLists.length := by
  obtain ⟨ids, hq, hlen, -⟩ := assignQueues_ids pathLists hne n
  rw [hq] at h
  rw [← Option.some.inj h]
  simpa using hlen

/-- Later iterations of the assignment loop only append to the queues. -/
theorem assignQueues_grow (pathLists : List (List String)) (hne : pathLists ≠ [])
    (m : Nat) (q : List (List String)) (h : assignQueues m pathLists = some q) (d : Nat) :
    ∃ q2, assignQueues (m + d) pathLists = some q2 ∧
      ∀ r, (q.getD r []) <+: (q2.getD r []) := by
  induction d with
  | zero => exact ⟨q, h, fun r => List.prefix_refl _⟩
  | succ d ih =>
    obtain ⟨q2, hq2, hpre⟩ := ih
    have hlen := assignQueues_length pathLists _ q2 hq2 hne
    obtain ⟨j, hj, -, -, -⟩ := minStepsIndex_spec pathLists q2 hne hlen
    refine ⟨modifyAt (fun x => x ++ [Itoa (m + d + 1)]) q2 j, ?_, ?_⟩
    · rw [← Nat.add_assoc, assignQueues_succ, hq2]
      simp [assignAnt, hj]
    · intro r
      refine (hpre r).trans ?_
      rw [modifyAt_getD]
      split
      · exact List.prefix_append _ _
      · exact List.prefix_refl _

theorem getD_map_of_lt {α β : Type} (f : α → β) (l : List α) (k : Nat) (d : α) (d2 : β)
    (hk : k < l.length) : (l.map f).getD k d2 = f (l.getD k d) := by
  simp [List.getD_eq_getElem?_getD, List.getElem?_eq_getElem, hk]

/-- C4: in `AntSender(n, pathList)` on a non-empty route list the ants are
assigned in ascending order, and ant `i + 1` (for every `i < n`) is appended to
the queue of the route `j` whose value `len(R_j) + len(queue[j])` is least,
`queue` being the queues built for ants `1..i`; every route before `j` has a
strictly larger value.  The queues of ants `1..i+1` are prefixes of the final
queues, from which the schedule is produced. -/
theorem AntSender_greedy_assignment (pathList : List String) (n i : Nat)
    (hne : pathList ≠ []) (hi : i < n) :
    ∃ (queue final : List (List String)) (j : Nat),
      assignQueues i (pathList.map fun p => Split p '-') = some queue ∧
      j < pathList.length ∧
      (∀ k, k < pathList.length →
        hopCount (pathList.getD j "") + (queue.getD j []).length ≤
          hopCount (pathList.getD k "") + (queue.getD k []).length) ∧
      (∀ k, k < j →
        hopCount (pathList.getD j "") + (queue.getD j []).length <
          hopCount (pathList.getD k "") + (queue.getD k []).length) ∧
      assignQueues (i + 1) (pathList.map fun p => Split p '-') =
        some (modifyAt (fun q => q ++ [Itoa (i + 1)]) queue j) ∧
      assignQueues n (pathList.map fun p => Split p '-') = some final ∧
      (∀ r, (modifyAt (fun q => q ++ [Itoa (i + 1)]) queue j).getD r [] <+: final.getD r []) ∧
      AntSender n pathList =
        ProcessStrings (mergeMoves (buildContainer (pathList.map fun p => Split p '-') final)) := by
  have hne2 : (pathList.map fun p => Split p '-') ≠ [] := by simpa using hne
  have hlenP : (pathList.map fun p => Split p '-').length = pathList.length := by simp
  obtain ⟨ids, hq, -, -⟩ := assignQueues_ids _ hne2 i
  have hlen := assignQueues_length _ i _ hq hne2
  obtain ⟨j, hj, hjlt, hmin, hfirst⟩ := minStepsIndex_spec _ _ hne2 hlen
  have hnext : assignQueues (i + 1) (pathList.map fun p => Split p '-') =
      some (modifyAt (fun q => q ++ [Itoa (i + 1)]) (ids.map (List.map Itoa)) j) := by
    rw [assignQueues_succ, hq]
    simp [assignAnt, hj]
  obtain ⟨final, hfinal, hpre⟩ := assignQueues_grow _ hne2 (i + 1) _ hnext (n - (i + 1))
  have hn : i + 1 + (n - (i + 1)) = n := by omega
  rw [hn] at hfinal
  rw [hlenP] at hjlt
  have hhop : ∀ k, k < pathList.length →
      ((pathList.map fun p => Split p '-').getD k []).length = hopCount (pathList.getD k "") := by
    intro k hk
    rw [getD_map_of_lt (fun p => Split p '-') pathList k "" [] hk]
    rfl
  refine ⟨_, final, j, hq, hjlt, ?_, ?_, hnext, hfinal, hpre, ?_⟩
  · intro k hk
    have := hmin k (by rw [hlenP]; exact hk)
    rwa [hhop j hjlt, hhop k hk] at this
  · intro k hk
    have := hfirst k hk
    rwa [hhop j hjlt, hhop k (lt_trans hk hjlt)] at this
  · simp only [AntSender, hfinal]

/-- Witness of `AntSender_greedy_assignment`: the second of two ants on the
routes `A-end` and `B-end`. -/
theorem AntSender_greedy_assignment_witness :
    ["A-end", "B-end"] ≠ [] ∧ 1 < 2 ∧
    ∃ (queue final : List (List String)) (j : Nat),
      assignQueues 1 (["A-end", "B-end"].map fun p => Split p '-') = some queue ∧
      j < ["A-end", "B-end"].length ∧
      (∀ k, k < ["A-end", "B-end"].length →
        hopCount (["A-end", "B-end"].getD j "") + (queue.getD j []).length ≤
          hopCount (["A-end", "B-end"].getD k "") + (queue.getD k []).length) ∧
      (∀ k, k < j →
        hopCount (["A-end", "B-end"].getD j "") + (queue.getD j []).length <
          hopCount (["A-end", "B-end"].getD k "") + (queue.getD k []).length) ∧
      assignQueues (1 + 1) (["A-end", "B-end"].map fun p => Split p '-') =
        some (modifyAt (fun q => q ++ [Itoa (1 + 1)]) queue j) ∧
      assignQueues 2 (["A-end", "B-end"].map fun p => Split p '-') = some final ∧
      (∀ r, (modifyAt (fun q => q ++ [Itoa (1 + 1)]) queue j).getD r [] <+: final.getD r []) ∧
      AntSender 2 ["A-end", "B-end"] =
        ProcessStrings (mergeMoves
          (buildContainer (["A-end", "B-end"].map fun p => Split p '-') final)) :=
  ⟨by decide, by decide, AntSender_greedy_assignment ["A-end", "B-end"] 2 1 (by decide) (by decide)⟩

/-- C5: on a non-empty route list the assignment loop of `AntSender(n, ..)`
succeeds, every queue entry is the decimal name of an ant number, the numbers
of all queues together are a permutation of `1..n` (so each of `1..n` is queued
exactly once and nothing else is), and the queued names are pairwise
distinct. -/
theorem AntSender_assignment_permutation (pathList : List String) (n : Nat)
    (hne : pathList ≠ []) :
    ∃ ids : List (List Nat),
      assignQueues n (pathList.map fun p => Split p '-') = some (ids.map (List.map Itoa)) ∧
      ids.length = pathList.length ∧
      ids.flatten.Perm (List.range' 1 n) ∧
      ids.flatten.Nodup ∧
      (∀ id ∈ ids.flatten, 1 ≤ id ∧ id ≤ n) ∧
      (ids.map (List.map Itoa)).flatten.Nodup ∧
      AntSender n pathList =
        ProcessStrings (mergeMoves
          (buildContainer (pathList.map fun p => Split p '-') (ids.map (List.map Itoa)))) := by
  have hne2 : (pathList.map fun p => Split p '-') ≠ [] := by simpa using hne
  obtain ⟨ids, hq, hlen, hperm⟩ := assignQueues_ids _ hne2 n
  have hnd : ids.flatten.Nodup := hperm.nodup_iff.mpr (List.nodup_range' 1 n)
  refine ⟨ids, hq, by simpa using hlen, hperm, hnd, ?_, ?_, ?_⟩
  · intro id hid
    have := (hperm.mem_iff).mp hid
    rw [List.mem_range'_1] at this
    omega
  · rw [← List.map_flatten]
    exact hnd.map Itoa_injective
  · simp only [AntSender, hq]

/-- Witness of `AntSender_assignment_permutation`: three ants on two routes. -/
theorem AntSender_assignment_permutation_witness :
    ["A-end", "B-C-end"] ≠ [] ∧
    ∃ ids : List (List Nat),
      assignQueues 3 (["A-end", "B-C-end"].map fun p => Split p '-') =
        some (ids.map (List.map Itoa)) ∧
      ids.length = ["A-end", "B-C-end"].length ∧
      ids.flatten.Perm (List.range' 1 3) ∧
      ids.flatten.Nodup ∧
      (∀ id ∈ ids.flatten, 1 ≤ id ∧ id ≤ 3) ∧
      (ids.map (List.map Itoa)).flatten.Nodup ∧
      AntSender 3 ["A-end", "B-C-end"] =
        ProcessStrings (mergeMoves
          (buildContainer (["A-end", "B-C-end"].map fun p => Split p '-')
            (ids.map (List.map Itoa)))) :=
  ⟨by decide, AntSender_assignment_permutation ["A-end", "B-C-end"] 3 (by decide)⟩

/-! ## The schedule of `AntSender` -/

theorem splitAux_field (sep : Char) (w : List Char) (hw : ∀ c ∈ w, c ≠ sep) :
    ∀ (rest cur : List Char),
      splitAux sep (w ++ sep :: rest) cur = String.mk (cur ++ w) :: splitAux sep rest [] := by
  induction w with
  | nil => intro rest cur; simp [splitAux]
  | cons c w ih =>
    intro rest cur
    have hc : c ≠ sep := hw c (List.mem_cons_self _ _)
    rw [List.cons_append, splitAux, if_neg hc, ih (fun d hd => hw d (List.mem_cons_of_mem _ hd))]
    simp

theorem splitAux_last (sep : Char) (w : List Char) (hw : ∀ c ∈ w, c ≠ sep) :
    ∀ (cur : List Char), splitAux sep w cur = [String.mk (cur ++ w)] := by
  induction w with
  | nil => intro cur; simp [splitAux]
  | cons c w ih =>
    intro cur
    have hc : c ≠ sep := hw c (List.mem_cons_self _ _)
    simp only [splitAux, hc, if_false]
    rw [ih (fun d hd => hw d (List.mem_cons_of_mem _ hd))]
    simp

/-- Every field produced by `Split` consists of characters of the input other
than the separator. -/
theorem splitAux_chars (sep : Char) (s : List Char) :
    ∀ (cur : List Char), ∀ f ∈ splitAux sep s cur, ∀ c ∈ f.data, (c ∈ cur ∨ c ∈ s) := by
  induction s with
  | nil =>
    intro cur f hf c hc
    simp only [splitAux, List.mem_singleton] at hf
    subst hf
    exact Or.inl hc
  | cons a s ih =>
    intro cur f hf c hc
    simp only [splitAux] at hf
    by_cases ha : a = sep
    · rw [if_pos ha] at hf
      rcases List.mem_cons.mp hf with h | h
      · subst h; exact Or.inl hc
      · rcases ih [] f h c hc with h2 | h2
        · simp at h2
        · exact Or.inr (List.mem_cons_of_mem _ h2)
    · rw [if_neg ha] at hf
      rcases ih _ f hf c hc with h2 | h2
      · rcases List.mem_append.mp h2 with h3 | h3
        · exact Or.inl h3
        · right; simp at h3; simp [h3]
      · exact Or.inr (List.mem_cons_of_mem _ h2)

theorem Split_chars (p : String) (sep : Char) (f : String) (hf : f ∈ Split p sep)
    (c : Char) (hc : c ∈ f.data) : c ∈ p.data := by
  rcases splitAux_chars sep p.data [] f hf c hc with h | h
  · simp at h
  · exact h

theorem splitAux_ne_nil (sep : Char) (s : List Char) : ∀ cur, splitAux sep s cur ≠ [] := by
  induction s with
  | nil => intro cur; simp [splitAux]
  | cons a s ih =>
    intro cur
    simp only [splitAux]
    split
    · simp
    · exact ih _

theorem Split_ne_nil (p : String) (sep : Char) : Split p sep ≠ [] := splitAux_ne_nil sep p.data []

theorem Join_cons_cons_data (w w2 : String) (ws : List String) (sep : String) :
    (Join (w :: w2 :: ws) sep).data = w.data ++ sep.data ++ (Join (w2 :: ws) sep).data := by
  simp [Join, String.data_append]

/-- Splitting a joined list of separator-free words gives the words back. -/
theorem Split_Join (sep : Char) (ws : List String) (hne : ws ≠ [])
    (hws : ∀ w ∈ ws, ∀ c ∈ w.data, c ≠ sep) :
    Split (Join ws (String.mk [sep])) sep = ws := by
  induction ws with
  | nil => exact absurd rfl hne
  | cons w ws ih =>
    cases ws with
    | nil =>
      show splitAux sep (Join [w] _).data [] = [w]
      simp only [Join]
      rw [splitAux_last sep w.data (hws w (List.mem_cons_self _ _))]
      simp
    | cons w2 ws =>
      show splitAux sep (Join (w :: w2 :: ws) _).data [] = w :: w2 :: ws
      rw [Join_cons_cons_data]
      simp only [List.append_assoc, List.singleton_append]
      rw [splitAux_field sep w.data (hws w (List.mem_cons_self _ _))]
      have := ih (by simp) (fun x hx => hws x (List.mem_cons_of_mem _ hx))
      unfold Split at this
      rw [this]
      simp

theorem fieldsAux_word (w : List Char) (hw : ∀ c ∈ w, isSpace c = false) :
    ∀ (rest cur : List Char), cur ++ w ≠ [] →
      fieldsAux (w ++ ' ' :: rest) cur = String.mk (cur ++ w) :: fieldsAux rest [] := by
  induction w with
  | nil =>
    intro rest cur hne
    have hcur : cur ≠ [] := by simpa using hne
    have hsp : isSpace ' ' = true := by rfl
    simp [fieldsAux, hsp, hcur]
  | cons c w ih =>
    intro rest cur _
    have hc : isSpace c = false := hw c (List.mem_cons_self _ _)
    rw [List.cons_append, fieldsAux, hc, if_neg (by simp),
      ih (fun d hd => hw d (List.mem_cons_of_mem _ hd)) rest (cur ++ [c]) (by simp)]
    simp

theorem Fields_renderTurn (toks : List String)
    (htoks : ∀ tok ∈ toks, tok.data ≠ [] ∧ ∀ c ∈ tok.data, isSpace c = false) :
    Fields (renderTurn toks) = toks := by
  induction toks with
  | nil => rfl
  | cons tok toks ih =>
    have h1 := htoks tok (List.mem_cons_self _ _)
    show fieldsAux (tok.data ++ [' '] ++ (toks.flatMap fun tok => tok.data ++ [' '])) [] = _
    rw [List.append_assoc, List.singleton_append, fieldsAux_word tok.data h1.2 _ [] (by simpa using h1.1)]
    have := ih (fun x hx => htoks x (List.mem_cons_of_mem _ hx))
    unfold Fields renderTurn at this
    simp only [List.nil_append]
    rw [this]

theorem renderTurn_append (toks : List String) (tok : String) :
    renderTurn toks ++ (tok ++ " ") = renderTurn (toks ++ [tok]) := by
  apply String.ext
  simp [renderTurn, String.data_append, List.flatMap_append]

theorem renderTurn_single (tok : String) : tok ++ " " = renderTurn [tok] := by
  apply String.ext
  simp [renderTurn, String.data_append]

theorem placeMove_render (fm : List (List String)) (idx : Nat) (tok : String) :
    placeMove (fm.map renderTurn) idx tok = (addTok fm idx tok).map renderTurn := by
  unfold placeMove addTok
  simp only [List.length_map]
  split
  · simp [renderTurn_single]
  · exact modifyAt_map _ _ renderTurn (fun x => renderTurn_append x tok) fm idx

theorem placeMoves_render (j : Nat) (moves : List String) :
    ∀ (k : Nat) (fm : List (List String)),
      placeMoves j moves k (fm.map renderTurn) = (placeToks j moves k fm).map renderTurn := by
  induction moves with
  | nil => intro k fm; rfl
  | cons m rest ih =>
    intro k fm
    simp only [placeMoves, placeToks]
    rw [placeMove_render, ih]

theorem placePaths_render (paths : List (List String)) :
    ∀ (j : Nat) (fm : List (List String)),
      placePaths paths j (fm.map renderTurn) = (placePathsToks paths j fm).map renderTurn := by
  induction paths with
  | nil => intro j fm; rfl
  | cons m rest ih =>
    intro j fm
    simp only [placePaths, placePathsToks]
    rw [placeMoves_render, ih]

theorem mergeMoves_render (container : List (List (List String))) :
    mergeMoves container = (mergeToks container).map renderTurn := by
  have h : ∀ (c : List (List (List String))) (fm : List (List String)),
      c.foldl (fun finalMoves paths => placePaths paths 0 finalMoves) (fm.map renderTurn) =
        (c.foldl (fun fm paths => placePathsToks paths 0 fm) fm).map renderTurn := by
    intro c
    induction c with
    | nil => intro fm; rfl
    | cons p c ih =>
      intro fm
      simp only [List.foldl_cons]
      rw [placePaths_render, ih]
  exact h container []

theorem addTok_spec (fm : List (List String)) (idx : Nat) (tok : String) (hidx : idx ≤ fm.length) :
    (addTok fm idx tok).length = max fm.length (idx + 1) ∧
    ∀ t, (addTok fm idx tok).getD t [] = fm.getD t [] ++ (if t = idx then [tok] else []) := by
  unfold addTok
  by_cases h : idx ≥ fm.length
  · have he : idx = fm.length := le_antisymm hidx h
    rw [if_pos h]
    refine ⟨by simp; omega, fun t => ?_⟩
    rw [List.getD_eq_getElem?_getD, List.getD_eq_getElem?_getD]
    by_cases ht : t < fm.length
    · rw [List.getElem?_append_left ht, if_neg (by omega)]; simp
    · by_cases ht2 : t = fm.length
      · subst ht2
        simp [he]
      · rw [if_neg (by omega)]
        rw [List.getElem?_eq_none (by simp; omega), List.getElem?_eq_none (by omega)]
        simp
  · rw [if_neg h]
    refine ⟨by rw [modifyAt_length]; omega, fun t => ?_⟩
    rw [modifyAt_getD]
    by_cases ht : t = idx
    · subst ht
      rw [if_pos ⟨rfl, by omega⟩, if_pos rfl]
    · rw [if_neg (by tauto), if_neg ht]; simp

theorem moveAt_cons (m : String) (rest : List String) (s t : Nat) :
    moveAt (m :: rest) s t = (if t = s then [m] else []) ++ moveAt rest (s + 1) t := by
  unfold moveAt
  by_cases h1 : s ≤ t
  · by_cases h2 : t = s
    · subst h2; simp
    · have h3 : s + 1 ≤ t := by omega
      rw [if_pos h1, if_neg h2, if_pos h3]
      have : t - s = (t - (s + 1)) + 1 := by omega
      rw [this]; simp
  · rw [if_neg h1, if_neg (by omega), if_neg (by omega)]; rfl

theorem placeToks_spec (j : Nat) (moves : List String) :
    ∀ (k : Nat) (fm : List (List String)), j + k ≤ fm.length →
      (placeToks j moves k fm).length = max fm.length (j + k + moves.length) ∧
      ∀ t, (placeToks j moves k fm).getD t [] = fm.getD t [] ++ moveAt moves (j + k) t := by
  induction moves with
  | nil =>
    intro k fm h
    refine ⟨by simp [placeToks]; omega, fun t => ?_⟩
    simp [placeToks, moveAt]
  | cons m rest ih =>
    intro k fm h
    obtain ⟨hl, hg⟩ := addTok_spec fm (j + k) m h
    obtain ⟨hl2, hg2⟩ := ih (k + 1) (addTok fm (j + k) m) (by rw [hl]; omega)
    simp only [placeToks]
    refine ⟨by rw [hl2, hl]; simp; omega, fun t => ?_⟩
    rw [hg2, hg, moveAt_cons, List.append_assoc]
    rfl

theorem placePathsToks_spec (paths : List (List String)) (hne : ∀ moves ∈ paths, moves ≠ []) :
    ∀ (j : Nat) (fm : List (List String)), j ≤ fm.length →
      ∀ t, (placePathsToks paths j fm).getD t [] = fm.getD t [] ++ pathsAt paths j t := by
  induction paths with
  | nil => intro j fm _ t; simp [placePathsToks, pathsAt]
  | cons moves rest ih =>
    intro j fm h t
    obtain ⟨hl, hg⟩ := placeToks_spec j moves 0 fm (by simpa using h)
    have hm : moves ≠ [] := hne moves (List.mem_cons_self _ _)
    have hpos : 0 < moves.length := List.length_pos.mpr hm
    simp only [placePathsToks, pathsAt]
    rw [ih (fun x hx => hne x (List.mem_cons_of_mem _ hx)) (j + 1) _ (by rw [hl]; omega) t, hg]
    simp

theorem mergeToks_spec (container : List (List (List String)))
    (hne : ∀ paths ∈ container, ∀ moves ∈ paths, moves ≠ []) (t : Nat) :
    (mergeToks container).getD t [] = container.flatMap fun paths => pathsAt paths 0 t := by
  have h : ∀ (c : List (List (List String))) (fm : List (List String)),
      (∀ paths ∈ c, ∀ moves ∈ paths, moves ≠ []) →
      (c.foldl (fun fm paths => placePathsToks paths 0 fm) fm).getD t [] =
        fm.getD t [] ++ c.flatMap fun paths => pathsAt paths 0 t := by
    intro c
    induction c with
    | nil => intro fm _; simp
    | cons p c ih =>
      intro fm hc
      simp only [List.foldl_cons]
      rw [ih _ (fun x hx => hc x (List.mem_cons_of_mem _ hx)),
        placePathsToks_spec p (hc p (List.mem_cons_self _ _)) 0 fm (Nat.zero_le _) t]
      simp
  simpa using h container [] hne

theorem pathsAt_tokens (q : List Nat) (p : List String) : ∀ (j t : Nat),
    pathsAt ((q.map Itoa).map fun ant => p.map fun room => "L" ++ ant ++ "-" ++ room) j t =
      (routeEntries q p j t).map moveToken := by
  induction q with
  | nil => intro j t; rfl
  | cons i q ih =>
    intro j t
    simp only [List.map_cons, pathsAt, routeEntries, List.map_append, ih]
    congr 1
    unfold moveAt
    split
    · rw [List.getElem?_map]
      cases p[t - j]? <;> simp [moveToken]
    · rfl

theorem container_tokens (ids : List (List Nat)) : ∀ (pls : List (List String)) (t : Nat),
    ((buildContainer pls (ids.map (List.map Itoa))).flatMap fun paths => pathsAt paths 0 t) =
      (turnEntries ids pls t).map moveToken := by
  induction ids with
  | nil => intro pls t; simp [buildContainer, turnEntries]
  | cons q ids ih =>
    intro pls t
    cases pls with
    | nil => simp [buildContainer, turnEntries]
    | cons p pls =>
      have := ih pls t
      simp only [buildContainer, turnEntries] at this ⊢
      simp only [List.map_cons, List.zipWith_cons_cons, List.flatMap_cons, List.flatten_cons,
        List.map_append, this]
      rw [← pathsAt_tokens, List.map_map]

theorem container_moves_ne_nil (pls queue : List (List String)) (hp : ∀ p ∈ pls, p ≠ []) :
    ∀ paths ∈ buildContainer pls queue, ∀ moves ∈ paths, moves ≠ [] := by
  induction queue generalizing pls with
  | nil => intro paths h; simp [buildContainer] at h
  | cons q queue ih =>
    cases pls with
    | nil => intro paths h; simp [buildContainer] at h
    | cons p pls =>
      intro paths h moves hm
      simp only [buildContainer, List.zipWith_cons_cons, List.mem_cons] at h
      rcases h with h | h
      · subst h
        obtain ⟨ant, -, rfl⟩ := List.mem_map.mp hm
        have := hp p (List.mem_cons_self _ _)
        simpa using this
      · exact ih pls (fun x hx => hp x (List.mem_cons_of_mem _ hx)) paths h moves hm

theorem routeEntries_mem (q : List Nat) (p : List String) (t : Nat) (e : Nat × String) :
    ∀ (j : Nat), e ∈ routeEntries q p j t ↔
      ∃ a k, q[a]? = some e.1 ∧ p[k]? = some e.2 ∧ t = j + a + k := by
  induction q with
  | nil => intro j; simp [routeEntries]
  | cons i q ih =>
    intro j
    simp only [routeEntries, List.mem_append, ih]
    constructor
    · rintro (h | ⟨a, k, h1, h2, h3⟩)
      · by_cases hj : j ≤ t
        · rw [if_pos hj] at h
          cases hp : p[t - j]? with
          | none => simp [hp] at h
          | some room =>
            simp only [hp, Option.map_some', Option.toList_some, List.mem_singleton] at h
            subst h
            exact ⟨0, t - j, by simp, hp, by omega⟩
        · rw [if_neg hj] at h; simp at h
      · exact ⟨a + 1, k, by simpa using h1, h2, by omega⟩
    · rintro ⟨a, k, h1, h2, h3⟩
      cases a with
      | zero =>
        left
        have hk : t - j = k := by omega
        have hi : i = e.1 := by simpa using h1
        rw [if_pos (by omega), hk, h2, hi]
        simp
      | succ a => exact Or.inr ⟨a, k, by simpa using h1, h2, by omega⟩

theorem turnEntries_mem (ids : List (List Nat)) (t : Nat) (e : Nat × String) :
    ∀ (pls : List (List String)), e ∈ turnEntries ids pls t ↔
      ∃ (r : Nat) (q : List Nat) (p : List String) (a k : Nat),
        ids[r]? = some q ∧ pls[r]? = some p ∧ q[a]? = some e.1 ∧
        p[k]? = some e.2 ∧ t = a + k := by
  induction ids with
  | nil => intro pls; simp [turnEntries]
  | cons q0 ids ih =>
    intro pls
    cases pls with
    | nil => simp [turnEntries]
    | cons p0 pls =>
      have hih := ih pls
      simp only [turnEntries] at hih ⊢
      simp only [List.zipWith_cons_cons, List.flatten_cons, List.mem_append, hih,
        routeEntries_mem]
      constructor
      · rintro (⟨a, k, h1, h2, h3⟩ | ⟨r, q, p, a, k, h1, h2, h3, h4, h5⟩)
        · exact ⟨0, q0, p0, a, k, by simp, by simp, h1, h2, by omega⟩
        · exact ⟨r + 1, q, p, a, k, by simpa using h1, by simpa using h2, h3, h4, h5⟩
      · rintro ⟨r, q, p, a, k, h1, h2, h3, h4, h5⟩
        cases r with
        | zero =>
          left
          have hq : q0 = q := by simpa using h1
          have hp : p0 = p := by simpa using h2
          subst hq; subst hp
          exact ⟨a, k, h3, h4, by omega⟩
        | succ r => exact Or.inr ⟨r, q, p, a, k, by simpa using h1, by simpa using h2, h3, h4, h5⟩

theorem moveToken_data (e : Nat × String) :
    (moveToken e).data = ('L' :: (Itoa e.1).data) ++ '-' :: e.2.data := by
  simp [moveToken, String.data_append]

theorem Itoa_not_space (n : Nat) : ∀ c ∈ (Itoa n).data, isSpace c = false := by
  intro c hc
  obtain ⟨d, hd, rfl⟩ := Itoa_digit n c hc
  exact digitChar_not_space d hd

theorem Itoa_no_dash (n : Nat) : ∀ c ∈ (Itoa n).data, c ≠ '-' := by
  intro c hc
  obtain ⟨d, hd, rfl⟩ := Itoa_digit n c hc
  exact digitChar_ne_dash d hd

theorem moveToken_valid (e : Nat × String) (hroom : ∀ c ∈ e.2.data, isSpace c = false) :
    (moveToken e).data ≠ [] ∧ ∀ c ∈ (moveToken e).data, isSpace c = false := by
  rw [moveToken_data]
  refine ⟨by simp, ?_⟩
  intro c hc
  simp only [List.cons_append, List.mem_cons, List.mem_append] at hc
  rcases hc with h | h | h | h
  · subst h; rfl
  · exact Itoa_not_space _ c h
  · subst h; rfl
  · exact hroom c h

theorem digitChar_ne_plus (d : Nat) (hd : d < 10) : digitChar d ≠ '+' := by
  interval_cases d <;> decide

theorem Atoi_Itoa (n : Nat) : Atoi (Itoa n) = min (n : Int) (2 ^ 63 - 1) := by
  have hp := parseDigits_Itoa n
  unfold Atoi
  split
  · rename_i ds hds
    obtain ⟨d, hd, hc⟩ := Itoa_digit n '+' (by rw [hds]; exact List.mem_cons_self _ _)
    exact absurd hc.symm (digitChar_ne_plus d hd)
  · rename_i ds hds
    obtain ⟨d, hd, hc⟩ := Itoa_digit n '-' (by rw [hds]; exact List.mem_cons_self _ _)
    exact absurd hc.symm (digitChar_ne_dash d hd)
  · rw [hp]

theorem antKey_moveToken (e : Nat × String) :
    antKey (moveToken e) = some (min (e.1 : Int) (2 ^ 63 - 1)) := by
  have hsplit : Split (moveToken e) '-' =
      String.mk ('L' :: (Itoa e.1).data) :: splitAux '-' e.2.data [] := by
    unfold Split
    rw [moveToken_data, splitAux_field '-' ('L' :: (Itoa e.1).data)]
    · simp
    · intro c hc
      rcases List.mem_cons.mp hc with h | h
      · subst h; decide
      · exact Itoa_no_dash _ c h
  unfold antKey
  rw [hsplit]
  simp only [List.head?_cons, Option.map_some']
  have hL : Char.utf8Size 'L' = 1 := by rfl
  rw [if_pos hL]
  exact congrArg some (Atoi_Itoa e.1)

theorem LexicalLsort_renderTurn (entries : List (Nat × String))
    (hrooms : ∀ e ∈ entries, ∀ c ∈ e.2.data, isSpace c = false) :
    LexicalLsort (renderTurn (entries.map moveToken)) =
      some (Join (sortSlice tokLess (entries.map moveToken)) " ") := by
  have hF : Fields (renderTurn (entries.map moveToken)) = entries.map moveToken := by
    apply Fields_renderTurn
    intro tok htok
    obtain ⟨e, he, rfl⟩ := List.mem_map.mp htok
    exact moveToken_valid e (hrooms e he)
  unfold LexicalLsort
  simp only [hF]
  rw [if_neg]
  rintro ⟨-, hany⟩
  rw [List.any_eq_true] at hany
  obtain ⟨w, hw, hnone⟩ := hany
  obtain ⟨e, -, rfl⟩ := List.mem_map.mp hw
  rw [antKey_moveToken] at hnone
  simp at hnone

theorem ProcessStrings_render (tl : List (List (Nat × String)))
    (hrooms : ∀ entries ∈ tl, ∀ e ∈ entries, ∀ c ∈ e.2.data, isSpace c = false) :
    ProcessStrings (tl.map fun entries => renderTurn (entries.map moveToken)) =
      some (tl.map fun entries => Join (sortSlice tokLess (entries.map moveToken)) " ") := by
  unfold ProcessStrings
  induction tl with
  | nil => rfl
  | cons x tl ih =>
    rw [List.map_cons, List.mapM_cons,
      LexicalLsort_renderTurn x (hrooms x (List.mem_cons_self _ _)),
      ih (fun y hy => hrooms y (List.mem_cons_of_mem _ hy))]
    rfl

theorem mem_modifyAt {α : Type} (f : α → α) (xs : List α) (i : Nat) (y : α)
    (hy : y ∈ modifyAt f xs i) : y ∈ xs ∨ ∃ x ∈ xs, y = f x := by
  induction xs generalizing i with
  | nil => simp [modifyAt] at hy
  | cons x xs ih =>
    cases i with
    | zero =>
      simp only [modifyAt, List.mem_cons] at hy
      rcases hy with h | h
      · exact Or.inr ⟨x, List.mem_cons_self _ _, h⟩
      · exact Or.inl (List.mem_cons_of_mem _ h)
    | succ i =>
      simp only [modifyAt, List.mem_cons] at hy
      rcases hy with h | h
      · exact Or.inl (h ▸ List.mem_cons_self _ _)
      · rcases ih i h with h2 | ⟨z, hz, h2⟩
        · exact Or.inl (List.mem_cons_of_mem _ h2)
        · exact Or.inr ⟨z, List.mem_cons_of_mem _ hz, h2⟩

theorem addTok_ne_nil (fm : List (List String)) (idx : Nat) (tok : String)
    (h : ∀ l ∈ fm, l ≠ []) : ∀ l ∈ addTok fm idx tok, l ≠ [] := by
  intro l hl
  unfold addTok at hl
  split at hl
  · rcases List.mem_append.mp hl with h2 | h2
    · exact h l h2
    · simp at h2; simp [h2]
  · rcases mem_modifyAt _ _ _ _ hl with h2 | ⟨x, -, h2⟩
    · exact h l h2
    · simp [h2]

theorem placeToks_ne_nil (j : Nat) (moves : List String) :
    ∀ (k : Nat) (fm : List (List String)), (∀ l ∈ fm, l ≠ []) →
      ∀ l ∈ placeToks j moves k fm, l ≠ [] := by
  induction moves with
  | nil => intro k fm h; simpa [placeToks] using h
  | cons m rest ih => intro k fm h; exact ih _ _ (addTok_ne_nil fm _ m h)

theorem placePathsToks_ne_nil (paths : List (List String)) :
    ∀ (j : Nat) (fm : List (List String)), (∀ l ∈ fm, l ≠ []) →
      ∀ l ∈ placePathsToks paths j fm, l ≠ [] := by
  induction paths with
  | nil => intro j fm h; simpa [placePathsToks] using h
  | cons m rest ih => intro j fm h; exact ih _ _ (placeToks_ne_nil j m 0 fm h)

theorem mergeToks_ne_nil (container : List (List (List String))) :
    ∀ l ∈ mergeToks container, l ≠ [] := by
  have h : ∀ (c : List (List (List String))) (fm : List (List String)), (∀ l ∈ fm, l ≠ []) →
      ∀ l ∈ c.foldl (fun fm paths => placePathsToks paths 0 fm) fm, l ≠ [] := by
    intro c
    induction c with
    | nil => intro fm h; simpa using h
    | cons p c ih => intro fm h; exact ih _ (placePathsToks_ne_nil p 0 fm h)
  exact h container [] (by simp)

theorem tokLess_moveToken (a b : Nat × String) :
    tokLess (moveToken a) (moveToken b) = decide (entryKey a < entryKey b) := by
  simp [tokLess, antKey_moveToken, entryKey]

theorem insertLast_map {α β : Type} (f : α → β) (less : α → α → Bool) (less2 : β → β → Bool)
    (h : ∀ a b, less2 (f a) (f b) = less a b) (pre : List α) (x : α) :
    insertLast less2 (pre.map f) (f x) = (insertLast less pre x).map f := by
  have hc : ((fun y => less2 (f x) y) ∘ f) = fun y => less x y := by
    funext y; exact h x y
  unfold insertLast
  rw [← List.map_reverse, List.dropWhile_map, List.takeWhile_map, hc]
  simp

theorem sortSlice_map {α β : Type} (f : α → β) (less : α → α → Bool) (less2 : β → β → Bool)
    (h : ∀ a b, less2 (f a) (f b) = less a b) (xs : List α) :
    sortSlice less2 (xs.map f) = (sortSlice less xs).map f := by
  have hgen : ∀ (ys acc : List α),
      (ys.map f).foldl (insertLast less2) (acc.map f) =
        (ys.foldl (insertLast less) acc).map f := by
    intro ys
    induction ys with
    | nil => intro acc; rfl
    | cons y ys ih =>
      intro acc
      simp only [List.map_cons, List.foldl_cons]
      rw [insertLast_map f less less2 h, ih]
  exact hgen xs []

theorem getD_eq_of_getElem? {α : Type} (l : List α) (t : Nat) (x d : α) (h : l[t]? = some x) :
    l.getD t d = x := by
  rw [List.getD_eq_getElem?_getD, h]; rfl

/-- The schedule of `AntSender` in terms of the queued ant numbers: turn `t`
holds the tokens of `turnEntries .. t`, sorted by `LexicalLsort`. -/
theorem AntSender_of_queues (pathList : List String) (n : Nat) (ids : List (List Nat))
    (hq : assignQueues n (pathList.map fun p => Split p '-') = some (ids.map (List.map Itoa)))
    (hsp : ∀ p ∈ pathList, ∀ c ∈ p.data, isSpace c = false) :
    ∃ tl : List (List (Nat × String)),
      AntSender n pathList =
        some (tl.map fun entries =>
          Join ((sortSlice (fun a b => decide (entryKey a < entryKey b)) entries).map moveToken)
            " ") ∧
      (∀ t, tl.getD t [] = turnEntries ids (pathList.map fun p => Split p '-') t) ∧
      (∀ entries ∈ tl, entries ≠ []) := by
  have hp : ∀ p ∈ (pathList.map fun p => Split p '-'), p ≠ [] := by
    intro p hp
    obtain ⟨x, -, rfl⟩ := List.mem_map.mp hp
    exact Split_ne_nil x '-'
  have hmv := container_moves_ne_nil _ (ids.map (List.map Itoa)) hp
  have hget : ∀ t, (mergeToks (buildContainer (pathList.map fun p => Split p '-')
      (ids.map (List.map Itoa)))).getD t [] =
      (turnEntries ids (pathList.map fun p => Split p '-') t).map moveToken := by
    intro t
    rw [mergeToks_spec _ hmv t, container_tokens]
  have hnn := mergeToks_ne_nil (buildContainer (pathList.map fun p => Split p '-')
      (ids.map (List.map Itoa)))
  generalize hM : mergeToks (buildContainer (pathList.map fun p => Split p '-')
      (ids.map (List.map Itoa))) = M at hget hnn
  obtain ⟨TL, hTL⟩ : ∃ TL : List (List (Nat × String)), TL = (List.range M.length).map fun t =>
      turnEntries ids (pathList.map fun p => Split p '-') t := ⟨_, rfl⟩
  have hMeq : M = TL.map (List.map moveToken) := by
    apply List.ext_getElem?
    intro t
    by_cases ht : t < M.length
    · have h1 := hget t
      rw [getD_eq_of_getElem? M t _ [] (List.getElem?_eq_getElem ht)] at h1
      simp [hTL, List.getElem?_eq_getElem ht, h1, List.getElem?_range ht]
    · rw [List.getElem?_eq_none (not_lt.mp ht), List.getElem?_eq_none (by simpa [hTL] using ht)]
  refine ⟨TL, ?_, ?_, ?_⟩
  · have hrooms : ∀ entries ∈ TL, ∀ e ∈ entries, ∀ c ∈ e.2.data, isSpace c = false := by
      intro entries hen e he c hc
      rw [hTL] at hen
      obtain ⟨t, -, rfl⟩ := List.mem_map.mp hen
      obtain ⟨r, q, p, a, k, -, h2, -, h4, -⟩ := (turnEntries_mem ids t e _).mp he
      have hpm : p ∈ pathList.map fun p => Split p '-' := List.getElem?_mem h2
      obtain ⟨R, hR, rfl⟩ := List.mem_map.mp hpm
      exact hsp R hR c (Split_chars R '-' e.2 (List.getElem?_mem h4) c hc)
    have hPS := ProcessStrings_render TL hrooms
    simp only [AntSender, hq]
    rw [mergeMoves_render, hM, hMeq, List.map_map]
    show ProcessStrings (TL.map fun entries => renderTurn (entries.map moveToken)) = _
    rw [hPS]
    congr 1
    apply List.map_congr_left
    intro entries _
    rw [sortSlice_map moveToken _ tokLess tokLess_moveToken]
  · intro t
    by_cases ht : t < M.length
    · rw [getD_eq_of_getElem? _ t (turnEntries ids (pathList.map fun p => Split p '-') t)]
      simp [hTL, List.getElem?_range ht, ht]
    · have h1 := hget t
      rw [List.getD_eq_getElem?_getD, List.getElem?_eq_none (not_lt.mp ht)] at h1
      rw [List.getD_eq_getElem?_getD, List.getElem?_eq_none (by simpa [hTL] using ht)]
      simpa using h1.symm
  · intro entries hen
    rw [hTL] at hen
    obtain ⟨t, ht, rfl⟩ := List.mem_map.mp hen
    have ht2 : t < M.length := List.mem_range.mp ht
    have h1 := hget t
    rw [getD_eq_of_getElem? M t _ [] (List.getElem?_eq_getElem ht2)] at h1
    have h2 := hnn M[t] (List.getElem_mem ht2)
    intro h0
    rw [h0] at h1
    exact h2 (by simpa using h1)

theorem append_sep_inj (sep : Char) (A : List Char) :
    ∀ (B X Y : List Char), (∀ c ∈ A, c ≠ sep) → (∀ c ∈ B, c ≠ sep) →
      A ++ sep :: X = B ++ sep :: Y → A = B ∧ X = Y := by
  induction A with
  | nil =>
    intro B X Y _ hB h
    cases B with
    | nil => simpa using h
    | cons b B =>
      simp only [List.nil_append, List.cons_append, List.cons.injEq] at h
      exact absurd h.1.symm (hB b (List.mem_cons_self _ _))
  | cons a A ih =>
    intro B X Y hA hB h
    cases B with
    | nil =>
      simp only [List.nil_append, List.cons_append, List.cons.injEq] at h
      exact absurd h.1 (hA a (List.mem_cons_self _ _))
    | cons b B =>
      simp only [List.cons_append, List.cons.injEq] at h
      obtain ⟨h1, h2⟩ := ih B X Y (fun c hc => hA c (List.mem_cons_of_mem _ hc))
        (fun c hc => hB c (List.mem_cons_of_mem _ hc)) h.2
      exact ⟨by rw [h.1, h1], h2⟩

theorem moveToken_injective : Function.Injective moveToken := by
  intro a b hab
  have h := congrArg String.data hab
  rw [moveToken_data, moveToken_data] at h
  simp only [List.cons_append, List.cons.injEq, true_and] at h
  obtain ⟨h1, h2⟩ := append_sep_inj '-' _ _ _ _ (Itoa_no_dash a.1) (Itoa_no_dash b.1) h
  exact Prod.ext (Itoa_injective (String.ext h1)) (String.ext h2)

theorem nodup_flatten_index {α : Type} (L : List (List α)) (hL : L.flatten.Nodup) :
    ∀ (r r2 a a2 : Nat) (q q2 : List α) (x : α), L[r]? = some q → q[a]? = some x →
      L[r2]? = some q2 → q2[a2]? = some x → r = r2 ∧ a = a2 := by
  induction L with
  | nil => intro r r2 a a2 q q2 x h; simp at h
  | cons l L ih =>
    rw [List.flatten_cons, List.nodup_append] at hL
    obtain ⟨hl, hLn, hdis⟩ := hL
    intro r r2 a a2 q q2 x h1 h2 h3 h4
    have hmemL : ∀ (s : Nat) (u : List α) (b : Nat), L[s]? = some u → u[b]? = some x →
        x ∈ L.flatten := fun s u b hs hb =>
      List.mem_flatten.mpr ⟨u, List.getElem?_mem hs, List.getElem?_mem hb⟩
    cases r with
    | zero =>
      have hq : l = q := by simpa using h1
      subst hq
      cases r2 with
      | zero =>
        have hq2 : l = q2 := by simpa using h3
        subst hq2
        refine ⟨rfl, ?_⟩
        have ha : a < l.length := (List.getElem?_eq_some.mp h2).1
        exact List.getElem?_inj ha hl (h2.trans h4.symm)
      | succ r2 =>
        exact absurd (hmemL r2 q2 a2 (by simpa using h3) h4) (hdis (List.getElem?_mem h2))
    | succ r =>
      cases r2 with
      | zero =>
        have hq2 : l = q2 := by simpa using h3
        subst hq2
        exact absurd (hmemL r q a (by simpa using h1) h2) (hdis (List.getElem?_mem h4))
      | succ r2 =>
        obtain ⟨e1, e2⟩ := ih hLn r r2 a a2 q q2 x (by simpa using h1) h2 (by simpa using h3) h4
        exact ⟨by rw [e1], e2⟩

theorem isSpace_ne_blank (c : Char) (h : isSpace c = false) : c ≠ ' ' := by
  intro hc
  rw [hc] at h
  exact absurd h (by decide)

/-- The tokens of a turn of the schedule, read back with `Split`, are a
rearrangement of the tokens of the (ant, room) pairs of that turn. -/
theorem turn_tokens_perm (entries : List (Nat × String)) (hne : entries ≠ [])
    (hrooms : ∀ e ∈ entries, ∀ c ∈ e.2.data, isSpace c = false) :
    (Split (Join ((sortSlice (fun a b => decide (entryKey a < entryKey b)) entries).map
      moveToken) " ") ' ').Perm (entries.map moveToken) := by
  have hperm := sortSlice_perm (fun a b => decide (entryKey a < entryKey b)) entries
  rw [show (" " : String) = String.mk [' '] from rfl, Split_Join]
  · exact hperm.map moveToken
  · intro h
    have h2 := List.map_eq_nil_iff.mp h
    rw [h2] at hperm
    exact hne (List.Perm.nil_eq hperm).symm
  · intro w hw c hc
    obtain ⟨e, he, rfl⟩ := List.mem_map.mp hw
    exact isSpace_ne_blank c ((moveToken_valid e (hrooms e (hperm.mem_iff.mp he))).2 c hc)

/-- C6: on a non-empty list of routes without white space, `AntSender` returns
a schedule such that, `ids` being the queues of ant numbers it builds: (1) if
ant `i` is at position `j` of the queue of route `r` and `room` is the room at
index `k` of that route, turn `j + k` exists and holds the token
`L{i}-{room}`; (2) a token `L{i}-{room}` of that ant found in turn `t` is such
a token, with `t = j + k`, so the ant has no token in another turn; (3) every
token of every turn arises in this way. -/
theorem AntSender_token_turns (pathList : List String) (n : Nat) (hne : pathList ≠ [])
    (hsp : ∀ p ∈ pathList, ∀ c ∈ p.data, isSpace c = false) :
    ∃ (ids : List (List Nat)) (turns : List String),
      assignQueues n (pathList.map fun p => Split p '-') = some (ids.map (List.map Itoa)) ∧
      AntSender n pathList = some turns ∧
      (∀ (r j k i : Nat) (q : List Nat) (R room : String),
        ids[r]? = some q → q[j]? = some i → pathList[r]? = some R →
        (Split R '-')[k]? = some room →
        ∃ turn, turns[j + k]? = some turn ∧ moveToken (i, room) ∈ Split turn ' ') ∧
      (∀ (r j i t : Nat) (q : List Nat) (turn room : String),
        ids[r]? = some q → q[j]? = some i → turns[t]? = some turn →
        moveToken (i, room) ∈ Split turn ' ' →
        ∃ (R : String) (k : Nat),
          pathList[r]? = some R ∧ (Split R '-')[k]? = some room ∧ t = j + k) ∧
      (∀ (t : Nat) (turn tok : String), turns[t]? = some turn → tok ∈ Split turn ' ' →
        ∃ (r j k i : Nat) (q : List Nat) (R room : String),
          ids[r]? = some q ∧ q[j]? = some i ∧ pathList[r]? = some R ∧
          (Split R '-')[k]? = some room ∧ t = j + k ∧ tok = moveToken (i, room)) := by
  have hne2 : (pathList.map fun p => Split p '-') ≠ [] := by simpa using hne
  obtain ⟨ids, hq, -, hperm⟩ := assignQueues_ids _ hne2 n
  have hnd : ids.flatten.Nodup := hperm.nodup_iff.mpr (List.nodup_range' 1 n)
  obtain ⟨tl, hA, hget, hnn⟩ := AntSender_of_queues pathList n ids hq hsp
  have hrooms : ∀ t, ∀ e ∈ turnEntries ids (pathList.map fun p => Split p '-') t,
      ∀ c ∈ e.2.data, isSpace c = false := by
    intro t e he c hc
    obtain ⟨r, q, p, a, k, -, h2, -, h4, -⟩ := (turnEntries_mem ids t e _).mp he
    have hpm : p ∈ pathList.map fun p => Split p '-' := List.getElem?_mem h2
    obtain ⟨R, hR, rfl⟩ := List.mem_map.mp hpm
    exact hsp R hR c (Split_chars R '-' e.2 (List.getElem?_mem h4) c hc)
  -- the tokens of an existing turn
  have hturn : ∀ (t : Nat) (turn : String),
      (tl.map fun entries => Join ((sortSlice (fun a b => decide (entryKey a < entryKey b))
        entries).map moveToken) " ")[t]? = some turn →
      ∀ tok, tok ∈ Split turn ' ' ↔
        ∃ e ∈ turnEntries ids (pathList.map fun p => Split p '-') t, tok = moveToken e := by
    intro t turn ht tok
    rw [List.getElem?_map] at ht
    cases hte : tl[t]? with
    | none => rw [hte] at ht; simp at ht
    | some entries =>
      rw [hte] at ht
      have hturn : turn = Join ((sortSlice (fun a b => decide (entryKey a < entryKey b))
          entries).map moveToken) " " := by simpa using ht.symm
      have hen : entries = turnEntries ids (pathList.map fun p => Split p '-') t := by
        rw [← hget t]; exact (getD_eq_of_getElem? tl t entries [] hte).symm
      have hne3 : entries ≠ [] := hnn entries (List.getElem?_mem hte)
      rw [hturn, (turn_tokens_perm entries hne3 (hen ▸ hrooms t)).mem_iff, List.mem_map, ← hen]
      constructor
      · rintro ⟨e, he, rfl⟩; exact ⟨e, he, rfl⟩
      · rintro ⟨e, he, rfl⟩; exact ⟨e, he, rfl⟩
  -- a turn with an entry exists
  have hex : ∀ (t : Nat) (e : Nat × String),
      e ∈ turnEntries ids (pathList.map fun p => Split p '-') t →
      ∃ turn, (tl.map fun entries => Join ((sortSlice (fun a b =>
        decide (entryKey a < entryKey b)) entries).map moveToken) " ")[t]? = some turn := by
    intro t e he
    have hlt : t < tl.length := by
      by_contra hge
      have h0 := hget t
      rw [List.getD_eq_getElem?_getD, List.getElem?_eq_none (not_lt.mp hge)] at h0
      rw [← h0] at he
      simp at he
    exact ⟨_, by rw [List.getElem?_map, List.getElem?_eq_getElem hlt]; rfl⟩
  have hpl : ∀ (r : Nat) (p : List String), (pathList.map fun p => Split p '-')[r]? = some p ↔
      ∃ R, pathList[r]? = some R ∧ Split R '-' = p := by
    intro r p
    rw [List.getElem?_map]
    cases pathList[r]? <;> simp
  have hall : ∀ (t : Nat) (turn tok : String),
      (tl.map fun entries => Join ((sortSlice (fun a b => decide (entryKey a < entryKey b))
        entries).map moveToken) " ")[t]? = some turn → tok ∈ Split turn ' ' →
      ∃ (r j k i : Nat) (q : List Nat) (R room : String),
        ids[r]? = some q ∧ q[j]? = some i ∧ pathList[r]? = some R ∧
        (Split R '-')[k]? = some room ∧ t = j + k ∧ tok = moveToken (i, room) := by
    intro t turn tok ht htok
    obtain ⟨e, he, rfl⟩ := (hturn t turn ht tok).mp htok
    obtain ⟨r, q, p, a, k, h1, h2, h3, h4, h5⟩ := (turnEntries_mem ids t e _).mp he
    obtain ⟨R, hR, rfl⟩ := (hpl r p).mp h2
    exact ⟨r, a, k, e.1, q, R, e.2, h1, h3, hR, h4, h5, rfl⟩
  refine ⟨ids, _, hq, hA, ?_, ?_, hall⟩
  · intro r j k i q R room h1 h2 h3 h4
    have he : (i, room) ∈ turnEntries ids (pathList.map fun p => Split p '-') (j + k) :=
      (turnEntries_mem ids (j + k) (i, room) _).mpr
        ⟨r, q, Split R '-', j, k, h1, (hpl r _).mpr ⟨R, h3, rfl⟩, h2, h4, rfl⟩
    obtain ⟨turn, hturn2⟩ := hex (j + k) (i, room) he
    exact ⟨turn, hturn2, (hturn (j + k) turn hturn2 _).mpr ⟨(i, room), he, rfl⟩⟩
  · intro r j i t q turn room h1 h2 ht htok
    obtain ⟨r2, j2, k, i2, q2, R, room2, g1, g2, g3, g4, g5, g6⟩ := hall t turn _ ht htok
    have hinj := moveToken_injective g6
    have hi : i = i2 := congrArg Prod.fst hinj
    have hroom : room = room2 := congrArg Prod.snd hinj
    subst hi; subst hroom
    obtain ⟨e1, e2⟩ := nodup_flatten_index ids hnd r r2 j j2 q q2 i h1 h2 g1 g2
    subst e1; subst e2
    exact ⟨R, k, g3, g4, g5⟩

/-- Witness of `AntSender_token_turns`: two ants on the routes `A-end` and
`B-end`. -/
theorem AntSender_token_turns_witness :
    ["A-end", "B-end"] ≠ [] ∧
    (∀ p ∈ ["A-end", "B-end"], ∀ c ∈ p.data, isSpace c = false) ∧
    ∃ (ids : List (List Nat)) (turns : List String),
      assignQueues 2 (["A-end", "B-end"].map fun p => Split p '-') =
        some (ids.map (List.map Itoa)) ∧
      AntSender 2 ["A-end", "B-end"] = some turns ∧
      (∀ (r j k i : Nat) (q : List Nat) (R room : String),
        ids[r]? = some q → q[j]? = some i → ["A-end", "B-end"][r]? = some R →
        (Split R '-')[k]? = some room →
        ∃ turn, turns[j + k]? = some turn ∧ moveToken (i, room) ∈ Split turn ' ') ∧
      (∀ (r j i t : Nat) (q : List Nat) (turn room : String),
        ids[r]? = some q → q[j]? = some i → turns[t]? = some turn →
        moveToken (i, room) ∈ Split turn ' ' →
        ∃ (R : String) (k : Nat),
          ["A-end", "B-end"][r]? = some R ∧ (Split R '-')[k]? = some room ∧ t = j + k) ∧
      (∀ (t : Nat) (turn tok : String), turns[t]? = some turn → tok ∈ Split turn ' ' →
        ∃ (r j k i : Nat) (q : List Nat) (R room : String),
          ids[r]? = some q ∧ q[j]? = some i ∧ ["A-end", "B-end"][r]? = some R ∧
          (Split R '-')[k]? = some room ∧ t = j + k ∧ tok = moveToken (i, room)) :=
  ⟨by decide, by decide,
    AntSender_token_turns ["A-end", "B-end"] 2 (by decide) (by decide)⟩

theorem foldlM_option_mono {σ α : Type} (step step2 : σ → α → Option σ)
    (h : ∀ s a r, step s a = some r → step2 s a = some r) (l : List α) :
    ∀ (init r : σ), l.foldlM step init = some r → l.foldlM step2 init = some r := by
  induction l with
  | nil => intro init r hr; simpa using hr
  | cons a l ih =>
    intro init r hr
    rw [List.foldlM_cons] at hr ⊢
    cases hs : step init a with
    | none => rw [hs] at hr; simp at hr
    | some s =>
      rw [hs] at hr
      rw [h init a s hs]
      exact ih s r hr

theorem dfsReenter_mono
    (f f2 : String → String → Graph → String → List String → Option (Graph × List String))
    (h : ∀ a b c d e r, f a b c d e = some r → f2 a b c d e = some r)
    (current end_ : String) (g1 : Graph) (path1 : String) (pathList : List String)
    (r : Graph × List String × String)
    (hr : dfsReenter f current end_ g1 path1 pathList = some r) :
    dfsReenter f2 current end_ g1 path1 pathList = some r := by
  unfold dfsReenter at hr ⊢
  by_cases hc : current = end_
  · rw [if_pos hc] at hr ⊢
    cases hs : g1.getRoom g1.StartRoomName with
    | none => rw [hs] at hr; simp at hr
    | some s =>
      rw [hs] at hr
      simp only at hr ⊢
      cases hf : f g1.StartRoomName end_ (g1.modify g1.StartRoomName
          (Room.blankEnd g1.EndRoomName)) "" (pathList ++ [path1]) with
      | none => rw [hf] at hr; simp at hr
      | some x => rw [hf] at hr; rw [h _ _ _ _ _ x hf]; exact hr
  · rw [if_neg hc] at hr ⊢; exact hr

theorem dfsVisit_mono
    (f f2 : String → String → Graph → String → List String → Option (Graph × List String))
    (h : ∀ a b c d e r, f a b c d e = some r → f2 a b c d e = some r)
    (current end_ path : String) (acc : Graph × List String) (i : Nat)
    (r : Graph × List String) (hr : dfsVisit f current end_ path acc i = some r) :
    dfsVisit f2 current end_ path acc i = some r := by
  unfold dfsVisit at hr ⊢
  cases hc : acc.1.getRoom current with
  | none => rw [hc] at hr; simp at hr
  | some c =>
    rw [hc] at hr
    simp only at hr ⊢
    by_cases hb : c.Connections.getD i "" = ""
    · rw [if_pos hb] at hr ⊢; exact hr
    · rw [if_neg hb] at hr ⊢
      cases hn : acc.1.getRoom (c.Connections.getD i "") with
      | none => rw [hn] at hr; simp at hr
      | some currRoom =>
        rw [hn] at hr
        simp only at hr ⊢
        by_cases hv : ¬ currRoom.Visited
        · rw [if_pos hv] at hr ⊢; exact h _ _ _ _ _ r hr
        · rw [if_neg hv] at hr ⊢; exact hr

theorem dfsBody_mono
    (f f2 : String → String → Graph → String → List String → Option (Graph × List String))
    (h : ∀ a b c d e r, f a b c d e = some r → f2 a b c d e = some r)
    (current end_ : String) (g : Graph) (path : String) (pathList : List String)
    (r : Graph × List String) (hr : dfsBody f current end_ g path pathList = some r) :
    dfsBody f2 current end_ g path pathList = some r := by
  unfold dfsBody at hr ⊢
  cases hc : g.getRoom current with
  | none => rw [hc] at hr; simp at hr
  | some curr =>
    rw [hc] at hr
    simp only at hr ⊢
    cases hre : dfsReenter f current end_
        (if current ≠ end_ then g.modify current Room.markVisited else g)
        (dfsPath g curr current path) pathList with
    | none => rw [hre] at hr; simp at hr
    | some x =>
      obtain ⟨g2, pl2, path2⟩ := x
      rw [hre] at hr
      rw [dfsReenter_mono f f2 h _ _ _ _ _ _ hre]
      simp only at hr ⊢
      cases h3 : (g2.modify current (Room.endToFront g2.EndRoomName)).getRoom current with
      | none => rw [h3] at hr; simp at hr
      | some c3 =>
        rw [h3] at hr
        simp only at hr ⊢
        exact foldlM_option_mono _ _ (dfsVisit_mono f f2 h current end_ path2) _ _ _ hr

/-- More fuel does not change a result of `DFS`. -/
theorem DFS_mono (fuel : Nat) : ∀ (current end_ : String) (g : Graph) (path : String)
    (pathList : List String) (r : Graph × List String),
    DFS fuel current end_ g path pathList = some r →
    DFS (fuel + 1) current end_ g path pathList = some r := by
  induction fuel with
  | zero => intro a b c d e r hr; simp [DFS] at hr
  | succ fuel ih =>
    intro a b c d e r hr
    exact dfsBody_mono (DFS fuel) (DFS (fuel + 1)) ih a b c d e r hr

theorem DFS_mono_le (fuel fuel2 : Nat) (hle : fuel ≤ fuel2) (current end_ : String) (g : Graph)
    (path : String) (pathList : List String) (r : Graph × List String)
    (hr : DFS fuel current end_ g path pathList = some r) :
    DFS fuel2 current end_ g path pathList = some r := by
  induction fuel2 with
  | zero =>
    have : fuel = 0 := by omega
    subst this; exact hr
  | succ k ih =>
    by_cases hk : fuel ≤ k
    · exact DFS_mono k _ _ _ _ _ r (ih hk)
    · have : fuel = k + 1 := by omega
      subst this; exact hr

theorem shortestPathBody_mono
    (f f2 : Graph → String → String → List String → List String →
      Option (List String × List String))
    (h : ∀ a b c d e r, f a b c d e = some r → f2 a b c d e = some r)
    (graph : Graph) (start end_ : String) (path pathArray : List String)
    (r : List String × List String)
    (hr : shortestPathBody f graph start end_ path pathArray = some r) :
    shortestPathBody f2 graph start end_ path pathArray = some r := by
  unfold shortestPathBody at hr ⊢
  simp only at hr ⊢
  by_cases hse : start = end_
  · rw [if_pos hse] at hr ⊢; exact hr
  · rw [if_neg hse] at hr ⊢
    cases hg : graph.getRoom start with
    | none => rw [hg] at hr; simp at hr
    | some room =>
      rw [hg] at hr
      simp only at hr ⊢
      rw [Option.map_eq_some'] at hr ⊢
      obtain ⟨pa, hpa, hr2⟩ := hr
      refine ⟨pa, ?_, hr2⟩
      refine foldlM_option_mono _ _ ?_ _ _ _ hpa
      intro s node x hx
      by_cases hcn : contains (path ++ [start]) node
      · rw [if_pos hcn] at hx ⊢; exact hx
      · rw [if_neg hcn] at hx ⊢
        cases hv : graph.isVisited node with
        | none => rw [hv] at hx; simp at hx
        | some b =>
          rw [hv] at hx
          cases b with
          | true => exact hx
          | false =>
            simp only at hx ⊢
            cases hf : f graph node end_ (path ++ [start]) s with
            | none => rw [hf] at hx; simp at hx
            | some y => rw [hf] at hx; rw [h _ _ _ _ _ y hf]; exact hx

/-- More fuel does not change a result of `ShortestPath`. -/
theorem ShortestPath_mono (fuel : Nat) : ∀ (graph : Graph) (start end_ : String)
    (path pathArray : List String) (r : List String × List String),
    ShortestPath fuel graph start end_ path pathArray = some r →
    ShortestPath (fuel + 1) graph start end_ path pathArray = some r := by
  induction fuel with
  | zero => intro a b c d e r hr; simp [ShortestPath] at hr
  | succ fuel ih =>
    intro a b c d e r hr
    exact shortestPathBody_mono (ShortestPath fuel) (ShortestPath (fuel + 1)) ih a b c d e r hr

theorem bfsIter_mono (fuel : Nat) (st r : Graph × List String × List String)
    (hr : bfsIter fuel st = some r) : bfsIter (fuel + 1) st = some r := by
  unfold bfsIter at hr ⊢
  simp only at hr ⊢
  cases hs : ShortestPath fuel st.1 st.1.StartRoomName st.1.EndRoomName [] st.2.2 with
  | none => rw [hs] at hr; simp at hr
  | some x =>
    rw [hs] at hr
    rw [ShortestPath_mono fuel _ _ _ _ _ x hs]
    exact hr

/-- More fuel does not change a result of `BFS`. -/
theorem BFS_mono (fuel : Nat) (start end_ : String) (g : Graph) (paths pathArray : List String)
    (r : Graph × List String × List String)
    (hr : BFS fuel start end_ g paths pathArray = some r) :
    BFS (fuel + 1) start end_ g paths pathArray = some r := by
  unfold BFS at hr ⊢
  cases hg : g.getRoom start with
  | none => rw [hg] at hr; simp at hr
  | some begin =>
    rw [hg] at hr
    simp only at hr ⊢
    exact foldlM_option_mono _ _ (fun s _ x hx => bfsIter_mono fuel s x hx) _ _ _ hr

theorem BFS_mono_le (fuel fuel2 : Nat) (hle : fuel ≤ fuel2) (start end_ : String) (g : Graph)
    (paths pathArray : List String) (r : Graph × List String × List String)
    (hr : BFS fuel start end_ g paths pathArray = some r) :
    BFS fuel2 start end_ g paths pathArray = some r := by
  induction fuel2 with
  | zero =>
    have : fuel = 0 := by omega
    subst this; exact hr
  | succ k ih =>
    by_cases hk : fuel ≤ k
    · exact BFS_mono k _ _ _ _ _ r (ih hk)
    · have : fuel = k + 1 := by omega
      subst this; exact hr

/-! ## The two example colonies -/

theorem assignQueues_single (p : List String) (n : Nat) :
    assignQueues n [p] = some [(List.range' 1 n).map Itoa] := by
  induction n with
  | zero => rfl
  | succ n ih =>
    rw [assignQueues_succ, ih]
    have hmin : minStepsIndex [p] [(List.range' 1 n).map Itoa] = some 0 := by
      simp [minStepsIndex, stepsOf, scanMin]
    simp only [Option.some_bind, assignAnt, hmin, Option.map_some', modifyAt]
    rw [List.range'_concat]
    simp [Nat.add_comm]

theorem routeEntries_range' (x : String) (m : Nat) : ∀ (s j t : Nat),
    routeEntries (List.range' s m) [x] j t =
      if j ≤ t ∧ t < j + m then [(s + (t - j), x)] else [] := by
  induction m with
  | zero => intro s j t; simp [routeEntries]
  | succ m ih =>
    intro s j t
    rw [List.range'_succ, routeEntries, ih]
    by_cases h1 : j ≤ t
    · by_cases h2 : t = j
      · subst h2
        simp
      · have h3 : [x][t - j]? = none := by
          apply List.getElem?_eq_none; simp; omega
        rw [if_pos h1, h3]
        simp only [Option.map_none', Option.toList_none, List.nil_append]
        by_cases h4 : t < j + (m + 1)
        · rw [if_pos ⟨by omega, by omega⟩, if_pos ⟨h1, h4⟩]
          congr 2; omega
        · rw [if_neg (by omega), if_neg (by omega)]
    · rw [if_neg h1, if_neg (by omega), if_neg (by omega)]; rfl

/-- On the single route `end` the schedule of `AntSender` has one turn per
ant, turn `t` holding the token of ant `t + 1`. -/
theorem AntSender_single_end (n : Nat) :
    AntSender n ["end"] = some ((List.range n).map fun t => "L" ++ Itoa (t + 1) ++ "-end") := by
  have hq : assignQueues n (["end"].map fun p => Split p '-') =
      some ([List.range' 1 n].map (List.map Itoa)) := assignQueues_single _ n
  obtain ⟨tl, hA, hget, hnn⟩ := AntSender_of_queues ["end"] n [List.range' 1 n] hq (by decide)
  have hte : ∀ t, tl.getD t [] = if t < n then [(t + 1, "end")] else [] := by
    intro t
    rw [hget t]
    have hS : (["end"].map fun p => Split p '-') = [["end"]] := by decide
    rw [hS]
    simp only [turnEntries, List.zipWith_cons_cons, List.zipWith_nil_right, List.flatten_cons,
      List.flatten_nil, List.append_nil]
    rw [routeEntries_range']
    simp [Nat.add_comm]
  have hlen : tl.length = n := by
    apply le_antisymm
    · by_contra hgt
      have hlt : n < tl.length := by omega
      have h1 := hte n
      rw [getD_eq_of_getElem? tl n _ [] (List.getElem?_eq_getElem hlt), if_neg (lt_irrefl n)] at h1
      exact hnn _ (List.getElem_mem hlt) h1
    · by_contra hgt
      have hlt : tl.length < n := by omega
      have h1 := hte tl.length
      rw [List.getD_eq_getElem?_getD, List.getElem?_eq_none (le_refl _), if_pos hlt] at h1
      simp at h1
  have htl : tl = (List.range n).map fun t => [(t + 1, "end")] := by
    apply List.ext_getElem?
    intro t
    by_cases ht : t < n
    · have h1 := hte t
      rw [getD_eq_of_getElem? tl t _ [] (List.getElem?_eq_getElem (hlen ▸ ht)), if_pos ht] at h1
      rw [List.getElem?_eq_getElem (hlen ▸ ht), h1]
      simp [List.getElem?_range ht]
    · rw [List.getElem?_eq_none (by omega), List.getElem?_eq_none (by simpa using ht)]
  rw [hA, htl, List.map_map]
  congr 1
  apply List.map_congr_left
  intro t _
  apply String.ext
  simp [sortSlice, insertLast, Join, moveToken, String.data_append]

/-- C2: the diamond colony (rooms start, A, B, end; links start-A, A-end,
start-B, B-end; 2 ants) is built as `diamondGraph`; `DFS` on it and `BFS` on
its deep copy (with an empty `pathArray`) both return exactly the routes
`A-end` and `B-end`, whatever fuel beyond the needed depth is given;
`lenSorter` leaves them in place and `AntSender(2, ..)` returns exactly the
turns `L1-A L2-B` and `L1-end L2-end`. -/
theorem diamond_schedule (fuel : Nat) :
    colony 2 "start" "end" ["start", "A", "B", "end"]
      [("start", "A"), ("A", "end"), ("start", "B"), ("B", "end")] = some diamondGraph ∧
    (DFS (fuel + 7) diamondGraph.StartRoomName diamondGraph.EndRoomName diamondGraph "" []).map
      Prod.snd = some ["A-end", "B-end"] ∧
    (BFS (fuel + 3) diamondGraph.StartRoomName diamondGraph.EndRoomName
      (DeepCopyGraph diamondGraph) [] []).map (fun r => r.2) = some (["A-end", "B-end"], []) ∧
    lenSorter ["A-end", "B-end"] = ["A-end", "B-end"] ∧
    AntSender diamondGraph.Ants.toNat (lenSorter ["A-end", "B-end"]) =
      some ["L1-A L2-B", "L1-end L2-end"] := by
  refine ⟨by decide, ?_, ?_, by decide, by decide⟩
  · have h7 : (DFS 7 diamondGraph.StartRoomName diamondGraph.EndRoomName diamondGraph "" []).map
        Prod.snd = some ["A-end", "B-end"] := by decide
    obtain ⟨r, hr, hr2⟩ := Option.map_eq_some'.mp h7
    rw [DFS_mono_le 7 (fuel + 7) (by omega) _ _ _ _ _ r hr]
    exact congrArg some hr2
  · have h3 : (BFS 3 diamondGraph.StartRoomName diamondGraph.EndRoomName
        (DeepCopyGraph diamondGraph) [] []).map (fun r => r.2) =
        some (["A-end", "B-end"], []) := by decide
    obtain ⟨r, hr, hr2⟩ := Option.map_eq_some'.mp h3
    rw [BFS_mono_le 3 (fuel + 3) (by omega) _ _ _ _ _ r hr]
    exact congrArg some hr2

/-- C3: the two-room colony (start linked directly to end) is built as
`twoRoomGraph`; `DFS` on it and `BFS` on its deep copy both return the single
route `end`, and for every ant count `n` the schedule `AntSender(n, ["end"])`
has exactly `n` turns, turn `t` (0-based) being the single token
`L{t+1}-end`; for 3 ants it is `L1-end`, `L2-end`, `L3-end`. -/
theorem two_room_schedule (n fuel : Nat) :
    colony n "start" "end" ["start", "end"] [("start", "end")] = some (twoRoomGraph n) ∧
    (DFS (fuel + 3) "start" "end" (twoRoomGraph n) "" []).map Prod.snd = some ["end"] ∧
    (BFS (fuel + 2) "start" "end" (DeepCopyGraph (twoRoomGraph n)) [] []).map
      (fun r => r.2) = some (["end"], []) ∧
    lenSorter ["end"] = ["end"] ∧
    AntSender n (lenSorter ["end"]) =
      some ((List.range n).map fun t => "L" ++ Itoa (t + 1) ++ "-end") ∧
    ((List.range n).map fun t => "L" ++ Itoa (t + 1) ++ "-end").length = n ∧
    AntSender 3 (lenSorter ["end"]) = some ["L1-end", "L2-end", "L3-end"] := by
  refine ⟨rfl, ?_, ?_, by decide, AntSender_single_end n, by simp, by decide⟩
  · have h3 : (DFS 3 "start" "end" (twoRoomGraph n) "" []).map Prod.snd = some ["end"] := rfl
    obtain ⟨r, hr, hr2⟩ := Option.map_eq_some'.mp h3
    rw [DFS_mono_le 3 (fuel + 3) (by omega) _ _ _ _ _ r hr]
    exact congrArg some hr2
  · have h2 : (BFS 2 "start" "end" (DeepCopyGraph (twoRoomGraph n)) [] []).map
        (fun r => r.2) = some (["end"], []) := rfl
    obtain ⟨r, hr, hr2⟩ := Option.map_eq_some'.mp h2
    rw [BFS_mono_le 2 (fuel + 2) (by omega) _ _ _ _ _ r hr]
    exact congrArg some hr2

/-! ## The exhaustive search `DFS` -/

theorem RoomRel.roomRefl (r : Room) : RoomRel r r :=
  ⟨rfl, rfl, fun _ hc => Or.inr hc, fun h => h⟩

theorem RoomRel.roomTrans {a b c : Room} (h1 : RoomRel a b) (h2 : RoomRel b c) : RoomRel a c := by
  refine ⟨h2.1.trans h1.1, h2.2.1.trans h1.2.1, ?_, fun h => h2.2.2.2 (h1.2.2.2 h)⟩
  intro x hx
  rcases h2.2.2.1 x hx with h | h
  · exact Or.inl h
  · exact h1.2.2.1 x h

theorem forall₂_RoomRel_refl (rs : List Room) : List.Forall₂ RoomRel rs rs := by
  induction rs with
  | nil => exact List.Forall₂.nil
  | cons r rs ih => exact List.Forall₂.cons (RoomRel.roomRefl r) ih

theorem forall₂_RoomRel_trans : ∀ {as bs cs : List Room},
    List.Forall₂ RoomRel as bs → List.Forall₂ RoomRel bs cs → List.Forall₂ RoomRel as cs := by
  intro as
  induction as with
  | nil =>
    intro bs cs h1 h2
    cases h1; cases h2; exact List.Forall₂.nil
  | cons a as ih =>
    intro bs cs h1 h2
    cases h1 with
    | cons hab habs =>
      cases h2 with
      | cons hbc hbcs => exact List.Forall₂.cons (hab.roomTrans hbc) (ih habs hbcs)

theorem GraphRel.graphRefl (g : Graph) : GraphRel g g := ⟨forall₂_RoomRel_refl _, rfl, rfl⟩

theorem GraphRel.graphTrans {a b c : Graph} (h1 : GraphRel a b) (h2 : GraphRel b c) : GraphRel a c :=
  ⟨forall₂_RoomRel_trans h1.1 h2.1, h2.2.1.trans h1.2.1, h2.2.2.trans h1.2.2⟩

theorem modifyRoom_rel (n : String) (f : Room → Room) (hf : ∀ r, RoomRel r (f r))
    (rs : List Room) : List.Forall₂ RoomRel rs (modifyRoom n f rs) := by
  induction rs with
  | nil => exact List.Forall₂.nil
  | cons r rs ih =>
    unfold modifyRoom
    split
    · exact List.Forall₂.cons (hf r) (forall₂_RoomRel_refl rs)
    · exact List.Forall₂.cons (RoomRel.roomRefl r) ih

theorem modify_rel (g : Graph) (n : String) (f : Room → Room) (hf : ∀ r, RoomRel r (f r)) :
    GraphRel g (g.modify n f) := ⟨modifyRoom_rel n f hf g.Rooms, rfl, rfl⟩

theorem findRoom_some {n : String} {rs : List Room} {r : Room} (h : findRoom n rs = some r) :
    r.Roomname = n ∧ r ∈ rs := by
  induction rs with
  | nil => simp [findRoom] at h
  | cons a rs ih =>
    unfold findRoom at h
    split at h
    · rename_i ha
      have : a = r := Option.some.inj h
      subst this
      exact ⟨ha, List.mem_cons_self _ _⟩
    · exact ⟨(ih h).1, List.mem_cons_of_mem _ (ih h).2⟩

theorem findRoom_modify (n m : String) (f : Room → Room) (hf : ∀ r, (f r).Roomname = r.Roomname)
    (rs : List Room) :
    findRoom m (modifyRoom n f rs) = if m = n then (findRoom n rs).map f else findRoom m rs := by
  induction rs with
  | nil => simp [findRoom, modifyRoom]
  | cons a rs ih =>
    by_cases han : a.Roomname = n
    · by_cases hmn : m = n
      · subst hmn
        simp [modifyRoom, findRoom, han, hf]
      · have hnm : ¬ n = m := fun h => hmn h.symm
        simp [modifyRoom, findRoom, han, hf, hmn, hnm]
    · by_cases ham : a.Roomname = m
      · have hmn : m ≠ n := fun h => han (ham.trans h)
        simp [modifyRoom, findRoom, han, ham, hmn]
      · simp [modifyRoom, findRoom, han, ham, ih]

theorem findRoom_rel {rs rs2 : List Room} (h : List.Forall₂ RoomRel rs rs2) (n : String) :
    (findRoom n rs = none ∧ findRoom n rs2 = none) ∨
    ∃ r r2, findRoom n rs = some r ∧ findRoom n rs2 = some r2 ∧ RoomRel r r2 := by
  induction h with
  | nil => exact Or.inl ⟨rfl, rfl⟩
  | @cons a b as bs hab _ ih =>
    by_cases ha : a.Roomname = n
    · right
      exact ⟨a, b, by simp [findRoom, ha], by simp [findRoom, hab.1, ha], hab⟩
    · have hb : ¬ b.Roomname = n := by rw [hab.1]; exact ha
      simpa [findRoom, ha, hb] using ih

theorem unvisited_rel {rs rs2 : List Room} (h : List.Forall₂ RoomRel rs rs2) :
    rs2.countP (fun r => !r.Visited) ≤ rs.countP (fun r => !r.Visited) := by
  induction h with
  | nil => simp
  | @cons a b as bs hab _ ih =>
    rw [List.countP_cons, List.countP_cons]
    have : (if (!b.Visited) = true then 1 else 0) ≤ (if (!a.Visited) = true then 1 else 0) := by
      cases hav : a.Visited with
      | true => simp [hab.2.2.2 hav]
      | false => split <;> simp
    omega

theorem unvisited_mark (n : String) (rs : List Room) (r : Room) (h : findRoom n rs = some r)
    (hv : r.Visited = false) :
    (modifyRoom n Room.markVisited rs).countP (fun r => !r.Visited) + 1 =
      rs.countP (fun r => !r.Visited) := by
  induction rs with
  | nil => simp [findRoom] at h
  | cons a rs ih =>
    by_cases ha : a.Roomname = n
    · have : a = r := by simpa [findRoom, ha] using h
      subst this
      simp [modifyRoom, ha, List.countP_cons, Room.markVisited, hv]
    · have h2 : findRoom n rs = some r := by simpa [findRoom, ha] using h
      simp only [modifyRoom, ha, if_false, List.countP_cons]
      have := ih h2
      omega

theorem getRoom_rel {g g2 : Graph} (h : GraphRel g g2) {n : String} {r : Room}
    (hr : g.getRoom n = some r) : ∃ r2, g2.getRoom n = some r2 ∧ RoomRel r r2 := by
  rcases findRoom_rel h.1 n with ⟨h1, -⟩ | ⟨a, b, h1, h2, h3⟩
  · rw [Graph.getRoom, h1] at hr; simp at hr
  · rw [Graph.getRoom, h1] at hr
    have : a = r := Option.some.inj hr
    subst this
    exact ⟨b, h2, h3⟩

theorem getRoom_rel_back {g g2 : Graph} (h : GraphRel g g2) {n : String} {r2 : Room}
    (hr : g2.getRoom n = some r2) : ∃ r, g.getRoom n = some r ∧ RoomRel r r2 := by
  rcases findRoom_rel h.1 n with ⟨-, h1⟩ | ⟨a, b, h1, h2, h3⟩
  · rw [Graph.getRoom, h1] at hr; simp at hr
  · rw [Graph.getRoom, h2] at hr
    have : b = r2 := Option.some.inj hr
    subst this
    exact ⟨a, h1, h3⟩

theorem visitedIn_mono {g g2 : Graph} (h : GraphRel g g2) {x : String} (hx : visitedIn g x) :
    visitedIn g2 x := by
  obtain ⟨r, hr, hv⟩ := hx
  obtain ⟨r2, hr2, hrel⟩ := getRoom_rel h hr
  exact ⟨r2, hr2, hrel.2.2.2 hv⟩

theorem unvisited_le {g g2 : Graph} (h : GraphRel g g2) : unvisited g2 ≤ unvisited g :=
  unvisited_rel h.1

theorem conns_of_getRoom {g : Graph} {n : String} {r : Room} (h : g.getRoom n = some r) :
    g.conns n = r.Connections := by
  simp [Graph.conns, h]

theorem not_mem_conns_mono {g g2 : Graph} (h : GraphRel g g2) {n e : String} (he : e ≠ "")
    (hn : e ∉ g.conns n) : e ∉ g2.conns n := by
  intro hmem
  cases hg2 : g2.getRoom n with
  | none => simp [Graph.conns, hg2] at hmem
  | some r2 =>
    obtain ⟨r, hr, hrel⟩ := getRoom_rel_back h hg2
    rw [conns_of_getRoom hg2] at hmem
    rw [conns_of_getRoom hr] at hn
    rcases hrel.2.2.1 e hmem with h1 | h1
    · exact he h1
    · exact hn h1

theorem getD_mem_of_ne {l : List String} {i : Nat} {d : String} (h : l.getD i d ≠ d) :
    l.getD i d ∈ l := by
  rw [List.getD_eq_getElem?_getD] at h ⊢
  cases hi : l[i]? with
  | none => rw [hi] at h; exact absurd rfl h
  | some x => simpa using List.getElem?_mem hi

theorem chain_snoc {g : Graph} {rooms : List String} {tip x : String}
    (hc : List.Chain' (fun a b => b ∈ g.conns a) (g.StartRoomName :: rooms))
    (htip : (g.StartRoomName :: rooms).getLast? = some tip) (hx : x ∈ g.conns tip) :
    List.Chain' (fun a b => b ∈ g.conns a) (g.StartRoomName :: (rooms ++ [x])) := by
  rw [← List.cons_append, List.chain'_append]
  refine ⟨hc, List.chain'_singleton x, ?_⟩
  intro a ha b hb
  rw [htip] at ha
  have ha2 : tip = a := by simpa using ha
  have hb2 : x = b := by simpa using hb
  rw [← ha2, ← hb2]
  exact hx

theorem dfsVisit_blank
    (self : String → String → Graph → String → List String → Option (Graph × List String))
    (current end_ path : String) (acc : Graph × List String) (i : Nat) (c : Room)
    (hc : acc.1.getRoom current = some c) (hb : c.Connections.getD i "" = "") :
    dfsVisit self current end_ path acc i = some acc := by
  unfold dfsVisit
  rw [hc]
  dsimp only
  rw [if_pos hb]

theorem dfsVisit_visited
    (self : String → String → Graph → String → List String → Option (Graph × List String))
    (current end_ path : String) (acc : Graph × List String) (i : Nat) (c nr : Room)
    (hc : acc.1.getRoom current = some c) (hb : ¬ c.Connections.getD i "" = "")
    (hnr : acc.1.getRoom (c.Connections.getD i "") = some nr) (hv : nr.Visited = true) :
    dfsVisit self current end_ path acc i = some acc := by
  unfold dfsVisit
  rw [hc]
  dsimp only
  rw [if_neg hb, hnr]
  dsimp only
  rw [if_neg (by simp [hv])]

theorem dfsVisit_call
    (self : String → String → Graph → String → List String → Option (Graph × List String))
    (current end_ path : String) (acc : Graph × List String) (i : Nat) (c nr : Room)
    (hc : acc.1.getRoom current = some c) (hb : ¬ c.Connections.getD i "" = "")
    (hnr : acc.1.getRoom (c.Connections.getD i "") = some nr) (hv : nr.Visited = false) :
    dfsVisit self current end_ path acc i = self nr.Roomname end_ acc.1 path acc.2 := by
  unfold dfsVisit
  rw [hc]
  dsimp only
  rw [if_neg hb, hnr]
  dsimp only
  rw [if_pos (by simp [hv])]

theorem noEnd_mono {g g2 : Graph} (h : GraphRel g g2) {n e : String}
    (hn : e = "" ∨ e ∉ g.conns n) : e = "" ∨ e ∉ g2.conns n := by
  by_cases he : e = ""
  · exact Or.inl he
  · rcases hn with h1 | h1
    · exact absurd h1 he
    · exact Or.inr (not_mem_conns_mono h he h1)

theorem WellFormed.searchable {g : Graph} (h : WellFormed g) : Searchable g :=
  ⟨h.1, h.2.2.1, fun r hr =>
    ⟨(h.2.2.2 r hr).1, (h.2.2.2 r hr).2.1, fun c hc => ((h.2.2.2 r hr).2.2 c hc).2⟩⟩

theorem dfs_loop (g0 : Graph) (hwf : Searchable g0) (fuel : Nat)
    (ih : ∀ (current : String) (g : Graph) (path : String) (pl : List String),
      DfsPre g0 g fuel current path →
      ∃ res, DFS fuel current g0.EndRoomName g path pl = some res ∧ DfsPost g0 g pl res)
    (current : String) (hdecl : (g0.getRoom current).isSome)
    (chainC : List String) (hnd : chainC.Nodup)
    (hch : List.Chain' (fun a b => b ∈ g0.conns a) (g0.StartRoomName :: chainC))
    (htip : (g0.StartRoomName :: chainC).getLast? = some current)
    (hmem : ∀ x ∈ chainC, x ≠ g0.EndRoomName) :
    ∀ (is : List Nat) (acc : Graph × List String), GraphRel g0 acc.1 →
      (∀ x ∈ chainC, visitedIn acc.1 x) →
      (3 * unvisited acc.1 + 2 ≤ fuel ∨
        (3 * unvisited acc.1 ≤ fuel ∧
          (g0.EndRoomName = "" ∨ g0.EndRoomName ∉ acc.1.conns current))) →
      ∃ res, is.foldlM (dfsVisit (DFS fuel) current g0.EndRoomName (encodeChain chainC)) acc =
          some res ∧ DfsPost g0 acc.1 acc.2 res := by
  intro is
  induction is with
  | nil =>
    intro acc _ _ _
    exact ⟨acc, rfl, GraphRel.graphRefl _, fun p hp => Or.inl hp⟩
  | cons i is ihl =>
    intro acc hrel hvis hbud
    obtain ⟨c0, hc0⟩ := Option.isSome_iff_exists.mp hdecl
    obtain ⟨c, hc, hcrel⟩ := getRoom_rel hrel hc0
    rw [List.foldlM_cons]
    -- the step leaves the state unchanged
    have hskip : dfsVisit (DFS fuel) current g0.EndRoomName (encodeChain chainC) acc i =
        some acc →
        ∃ res, (do
          let s ← dfsVisit (DFS fuel) current g0.EndRoomName (encodeChain chainC) acc i
          is.foldlM (dfsVisit (DFS fuel) current g0.EndRoomName (encodeChain chainC)) s) =
            some res ∧ DfsPost g0 acc.1 acc.2 res := by
      intro hs
      rw [hs]
      exact ihl acc hrel hvis hbud
    by_cases hblank : c.Connections.getD i "" = ""
    · exact hskip (dfsVisit_blank _ _ _ _ _ _ c hc hblank)
    · have hin : c.Connections.getD i "" ∈ c.Connections := getD_mem_of_ne hblank
      have hin0 : c.Connections.getD i "" ∈ c0.Connections := by
        rcases hcrel.2.2.1 _ hin with h | h
        · exact absurd h hblank
        · exact h
      obtain ⟨hnS, hcdecl⟩ := (hwf.2.2 c0 (findRoom_some hc0).2).2.2 _ hin0
      obtain ⟨n0, hn0⟩ := Option.isSome_iff_exists.mp hcdecl
      obtain ⟨nr, hnr, -⟩ := getRoom_rel hrel hn0
      have hname : nr.Roomname = c.Connections.getD i "" := (findRoom_some hnr).1
      by_cases hv : nr.Visited = true
      · exact hskip (dfsVisit_visited _ _ _ _ _ _ c nr hc hblank hnr hv)
      · have hv2 : nr.Visited = false := by simpa using hv
        have hstep : dfsVisit (DFS fuel) current g0.EndRoomName (encodeChain chainC) acc i =
            DFS fuel (c.Connections.getD i "") g0.EndRoomName acc.1 (encodeChain chainC)
              acc.2 := by
          rw [dfsVisit_call _ _ _ _ _ _ c nr hc hblank hnr hv2, hname]
        have hadj : c.Connections.getD i "" ∈ g0.conns current := by
          rw [conns_of_getRoom hc0]; exact hin0
        have hchain : List.Chain' (fun a b => b ∈ g0.conns a)
            (g0.StartRoomName :: (chainC ++ [c.Connections.getD i ""])) :=
          chain_snoc hch htip hadj
        have hpre : DfsPre g0 acc.1 fuel (c.Connections.getD i "") (encodeChain chainC) := by
          refine ⟨hrel, ?_⟩
          by_cases hE : c.Connections.getD i "" = g0.EndRoomName
          · left
            refine ⟨hE, ?_, chainC, rfl, ?_, hchain⟩
            · rcases hbud with h | ⟨-, h | h⟩
              · exact h
              · exact absurd (hE.trans h) hblank
              · exfalso
                apply h
                rw [conns_of_getRoom hc, ← hE]
                exact hin
            · rw [List.nodup_append]
              refine ⟨hnd, List.nodup_singleton _, ?_⟩
              intro x hx hx2
              rw [List.mem_singleton] at hx2
              exact hmem x hx (hx2.trans hE)
          · right; right
            refine ⟨hE, hnS, ?_, ⟨nr, hnr, hv2⟩, chainC, rfl, ⟨?_, hchain⟩, ?_⟩
            · rcases hbud with h | ⟨h, -⟩
              · omega
              · exact h
            · rw [List.nodup_append]
              refine ⟨hnd, List.nodup_singleton _, ?_⟩
              intro x hx hx2
              rw [List.mem_singleton] at hx2
              obtain ⟨rx, hrx, hvx⟩ := hvis x hx
              rw [hx2, hnr] at hrx
              rw [← Option.some.inj hrx, hv2] at hvx
              exact absurd hvx (by simp)
            · intro x hx
              exact ⟨hmem x hx, hvis x hx⟩
        obtain ⟨res1, hres1, hrel1, hpaths1⟩ := ih _ acc.1 _ acc.2 hpre
        rw [hstep, hres1]
        have hbud1 : 3 * unvisited res1.1 + 2 ≤ fuel ∨
            (3 * unvisited res1.1 ≤ fuel ∧
              (g0.EndRoomName = "" ∨ g0.EndRoomName ∉ res1.1.conns current)) := by
          have hle := unvisited_le hrel1
          rcases hbud with h | ⟨h, h2⟩
          · left; omega
          · right
            exact ⟨by omega, noEnd_mono hrel1 h2⟩
        obtain ⟨res, hres, hrel2, hpaths2⟩ := ihl res1 (hrel.graphTrans hrel1)
          (fun x hx => visitedIn_mono hrel1 (hvis x hx)) hbud1
        refine ⟨res, hres, hrel1.graphTrans hrel2, ?_⟩
        intro p hp
        rcases hpaths2 p hp with h | h
        · exact hpaths1 p h
        · exact Or.inr h

theorem RoomRel_markVisited (r : Room) : RoomRel r r.markVisited :=
  ⟨rfl, rfl, fun _ hc => Or.inr hc, fun _ => rfl⟩

theorem RoomRel_blankEnd (e : String) (r : Room) : RoomRel r (r.blankEnd e) := by
  refine ⟨rfl, by simp [Room.blankEnd], ?_, fun h => h⟩
  intro c hc
  simp only [Room.blankEnd, List.mem_map] at hc
  obtain ⟨x, hx, rfl⟩ := hc
  split
  · exact Or.inl rfl
  · exact Or.inr hx

theorem swapFront_length (cs : List String) (i : Nat) : (swapFront cs i).length = cs.length := by
  simp [swapFront]

theorem swapFront_mem (cs : List String) (i : Nat) (c : String) (hc : c ∈ swapFront cs i) :
    c = "" ∨ c ∈ cs := by
  unfold swapFront at hc
  have hget : ∀ k, cs.getD k "" = "" ∨ cs.getD k "" ∈ cs := by
    intro k
    by_cases h : cs.getD k "" = ""
    · exact Or.inl h
    · exact Or.inr (getD_mem_of_ne h)
  rcases List.mem_or_eq_of_mem_set hc with h | h
  · rcases List.mem_or_eq_of_mem_set h with h2 | h2
    · exact Or.inr h2
    · rw [h2]; exact hget i
  · rw [h]; exact hget 0

theorem endToFrontList_spec (e : String) (cs : List String) :
    (endToFrontList e cs).length = cs.length ∧ ∀ c ∈ endToFrontList e cs, c = "" ∨ c ∈ cs := by
  unfold endToFrontList
  generalize List.range cs.length = is
  induction is generalizing cs with
  | nil => exact ⟨rfl, fun c hc => Or.inr hc⟩
  | cons i is ih =>
    rw [List.foldl_cons]
    split
    · obtain ⟨h1, h2⟩ := ih (swapFront cs i)
      refine ⟨h1.trans (swapFront_length cs i), ?_⟩
      intro c hc
      rcases h2 c hc with h | h
      · exact Or.inl h
      · exact swapFront_mem cs i c h
    · exact ih cs

theorem RoomRel_endToFront (e : String) (r : Room) : RoomRel r (r.endToFront e) :=
  ⟨rfl, (endToFrontList_spec e r.Connections).1, (endToFrontList_spec e r.Connections).2,
    fun h => h⟩

theorem getRoom_modify (g : Graph) (n m : String) (f : Room → Room)
    (hf : ∀ r, (f r).Roomname = r.Roomname) :
    (g.modify n f).getRoom m = if m = n then (g.getRoom n).map f else g.getRoom m :=
  findRoom_modify n m f hf g.Rooms

theorem unvisited_pos {g : Graph} {n : String} {r : Room} (h : g.getRoom n = some r)
    (hv : r.Visited = false) : 1 ≤ unvisited g := by
  have := unvisited_mark n g.Rooms r h hv
  unfold unvisited
  omega

theorem unvisited_modify_mark {g : Graph} {n : String} {r : Room} (h : g.getRoom n = some r)
    (hv : r.Visited = false) : unvisited (g.modify n Room.markVisited) + 1 = unvisited g :=
  unvisited_mark n g.Rooms r h hv

theorem encodeChain_snoc (chain : List String) (c : String) :
    encodeChain (chain ++ [c]) = encodeChain chain ++ c ++ "-" := by
  simp [encodeChain, List.foldl_append]

theorem dfsBody_not_end
    (self : String → String → Graph → String → List String → Option (Graph × List String))
    (current end_ : String) (g : Graph) (path : String) (pl : List String) (curr c3 : Room)
    (hc : g.getRoom current = some curr) (hne : current ≠ end_)
    (h3 : ((g.modify current Room.markVisited).modify current
      (Room.endToFront g.EndRoomName)).getRoom current = some c3) :
    dfsBody self current end_ g path pl =
      (List.range c3.Connections.length).foldlM
        (dfsVisit self current end_ (dfsPath g curr current path))
        ((g.modify current Room.markVisited).modify current (Room.endToFront g.EndRoomName),
          pl) := by
  unfold dfsBody
  rw [hc]
  dsimp only
  rw [if_pos hne]
  unfold dfsReenter
  rw [if_neg hne]
  dsimp only
  have : (g.modify current Room.markVisited).EndRoomName = g.EndRoomName := rfl
  rw [this, h3]

theorem dfsBody_end
    (self : String → String → Graph → String → List String → Option (Graph × List String))
    (end_ : String) (g : Graph) (path : String) (pl : List String) (curr s c3 : Room)
    (res : Graph × List String)
    (hc : g.getRoom end_ = some curr) (hs : g.getRoom g.StartRoomName = some s)
    (hself : self g.StartRoomName end_ (g.modify g.StartRoomName (Room.blankEnd g.EndRoomName))
      "" (pl ++ [dfsPath g curr end_ path]) = some res)
    (h3 : (res.1.modify end_ (Room.endToFront res.1.EndRoomName)).getRoom end_ = some c3) :
    dfsBody self end_ end_ g path pl =
      (List.range c3.Connections.length).foldlM (dfsVisit self end_ end_ "")
        (res.1.modify end_ (Room.endToFront res.1.EndRoomName), res.2) := by
  unfold dfsBody
  rw [hc]
  dsimp only
  rw [if_neg (by simp)]
  unfold dfsReenter
  rw [if_pos rfl, hs]
  dsimp only
  rw [hself]
  dsimp only
  rw [h3]

theorem chain_last_adj {g : Graph} {rooms : List String} {x : String}
    (hc : List.Chain' (fun a b => b ∈ g.conns a) (g.StartRoomName :: (rooms ++ [x]))) :
    ∃ t, x ∈ g.conns t := by
  rw [← List.cons_append, List.chain'_append] at hc
  obtain ⟨-, -, h⟩ := hc
  cases hl : (g.StartRoomName :: rooms).getLast? with
  | none => simp at hl
  | some t => exact ⟨t, h t hl x (by simp)⟩

theorem declared_of_adj {g : Graph} (hwf : Searchable g) {t x : String} (hx : x ∈ g.conns t) :
    (g.getRoom x).isSome := by
  cases ht : g.getRoom t with
  | none => simp [Graph.conns, ht] at hx
  | some r =>
    rw [conns_of_getRoom ht] at hx
    exact ((hwf.2.2 r (findRoom_some ht).2).2.2 x hx).2

theorem blankEnd_not_mem (e : String) (he : e ≠ "") (r : Room) :
    e ∉ (r.blankEnd e).Connections := by
  simp only [Room.blankEnd, List.mem_map, not_exists, not_and]
  intro x _ hx
  split at hx
  · exact he hx.symm
  · rename_i h; exact h hx

theorem getLast?_cons_snoc (a : String) (l : List String) (x : String) :
    (a :: (l ++ [x])).getLast? = some x := by
  rw [← List.cons_append, List.getLast?_append]
  simp

theorem getRoom_modify_self (g : Graph) (n : String) (f : Room → Room)
    (hf : ∀ r, (f r).Roomname = r.Roomname) {r : Room} (h : g.getRoom n = some r) :
    (g.modify n f).getRoom n = some (f r) := by
  rw [getRoom_modify g n n f hf, if_pos rfl, h]; rfl

/-- Total correctness of `DFS` on a graph that evolved from a searchable one:
with the fuel that `DfsPre` asks for, the call returns, the graph it returns
evolved from the one it received and all paths it added are good. -/
theorem DFS_total (g0 : Graph) (hwf : Searchable g0) (fuel : Nat) :
    ∀ (current : String) (g : Graph) (path : String) (pl : List String),
      DfsPre g0 g fuel current path →
      ∃ res, DFS fuel current g0.EndRoomName g path pl = some res ∧ DfsPost g0 g pl res := by
  induction fuel with
  | zero =>
    intro current g path pl hpre
    obtain ⟨-, h | h | h⟩ := hpre
    · omega
    · omega
    · obtain ⟨-, -, hf, ⟨r, hr, hv⟩, -⟩ := h
      have := unvisited_pos hr hv
      omega
  | succ fuel ih =>
    intro current g path pl hpre
    obtain ⟨hrel, hcase⟩ := hpre
    have hS : g.StartRoomName = g0.StartRoomName := hrel.2.1
    have hE : g.EndRoomName = g0.EndRoomName := hrel.2.2
    obtain ⟨s0, hs0⟩ := Option.isSome_iff_exists.mp hwf.2.1
    show ∃ res, dfsBody (DFS fuel) current g0.EndRoomName g path pl = some res ∧ _
    rcases hcase with ⟨hcur, hfuel, chain, hpath, hchain⟩ | hcase
    · -- the end room is entered
      subst hcur
      obtain ⟨t, ht⟩ := chain_last_adj hchain.2
      obtain ⟨e0, he0⟩ := Option.isSome_iff_exists.mp (declared_of_adj hwf ht)
      have he0c : e0.Connections = [] :=
        (hwf.2.2 e0 (findRoom_some he0).2).2.1 (findRoom_some he0).1
      obtain ⟨curr, hcurr, hcrel⟩ := getRoom_rel hrel he0
      obtain ⟨s, hs, -⟩ := getRoom_rel hrel hs0
      rw [← hS] at hs
      have hpath1 : dfsPath g curr g0.EndRoomName path = encodeChain chain ++ g0.EndRoomName := by
        unfold dfsPath
        rw [if_pos (by rw [(findRoom_some hcurr).1, hE]), hpath]
      have hrel1 : GraphRel g (g.modify g.StartRoomName (Room.blankEnd g.EndRoomName)) :=
        modify_rel g _ _ (RoomRel_blankEnd _)
      have hpre1 : DfsPre g0 (g.modify g.StartRoomName (Room.blankEnd g.EndRoomName)) fuel
          g.StartRoomName "" := by
        refine ⟨hrel.graphTrans hrel1, Or.inr (Or.inl ⟨hS, rfl, ?_, Or.inr ?_⟩)⟩
        · have := unvisited_le hrel1
          omega
        · by_cases he : g0.EndRoomName = ""
          · exact Or.inl he
          right
          have hg : (g.modify g.StartRoomName (Room.blankEnd g.EndRoomName)).getRoom
              g.StartRoomName = some (s.blankEnd g.EndRoomName) :=
            getRoom_modify_self g _ (Room.blankEnd g.EndRoomName) (fun _ => rfl) hs
          rw [conns_of_getRoom hg, ← hE]
          exact blankEnd_not_mem _ (hE ▸ he) s
      obtain ⟨res1, hres1, hrel2, hpaths1⟩ := ih g.StartRoomName _ ""
        (pl ++ [dfsPath g curr g0.EndRoomName path]) hpre1
      obtain ⟨e2, he2, he2rel⟩ := getRoom_rel (hrel1.graphTrans hrel2) hcurr
      have hg3 : (res1.1.modify g0.EndRoomName (Room.endToFront res1.1.EndRoomName)).getRoom
          g0.EndRoomName = some (e2.endToFront res1.1.EndRoomName) :=
        getRoom_modify_self _ _ (Room.endToFront res1.1.EndRoomName) (fun _ => rfl) he2
      have hlen : (e2.endToFront res1.1.EndRoomName).Connections.length = 0 := by
        rw [(RoomRel_endToFront _ e2).2.1, he2rel.2.1, hcrel.2.1, he0c]; rfl
      rw [dfsBody_end (DFS fuel) g0.EndRoomName g path pl curr s _ res1 hcurr hs hres1 hg3, hlen]
      refine ⟨_, rfl, ?_, ?_⟩
      · exact (hrel1.graphTrans hrel2).graphTrans (modify_rel _ _ _ (RoomRel_endToFront _))
      · intro p hp
        rcases hpaths1 p hp with h | h
        · rcases List.mem_append.mp h with h2 | h2
          · exact Or.inl h2
          · right
            rw [List.mem_singleton] at h2
            exact ⟨chain, by rw [h2, hpath1], hchain⟩
        · exact Or.inr h
    · -- a room other than the end room is entered
      have hne : current ≠ g0.EndRoomName := by
        rcases hcase with ⟨h, -⟩ | ⟨h, -⟩
        · rw [h]; exact hwf.1
        · exact h
      have hdecl0 : (g0.getRoom current).isSome := by
        rcases hcase with ⟨h, -⟩ | ⟨-, -, -, ⟨r, hr, -⟩, -⟩
        · rw [h]; exact hwf.2.1
        · obtain ⟨r0, hr0, -⟩ := getRoom_rel_back hrel hr
          simp [hr0]
      obtain ⟨c0, hc0⟩ := Option.isSome_iff_exists.mp hdecl0
      obtain ⟨curr, hcurr, -⟩ := getRoom_rel hrel hc0
      have hname : curr.Roomname = current := (findRoom_some hcurr).1
      have hrel1 : GraphRel g (g.modify current Room.markVisited) :=
        modify_rel g _ _ RoomRel_markVisited
      have hg1 : (g.modify current Room.markVisited).getRoom current =
          some curr.markVisited :=
        getRoom_modify_self g _ Room.markVisited (fun _ => rfl) hcurr
      have hrel3 : GraphRel (g.modify current Room.markVisited)
          ((g.modify current Room.markVisited).modify current
            (Room.endToFront g.EndRoomName)) := modify_rel _ _ _ (RoomRel_endToFront _)
      have hg3 : ((g.modify current Room.markVisited).modify current
          (Room.endToFront g.EndRoomName)).getRoom current =
          some (curr.markVisited.endToFront g.EndRoomName) :=
        getRoom_modify_self _ _ (Room.endToFront g.EndRoomName) (fun _ => rfl) hg1
      have hvcur : visitedIn ((g.modify current Room.markVisited).modify current
          (Room.endToFront g.EndRoomName)) current := ⟨_, hg3, rfl⟩
      rw [dfsBody_not_end (DFS fuel) current g0.EndRoomName g path pl curr _ hcurr hne hg3]
      have hle3 := unvisited_le hrel3
      have hle1 := unvisited_le hrel1
      rcases hcase with ⟨hcur, hpath, hfuel, hstart⟩ | ⟨-, hnS, hfuel, ⟨r, hr, hv⟩, chain, hpath,
          hchain, hmem⟩
      · -- the start room
        have hp : dfsPath g curr current path = encodeChain [] := by
          unfold dfsPath
          rw [if_neg (by rw [hname, hE]; exact hne), if_neg (by simp [hname, hcur, hS]), hpath]
          rfl
        rw [hp]
        have hbud : 3 * unvisited ((g.modify current Room.markVisited).modify current
            (Room.endToFront g.EndRoomName)) + 2 ≤ fuel ∨
            (3 * unvisited ((g.modify current Room.markVisited).modify current
              (Room.endToFront g.EndRoomName)) ≤ fuel ∧
              (g0.EndRoomName = "" ∨
                g0.EndRoomName ∉ ((g.modify current Room.markVisited).modify current
                  (Room.endToFront g.EndRoomName)).conns current)) := by
          rcases hstart with ⟨r, hr, hv⟩ | hno
          · left
            have := unvisited_modify_mark hr hv
            omega
          · right
            exact ⟨by omega, noEnd_mono (hrel1.graphTrans hrel3) hno⟩
        obtain ⟨res, hres, hrel4, hpaths⟩ := dfs_loop g0 hwf fuel ih current hdecl0 []
          List.nodup_nil (List.chain'_singleton _) (by rw [hcur]; rfl) (by simp)
          (List.range (curr.markVisited.endToFront g.EndRoomName).Connections.length)
          (_, pl) ((hrel.graphTrans hrel1).graphTrans hrel3) (by simp) hbud
        exact ⟨res, hres, (hrel1.graphTrans hrel3).graphTrans hrel4, hpaths⟩
      · -- an inner room
        have hp : dfsPath g curr current path = encodeChain (chain ++ [current]) := by
          unfold dfsPath
          rw [if_neg (by rw [hname, hE]; exact hne), if_pos (by rw [hname, hS]; exact hnS),
            hpath, encodeChain_snoc]
        rw [hp]
        have hbud : 3 * unvisited ((g.modify current Room.markVisited).modify current
            (Room.endToFront g.EndRoomName)) + 2 ≤ fuel := by
          have := unvisited_modify_mark hr hv
          omega
        obtain ⟨res, hres, hrel4, hpaths⟩ := dfs_loop g0 hwf fuel ih current hdecl0
          (chain ++ [current]) hchain.1 hchain.2 (getLast?_cons_snoc _ _ _)
          (by
            intro x hx
            rcases List.mem_append.mp hx with h | h
            · exact (hmem x h).1
            · rw [List.mem_singleton] at h; rw [h]; exact hne)
          (List.range (curr.markVisited.endToFront g.EndRoomName).Connections.length)
          (_, pl) ((hrel.graphTrans hrel1).graphTrans hrel3)
          (by
            intro x hx
            rcases List.mem_append.mp hx with h | h
            · exact visitedIn_mono (hrel1.graphTrans hrel3) (hmem x h).2
            · rw [List.mem_singleton] at h; rw [h]; exact hvcur)
          (Or.inl hbud)
        exact ⟨res, hres, (hrel1.graphTrans hrel3).graphTrans hrel4, hpaths⟩

theorem mem_modifyRoom (n : String) (f : Room → Room) (rs : List Room) (x : Room)
    (hx : x ∈ modifyRoom n f rs) : x ∈ rs ∨ ∃ r ∈ rs, r.Roomname = n ∧ x = f r := by
  induction rs with
  | nil => simp [modifyRoom] at hx
  | cons a rs ih =>
    unfold modifyRoom at hx
    split at hx
    · rename_i ha
      rcases List.mem_cons.mp hx with h | h
      · exact Or.inr ⟨a, List.mem_cons_self _ _, ha, h⟩
      · exact Or.inl (List.mem_cons_of_mem _ h)
    · rcases List.mem_cons.mp hx with h | h
      · exact Or.inl (h ▸ List.mem_cons_self _ _)
      · rcases ih h with h2 | ⟨r, hr, h2⟩
        · exact Or.inl (List.mem_cons_of_mem _ h2)
        · exact Or.inr ⟨r, List.mem_cons_of_mem _ hr, h2⟩

theorem names_modifyRoom (n : String) (f : Room → Room)
    (hf : ∀ r, (f r).Roomname = r.Roomname) (rs : List Room) :
    (modifyRoom n f rs).map Room.Roomname = rs.map Room.Roomname := by
  induction rs with
  | nil => rfl
  | cons a rs ih =>
    unfold modifyRoom
    split
    · simp [hf]
    · simp [ih]

theorem findRoom_isSome_iff (n : String) (rs : List Room) :
    (findRoom n rs).isSome ↔ n ∈ rs.map Room.Roomname := by
  induction rs with
  | nil => simp [findRoom]
  | cons a rs ih =>
    unfold findRoom
    by_cases ha : a.Roomname = n
    · simp [ha]
    · rw [if_neg ha, ih]
      simp [ha, Ne.symm ha]

theorem ColonyInv_addConn {names : List String} {s e : String} {g : Graph}
    (h : ColonyInv names s e g) (x y : String) (hx : x ≠ e) (hy : y ∈ names) (hys : y ≠ s) :
    ColonyInv names s e (g.modify x (Room.addConn y)) := by
  obtain ⟨h1, h2, h3, h4⟩ := h
  refine ⟨?_, h2, h3, ?_⟩
  · show (modifyRoom x (Room.addConn y) g.Rooms).map Room.Roomname = names
    rw [names_modifyRoom x (Room.addConn y) (fun _ => rfl), h1]
  · intro r hr
    rcases mem_modifyRoom _ _ _ r hr with h | ⟨r0, hr0, hn, rfl⟩
    · exact h4 r h
    · obtain ⟨hv, -, hc⟩ := h4 r0 hr0
      refine ⟨hv, ?_, ?_⟩
      · intro hname
        exact absurd (hn.symm.trans hname) hx
      · intro c hc2
        simp only [Room.addConn, List.mem_append, List.mem_singleton] at hc2
        rcases hc2 with h | h
        · exact hc c h
        · rw [h]; exact ⟨hy, hys⟩

theorem ColonyInv_AddLinks {names : List String} {s e : String} {g g2 : Graph}
    (h : ColonyInv names s e g) (hse : s ≠ e) (a b : String) (hab : a ≠ b)
    (hg : g.AddLinks a b = some g2) : ColonyInv names s e g2 := by
  unfold Graph.AddLinks at hg
  cases hfa : g.getRoom a with
  | none => rw [hfa] at hg; simp at hg
  | some fromRoom =>
    cases hfb : g.getRoom b with
    | none => rw [hfa, hfb] at hg; simp at hg
    | some toRoom =>
      rw [hfa, hfb] at hg
      dsimp only at hg
      have hna : fromRoom.Roomname = a := (findRoom_some hfa).1
      have hnb : toRoom.Roomname = b := (findRoom_some hfb).1
      have ha : a ∈ names := by
        rw [← h.1]; exact (findRoom_isSome_iff a g.Rooms).mp (by rw [← Graph.getRoom, hfa]; rfl)
      have hb : b ∈ names := by
        rw [← h.1]; exact (findRoom_isSome_iff b g.Rooms).mp (by rw [← Graph.getRoom, hfb]; rfl)
      rw [hna, hnb, h.2.1, h.2.2.1] at hg
      split at hg
      · simp at hg
      · split at hg
        · rename_i hae
          rw [← Option.some.inj hg]
          exact ColonyInv_addConn h b a (fun hbe => hab (hae.trans hbe.symm)) ha
            (fun has => hse (has.symm.trans hae))
        · split at hg
          · rename_i hae hbe
            rw [← Option.some.inj hg]
            exact ColonyInv_addConn h a b hae hb (fun hbs => hse (hbs.symm.trans hbe))
          · split at hg
            · rename_i hae hbe hbs
              rw [← Option.some.inj hg]
              exact ColonyInv_addConn h b a hbe ha (fun has => hab (has.trans hbs.symm))
            · split at hg
              · rename_i hae hbe hbs has
                rw [← Option.some.inj hg]
                exact ColonyInv_addConn h a b hae hb hbs
              · rename_i hae hbe hbs has
                rw [← Option.some.inj hg]
                exact ColonyInv_addConn (ColonyInv_addConn h a b hae hb hbs) b a hbe ha has

theorem foldl_AddRoom_rooms (rooms : List String) (g : Graph) :
    (rooms.foldl Graph.AddRoom g).Rooms =
      g.Rooms ++ rooms.map (fun n => { Roomname := n, Connections := [], Visited := false }) ∧
    (rooms.foldl Graph.AddRoom g).StartRoomName = g.StartRoomName ∧
    (rooms.foldl Graph.AddRoom g).EndRoomName = g.EndRoomName := by
  induction rooms generalizing g with
  | nil => simp
  | cons n rooms ih =>
    rw [List.foldl_cons]
    obtain ⟨h1, h2, h3⟩ := ih (g.AddRoom n)
    refine ⟨?_, h2, h3⟩
    rw [h1]
    simp [Graph.AddRoom]

theorem foldlM_AddLinks_inv {names : List String} {s e : String} (hse : s ≠ e)
    (links : List (String × String)) (hl : ∀ l ∈ links, l.1 ≠ l.2) :
    ∀ (g g2 : Graph), ColonyInv names s e g →
      links.foldlM (fun g l => g.AddLinks l.1 l.2) g = some g2 → ColonyInv names s e g2 := by
  induction links with
  | nil =>
    intro g g2 h hg
    have : g = g2 := by simpa using hg
    rw [← this]; exact h
  | cons l links ih =>
    intro g g2 h hg
    rw [List.foldlM_cons] at hg
    cases h1 : g.AddLinks l.1 l.2 with
    | none => rw [h1] at hg; simp at hg
    | some g1 =>
      rw [h1] at hg
      exact ih (fun x hx => hl x (List.mem_cons_of_mem _ hx)) g1 g2
        (ColonyInv_AddLinks h hse l.1 l.2 (hl l (List.mem_cons_self _ _)) h1) hg

/-- A colony graph built from non-empty names with distinct declared start and
end rooms and without self-links is well-formed, and its rooms carry exactly
the declared names. -/
theorem colony_wellFormed (ants : Int) (s e : String) (rooms : List String)
    (links : List (String × String)) (g : Graph)
    (hg : colony ants s e rooms links = some g)
    (hne : ∀ n ∈ rooms, n ≠ "") (hse : s ≠ e) (hs : s ∈ rooms) (he : e ∈ rooms)
    (hl : ∀ l ∈ links, l.1 ≠ l.2) :
    WellFormed g ∧ g.Rooms.map Room.Roomname = rooms ∧ g.StartRoomName = s ∧
      g.EndRoomName = e := by
  unfold colony at hg
  obtain ⟨h1, h2, h3⟩ := foldl_AddRoom_rooms rooms
    { Rooms := [], StartRoomName := s, EndRoomName := e, Ants := ants }
  have hinit : ColonyInv rooms s e (rooms.foldl Graph.AddRoom
      { Rooms := [], StartRoomName := s, EndRoomName := e, Ants := ants }) := by
    refine ⟨?_, h2, h3, ?_⟩
    · rw [h1, List.nil_append, List.map_map]
      exact List.map_id _
    · intro r hr
      rw [h1] at hr
      simp only [List.nil_append, List.mem_map] at hr
      obtain ⟨n, -, rfl⟩ := hr
      exact ⟨rfl, fun _ => rfl, by simp⟩
  obtain ⟨hn, hS, hE, hrooms⟩ := foldlM_AddLinks_inv hse links hl _ g hinit hg
  refine ⟨⟨?_, ?_, ?_, ?_⟩, hn, hS, hE⟩
  · rw [hS, hE]; exact hse
  · rw [hE]; exact hne e he
  · rw [Graph.getRoom, findRoom_isSome_iff, hn, hS]; exact hs
  · intro r hr
    obtain ⟨hv, hend, hc⟩ := hrooms r hr
    refine ⟨hv, by rw [hE]; exact hend, ?_⟩
    intro c hcm
    obtain ⟨hcn, hcs⟩ := hc c hcm
    refine ⟨hne c hcn, by rw [hS]; exact hcs, ?_⟩
    rw [Graph.getRoom, findRoom_isSome_iff, hn]
    exact hcn

theorem encodeChain_data (chain : List String) :
    (encodeChain chain).data = chain.flatMap fun r => r.data ++ ['-'] := by
  induction chain using List.reverseRecOn with
  | nil => rfl
  | append_singleton chain x ih =>
    rw [encodeChain_snoc, String.data_append, String.data_append, ih, List.flatMap_append]
    simp

theorem Split_encodeChain (chain : List String) (e : String)
    (hchain : ∀ x ∈ chain, ∀ c ∈ x.data, c ≠ '-') (he : ∀ c ∈ e.data, c ≠ '-') :
    Split (encodeChain chain ++ e) '-' = chain ++ [e] := by
  unfold Split
  rw [String.data_append, encodeChain_data]
  induction chain with
  | nil => simpa using splitAux_last '-' e.data he []
  | cons x chain ih =>
    rw [List.flatMap_cons, List.append_assoc, List.append_assoc, List.singleton_append,
      splitAux_field '-' x.data (hchain x (List.mem_cons_self _ _)),
      ih (fun y hy => hchain y (List.mem_cons_of_mem _ hy))]
    simp

theorem chain'_mem_adj {g : Graph} : ∀ (rooms : List String) (a : String),
    List.Chain' (fun a b => b ∈ g.conns a) (a :: rooms) → ∀ x ∈ rooms, ∃ t, x ∈ g.conns t := by
  intro rooms
  induction rooms with
  | nil => intro a _ x hx; simp at hx
  | cons b rooms ih =>
    intro a h x hx
    rw [List.chain'_cons] at h
    rcases List.mem_cons.mp hx with hxb | hxr
    · exact ⟨a, hxb ▸ h.1⟩
    · exact ih b h.2 x hxr

theorem IsRoute_of_ChainOK {g : Graph} {chain : List String}
    (h : ChainOK g (chain ++ [g.EndRoomName])) : IsRoute g (chain ++ [g.EndRoomName]) := by
  obtain ⟨hnd, hch⟩ := h
  refine ⟨hnd, ?_, by simp, ?_⟩
  · cases hl : chain ++ [g.EndRoomName] with
    | nil => simp at hl
    | cons x l =>
      rw [hl, List.chain'_cons] at hch
      exact ⟨x, rfl, hch.1⟩
  · exact hch.tail

/-- `DFS` from the start room of a searchable graph returns when given fuel
`3 * (number of rooms) + 1`, and every recorded path is good. -/
theorem DFS_wellFormed (g : Graph) (hwf : Searchable g) (fuel : Nat)
    (hfuel : 3 * g.Rooms.length + 1 ≤ fuel) :
    ∃ res, DFS fuel g.StartRoomName g.EndRoomName g "" [] = some res ∧
      ∀ p ∈ res.2, GoodPath g p := by
  obtain ⟨s, hs⟩ := Option.isSome_iff_exists.mp hwf.2.1
  have hv : s.Visited = false := (hwf.2.2 s (findRoom_some hs).2).1
  have hU : unvisited g ≤ g.Rooms.length := List.countP_le_length _
  have hpre : DfsPre g g fuel g.StartRoomName "" :=
    ⟨GraphRel.graphRefl g, Or.inr (Or.inl ⟨rfl, rfl, by omega, Or.inl ⟨s, hs, hv⟩⟩)⟩
  obtain ⟨res, hres, -, hpaths⟩ := DFS_total g hwf fuel _ g "" [] hpre
  refine ⟨res, hres, ?_⟩
  intro p hp
  rcases hpaths p hp with h | h
  · simp at h
  · exact h

/-- C1: for every colony built with `AddRoom`/`AddLinks` from non-empty room
names without `-` (the reader of the colony file takes a line with a `-` for a
link, so no room name holds one), with declared start and end rooms that
differ and no self-link (duplicate links make `AddLinks` fail), the call
`DFS(start, end, g, "", &paths)` returns for every fuel of at least
`3 * (number of rooms) + 1`, and every route string it appended splits on `-`
into pairwise distinct room names, the first a connection of the start room,
the last the end room, each a connection of the room before it.  Distinctness
of the room names and reachability of the end room are not needed. -/
theorem DFS_routes (ants : Int) (s e : String) (rooms : List String)
    (links : List (String × String)) (g : Graph) (fuel : Nat)
    (hg : colony ants s e rooms links = some g)
    (hne : ∀ n ∈ rooms, n ≠ "" ∧ '-' ∉ n.data)
    (hse : s ≠ e) (hs : s ∈ rooms) (he : e ∈ rooms) (hl : ∀ l ∈ links, l.1 ≠ l.2)
    (hfuel : 3 * rooms.length + 1 ≤ fuel) :
    ∃ res, DFS fuel s e g "" [] = some res ∧ ∀ p ∈ res.2, IsRoute g (Split p '-') := by
  obtain ⟨hwf, hnames, hS, hE⟩ :=
    colony_wellFormed ants s e rooms links g hg (fun n hn => (hne n hn).1) hse hs he hl
  have hlen : g.Rooms.length = rooms.length := by rw [← hnames]; simp
  obtain ⟨res, hres, hpaths⟩ :=
    DFS_wellFormed g hwf.searchable fuel (by rw [hlen]; exact hfuel)
  rw [hS, hE] at hres
  refine ⟨res, hres, ?_⟩
  intro p hp
  obtain ⟨chain, hpeq, hchain⟩ := hpaths p hp
  have hdash : ∀ x ∈ chain ++ [g.EndRoomName], ∀ c ∈ x.data, c ≠ '-' := by
    intro x hx c hc hcd
    obtain ⟨t, ht⟩ := chain'_mem_adj _ _ hchain.2 x hx
    have hdecl := declared_of_adj hwf.searchable ht
    rw [Graph.getRoom, findRoom_isSome_iff, hnames] at hdecl
    exact (hne x hdecl).2 (hcd ▸ hc)
  rw [hpeq, Split_encodeChain chain g.EndRoomName
    (fun x hx => hdash x (List.mem_append_left _ hx))
    (hdash g.EndRoomName (List.mem_append_right _ (List.mem_singleton_self _)))]
  exact IsRoute_of_ChainOK hchain

/-- Witness of `DFS_routes`: the diamond colony. -/
theorem DFS_routes_witness :
    colony 2 "start" "end" ["start", "A", "B", "end"]
      [("start", "A"), ("A", "end"), ("start", "B"), ("B", "end")] = some diamondGraph ∧
    (∀ n ∈ ["start", "A", "B", "end"], n ≠ "" ∧ '-' ∉ n.data) ∧
    "start" ≠ "end" ∧ "start" ∈ ["start", "A", "B", "end"] ∧
    "end" ∈ ["start", "A", "B", "end"] ∧
    (∀ l ∈ [("start", "A"), ("A", "end"), ("start", "B"), ("B", "end")], l.1 ≠ l.2) ∧
    3 * ["start", "A", "B", "end"].length + 1 ≤ 13 ∧
    ∃ res, DFS 13 "start" "end" diamondGraph "" [] = some res ∧
      ∀ p ∈ res.2, IsRoute diamondGraph (Split p '-') :=
  ⟨by decide, by decide, by decide, by decide, by decide, by decide, by decide,
    DFS_routes 2 "start" "end" ["start", "A", "B", "end"]
      [("start", "A"), ("A", "end"), ("start", "B"), ("B", "end")] diamondGraph 13
      (by decide) (by decide) (by decide) (by decide) (by decide) (by decide) (by decide)⟩

/-! ## The pipeline of `main` -/

theorem main_mono_le (k fuel : Nat) (g : Graph) (rd : Graph × List String)
    (rb : Graph × List String × List String)
    (hd : DFS k g.StartRoomName g.EndRoomName g "" [] = some rd)
    (hb : BFS k (DeepCopyGraph g).StartRoomName (DeepCopyGraph g).EndRoomName (DeepCopyGraph g)
      [] [] = some rb) :
    main (fuel + k) g = main k g := by
  unfold main
  dsimp only
  rw [DFS_mono_le k (fuel + k) (by omega) _ _ _ _ _ rd hd,
    BFS_mono_le k (fuel + k) (by omega) _ _ _ _ _ rb hb, hd, hb]

theorem assignQueues_nil_succ (n : Nat) : assignQueues (n + 1) [] = none := by
  unfold assignQueues
  rw [List.range'_succ, List.foldlM_cons]
  rfl

/-- C12 fails on the code: for every ant count `n >= 1` the call
`AntSender(n, [])` does not return (the access `pathLists[0]` is out of range),
so no zero-turn schedule reaches the `len(..) == 0` test of `main`.  In the
colony with rooms `start`, `end`, `a`, `b`, links `start-a`, `end-b` and one
ant, both searches return the empty route list and `main` ends in that panic
without printing a failure line, whatever fuel beyond the needed depth is
given. -/
theorem AntSender_no_routes_faults (n fuel : Nat) :
    AntSender (n + 1) [] = none ∧
    colony 1 "start" "end" ["start", "end", "a", "b"] [("start", "a"), ("end", "b")] =
      some cutGraph ∧
    (DFS (fuel + 4) "start" "end" cutGraph "" []).map Prod.snd = some [] ∧
    (BFS (fuel + 4) "start" "end" (DeepCopyGraph cutGraph) [] []).map (fun r => r.2.1) =
      some [] ∧
    main (fuel + 4) cutGraph = none := by
  refine ⟨?_, by decide, ?_, ?_, ?_⟩
  · unfold AntSender
    dsimp only
    rw [List.map_nil, assignQueues_nil_succ]
  · have h4 : (DFS 4 "start" "end" cutGraph "" []).map Prod.snd = some [] := by decide
    obtain ⟨r, hr, hr2⟩ := Option.map_eq_some'.mp h4
    rw [DFS_mono_le 4 (fuel + 4) (by omega) _ _ _ _ _ r hr]
    exact congrArg some hr2
  · have h4 : (BFS 4 "start" "end" (DeepCopyGraph cutGraph) [] []).map (fun r => r.2.1) =
        some [] := by decide
    obtain ⟨r, hr, hr2⟩ := Option.map_eq_some'.mp h4
    rw [BFS_mono_le 4 (fuel + 4) (by omega) _ _ _ _ _ r hr]
    exact congrArg some hr2
  · have hd : (DFS 4 cutGraph.StartRoomName cutGraph.EndRoomName cutGraph "" []).isSome := by
      decide
    have hb : (BFS 4 (DeepCopyGraph cutGraph).StartRoomName (DeepCopyGraph cutGraph).EndRoomName
        (DeepCopyGraph cutGraph) [] []).isSome := by decide
    obtain ⟨rd, hrd⟩ := Option.isSome_iff_exists.mp hd
    obtain ⟨rb, hrb⟩ := Option.isSome_iff_exists.mp hb
    rw [main_mono_le 4 fuel cutGraph rd rb hrd hrb]
    decide

/-- C18: the colony with rooms `start`, `A`, `B`, `end`, links `start-A`,
`A-end`, `A-B`, `B-end` and 3 ants is built as `crossGraph`; the routes of
`DFS` are `A-end` and `A-B-end`, the route of `BFS` is `A-end`, the schedule of
the `DFS` routes has three turns and the one of the `BFS` route four, so `main`
prints the former; its first turn holds the tokens of ants 1 and 3, which both
move into room `A`, and `A` is not the end room. -/
theorem cross_schedule_shares_room (fuel : Nat) :
    colony 3 "start" "end" ["start", "A", "B", "end"]
      [("start", "A"), ("A", "end"), ("A", "B"), ("B", "end")] = some crossGraph ∧
    (DFS (fuel + 7) "start" "end" crossGraph "" []).map Prod.snd = some ["A-end", "A-B-end"] ∧
    (BFS (fuel + 7) "start" "end" (DeepCopyGraph crossGraph) [] []).map (fun r => r.2.1) =
      some ["A-end"] ∧
    AntSender 3 (lenSorter ["A-end", "A-B-end"]) =
      some ["L1-A L3-A", "L1-end L2-A L3-B", "L2-end L3-end"] ∧
    AntSender 3 (lenSorter ["A-end"]) = some ["L1-A", "L1-end L2-A", "L2-end L3-A", "L3-end"] ∧
    main (fuel + 7) crossGraph = some ["L1-A L3-A", "L1-end L2-A L3-B", "L2-end L3-end"] ∧
    "L1-A L3-A" = Join [moveToken (1, "A"), moveToken (3, "A")] " " ∧
    (1 : Nat) ≠ 3 ∧ "A" ≠ crossGraph.EndRoomName := by
  refine ⟨by decide, ?_, ?_, by decide, by decide, ?_, by decide, by decide, by decide⟩
  · have h7 : (DFS 7 "start" "end" crossGraph "" []).map Prod.snd =
        some ["A-end", "A-B-end"] := by decide
    obtain ⟨r, hr, hr2⟩ := Option.map_eq_some'.mp h7
    rw [DFS_mono_le 7 (fuel + 7) (by omega) _ _ _ _ _ r hr]
    exact congrArg some hr2
  · have h7 : (BFS 7 "start" "end" (DeepCopyGraph crossGraph) [] []).map (fun r => r.2.1) =
        some ["A-end"] := by decide
    obtain ⟨r, hr, hr2⟩ := Option.map_eq_some'.mp h7
    rw [BFS_mono_le 7 (fuel + 7) (by omega) _ _ _ _ _ r hr]
    exact congrArg some hr2
  · have hd : (DFS 7 crossGraph.StartRoomName crossGraph.EndRoomName crossGraph "" []).isSome := by
      decide
    have hb : (BFS 7 (DeepCopyGraph crossGraph).StartRoomName
        (DeepCopyGraph crossGraph).EndRoomName (DeepCopyGraph crossGraph) [] []).isSome := by
      decide
    obtain ⟨rd, hrd⟩ := Option.isSome_iff_exists.mp hd
    obtain ⟨rb, hrb⟩ := Option.isSome_iff_exists.mp hb
    rw [main_mono_le 7 fuel crossGraph rd rb hrd hrb]
    decide

/-! ## Declaring rooms -/

theorem findRoom_append (n : String) (rs rs2 : List Room) :
    findRoom n (rs ++ rs2) = (findRoom n rs).orElse fun _ => findRoom n rs2 := by
  induction rs with
  | nil => rfl
  | cons a rs ih =>
    rw [List.cons_append]
    by_cases h : a.Roomname = n
    · simp [findRoom, h]
    · rw [findRoom, if_neg h, ih, findRoom, if_neg h]

/-- C16, as stated, fails: `AddRoom` has no failure exit.  Declaring the name
`A` a second time yields a graph with two rooms named `A`. -/
theorem AddRoom_duplicate_counterexample :
    (({ Rooms := [], StartRoomName := "start", EndRoomName := "end", Ants := 1 } :
      Graph).AddRoom "A").AddRoom "A" =
      { Rooms := [{ Roomname := "A", Connections := [], Visited := false },
          { Roomname := "A", Connections := [], Visited := false }],
        StartRoomName := "start", EndRoomName := "end", Ants := 1 } := by
  decide

/-- C16, amended: `AddRoom(name)` always appends a room with the given name,
an empty connection list and `Visited = false`, and changes nothing else,
whether or not a room of that name exists.  A lookup of `name` afterwards
yields the room that had this name before, if there was one, and the new room
otherwise; lookups of other names are not affected. -/
theorem AddRoom_appends (g : Graph) (name : String) :
    (g.AddRoom name).Rooms =
      g.Rooms ++ [{ Roomname := name, Connections := [], Visited := false }] ∧
    (g.AddRoom name).StartRoomName = g.StartRoomName ∧
    (g.AddRoom name).EndRoomName = g.EndRoomName ∧
    (g.AddRoom name).Ants = g.Ants ∧
    (g.AddRoom name).getRoom name =
      some ((g.getRoom name).getD { Roomname := name, Connections := [], Visited := false }) ∧
    ∀ m, m ≠ name → (g.AddRoom name).getRoom m = g.getRoom m := by
  refine ⟨rfl, rfl, rfl, rfl, ?_, ?_⟩
  · show findRoom name (g.Rooms ++ _) = _
    rw [findRoom_append]
    cases h : findRoom name g.Rooms with
    | none => simp [Graph.getRoom, h, findRoom]
    | some r => simp [Graph.getRoom, h]
  · intro m hm
    show findRoom m (g.Rooms ++ _) = _
    rw [findRoom_append]
    cases h : findRoom m g.Rooms with
    | none => simp [Graph.getRoom, h, findRoom, Ne.symm hm]
    | some r => simp [Graph.getRoom, h]

/-! ## The room check of the validator -/

theorem containsAux_iff (sub : List Char) (l : List Char) :
    containsAux sub l = true ↔ sub <:+: l := by
  induction l with
  | nil => simp [containsAux, List.isEmpty_iff]
  | cons c cs ih =>
    unfold containsAux
    rw [Bool.or_eq_true, ih, List.isPrefixOf_iff_prefix, List.infix_cons_iff]

theorem Join_infix (slice : List String) (sep elem : String) (h : elem ∈ slice) :
    elem.data <:+: (Join slice sep).data := by
  induction slice with
  | nil => simp at h
  | cons w ws ih =>
    cases ws with
    | nil =>
      have : elem = w := by simpa using h
      rw [this]; exact List.infix_refl _
    | cons w2 ws =>
      rw [Join_cons_cons_data]
      rcases List.mem_cons.mp h with h1 | h1
      · rw [h1]
        exact ⟨[], sep.data ++ (Join (w2 :: ws) sep).data, by simp⟩
      · obtain ⟨p, q, hpq⟩ := ih h1
        exact ⟨w.data ++ sep.data ++ p, q, by rw [← hpq]; simp⟩

/-- C20 fails on the code: `Contains` tests whether `elem` occurs inside the
room names joined by a separator, so it is true for every declared name but
also for `a` when the rooms are `start`, `ab`, `end`; the room check then
accepts the link `a-end` although `a` is no declared room, while it rejects
`x-end`. -/
theorem Contains_is_substring_test :
    (∀ slice elem, elem ∈ slice → Contains slice elem = true) ∧
    Contains ["start", "ab", "end"] "a" = true ∧
    "a" ∉ ["start", "ab", "end"] ∧
    CheckRoomsInConnectionsPresent ["a-end"] ["start", "ab", "end"] = some true ∧
    CheckRoomsInConnectionsPresent ["x-end"] ["start", "ab", "end"] = some false := by
  refine ⟨?_, by decide, by decide, by decide, by decide⟩
  intro slice elem h
  unfold Contains stringsContains
  rw [containsAux_iff]
  exact Join_infix slice _ elem h

/-! ## Linking rooms -/

theorem mem_conns_addConn (g : Graph) (n c x y : String) (hn : (g.getRoom n).isSome) :
    y ∈ (g.modify n (Room.addConn c)).conns x ↔ y ∈ g.conns x ∨ (x = n ∧ y = c) := by
  obtain ⟨r, hr⟩ := Option.isSome_iff_exists.mp hn
  unfold Graph.conns
  rw [getRoom_modify g n x (Room.addConn c) (fun _ => rfl)]
  by_cases hx : x = n
  · subst hx
    rw [if_pos rfl, hr]
    simp [Room.addConn]
  · rw [if_neg hx]
    simp [hx]

theorem isSome_getRoom_modify (g : Graph) (n m : String) (f : Room → Room)
    (hf : ∀ r, (f r).Roomname = r.Roomname) (h : (g.getRoom m).isSome) :
    ((g.modify n f).getRoom m).isSome := by
  rw [getRoom_modify g n m f hf]
  split
  · rename_i hmn
    rw [← hmn]
    obtain ⟨r, hr⟩ := Option.isSome_iff_exists.mp h
    simp [hr]
  · exact h

theorem conns_AddRoom (g : Graph) (n x : String) : (g.AddRoom n).conns x = g.conns x := by
  unfold Graph.conns Graph.getRoom Graph.AddRoom
  dsimp only
  rw [findRoom_append]
  cases h : findRoom x g.Rooms with
  | some r => simp
  | none =>
    by_cases hx : n = x
    · simp [findRoom, hx]
    · simp [findRoom, hx]

theorem LinkInv_AddLinks {s e : String} {done : List (String × String)} {g g2 : Graph}
    (h : LinkInv s e done g) (hse : s ≠ e) (a b : String) (hab : a ≠ b)
    (hg : g.AddLinks a b = some g2) : LinkInv s e (done ++ [(a, b)]) g2 := by
  obtain ⟨hS, hE, hiff⟩ := h
  unfold Graph.AddLinks at hg
  cases hfa : g.getRoom a with
  | none => rw [hfa] at hg; simp at hg
  | some fromRoom =>
    cases hfb : g.getRoom b with
    | none => rw [hfa, hfb] at hg; simp at hg
    | some toRoom =>
      rw [hfa, hfb] at hg
      dsimp only at hg
      have hna : fromRoom.Roomname = a := (findRoom_some hfa).1
      have hnb : toRoom.Roomname = b := (findRoom_some hfb).1
      have hda : (g.getRoom a).isSome := by simp [hfa]
      have hdb : (g.getRoom b).isSome := by simp [hfb]
      rw [hna, hnb, hS, hE] at hg
      have key : ∀ x y : String, ((x, y) ∈ done ++ [(a, b)] ∨ (y, x) ∈ done ++ [(a, b)]) ↔
          (((x, y) ∈ done ∨ (y, x) ∈ done) ∨ (x = a ∧ y = b) ∨ (x = b ∧ y = a)) := by
        intro x y
        simp only [List.mem_append, List.mem_singleton, Prod.mk.injEq]
        tauto
      split at hg
      · simp at hg
      · split at hg
        · rename_i hae
          rw [← Option.some.inj hg]
          refine ⟨hS, hE, ?_⟩
          intro x y
          rw [mem_conns_addConn g b a x y hdb, hiff, key]
          constructor
          · rintro (⟨h1, h2, h3⟩ | ⟨h1, h2⟩)
            · exact ⟨h1, h2, Or.inl h3⟩
            · subst h1 h2
              exact ⟨fun hb => hab (hae.trans hb.symm), fun has => hse (has.symm.trans hae),
                Or.inr (Or.inr ⟨rfl, rfl⟩)⟩
          · rintro ⟨h1, h2, h3 | ⟨h4, h5⟩ | ⟨h4, h5⟩⟩
            · exact Or.inl ⟨h1, h2, h3⟩
            · exact absurd (h4.trans hae) h1
            · exact Or.inr ⟨h4, h5⟩
        · split at hg
          · rename_i hae hbe
            rw [← Option.some.inj hg]
            refine ⟨hS, hE, ?_⟩
            intro x y
            rw [mem_conns_addConn g a b x y hda, hiff, key]
            constructor
            · rintro (⟨h1, h2, h3⟩ | ⟨h1, h2⟩)
              · exact ⟨h1, h2, Or.inl h3⟩
              · subst h1 h2
                exact ⟨hae, fun hbs => hse (hbs.symm.trans hbe), Or.inr (Or.inl ⟨rfl, rfl⟩)⟩
            · rintro ⟨h1, h2, h3 | ⟨h4, h5⟩ | ⟨h4, h5⟩⟩
              · exact Or.inl ⟨h1, h2, h3⟩
              · exact Or.inr ⟨h4, h5⟩
              · exact absurd (h4.trans hbe) h1
          · split at hg
            · rename_i hae hbe hbs
              rw [← Option.some.inj hg]
              refine ⟨hS, hE, ?_⟩
              intro x y
              rw [mem_conns_addConn g b a x y hdb, hiff, key]
              constructor
              · rintro (⟨h1, h2, h3⟩ | ⟨h1, h2⟩)
                · exact ⟨h1, h2, Or.inl h3⟩
                · subst h1 h2
                  exact ⟨hbe, fun has => hab (has.trans hbs.symm), Or.inr (Or.inr ⟨rfl, rfl⟩)⟩
              · rintro ⟨h1, h2, h3 | ⟨h4, h5⟩ | ⟨h4, h5⟩⟩
                · exact Or.inl ⟨h1, h2, h3⟩
                · exact absurd (h5.trans hbs) h2
                · exact Or.inr ⟨h4, h5⟩
            · split at hg
              · rename_i hae hbe hbs has
                rw [← Option.some.inj hg]
                refine ⟨hS, hE, ?_⟩
                intro x y
                rw [mem_conns_addConn g a b x y hda, hiff, key]
                constructor
                · rintro (⟨h1, h2, h3⟩ | ⟨h1, h2⟩)
                  · exact ⟨h1, h2, Or.inl h3⟩
                  · subst h1 h2
                    exact ⟨hae, hbs, Or.inr (Or.inl ⟨rfl, rfl⟩)⟩
                · rintro ⟨h1, h2, h3 | ⟨h4, h5⟩ | ⟨h4, h5⟩⟩
                  · exact Or.inl ⟨h1, h2, h3⟩
                  · exact Or.inr ⟨h4, h5⟩
                  · exact absurd (h5.trans has) h2
              · rename_i hae hbe hbs has
                rw [← Option.some.inj hg]
                refine ⟨hS, hE, ?_⟩
                intro x y
                rw [mem_conns_addConn (g.modify a (Room.addConn b)) b a x y
                  (isSome_getRoom_modify g a b (Room.addConn b) (fun _ => rfl) hdb),
                  mem_conns_addConn g a b x y hda, hiff, key]
                constructor
                · rintro ((⟨h1, h2, h3⟩ | ⟨h1, h2⟩) | ⟨h1, h2⟩)
                  · exact ⟨h1, h2, Or.inl h3⟩
                  · subst h1 h2
                    exact ⟨hae, hbs, Or.inr (Or.inl ⟨rfl, rfl⟩)⟩
                  · subst h1 h2
                    exact ⟨hbe, has, Or.inr (Or.inr ⟨rfl, rfl⟩)⟩
                · rintro ⟨h1, h2, h3 | ⟨h4, h5⟩ | ⟨h4, h5⟩⟩
                  · exact Or.inl (Or.inl ⟨h1, h2, h3⟩)
                  · exact Or.inl (Or.inr ⟨h4, h5⟩)
                  · exact Or.inr ⟨h4, h5⟩

theorem LinkInv_AddRoom {s e : String} {done : List (String × String)} {g : Graph}
    (h : LinkInv s e done g) (n : String) : LinkInv s e done (g.AddRoom n) := by
  refine ⟨h.1, h.2.1, ?_⟩
  intro x y
  rw [conns_AddRoom]
  exact h.2.2 x y

theorem LinkInv_build {s e : String} (hse : s ≠ e) (steps : List BuildStep) :
    ∀ (done : List (String × String)) (g g2 : Graph), LinkInv s e done g →
      (∀ l ∈ linksOf steps, l.1 ≠ l.2) → g.build steps = some g2 →
      LinkInv s e (done ++ linksOf steps) g2 := by
  induction steps with
  | nil =>
    intro done g g2 h _ hg
    have : g = g2 := by simpa [Graph.build] using hg
    rw [← this]
    simpa [linksOf] using h
  | cons st steps ih =>
    intro done g g2 h hl hg
    unfold Graph.build at hg
    rw [List.foldlM_cons] at hg
    cases st with
    | room name =>
      exact ih done (g.AddRoom name) g2 (LinkInv_AddRoom h name) hl hg
    | link a b =>
      dsimp only at hg
      cases h1 : g.AddLinks a b with
      | none => rw [h1] at hg; simp at hg
      | some g1 =>
        rw [h1] at hg
        have hab : a ≠ b := hl (a, b) (by simp [linksOf])
        have := ih (done ++ [(a, b)]) g1 g2 (LinkInv_AddLinks h hse a b hab h1)
          (fun l hlm => hl l (by simp [linksOf, hlm])) hg
        simpa [linksOf] using this

theorem LinkInv_init (s e : String) (ants : Int) :
    LinkInv s e [] { Rooms := [], StartRoomName := s, EndRoomName := e, Ants := ants } := by
  refine ⟨rfl, rfl, ?_⟩
  intro x y
  simp [Graph.conns, Graph.getRoom, findRoom]

theorem linksOf_rooms_links (rooms : List String) (links : List (String × String)) :
    linksOf (rooms.map BuildStep.room ++ links.map fun l => BuildStep.link l.1 l.2) = links := by
  induction rooms with
  | nil =>
    induction links with
    | nil => rfl
    | cons l links ih => simpa [linksOf] using ih
  | cons n rooms ih => simpa [linksOf] using ih

theorem colony_eq_build (ants : Int) (s e : String) (rooms : List String)
    (links : List (String × String)) :
    colony ants s e rooms links =
      ({ Rooms := [], StartRoomName := s, EndRoomName := e, Ants := ants } : Graph).build
        (rooms.map BuildStep.room ++ links.map fun l => BuildStep.link l.1 l.2) := by
  unfold colony Graph.build
  generalize ({ Rooms := [], StartRoomName := s, EndRoomName := e, Ants := ants } : Graph) = g
  induction rooms generalizing g with
  | nil =>
    simp only [List.map_nil, List.nil_append, List.foldl_nil]
    induction links generalizing g with
    | nil => rfl
    | cons l links ih =>
      rw [List.map_cons, List.foldlM_cons, List.foldlM_cons]
      dsimp only
      cases h1 : g.AddLinks l.1 l.2 with
      | none => rfl
      | some g1 => exact ih g1
  | cons n rooms ih =>
    rw [List.foldl_cons, List.map_cons, List.cons_append, List.foldlM_cons]
    exact ih (g.AddRoom n)

theorem colony_LinkInv (ants : Int) (s e : String) (rooms : List String)
    (links : List (String × String)) (g : Graph) (hse : s ≠ e) (hl : ∀ l ∈ links, l.1 ≠ l.2)
    (hg : colony ants s e rooms links = some g) : LinkInv s e links g := by
  rw [colony_eq_build] at hg
  have := LinkInv_build hse _ [] _ g (LinkInv_init s e ants)
    (by rw [linksOf_rooms_links]; exact hl) hg
  rwa [linksOf_rooms_links, List.nil_append] at this


theorem contains_iff (l : List String) (n : String) : contains l n = true ↔ n ∈ l := by
  induction l with
  | nil => simp [contains]
  | cons a l ih =>
    unfold contains
    by_cases h : a = n
    · simp [h]
    · rw [if_neg h, ih]
      simp [Ne.symm h]

theorem AddLinks_eq_none_iff (g : Graph) (a b : String) :
    g.AddLinks a b = none ↔
      g.getRoom a = none ∨ g.getRoom b = none ∨ b ∈ g.conns a ∨ a ∈ g.conns b := by
  unfold Graph.AddLinks
  cases hfa : g.getRoom a with
  | none => simp
  | some fromRoom =>
    cases hfb : g.getRoom b with
    | none => simp
    | some toRoom =>
      dsimp only
      rw [conns_of_getRoom hfa, conns_of_getRoom hfb]
      by_cases hc : (contains fromRoom.Connections b || contains toRoom.Connections a) = true
      · rw [if_pos hc]
        rw [Bool.or_eq_true, contains_iff, contains_iff] at hc
        simp [hc]
      · rw [if_neg hc]
        rw [Bool.or_eq_true, contains_iff, contains_iff] at hc
        have : ¬ (False ∨ False ∨ b ∈ fromRoom.Connections ∨ a ∈ toRoom.Connections) := by
          simpa using hc
        constructor
        · intro h
          exfalso
          repeat' split at h
          all_goals exact Option.noConfusion h
        · intro h
          simp only [false_or, reduceCtorEq] at h
          exact absurd h hc

theorem names_modify_addConn (g : Graph) (n c : String) :
    (g.modify n (Room.addConn c)).Rooms.map Room.Roomname = g.Rooms.map Room.Roomname :=
  names_modifyRoom n (Room.addConn c) (fun _ => rfl) g.Rooms

theorem names_build (steps : List BuildStep) : ∀ (g g2 : Graph), g.build steps = some g2 →
    g2.Rooms.map Room.Roomname = g.Rooms.map Room.Roomname ++ roomsOf steps ∧
    g2.StartRoomName = g.StartRoomName ∧ g2.EndRoomName = g.EndRoomName := by
  induction steps with
  | nil =>
    intro g g2 hg
    have : g = g2 := by simpa [Graph.build] using hg
    rw [← this]
    simp [roomsOf]
  | cons st steps ih =>
    intro g g2 hg
    unfold Graph.build at hg
    rw [List.foldlM_cons] at hg
    cases st with
    | room name =>
      obtain ⟨h1, h2, h3⟩ := ih (g.AddRoom name) g2 hg
      refine ⟨?_, h2, h3⟩
      rw [h1]
      simp [Graph.AddRoom, roomsOf]
    | link a b =>
      dsimp only at hg
      cases h1 : g.AddLinks a b with
      | none => rw [h1] at hg; simp at hg
      | some g1 =>
        rw [h1] at hg
        obtain ⟨h2, h3, h4⟩ := ih g1 g2 hg
        have hnames : g1.Rooms.map Room.Roomname = g.Rooms.map Room.Roomname ∧
            g1.StartRoomName = g.StartRoomName ∧ g1.EndRoomName = g.EndRoomName := by
          unfold Graph.AddLinks at h1
          repeat' split at h1
          all_goals first
            | exact Option.noConfusion h1
            | (rw [← Option.some.inj h1]
               refine ⟨?_, rfl, rfl⟩
               simp only [names_modify_addConn])
        rw [h2, h3, h4, hnames.1, hnames.2.1, hnames.2.2]
        simp [roomsOf]

theorem colony_ColonyInv (ants : Int) (s e : String) (rooms : List String)
    (links : List (String × String)) (g : Graph) (hse : s ≠ e) (hl : ∀ l ∈ links, l.1 ≠ l.2)
    (hg : colony ants s e rooms links = some g) : ColonyInv rooms s e g := by
  unfold colony at hg
  obtain ⟨h1, h2, h3⟩ := foldl_AddRoom_rooms rooms
    { Rooms := [], StartRoomName := s, EndRoomName := e, Ants := ants }
  have hinit : ColonyInv rooms s e (rooms.foldl Graph.AddRoom
      { Rooms := [], StartRoomName := s, EndRoomName := e, Ants := ants }) := by
    refine ⟨?_, h2, h3, ?_⟩
    · rw [h1, List.nil_append, List.map_map]
      exact List.map_id _
    · intro r hr
      rw [h1] at hr
      simp only [List.nil_append, List.mem_map] at hr
      obtain ⟨n, -, rfl⟩ := hr
      exact ⟨rfl, fun _ => rfl, by simp⟩
  exact foldlM_AddLinks_inv hse links hl _ g hinit hg

/-- C14: in a graph obtained from declared rooms (start and end names set and
different) by successful `AddLinks` calls, none of them a self-link, the end
room has an empty connection list and no list holds the start room's name; a
link with the end room is recorded in the other endpoint's list and not in the
end room's, a link with the start room whose other endpoint is not the end
room is recorded in the start room's list and not in the other endpoint's,
every other link is recorded in both endpoints' lists, and a list holds no
name that was not linked with its room. -/
theorem AddLinks_directionality (ants : Int) (s e : String) (rooms : List String)
    (links : List (String × String)) (g : Graph)
    (hg : colony ants s e rooms links = some g) (hse : s ≠ e)
    (hl : ∀ l ∈ links, l.1 ≠ l.2) :
    (∀ r ∈ g.Rooms, r.Roomname = e → r.Connections = []) ∧ g.conns e = [] ∧
    (∀ r ∈ g.Rooms, s ∉ r.Connections) ∧
    (∀ a b, (a, b) ∈ links ∨ (b, a) ∈ links →
      (b = e → e ∈ g.conns a ∧ a ∉ g.conns e) ∧
      (a = s → b ≠ e → b ∈ g.conns s ∧ s ∉ g.conns b) ∧
      (a ≠ s → a ≠ e → b ≠ s → b ≠ e → b ∈ g.conns a ∧ a ∈ g.conns b)) ∧
    (∀ x y, y ∈ g.conns x → (x, y) ∈ links ∨ (y, x) ∈ links) := by
  obtain ⟨-, -, -, hrooms⟩ := colony_ColonyInv ants s e rooms links g hse hl hg
  obtain ⟨-, -, hiff⟩ := colony_LinkInv ants s e rooms links g hse hl hg
  refine ⟨fun r hr => (hrooms r hr).2.1, ?_, fun r hr hs => ((hrooms r hr).2.2 s hs).2 rfl,
    ?_, fun x y h => ((hiff x y).mp h).2.2⟩
  · apply List.eq_nil_iff_forall_not_mem.mpr
    intro y hy
    exact ((hiff e y).mp hy).1 rfl
  · intro a b hab
    have hne : a ≠ b := by
      rcases hab with h | h
      · exact hl _ h
      · exact fun h2 => hl _ h h2.symm
    refine ⟨?_, ?_, ?_⟩
    · intro hbe
      subst hbe
      exact ⟨(hiff a b).mpr ⟨hne, fun h => hse h.symm, hab⟩, fun h => ((hiff b a).mp h).1 rfl⟩
    · intro has hbe
      subst has
      exact ⟨(hiff a b).mpr ⟨hse, fun h => hne h.symm, hab⟩, fun h => ((hiff b a).mp h).2.1 rfl⟩
    · intro has hae hbs hbe
      exact ⟨(hiff a b).mpr ⟨hae, hbs, hab⟩, (hiff b a).mpr ⟨hbe, has, hab.symm⟩⟩

/-- Witness of `AddLinks_directionality`: the diamond colony. -/
theorem AddLinks_directionality_witness :
    colony 2 "start" "end" ["start", "A", "B", "end"]
      [("start", "A"), ("A", "end"), ("start", "B"), ("B", "end")] = some diamondGraph ∧
    "start" ≠ "end" ∧
    (∀ l ∈ [("start", "A"), ("A", "end"), ("start", "B"), ("B", "end")], l.1 ≠ l.2) ∧
    "end" ∈ diamondGraph.conns "A" ∧ "A" ∉ diamondGraph.conns "end" :=
  have h := AddLinks_directionality 2 "start" "end" ["start", "A", "B", "end"]
    [("start", "A"), ("A", "end"), ("start", "B"), ("B", "end")] diamondGraph
    (by decide) (by decide) (by decide)
  ⟨by decide, by decide, by decide, (h.2.2.2.1 "A" "end" (Or.inl (by decide))).1 rfl⟩

/-- C15: `AddLinks(a, b)` is fatal whenever `a` or `b` is not declared; and in
a graph built from the empty graph (start and end names set and different) by
`AddRoom` and successful `AddLinks` calls, none of them a self-link, the call
`AddLinks(a, b)` with `a != b` is fatal exactly when `a` or `b` is not
declared or the pair was linked before, in either order and also when the link
was recorded in one list only; in all other cases it returns a graph. -/
theorem AddLinks_fatal_iff (ants : Int) (s e : String) (steps : List BuildStep) (g : Graph)
    (a b : String)
    (hg : Graph.build { Rooms := [], StartRoomName := s, EndRoomName := e, Ants := ants }
      steps = some g)
    (hse : s ≠ e) (hl : ∀ l ∈ linksOf steps, l.1 ≠ l.2) (hab : a ≠ b) :
    (∀ (g2 : Graph) (x y : String), g2.getRoom x = none ∨ g2.getRoom y = none →
      g2.AddLinks x y = none) ∧
    g.Rooms.map Room.Roomname = roomsOf steps ∧
    (g.AddLinks a b = none ↔
      a ∉ roomsOf steps ∨ b ∉ roomsOf steps ∨ (a, b) ∈ linksOf steps ∨ (b, a) ∈ linksOf steps) ∧
    ((g.AddLinks a b).isSome ↔
      a ∈ roomsOf steps ∧ b ∈ roomsOf steps ∧ (a, b) ∉ linksOf steps ∧
        (b, a) ∉ linksOf steps) := by
  have hnames : g.Rooms.map Room.Roomname = roomsOf steps := by
    have := (names_build steps _ g hg).1
    simpa using this
  have hinv := LinkInv_build hse steps [] _ g (LinkInv_init s e ants) hl hg
  rw [List.nil_append] at hinv
  obtain ⟨-, -, hiff⟩ := hinv
  have hdecl : ∀ x, g.getRoom x = none ↔ x ∉ roomsOf steps := by
    intro x
    rw [← hnames, ← findRoom_isSome_iff x g.Rooms, Graph.getRoom]
    cases findRoom x g.Rooms <;> simp
  have hmain : g.AddLinks a b = none ↔
      a ∉ roomsOf steps ∨ b ∉ roomsOf steps ∨ (a, b) ∈ linksOf steps ∨ (b, a) ∈ linksOf steps := by
    rw [AddLinks_eq_none_iff, hdecl, hdecl, hiff, hiff]
    constructor
    · rintro (h | h | ⟨-, -, h⟩ | ⟨-, -, h⟩)
      · exact Or.inl h
      · exact Or.inr (Or.inl h)
      · exact Or.inr (Or.inr h)
      · exact Or.inr (Or.inr h.symm)
    · rintro (h | h | h)
      · exact Or.inl h
      · exact Or.inr (Or.inl h)
      · right; right
        by_cases h1 : a ≠ e ∧ b ≠ s
        · exact Or.inl ⟨h1.1, h1.2, h⟩
        · right
          refine ⟨?_, ?_, h.symm⟩
          · intro hbe
            by_cases hae : a = e
            · exact hab (hae.trans hbe.symm)
            · exact h1 ⟨hae, fun hbs => hse (hbs.symm.trans hbe)⟩
          · intro has
            by_cases hae : a = e
            · exact hse (has.symm.trans hae)
            · exact h1 ⟨hae, fun hbs => hab (has.trans hbs.symm)⟩
  refine ⟨?_, hnames, hmain, ?_⟩
  · intro g2 x y h
    rw [AddLinks_eq_none_iff]
    rcases h with h | h
    · exact Or.inl h
    · exact Or.inr (Or.inl h)
  · rw [Option.isSome_iff_ne_none, Ne, hmain]
    tauto

/-- Witness of `AddLinks_fatal_iff`: the diamond colony, in which linking
`end` to `A` is fatal because `A` was linked to `end`. -/
theorem AddLinks_fatal_iff_witness :
    Graph.build { Rooms := [], StartRoomName := "start", EndRoomName := "end", Ants := 2 }
      [BuildStep.room "start", BuildStep.room "A", BuildStep.link "start" "A",
        BuildStep.room "B", BuildStep.room "end", BuildStep.link "A" "end",
        BuildStep.link "start" "B", BuildStep.link "B" "end"] = some diamondGraph ∧
    "start" ≠ "end" ∧
    (∀ l ∈ linksOf [BuildStep.room "start", BuildStep.room "A", BuildStep.link "start" "A",
        BuildStep.room "B", BuildStep.room "end", BuildStep.link "A" "end",
        BuildStep.link "start" "B", BuildStep.link "B" "end"], l.1 ≠ l.2) ∧
    "end" ≠ "A" ∧ diamondGraph.AddLinks "end" "A" = none :=
  ⟨by decide, by decide, by decide, by decide,
    (AddLinks_fatal_iff 2 "start" "end"
      [BuildStep.room "start", BuildStep.room "A", BuildStep.link "start" "A",
        BuildStep.room "B", BuildStep.room "end", BuildStep.link "A" "end",
        BuildStep.link "start" "B", BuildStep.link "B" "end"] diamondGraph "end" "A"
      (by decide) (by decide) (by decide)
      (by decide)).2.2.1.mpr (Or.inr (Or.inr (Or.inr (by decide))))⟩

/-! ## The log of `DFSLog` -/

theorem foldlM_erase {σ τ α : Type} (π : σ → τ) (stepL : σ → α → Option σ)
    (step : τ → α → Option τ) (h : ∀ acc i, (stepL acc i).map π = step (π acc) i) :
    ∀ (is : List α) (acc : σ), (is.foldlM stepL acc).map π = is.foldlM step (π acc) := by
  intro is
  induction is with
  | nil => intro acc; rfl
  | cons i is ih =>
    intro acc
    rw [List.foldlM_cons, List.foldlM_cons]
    have hi := h acc i
    cases hs : stepL acc i with
    | none =>
      rw [hs] at hi
      rw [← hi]
      rfl
    | some a =>
      rw [hs] at hi
      rw [← hi]
      exact ih a

theorem dfsBodyLog_erase
    (selfL : String → String → Graph → String → List String → List String →
      Option (Graph × List String × List String))
    (self : String → String → Graph → String → List String → Option (Graph × List String))
    (h : ∀ c e g p pl log, (selfL c e g p pl log).map (fun r => (r.1, r.2.1)) = self c e g p pl)
    (current end_ : String) (g : Graph) (path : String) (pl log : List String) :
    (dfsBodyLog selfL current end_ g path pl log).map (fun r => (r.1, r.2.1)) =
      dfsBody self current end_ g path pl := by
  unfold dfsBodyLog dfsBody
  cases hc : g.getRoom current with
  | none => rfl
  | some curr =>
    dsimp only
    have hvisit : ∀ (p2 : String) (acc : Graph × List String × List String) (i : Nat),
        (dfsVisitLog selfL current end_ p2 acc i).map (fun r => (r.1, r.2.1)) =
          dfsVisit self current end_ p2 (acc.1, acc.2.1) i := by
      intro p2 acc i
      unfold dfsVisitLog dfsVisit
      dsimp only
      cases acc.1.getRoom current with
      | none => rfl
      | some c =>
        dsimp only
        split
        · rfl
        · cases acc.1.getRoom (c.Connections.getD i "") with
          | none => rfl
          | some nr =>
            dsimp only
            split
            · exact h _ _ _ _ _ _
            · rfl
    unfold dfsReenterLog dfsReenter
    by_cases he : current = end_
    · rw [if_pos he, if_pos he]
      cases hs : (if current ≠ end_ then g.modify current Room.markVisited else g).getRoom
          (if current ≠ end_ then g.modify current Room.markVisited else g).StartRoomName with
      | none => rfl
      | some s =>
        dsimp only
        have hself := h (if current ≠ end_ then g.modify current Room.markVisited
            else g).StartRoomName end_
          ((if current ≠ end_ then g.modify current Room.markVisited else g).modify
            (if current ≠ end_ then g.modify current Room.markVisited else g).StartRoomName
            (Room.blankEnd (if current ≠ end_ then g.modify current Room.markVisited
              else g).EndRoomName)) ""
          (pl ++ [dfsPath g curr current path]) (log ++ [current])
        cases hr : selfL (if current ≠ end_ then g.modify current Room.markVisited
            else g).StartRoomName end_
          ((if current ≠ end_ then g.modify current Room.markVisited else g).modify
            (if current ≠ end_ then g.modify current Room.markVisited else g).StartRoomName
            (Room.blankEnd (if current ≠ end_ then g.modify current Room.markVisited
              else g).EndRoomName)) ""
          (pl ++ [dfsPath g curr current path]) (log ++ [current]) with
        | none =>
          rw [hr] at hself
          rw [← hself]
          rfl
        | some r =>
          rw [hr] at hself
          rw [← hself]
          dsimp only [Option.map_some']
          cases (r.1.modify current (Room.endToFront r.1.EndRoomName)).getRoom current with
          | none => rfl
          | some c3 =>
            dsimp only
            exact foldlM_erase (fun r : Graph × List String × List String => (r.1, r.2.1)) _ _
              (hvisit "") _ _
    · rw [if_neg he, if_neg he]
      dsimp only
      cases ((if current ≠ end_ then g.modify current Room.markVisited else g).modify current
          (Room.endToFront (if current ≠ end_ then g.modify current Room.markVisited
            else g).EndRoomName)).getRoom current with
      | none => rfl
      | some c3 =>
        dsimp only
        exact foldlM_erase (fun r : Graph × List String × List String => (r.1, r.2.1)) _ _
          (hvisit _) _ _

/-- Dropping the log from the result of `DFSLog` gives the result of `DFS`:
the log does not influence the search. -/
theorem DFSLog_erase (fuel : Nat) : ∀ (current end_ : String) (g : Graph) (path : String)
    (pl log : List String),
    (DFSLog fuel current end_ g path pl log).map (fun r => (r.1, r.2.1)) =
      DFS fuel current end_ g path pl := by
  induction fuel with
  | zero => intro _ _ _ _ _ _; rfl
  | succ fuel ih =>
    intro current end_ g path pl log
    exact dfsBodyLog_erase (DFSLog fuel) (DFS fuel) ih current end_ g path pl log

theorem getD_set_perm (l : List String) : ∀ (j : Nat) (a : String), j < l.length →
    (l.getD j "" :: l.set j a).Perm (a :: l) := by
  induction l with
  | nil => intro j a h; simp at h
  | cons x xs ih =>
    intro j a h
    cases j with
    | zero => simpa using List.Perm.swap a x xs
    | succ j =>
      have h2 : j < xs.length := by simpa using h
      have := ih j a h2
      simp only [List.getD_cons_succ, List.set_cons_succ]
      exact ((List.Perm.swap x (xs.getD j "") (xs.set j a)).trans (this.cons x)).trans
        (List.Perm.swap a x xs)

theorem swapFront_perm (cs : List String) (i : Nat) (h : i < cs.length) :
    (swapFront cs i).Perm cs := by
  cases cs with
  | nil => simp at h
  | cons a rest =>
    cases i with
    | zero => simp [swapFront]
    | succ j =>
      have h2 : j < rest.length := by simpa using h
      have : swapFront (a :: rest) (j + 1) = rest.getD j "" :: rest.set j a := by
        simp [swapFront]
      rw [this]
      exact getD_set_perm rest j a h2

theorem endToFrontList_perm (e : String) (cs : List String) : (endToFrontList e cs).Perm cs := by
  unfold endToFrontList
  have key : ∀ (is : List Nat) (l : List String), (∀ i ∈ is, i < l.length) →
      (is.foldl (fun cs i => if cs.getD i "" = e then swapFront cs i else cs) l).Perm l := by
    intro is
    induction is with
    | nil => intro l _; exact List.Perm.refl _
    | cons i is ih =>
      intro l hl
      rw [List.foldl_cons]
      have hi : i < l.length := hl i (List.mem_cons_self _ _)
      split
      · refine (ih _ ?_).trans (swapFront_perm l i hi)
        intro k hk
        rw [swapFront_length]
        exact hl k (List.mem_cons_of_mem _ hk)
      · exact ih l (fun k hk => hl k (List.mem_cons_of_mem _ hk))
  exact key _ cs (fun i hi => List.mem_range.mp hi)

theorem getD_ne_of_not_mem {l : List String} {e : String} (he : e ≠ "") (h : e ∉ l) (k : Nat) :
    l.getD k "" ≠ e := by
  intro hk
  by_cases hb : l.getD k "" = ""
  · exact he (hk.symm.trans hb)
  · exact h (hk ▸ getD_mem_of_ne hb)

theorem endToFrontList_of_not_mem (e : String) (cs : List String) (he : e ≠ "") (h : e ∉ cs) :
    endToFrontList e cs = cs := by
  unfold endToFrontList
  generalize List.range cs.length = is
  induction is with
  | nil => rfl
  | cons i is ih =>
    rw [List.foldl_cons, if_neg (getD_ne_of_not_mem he h i)]
    exact ih

theorem countP_range_getD (e : String) (l : List String) :
    (List.range l.length).countP (fun k => decide (l.getD k "" = e)) = l.count e := by
  induction l with
  | nil => rfl
  | cons x xs ih =>
    rw [List.length_cons, List.range_succ_eq_map, List.countP_cons, List.countP_map]
    have : ((fun k => decide ((x :: xs).getD k "" = e)) ∘ Nat.succ) =
        fun k => decide (xs.getD k "" = e) := by
      funext k
      simp
    rw [this, ih, List.count_cons]
    simp

theorem endBudget_modify (s e : String) (f : Room → Room) (n : String) :
    ∀ (rs : List Room) (r : Room), findRoom n rs = some r →
      ((modifyRoom n f rs).map (endWeight s e)).sum + endWeight s e r =
        (rs.map (endWeight s e)).sum + endWeight s e (f r) := by
  intro rs
  induction rs with
  | nil => intro r h; simp [findRoom] at h
  | cons a rs ih =>
    intro r h
    unfold findRoom at h
    unfold modifyRoom
    by_cases ha : a.Roomname = n
    · rw [if_pos ha] at h
      rw [if_pos ha]
      have : a = r := Option.some.inj h
      subst this
      simp only [List.map_cons, List.sum_cons]
      omega
    · rw [if_neg ha] at h
      rw [if_neg ha]
      have := ih r h
      simp only [List.map_cons, List.sum_cons]
      omega

theorem endBudget_modify_graph (s e : String) (g : Graph) (n : String) (f : Room → Room)
    (r : Room) (h : g.getRoom n = some r) :
    endBudget s e (g.modify n f) + endWeight s e r = endBudget s e g + endWeight s e (f r) :=
  endBudget_modify s e f n g.Rooms r h

theorem LogStep.stepRefl (s e : String) (g : Graph) : LogStep s e g g [] := by
  refine ⟨GraphRel.graphRefl g, by simp, by simp, ?_⟩
  intro y r r2 h1 _ h2 k hk
  rw [h1] at h2
  rw [Option.some.inj h2]
  exact hk

theorem unvisited_back {g g2 : Graph} (h : GraphRel g g2) {x : String}
    (hx : ∃ r, g2.getRoom x = some r ∧ r.Visited = false) :
    ∃ r, g.getRoom x = some r ∧ r.Visited = false := by
  obtain ⟨r2, hr2, hv⟩ := hx
  obtain ⟨r, hr, hrel⟩ := getRoom_rel_back h hr2
  refine ⟨r, hr, ?_⟩
  cases hrv : r.Visited with
  | false => rfl
  | true => rw [hrel.2.2.2 hrv] at hv; exact absurd hv (by simp)

theorem LogStep.stepTrans {s e : String} {g g1 g2 : Graph} {n1 n2 : List String}
    (h1 : LogStep s e g g1 n1) (h2 : LogStep s e g1 g2 n2) : LogStep s e g g2 (n1 ++ n2) := by
  obtain ⟨hr1, hp1, hc1, hq1⟩ := h1
  obtain ⟨hr2, hp2, hc2, hq2⟩ := h2
  refine ⟨hr1.graphTrans hr2, ?_, ?_, ?_⟩
  · intro x hx hxs hxe
    rcases List.mem_append.mp hx with h | h
    · exact ⟨(hp1 x h hxs hxe).1, visitedIn_mono hr2 (hp1 x h hxs hxe).2⟩
    · exact ⟨unvisited_back hr1 (hp2 x h hxs hxe).1, (hp2 x h hxs hxe).2⟩
  · intro x hxs hxe
    rw [List.count_append]
    by_cases hx1 : x ∈ n1
    · have hx2 : x ∉ n2 := by
        intro hx2
        obtain ⟨r, hr, hv⟩ := (hp1 x hx1 hxs hxe).2
        obtain ⟨r', hr', hv'⟩ := (hp2 x hx2 hxs hxe).1
        rw [hr] at hr'
        rw [Option.some.inj hr', hv'] at hv
        exact absurd hv (by simp)
      rw [List.count_eq_zero_of_not_mem hx2]
      exact hc1 x hxs hxe
    · rw [List.count_eq_zero_of_not_mem hx1, Nat.zero_add]
      exact hc2 x hxs hxe
  · intro y r r2 hy hv hy2 k hk
    obtain ⟨r1, hy1, hrel⟩ := getRoom_rel hr1 hy
    exact hq1 y r r1 hy hv hy1 k (hq2 y r1 r2 hy1 (hrel.2.2.2 hv) hy2 k hk)

theorem LogInv_rel {s e : String} {g g2 : Graph} (h : LogInv s e g) (hrel : GraphRel g g2) :
    LogInv s e g2 := by
  obtain ⟨h1, h2, h3, h4⟩ := h
  refine ⟨hrel.2.1.trans h1, hrel.2.2.trans h2, h3, ?_⟩
  intro r2 hr2
  obtain ⟨r, hr, hrr⟩ := getRoom_rel_back hrel hr2
  have := h4 r hr
  have hl : r2.Connections.length = 0 := by rw [hrr.2.1, this]; rfl
  exact List.length_eq_zero.mp hl

theorem modifyRoom_id (n : String) (f : Room → Room) : ∀ (rs : List Room) (r : Room),
    findRoom n rs = some r → f r = r → modifyRoom n f rs = rs := by
  intro rs
  induction rs with
  | nil => intro r h; simp [findRoom] at h
  | cons a rs ih =>
    intro r h hf
    unfold findRoom at h
    unfold modifyRoom
    by_cases ha : a.Roomname = n
    · rw [if_pos ha] at h
      rw [if_pos ha, Option.some.inj h, hf]
    · rw [if_neg ha] at h
      rw [if_neg ha, ih r h hf]

theorem modify_id (g : Graph) (n : String) (f : Room → Room) (r : Room)
    (h : g.getRoom n = some r) (hf : f r = r) : g.modify n f = g := by
  unfold Graph.modify
  rw [modifyRoom_id n f g.Rooms r h hf]

theorem endToFront_nil (e : String) (r : Room) (h : r.Connections = []) : r.endToFront e = r := by
  cases r with
  | mk n c v =>
    simp only at h
    subst h
    rfl

theorem endToFront_of_not_mem (e : String) (r : Room) (he : e ≠ "") (h : e ∉ r.Connections) :
    (r.endToFront e).Connections = r.Connections :=
  endToFrontList_of_not_mem e r.Connections he h

/-- Marking a room and swapping the end room to the front of its list. -/
theorem markSwap_step (s e : String) (g : Graph) (c : String) (r : Room)
    (hr : g.getRoom c = some r)
    (hcond : r.Visited = false ∨ (e ≠ "" ∧ e ∉ r.Connections)) :
    ((g.modify c Room.markVisited).modify c (Room.endToFront e)).getRoom c =
      some (r.markVisited.endToFront e) ∧
    LogStep s e g ((g.modify c Room.markVisited).modify c (Room.endToFront e)) [] := by
  have hg1 : (g.modify c Room.markVisited).getRoom c = some r.markVisited :=
    getRoom_modify_self g c Room.markVisited (fun _ => rfl) hr
  have hg3 : ((g.modify c Room.markVisited).modify c (Room.endToFront e)).getRoom c =
      some (r.markVisited.endToFront e) :=
    getRoom_modify_self _ c (Room.endToFront e) (fun _ => rfl) hg1
  refine ⟨hg3, ?_, by simp, by simp, ?_⟩
  · exact (modify_rel g c _ RoomRel_markVisited).graphTrans
      (modify_rel _ c _ (RoomRel_endToFront e))
  · intro y r0 r2 hy hv hy2 k hk
    by_cases hyc : y = c
    · subst hyc
      rw [hr] at hy
      rw [hg3] at hy2
      have h0 : r = r0 := Option.some.inj hy
      subst h0
      rcases hcond with h | ⟨he, hn⟩
      · rw [h] at hv; exact absurd hv (by simp)
      · rw [← Option.some.inj hy2] at hk
        rw [endToFront_of_not_mem e r.markVisited he hn] at hk
        exact hk
    · rw [getRoom_modify _ c y (Room.endToFront e) (fun _ => rfl), if_neg hyc,
        getRoom_modify g c y Room.markVisited (fun _ => rfl), if_neg hyc, hy] at hy2
      rw [Option.some.inj hy2]
      exact hk

theorem markSwap_budget_inner (s e : String) (g : Graph) (c : String) (r : Room)
    (hr : g.getRoom c = some r) (hcs : c ≠ s) (hv : r.Visited = false) :
    endBudget s e ((g.modify c Room.markVisited).modify c (Room.endToFront e)) +
      r.Connections.count e = endBudget s e g := by
  have hname : r.Roomname = c := (findRoom_some hr).1
  have hg1 : (g.modify c Room.markVisited).getRoom c = some r.markVisited :=
    getRoom_modify_self g c Room.markVisited (fun _ => rfl) hr
  have h1 := endBudget_modify_graph s e g c Room.markVisited r hr
  have h2 := endBudget_modify_graph s e (g.modify c Room.markVisited) c (Room.endToFront e)
    r.markVisited hg1
  have w0 : endWeight s e r = r.Connections.count e := by
    unfold endWeight
    rw [if_neg (by simp [hv])]
  have w1 : endWeight s e r.markVisited = 0 := by
    unfold endWeight
    rw [if_pos ⟨rfl, by show r.Roomname ≠ s; rw [hname]; exact hcs⟩]
  have w2 : endWeight s e (r.markVisited.endToFront e) = 0 := by
    unfold endWeight
    rw [if_pos ⟨rfl, by show r.Roomname ≠ s; rw [hname]; exact hcs⟩]
  omega

theorem markSwap_budget_start (s e : String) (g : Graph) (r : Room)
    (hr : g.getRoom s = some r) :
    endBudget s e ((g.modify s Room.markVisited).modify s (Room.endToFront e)) =
      endBudget s e g := by
  have hname : r.Roomname = s := (findRoom_some hr).1
  have hg1 : (g.modify s Room.markVisited).getRoom s = some r.markVisited :=
    getRoom_modify_self g s Room.markVisited (fun _ => rfl) hr
  have h1 := endBudget_modify_graph s e g s Room.markVisited r hr
  have h2 := endBudget_modify_graph s e (g.modify s Room.markVisited) s (Room.endToFront e)
    r.markVisited hg1
  have w0 : endWeight s e r = r.Connections.count e := by
    unfold endWeight
    rw [if_neg (by simp [hname])]
  have w1 : endWeight s e r.markVisited = r.Connections.count e := by
    unfold endWeight
    rw [if_neg (by show ¬ (_ ∧ r.Roomname ≠ s); simp [hname])]
    rfl
  have w2 : endWeight s e (r.markVisited.endToFront e) = r.Connections.count e := by
    unfold endWeight
    rw [if_neg (by show ¬ (_ ∧ r.Roomname ≠ s); simp [hname])]
    exact (endToFrontList_perm e r.Connections).count_eq e
  omega

theorem count_blankEnd (e : String) (he : e ≠ "") (r : Room) :
    (r.blankEnd e).Connections.count e = 0 :=
  List.count_eq_zero_of_not_mem (blankEnd_not_mem e he r)

/-- Blanking the end room in the list of the start room. -/
theorem blank_step (s e : String) (g : Graph) (r : Room) (hr : g.getRoom s = some r)
    (he : e ≠ "") :
    (g.modify s (Room.blankEnd e)).getRoom s = some (r.blankEnd e) ∧
    LogStep s e g (g.modify s (Room.blankEnd e)) [] ∧
    endBudget s e (g.modify s (Room.blankEnd e)) + (g.conns s).count e = endBudget s e g := by
  have hname : r.Roomname = s := (findRoom_some hr).1
  have hgb : (g.modify s (Room.blankEnd e)).getRoom s = some (r.blankEnd e) :=
    getRoom_modify_self g s (Room.blankEnd e) (fun _ => rfl) hr
  refine ⟨hgb, ⟨modify_rel g s _ (RoomRel_blankEnd e), by simp, by simp, ?_⟩, ?_⟩
  · intro y r0 r2 hy hv hy2 k hk
    by_cases hys : y = s
    · subst hys
      rw [hgb] at hy2
      rw [← Option.some.inj hy2] at hk
      exact absurd hk (getD_ne_of_not_mem he (blankEnd_not_mem e he r) k)
    · rw [getRoom_modify g s y (Room.blankEnd e) (fun _ => rfl), if_neg hys, hy] at hy2
      rw [Option.some.inj hy2]
      exact hk
  · have h1 := endBudget_modify_graph s e g s (Room.blankEnd e) r hr
    have w0 : endWeight s e r = r.Connections.count e := by
      unfold endWeight
      rw [if_neg (by simp [hname])]
    have w1 : endWeight s e (r.blankEnd e) = 0 := by
      unfold endWeight
      rw [if_neg (by show ¬ (_ ∧ r.Roomname ≠ s); simp [hname])]
      exact count_blankEnd e he r
    rw [conns_of_getRoom hr]
    omega

theorem dfsBodyLog_not_end_inv
    (self : String → String → Graph → String → List String → List String →
      Option (Graph × List String × List String))
    (current end_ : String) (g : Graph) (path : String) (pl log : List String)
    (res : Graph × List String × List String)
    (h : dfsBodyLog self current end_ g path pl log = some res) (hne : current ≠ end_) :
    ∃ curr c3, g.getRoom current = some curr ∧
      ((g.modify current Room.markVisited).modify current
        (Room.endToFront g.EndRoomName)).getRoom current = some c3 ∧
      (List.range c3.Connections.length).foldlM
        (dfsVisitLog self current end_ (dfsPath g curr current path))
        ((g.modify current Room.markVisited).modify current (Room.endToFront g.EndRoomName),
          pl, log ++ [current]) = some res := by
  unfold dfsBodyLog at h
  cases hc : g.getRoom current with
  | none => rw [hc] at h; exact Option.noConfusion h
  | some curr =>
    rw [hc] at h
    dsimp only at h
    rw [if_pos hne] at h
    unfold dfsReenterLog at h
    rw [if_neg hne] at h
    dsimp only at h
    have hE : (g.modify current Room.markVisited).EndRoomName = g.EndRoomName := rfl
    rw [hE] at h
    cases hc3 : ((g.modify current Room.markVisited).modify current
        (Room.endToFront g.EndRoomName)).getRoom current with
    | none => rw [hc3] at h; exact Option.noConfusion h
    | some c3 =>
      rw [hc3] at h
      exact ⟨curr, c3, rfl, rfl, h⟩

theorem dfsBodyLog_end_inv
    (self : String → String → Graph → String → List String → List String →
      Option (Graph × List String × List String))
    (end_ : String) (g : Graph) (path : String) (pl log : List String)
    (res : Graph × List String × List String)
    (h : dfsBodyLog self end_ end_ g path pl log = some res) :
    ∃ curr s0 r c3, g.getRoom end_ = some curr ∧ g.getRoom g.StartRoomName = some s0 ∧
      self g.StartRoomName end_ (g.modify g.StartRoomName (Room.blankEnd g.EndRoomName)) ""
        (pl ++ [dfsPath g curr end_ path]) (log ++ [end_]) = some r ∧
      (r.1.modify end_ (Room.endToFront r.1.EndRoomName)).getRoom end_ = some c3 ∧
      (List.range c3.Connections.length).foldlM (dfsVisitLog self end_ end_ "")
        (r.1.modify end_ (Room.endToFront r.1.EndRoomName), r.2.1, r.2.2) = some res := by
  unfold dfsBodyLog at h
  cases hc : g.getRoom end_ with
  | none => rw [hc] at h; exact Option.noConfusion h
  | some curr =>
    rw [hc] at h
    dsimp only at h
    rw [if_neg (by simp)] at h
    unfold dfsReenterLog at h
    rw [if_pos rfl] at h
    cases hs : g.getRoom g.StartRoomName with
    | none => rw [hs] at h; exact Option.noConfusion h
    | some s0 =>
      rw [hs] at h
      dsimp only at h
      cases hr : self g.StartRoomName end_
          (g.modify g.StartRoomName (Room.blankEnd g.EndRoomName)) ""
          (pl ++ [dfsPath g curr end_ path]) (log ++ [end_]) with
      | none => rw [hr] at h; exact Option.noConfusion h
      | some r =>
        rw [hr] at h
        dsimp only at h
        cases hc3 : (r.1.modify end_ (Room.endToFront r.1.EndRoomName)).getRoom end_ with
        | none => rw [hc3] at h; exact Option.noConfusion h
        | some c3 =>
          rw [hc3] at h
          exact ⟨curr, s0, r, c3, rfl, rfl, hr, hc3, h⟩

theorem dfsVisitLog_inv
    (self : String → String → Graph → String → List String → List String →
      Option (Graph × List String × List String))
    (current end_ path : String) (acc a : Graph × List String × List String) (i : Nat)
    (c : Room) (hc : acc.1.getRoom current = some c)
    (h : dfsVisitLog self current end_ path acc i = some a) :
    a = acc ∨ (c.Connections.getD i "" ≠ "" ∧
      ∃ nr, acc.1.getRoom (c.Connections.getD i "") = some nr ∧ nr.Visited = false ∧
        self (c.Connections.getD i "") end_ acc.1 path acc.2.1 acc.2.2 = some a) := by
  unfold dfsVisitLog at h
  rw [hc] at h
  dsimp only at h
  by_cases hb : c.Connections.getD i "" = ""
  · rw [if_pos hb] at h
    exact Or.inl (Option.some.inj h).symm
  · rw [if_neg hb] at h
    cases hnr : acc.1.getRoom (c.Connections.getD i "") with
    | none => rw [hnr] at h; exact Option.noConfusion h
    | some nr =>
      rw [hnr] at h
      dsimp only at h
      by_cases hv : nr.Visited = true
      · rw [if_neg (by simp [hv])] at h
        exact Or.inl (Option.some.inj h).symm
      · rw [if_pos (by simpa using hv)] at h
        rw [(findRoom_some hnr).1] at h
        exact Or.inr ⟨hb, nr, rfl, by simpa using hv, h⟩

theorem log_loop (s e : String) (fuel : Nat)
    (ih : ∀ (current : String) (g : Graph) (path : String) (pl log : List String)
      (res : Graph × List String × List String),
      DFSLog fuel current e g path pl log = some res → LogPre s e g current →
      ∃ new, res.2.2 = log ++ new ∧ LogPost s e g current res.1 new)
    (current path : String) :
    ∀ (is : List Nat) (acc res : Graph × List String × List String),
      is.foldlM (dfsVisitLog (DFSLog fuel) current e path) acc = some res →
      LogInv s e acc.1 → visitedIn acc.1 s → visitedIn acc.1 current →
      ∃ new, res.2.2 = acc.2.2 ++ new ∧ LogStep s e acc.1 res.1 new ∧
        (current = s → new.count e + endBudget s e res.1 ≤ endBudget s e acc.1) ∧
        (current ≠ s → new.count e + endBudget s e res.1 ≤ endBudget s e acc.1 +
          is.countP (fun k => decide ((acc.1.conns current).getD k "" = e))) ∧
        new.count s = new.count e := by
  intro is
  induction is with
  | nil =>
    intro acc res h _ _ _
    have : acc = res := by simpa using h
    subst this
    exact ⟨[], by simp, LogStep.stepRefl s e acc.1, by simp, by simp, rfl⟩
  | cons i is ihl =>
    intro acc res h hinv hvs hvc
    rw [List.foldlM_cons] at h
    obtain ⟨a, ha, hrest⟩ := Option.bind_eq_some.mp h
    obtain ⟨c, hc, hcv⟩ := hvc
    rcases dfsVisitLog_inv _ _ _ _ _ _ _ c hc ha with haeq | ⟨hb, nr, hnr, hnv, hcall⟩
    · subst haeq
      obtain ⟨new, h1, h2, h3, h4, h5⟩ := ihl a res hrest hinv hvs ⟨c, hc, hcv⟩
      refine ⟨new, h1, h2, h3, ?_, h5⟩
      intro hcs
      have := h4 hcs
      rw [List.countP_cons]
      omega
    · have hin : c.Connections.getD i "" ∈ c.Connections := getD_mem_of_ne hb
      have hnS : c.Connections.getD i "" ≠ s := by
        intro hS
        obtain ⟨r, hr, hv⟩ := hvs
        rw [hS, hr] at hnr
        rw [Option.some.inj hnr, hnv] at hv
        exact absurd hv (by simp)
      have hpre : LogPre s e acc.1 (c.Connections.getD i "") := by
        refine ⟨hinv, ?_⟩
        by_cases hE : c.Connections.getD i "" = e
        · exact Or.inl ⟨hE, fun h0 => hb (hE.trans h0), hvs⟩
        · exact Or.inr (Or.inr ⟨hnS, hE, hvs, nr, hnr, hnv⟩)
      obtain ⟨new1, hlog1, hstep1, hbE, hbN, hcS⟩ :=
        ih _ acc.1 path acc.2.1 acc.2.2 a hcall hpre
      rw [if_neg hnS, Nat.add_zero] at hcS
      have hrel1 : GraphRel acc.1 a.1 := hstep1.1
      obtain ⟨c1, hc1, hcrel⟩ := getRoom_rel hrel1 hc
      obtain ⟨new2, hlog2, hstep2, hbS2, hbN2, hcS2⟩ := ihl a res hrest (LogInv_rel hinv hrel1)
        (visitedIn_mono hrel1 hvs) ⟨c1, hc1, hcrel.2.2.2 hcv⟩
      refine ⟨new1 ++ new2, by rw [hlog2, hlog1, List.append_assoc], hstep1.stepTrans hstep2,
        ?_, ?_, by rw [List.count_append, List.count_append, hcS, hcS2]⟩
      · intro hcs
        have h2 := hbS2 hcs
        rw [List.count_append]
        by_cases hE : c.Connections.getD i "" = e
        · have h1 := hbE hE
          have hpos : 1 ≤ (acc.1.conns s).count e := by
            rw [← hcs, conns_of_getRoom hc]
            exact List.one_le_count_iff.mpr (hE ▸ hin)
          omega
        · have h1 := hbN hE
          omega
      · intro hcs
        have h2 := hbN2 hcs
        have hmono : is.countP (fun k => decide ((a.1.conns current).getD k "" = e)) ≤
            is.countP (fun k => decide ((acc.1.conns current).getD k "" = e)) := by
          apply List.countP_mono_left
          intro k _ hk
          rw [conns_of_getRoom hc1] at hk
          rw [conns_of_getRoom hc]
          simp only [decide_eq_true_eq] at hk ⊢
          exact hstep1.2.2.2 current c c1 hc hcv hc1 k hk
        rw [conns_of_getRoom hc] at hmono
        rw [List.count_append, List.countP_cons, conns_of_getRoom hc]
        by_cases hE : c.Connections.getD i "" = e
        · have h1 := hbE hE
          rw [if_pos (by simpa using hE)]
          omega
        · have h1 := hbN hE
          rw [if_neg (by simpa using hE)]
          omega


theorem LogStep_cons {s e : String} {g g2 : Graph} {new : List String} (x0 : String)
    (h : LogStep s e g g2 new)
    (hx : x0 = s ∨ x0 = e ∨
      ((∃ r, g.getRoom x0 = some r ∧ r.Visited = false) ∧ visitedIn g2 x0 ∧ x0 ∉ new)) :
    LogStep s e g g2 (x0 :: new) := by
  obtain ⟨h1, h2, h3, h4⟩ := h
  refine ⟨h1, ?_, ?_, h4⟩
  · intro x hxm hxs hxe
    rcases List.mem_cons.mp hxm with hx0 | hx0
    · subst hx0
      rcases hx with h | h | ⟨hu, hv, -⟩
      · exact absurd h hxs
      · exact absurd h hxe
      · exact ⟨hu, hv⟩
    · exact h2 x hx0 hxs hxe
  · intro x hxs hxe
    rw [List.count_cons]
    by_cases hx0 : x0 = x
    · subst hx0
      rcases hx with h | h | ⟨-, -, hn⟩
      · exact absurd h hxs
      · exact absurd h hxe
      · rw [List.count_eq_zero_of_not_mem hn]
        simp
    · have := h3 x hxs hxe
      simp only [beq_iff_eq, hx0, if_false]
      omega

/-- The log of a call of `DFSLog`: partial correctness of `LogPost`. -/
theorem DFSLog_post (s e : String) (fuel : Nat) :
    ∀ (current : String) (g : Graph) (path : String) (pl log : List String)
      (res : Graph × List String × List String),
      DFSLog fuel current e g path pl log = some res → LogPre s e g current →
      ∃ new, res.2.2 = log ++ new ∧ LogPost s e g current res.1 new := by
  induction fuel with
  | zero => intro _ _ _ _ _ _ h _; exact Option.noConfusion h
  | succ fuel ih =>
    intro current g path pl log res h hpre
    obtain ⟨hinv, hcase⟩ := hpre
    have hS : g.StartRoomName = s := hinv.1
    have hE : g.EndRoomName = e := hinv.2.1
    have hse : s ≠ e := hinv.2.2.1
    change dfsBodyLog (DFSLog fuel) current e g path pl log = some res at h
    rcases hcase with ⟨hcur, he, hvs⟩ | hcase
    · -- the end room is entered
      subst hcur
      obtain ⟨curr, s0, r, c3, hcurr, hs0, hself, hc3, hloop⟩ :=
        dfsBodyLog_end_inv _ _ _ _ _ _ _ h
      rw [hS] at hs0
      rw [hS, hE] at hself
      obtain ⟨hgb, hstepb, hbudb⟩ := blank_step s current g s0 hs0 he
      have hpre1 : LogPre s current (g.modify s (Room.blankEnd current)) s := by
        refine ⟨LogInv_rel hinv hstepb.1, Or.inr (Or.inl ⟨rfl, Or.inr ⟨he, ?_⟩⟩)⟩
        rw [conns_of_getRoom hgb]
        exact blankEnd_not_mem _ he s0
      obtain ⟨new1, hlog1, hstep1, -, hbud1, hcS1⟩ := ih s _ "" _ _ r hself hpre1
      rw [if_pos rfl] at hcS1
      have hinv1 : LogInv s current r.1 := LogInv_rel hinv (hstepb.1.graphTrans hstep1.1)
      obtain ⟨e1, he1, -⟩ := getRoom_rel (hstepb.1.graphTrans hstep1.1) hcurr
      have he1c : e1.Connections = [] := hinv1.2.2.2 e1 he1
      have hid : r.1.modify current (Room.endToFront r.1.EndRoomName) = r.1 :=
        modify_id r.1 current _ e1 he1 (endToFront_nil _ e1 he1c)
      rw [hid] at hc3 hloop
      rw [he1] at hc3
      rw [← Option.some.inj hc3, he1c] at hloop
      have hres : res = (r.1, r.2.1, r.2.2) := by
        have : some (r.1, r.2.1, r.2.2) = some res := hloop
        exact (Option.some.inj this).symm
      subst hres
      refine ⟨current :: new1, ?_, ?_, ?_, ?_, ?_⟩
      rotate_left 4
      · rw [List.count_cons_self, List.count_cons, if_neg (Ne.symm hse), hcS1]
        simp [Ne.symm hse]
      · show r.2.2 = _
        rw [hlog1]; simp
      · have := hstepb.stepTrans hstep1
        rw [List.nil_append] at this
        exact LogStep_cons current this (Or.inr (Or.inl rfl))
      · intro _
        have h1 := hbud1 hse
        show (current :: new1).count current + endBudget s current r.1 + _ ≤ _
        rw [List.count_cons_self]
        omega
      · intro hne
        exact absurd rfl hne
    · -- another room is entered
      have hne : current ≠ e := by
        rcases hcase with ⟨h1, -⟩ | ⟨-, h1, -⟩
        · rw [h1]; exact hse
        · exact h1
      obtain ⟨curr, c3, hcurr, hc3, hloop⟩ := dfsBodyLog_not_end_inv _ _ _ _ _ _ _ _ h hne
      rw [hE] at hc3 hloop
      have hcond : curr.Visited = false ∨ (e ≠ "" ∧ e ∉ curr.Connections) := by
        rcases hcase with ⟨h1, ⟨r, hr, hv⟩ | ⟨h2, h3⟩⟩ | ⟨-, -, -, r, hr, hv⟩
        · rw [← h1, hcurr] at hr
          left; rw [Option.some.inj hr]; exact hv
        · right
          rw [← h1, conns_of_getRoom hcurr] at h3
          exact ⟨h2, h3⟩
        · rw [hcurr] at hr
          left; rw [Option.some.inj hr]; exact hv
      obtain ⟨hg3, hstep3⟩ := markSwap_step s e g current curr hcurr hcond
      rw [hg3] at hc3
      have hc3eq : c3 = curr.markVisited.endToFront e := (Option.some.inj hc3).symm
      have hvcur : visitedIn ((g.modify current Room.markVisited).modify current
          (Room.endToFront e)) current := ⟨_, hg3, rfl⟩
      have hvs3 : visitedIn ((g.modify current Room.markVisited).modify current
          (Room.endToFront e)) s := by
        rcases hcase with ⟨h1, -⟩ | ⟨-, -, h1, -⟩
        · rw [← h1]; exact hvcur
        · exact visitedIn_mono hstep3.1 h1
      obtain ⟨new2, hlog2, hstep2, hbS, hbN, hcS2⟩ := log_loop s e fuel ih current _ _ _ res
        hloop (LogInv_rel hinv hstep3.1) hvs3 hvcur
      have hstep : LogStep s e g res.1 new2 := by
        have := hstep3.stepTrans hstep2
        rwa [List.nil_append] at this
      have hcount : (current :: new2).count e = new2.count e := by
        rw [List.count_cons]
        simp [hne]
      refine ⟨current :: new2, ?_, ?_, fun h0 => absurd h0 hne, ?_, ?_⟩
      rotate_left 3
      · rw [hcount, List.count_cons, hcS2]
        by_cases hcs : current = s
        · simp [hcs]
        · simp [hcs]
      · rw [hlog2]; simp
      · apply LogStep_cons current hstep
        rcases hcase with ⟨h1, -⟩ | ⟨hcs, -, -, r, hr, hv⟩
        · exact Or.inl h1
        · right; right
          refine ⟨⟨r, hr, hv⟩, visitedIn_mono hstep2.1 hvcur, ?_⟩
          intro hmem
          obtain ⟨⟨r3, hr3, hv3⟩, -⟩ := hstep2.2.1 current hmem hcs hne
          rw [hg3] at hr3
          rw [← Option.some.inj hr3] at hv3
          exact absurd hv3 (by simp [Room.endToFront, Room.markVisited])
      · intro _
        rw [hcount]
        by_cases hcs : current = s
        · have h1 := hbS hcs
          subst hcs
          have := markSwap_budget_start current e g curr hcurr
          simp only at h1
          omega
        · have h1 := hbN hcs
          have hv : curr.Visited = false := by
            rcases hcase with ⟨h1, -⟩ | ⟨-, -, -, r, hr, hv⟩
            · exact absurd h1 hcs
            · rw [hcurr] at hr
              rw [Option.some.inj hr]; exact hv
          have h2 := markSwap_budget_inner s e g current curr hcurr hcs hv
          have h3 : (List.range c3.Connections.length).countP (fun k =>
              decide ((((g.modify current Room.markVisited).modify current
                (Room.endToFront e)).conns current).getD k "" = e)) =
              curr.Connections.count e := by
            rw [conns_of_getRoom hg3, hc3eq, countP_range_getD]
            exact (endToFrontList_perm e curr.Connections).count_eq e
          simp only at h1
          rw [h3] at h1
          omega

theorem endBudget_unvisited (s e : String) (g : Graph) (hvis : ∀ r ∈ g.Rooms, r.Visited = false) :
    endBudget s e g = (g.Rooms.map fun r => r.Connections.count e).sum := by
  unfold endBudget
  congr 1
  apply List.map_congr_left
  intro r hr
  unfold endWeight
  rw [if_neg (by simp [hvis r hr])]

theorem sum_count_le (e : String) (rs : List Room)
    (h : ∀ r ∈ rs, r.Connections.count e ≤ 1) :
    (rs.map fun r => r.Connections.count e).sum ≤
      (rs.filter fun r => decide (e ∈ r.Connections)).length := by
  induction rs with
  | nil => exact le_refl _
  | cons a rs ih =>
    have ih2 := ih (fun r hr => h r (List.mem_cons_of_mem _ hr))
    rw [List.map_cons, List.sum_cons, List.filter_cons]
    have ha := h a (List.mem_cons_self _ _)
    by_cases hm : e ∈ a.Connections
    · rw [if_pos (by simpa using hm), List.length_cons]
      omega
    · rw [List.count_eq_zero_of_not_mem hm, if_neg (by simpa using hm)]
      omega

/-- On a graph whose start and end rooms differ, whose start room is declared,
in which every connection names a declared room, the end room's list is
empty, the start room is in no list and no room is visited, the call
`DFS(start, end, g, "", &paths)` returns for every fuel of at least
`3 * (number of rooms) + 1`.  `DFSLog`, which is `DFS` with a log of the rooms
entered, returns the same graph and paths, and in its log every room other
than start and end occurs at most once, the end room at most as often as its
name occurs in the connection lists, and the start room once more than the
end room: it is re-entered from every entry of the end room. -/
theorem DFS_entries_log (g : Graph) (fuel : Nat)
    (hse : g.StartRoomName ≠ g.EndRoomName) (hs : (g.getRoom g.StartRoomName).isSome)
    (hdecl : ∀ r ∈ g.Rooms, ∀ c ∈ r.Connections, (g.getRoom c).isSome)
    (hend : ∀ r ∈ g.Rooms, r.Roomname = g.EndRoomName → r.Connections = [])
    (hstart : ∀ r ∈ g.Rooms, g.StartRoomName ∉ r.Connections)
    (hvis : ∀ r ∈ g.Rooms, r.Visited = false)
    (hfuel : 3 * g.Rooms.length + 1 ≤ fuel) :
    ∃ res log, DFS fuel g.StartRoomName g.EndRoomName g "" [] = some res ∧
      DFSLog fuel g.StartRoomName g.EndRoomName g "" [] [] = some (res.1, res.2, log) ∧
      (∀ x, x ≠ g.StartRoomName → x ≠ g.EndRoomName → log.count x ≤ 1) ∧
      log.count g.EndRoomName ≤ (g.Rooms.map fun r => r.Connections.count g.EndRoomName).sum ∧
      log.count g.StartRoomName = log.count g.EndRoomName + 1 := by
  have hwf : Searchable g :=
    ⟨hse, hs, fun r hr => ⟨hvis r hr, hend r hr, fun c hc =>
      ⟨fun h => hstart r hr (h ▸ hc), hdecl r hr c hc⟩⟩⟩
  obtain ⟨res, hres, -⟩ := DFS_wellFormed g hwf fuel hfuel
  have her := DFSLog_erase fuel g.StartRoomName g.EndRoomName g "" [] []
  rw [hres] at her
  obtain ⟨rl, hrl, hproj⟩ := Option.map_eq_some'.mp her
  obtain ⟨s0, hs0⟩ := Option.isSome_iff_exists.mp hs
  have hpre : LogPre g.StartRoomName g.EndRoomName g g.StartRoomName := by
    refine ⟨⟨rfl, rfl, hse, ?_⟩, Or.inr (Or.inl ⟨rfl, Or.inl ⟨s0, hs0, ?_⟩⟩)⟩
    · intro r hr
      exact hend r (findRoom_some hr).2 (findRoom_some hr).1
    · exact hvis s0 (findRoom_some hs0).2
  obtain ⟨new, hlog, hstep, -, hbud, hcS⟩ :=
    DFSLog_post g.StartRoomName g.EndRoomName fuel _ g "" [] [] rl hrl hpre
  rw [if_pos rfl] at hcS
  rw [List.nil_append] at hlog
  have hb := hbud hse
  rw [endBudget_unvisited _ _ g hvis, ← hlog] at hb
  have hcountE : rl.2.2.count g.EndRoomName ≤
      (g.Rooms.map fun r => r.Connections.count g.EndRoomName).sum := by omega
  refine ⟨res, rl.2.2, hres, ?_, ?_, hcountE, ?_⟩
  · rw [hrl, ← hproj]
  · rw [hlog]; exact hstep.2.2.1
  · rw [hlog]; exact hcS

/-! ## The shortest-path-biased search `BFS` -/

theorem nodup_declared_length (g : Graph) (path : List String) (hnd : path.Nodup)
    (h : ∀ x ∈ path, (g.getRoom x).isSome) : path.length ≤ g.Rooms.length := by
  have hsub : path ⊆ g.Rooms.map Room.Roomname :=
    fun x hx => (findRoom_isSome_iff x g.Rooms).mp (h x hx)
  have := (hnd.subperm hsub).length_le
  simpa using this

theorem sp_loop (g : Graph)
    (hcl : ∀ r ∈ g.Rooms, ∀ c ∈ r.Connections, (g.getRoom c).isSome) (fuel : Nat)
    (ih : ∀ (start : String) (path pa : List String), (path ++ [start]).Nodup →
      (∀ x ∈ path, (g.getRoom x).isSome) →
      (start = g.EndRoomName ∨ (g.getRoom start).isSome) →
      g.StartRoomName ∈ path ++ [start] → g.Rooms.length + 1 ≤ fuel + path.length →
      ∃ res, ShortestPath fuel g start g.EndRoomName path pa = some res ∧
        (start = g.EndRoomName → res = (path ++ [start], pa)) ∧
        (start ≠ g.EndRoomName → res.1 = [] ∧
          ∃ new, res.2 = pa ++ new ∧ ∀ c ∈ new, Candidate g path start c))
    (start : String) (path : List String) (r : Room) (hr : g.getRoom start = some r)
    (hnd : (path ++ [start]).Nodup) (hdecl : ∀ x ∈ path, (g.getRoom x).isSome)
    (hS : g.StartRoomName ∈ path ++ [start])
    (hfuel : g.Rooms.length + 1 ≤ fuel + (path.length + 1)) :
    ∀ (nodes : List String), (∀ n ∈ nodes, n ∈ r.Connections) → ∀ pa : List String,
      ∃ pa2, nodes.foldlM
        (fun (pa : List String) node =>
          if contains (path ++ [start]) node then some pa
          else
            match g.isVisited node with
            | none => none
            | some true => some pa
            | some false =>
              match ShortestPath fuel g node g.EndRoomName (path ++ [start]) pa with
              | none => none
              | some (newPath, pa2) =>
                if newPath.length > 0 ∧ contains newPath g.StartRoomName ∧
                    contains newPath g.EndRoomName then
                  some (pa2 ++ [Sprint newPath])
                else some pa2) pa = some pa2 ∧
        ∃ new, pa2 = pa ++ new ∧ ∀ c ∈ new, Candidate g path start c := by
  intro nodes
  induction nodes with
  | nil =>
    intro _ pa
    exact ⟨pa, rfl, [], by simp, by simp⟩
  | cons node nodes ihl =>
    intro hnodes pa
    have hrest := ihl (fun n hn => hnodes n (List.mem_cons_of_mem _ hn))
    have hnode : node ∈ r.Connections := hnodes node (List.mem_cons_self _ _)
    rw [List.foldlM_cons]
    by_cases hcont : contains (path ++ [start]) node = true
    · rw [if_pos hcont]
      exact hrest pa
    · rw [if_neg hcont]
      have hnotin : node ∉ path ++ [start] := fun h => hcont ((contains_iff _ _).mpr h)
      obtain ⟨nr, hnr⟩ := Option.isSome_iff_exists.mp (hcl r (findRoom_some hr).2 node hnode)
      have hvis : g.isVisited node = some nr.Visited := by
        unfold Graph.isVisited
        rw [hnr]; rfl
      rw [hvis]
      cases hv : nr.Visited with
      | true => exact hrest pa
      | false =>
        dsimp only
        have hdecl1 : ∀ x ∈ path ++ [start], (g.getRoom x).isSome := by
          intro x hx
          rcases List.mem_append.mp hx with h | h
          · exact hdecl x h
          · rw [List.mem_singleton] at h
            rw [h, hr]; rfl
        have hnd1 : ((path ++ [start]) ++ [node]).Nodup := by
          rw [List.nodup_append]
          exact ⟨hnd, List.nodup_singleton _, by
            intro x hx hx2
            rw [List.mem_singleton] at hx2
            exact hnotin (hx2 ▸ hx)⟩
        obtain ⟨res, hres, hEnd, hNot⟩ := ih node (path ++ [start]) pa hnd1 hdecl1
          (Or.inr (by rw [hnr]; rfl)) (List.mem_append_left _ hS)
          (by rw [List.length_append]; exact hfuel)
        rw [hres]
        have hadj : node ∈ g.conns start := by rw [conns_of_getRoom hr]; exact hnode
        by_cases hE : node = g.EndRoomName
        · have hres2 := hEnd hE
          rw [hres2]
          dsimp only
          rw [if_pos ⟨by simp, (contains_iff _ _).mpr (List.mem_append_left _ hS),
            (contains_iff _ _).mpr (by rw [← hE]; simp)⟩]
          obtain ⟨pa3, hpa3, new3, hnew3, hc3⟩ := hrest (pa ++ [Sprint (path ++ [start] ++ [node])])
          refine ⟨pa3, hpa3, Sprint (path ++ [start] ++ [node]) :: new3, by rw [hnew3]; simp, ?_⟩
          intro c hc
          rcases List.mem_cons.mp hc with h | h
          · refine ⟨[], by rw [h, ← hE]; simp, ?_, ?_, ?_⟩
            · rw [List.nil_append, ← hE]
              exact List.Chain.cons hadj List.Chain.nil
            · rw [List.nil_append, ← hE]
              simpa using hnd1
            · intro x hx
              rw [List.nil_append, List.mem_singleton] at hx
              rw [hx, ← hE]
              exact ⟨nr, hnr, hv⟩
          · exact hc3 c h
        · obtain ⟨hnil, new1, hnew1, hc1⟩ := hNot hE
          have hform : res = ([], res.2) := Prod.ext hnil rfl
          rw [hform]
          dsimp only
          rw [if_neg (by simp)]
          obtain ⟨pa3, hpa3, new3, hnew3, hc3⟩ := hrest res.2
          refine ⟨pa3, hpa3, new1 ++ new3, by rw [hnew3, hnew1, List.append_assoc], ?_⟩
          intro c hc
          rcases List.mem_append.mp hc with h | h
          · obtain ⟨mid, hceq, hchain, hnodup, hunv⟩ := hc1 c h
            refine ⟨node :: mid, by rw [hceq]; simp, ?_, by simpa using hnodup, ?_⟩
            · rw [List.cons_append]
              exact List.Chain.cons hadj hchain
            · intro x hx
              rw [List.cons_append] at hx
              rcases List.mem_cons.mp hx with h2 | h2
              · rw [h2]; exact ⟨nr, hnr, hv⟩
              · exact hunv x h2
          · exact hc3 c h

/-- Total correctness of `ShortestPath` on a graph whose connections are
declared: called for a room that is not among the pairwise distinct declared
rooms of `path`, with fuel for the rooms not yet on the path, it returns; for
the end room it returns the extended path, for another room the empty slice
and a `pathArray` extended by candidates. -/
theorem ShortestPath_total (g : Graph)
    (hcl : ∀ r ∈ g.Rooms, ∀ c ∈ r.Connections, (g.getRoom c).isSome) (fuel : Nat) :
    ∀ (start : String) (path pa : List String), (path ++ [start]).Nodup →
      (∀ x ∈ path, (g.getRoom x).isSome) →
      (start = g.EndRoomName ∨ (g.getRoom start).isSome) →
      g.StartRoomName ∈ path ++ [start] → g.Rooms.length + 1 ≤ fuel + path.length →
      ∃ res, ShortestPath fuel g start g.EndRoomName path pa = some res ∧
        (start = g.EndRoomName → res = (path ++ [start], pa)) ∧
        (start ≠ g.EndRoomName → res.1 = [] ∧
          ∃ new, res.2 = pa ++ new ∧ ∀ c ∈ new, Candidate g path start c) := by
  induction fuel with
  | zero =>
    intro start path pa hnd hdecl _ _ hfuel
    have := nodup_declared_length g path (List.Nodup.of_append_left hnd) hdecl
    omega
  | succ fuel ih =>
    intro start path pa hnd hdecl hstart hS hfuel
    show ∃ res, shortestPathBody (ShortestPath fuel) g start g.EndRoomName path pa = some res ∧ _
    unfold shortestPathBody
    dsimp only
    by_cases hE : start = g.EndRoomName
    · rw [if_pos hE]
      exact ⟨_, rfl, fun _ => rfl, fun h => absurd hE h⟩
    · rw [if_neg hE]
      have hd : (g.getRoom start).isSome := by
        rcases hstart with h | h
        · exact absurd h hE
        · exact h
      obtain ⟨r, hr⟩ := Option.isSome_iff_exists.mp hd
      rw [hr]
      dsimp only
      obtain ⟨pa2, hpa2, new, hnew, hc⟩ := sp_loop g hcl fuel ih start path r hr hnd hdecl hS
        (by omega) r.Connections (fun n hn => hn) pa
      exact ⟨([], pa2), congrArg (Option.map fun pa => (([] : List String), pa)) hpa2,
        fun h => absurd h hE, fun _ => ⟨rfl, new, hnew, hc⟩⟩

theorem strLen_eq (s : String) : strLen s = String.utf8Len s.data := by
  cases s; rfl

theorem strLen_ne_zero_iff (s : String) : strLen s ≠ 0 ↔ s ≠ "" := by
  rw [strLen_eq, Ne, String.utf8Len_eq_zero]
  constructor
  · intro h h2; exact h (by rw [h2])
  · intro h h2; exact h (String.ext h2)

theorem Sprint_data (xs : List String) :
    (Sprint xs).data = '[' :: ((Join xs " ").data ++ [']']) := by
  unfold Sprint
  simp [String.data_append]

theorem stripBrackets_Sprint (xs : List String) :
    stripBrackets (Sprint xs) = some (Join xs " ") := by
  unfold stripBrackets
  have h2 : ¬ strLen (Sprint xs) < 2 := by
    rw [strLen_eq, Sprint_data]
    simp only [String.utf8Len_cons, String.utf8Len_append, String.utf8Len_nil]
    have h1 : Char.utf8Size '[' = 1 := by decide
    have h3 : Char.utf8Size ']' = 1 := by decide
    omega
  rw [if_neg h2, Sprint_data]
  simp

theorem Join_snoc_ne_empty (l : List String) (e sep : String) (he : e ≠ "") :
    Join (l ++ [e]) sep ≠ "" := by
  induction l with
  | nil => exact he
  | cons a l ih =>
    intro h
    have hd := congrArg String.data h
    cases hl : l ++ [e] with
    | nil => simp at hl
    | cons w2 ws =>
      rw [List.cons_append, hl, Join_cons_cons_data] at hd
      rw [hl] at ih
      have : (Join (w2 :: ws) sep).data = [] := by
        have h3 : ([] : List Char) = ("" : String).data := rfl
        rw [← h3] at hd
        exact (List.append_eq_nil.mp hd).2
      exact ih (String.ext this)

theorem foldl_min_mem (f : String → Nat) (l : List String) : ∀ (init : String) (L : List String),
    init ∈ L → (∀ x ∈ l, x ∈ L) →
    l.foldl (fun acc v => if f v < f acc then v else acc) init ∈ L := by
  induction l with
  | nil => intro init L h _; exact h
  | cons a l ih =>
    intro init L h hl
    rw [List.foldl_cons]
    apply ih
    · split
      · exact hl a (List.mem_cons_self _ _)
      · exact h
    · exact fun x hx => hl x (List.mem_cons_of_mem _ hx)

theorem conns_modify_mark (g : Graph) (z x : String) :
    (g.modify z Room.markVisited).conns x = g.conns x := by
  unfold Graph.conns
  rw [getRoom_modify g z x Room.markVisited (fun _ => rfl)]
  split
  · rename_i h
    rw [h]
    cases g.getRoom z <;> rfl
  · rfl

theorem BfsReady_mark (g : Graph) (z : String) (h : BfsReady g) :
    BfsReady (g.modify z Room.markVisited) := by
  obtain ⟨h1, h2, h3⟩ := h
  refine ⟨isSome_getRoom_modify g z _ _ (fun _ => rfl) h1, h2, ?_⟩
  intro r hr
  rcases mem_modifyRoom _ _ _ r hr with h | ⟨r0, hr0, -, rfl⟩
  · exact ⟨(h3 r h).1, fun c hc => isSome_getRoom_modify g z c _ (fun _ => rfl) ((h3 r h).2 c hc)⟩
  · exact ⟨(h3 r0 hr0).1,
      fun c hc => isSome_getRoom_modify g z c _ (fun _ => rfl) ((h3 r0 hr0).2 c hc)⟩

theorem markAll_spec (rooms : List String) : ∀ (g : Graph),
    GraphRel g (markAll g rooms) ∧ (BfsReady g → BfsReady (markAll g rooms)) ∧
    (∀ x, (markAll g rooms).conns x = g.conns x) ∧
    (markAll g rooms).Rooms.length = g.Rooms.length ∧
    (∀ x ∈ rooms, (g.getRoom x).isSome → visitedIn (markAll g rooms) x) := by
  induction rooms with
  | nil =>
    intro g
    exact ⟨GraphRel.graphRefl g, fun h => h, fun _ => rfl, rfl, by simp⟩
  | cons z rooms ih =>
    intro g
    obtain ⟨h1, h2, h3, h4, h5⟩ := ih (g.modify z Room.markVisited)
    have hrel : GraphRel g (g.modify z Room.markVisited) := modify_rel g z _ RoomRel_markVisited
    refine ⟨hrel.graphTrans h1, fun h => h2 (BfsReady_mark g z h),
      fun x => (h3 x).trans (conns_modify_mark g z x), ?_, ?_⟩
    · show (markAll (g.modify z Room.markVisited) rooms).Rooms.length = _
      rw [h4]
      have := congrArg List.length (names_modifyRoom z Room.markVisited (fun _ => rfl) g.Rooms)
      simpa [Graph.modify] using this
    · intro x hx hd
      rcases List.mem_cons.mp hx with h | h
      · obtain ⟨r, hr⟩ := Option.isSome_iff_exists.mp hd
        rw [h] at hr
        have : visitedIn (g.modify z Room.markVisited) z :=
          ⟨_, getRoom_modify_self g z Room.markVisited (fun _ => rfl) hr, rfl⟩
        rw [h]
        exact visitedIn_mono h1 this
      · exact h5 x h (isSome_getRoom_modify g z x _ (fun _ => rfl) hd)

theorem markAll_foldlM (rooms : List String) : ∀ (g : Graph),
    (∀ x ∈ rooms, (g.getRoom x).isSome) →
    rooms.foldlM
      (fun (g2 : Graph) z =>
        match g2.getRoom z with
        | none => none
        | some _ => some (g2.modify z Room.markVisited)) g = some (markAll g rooms) := by
  induction rooms with
  | nil => intro g _; rfl
  | cons z rooms ih =>
    intro g h
    rw [List.foldlM_cons]
    obtain ⟨r, hr⟩ := Option.isSome_iff_exists.mp (h z (List.mem_cons_self _ _))
    rw [hr]
    exact ih (g.modify z Room.markVisited)
      (fun x hx => isSome_getRoom_modify g z x _ (fun _ => rfl) (h x (List.mem_cons_of_mem _ hx)))

theorem foldl_min_le (f : String → Nat) (l : List String) : ∀ (init : String),
    f (l.foldl (fun acc v => if f v < f acc then v else acc) init) ≤ f init ∧
    ∀ x ∈ l, f (l.foldl (fun acc v => if f v < f acc then v else acc) init) ≤ f x := by
  induction l with
  | nil => intro init; exact ⟨le_refl _, by simp⟩
  | cons a l ih =>
    intro init
    rw [List.foldl_cons]
    obtain ⟨h1, h2⟩ := ih (if f a < f init then a else init)
    have h3 : f (if f a < f init then a else init) ≤ f init ∧
        f (if f a < f init then a else init) ≤ f a := by
      split
      · exact ⟨by omega, le_refl _⟩
      · exact ⟨le_refl _, by omega⟩
    refine ⟨h1.trans h3.1, ?_⟩
    intro x hx
    rcases List.mem_cons.mp hx with h | h
    · rw [h]; exact h1.trans h3.2
    · exact h2 x h

theorem plain_of_declared {g : Graph} (hready : BfsReady g) {x : String}
    (hx : (g.getRoom x).isSome) : ∀ c ∈ x.data, c ≠ ' ' := by
  obtain ⟨r, hr⟩ := Option.isSome_iff_exists.mp hx
  have := (hready.2.2 r (findRoom_some hr).2).1
  rwa [(findRoom_some hr).1] at this

theorem unvisitedIn.declared {g : Graph} {x : String} (h : unvisitedIn g x) :
    (g.getRoom x).isSome := by
  obtain ⟨r, hr, -⟩ := h
  rw [hr]; rfl

/-- One iteration of the loop of `BFS` on a graph that is ready for it, with an
empty `pathArray` and fuel for all rooms: `ShortestPath` returns candidates;
when there is none the state is unchanged, otherwise a shortest candidate is
picked, the rooms between start and end on it are marked, its route is
appended unless it is already in the list, and `pathArray` is emptied. -/
theorem bfsIter_spec (g : Graph) (hready : BfsReady g) (fuel : Nat)
    (hfuel : g.Rooms.length + 1 ≤ fuel) (paths : List String) :
    ∃ sp cands, ShortestPath fuel g g.StartRoomName g.EndRoomName [] [] = some (sp, cands) ∧
      (∀ c ∈ cands, Candidate g [] g.StartRoomName c) ∧
      (cands = [] → bfsIter fuel (g, paths, []) = some (g, paths, [])) ∧
      (cands ≠ [] → ∃ mid, Sprint (g.StartRoomName :: (mid ++ [g.EndRoomName])) ∈ cands ∧
        (∀ c ∈ cands, strLen (Sprint (g.StartRoomName :: (mid ++ [g.EndRoomName]))) ≤ strLen c) ∧
        List.Chain (fun a b => b ∈ g.conns a) g.StartRoomName (mid ++ [g.EndRoomName]) ∧
        (g.StartRoomName :: (mid ++ [g.EndRoomName])).Nodup ∧
        (∀ x ∈ mid ++ [g.EndRoomName], unvisitedIn g x) ∧
        bfsIter fuel (g, paths, []) = some (markAll g mid,
          (if contains paths (Join (mid ++ [g.EndRoomName]) "-") then paths
            else paths ++ [Join (mid ++ [g.EndRoomName]) "-"]), [])) := by
  obtain ⟨res, hres, hEnd, hNot⟩ := ShortestPath_total g (fun r hr => (hready.2.2 r hr).2) fuel
    g.StartRoomName [] [] (by simp) (by simp) (Or.inr hready.1) (by simp) (by simpa using hfuel)
  have hcands : ∀ c ∈ res.2, Candidate g [] g.StartRoomName c := by
    by_cases hE : g.StartRoomName = g.EndRoomName
    · rw [hEnd hE]; simp
    · obtain ⟨-, new, hnew, hc⟩ := hNot hE
      rw [hnew]; simpa using hc
  refine ⟨res.1, res.2, hres, hcands, ?_, ?_⟩
  · intro hnil
    unfold bfsIter
    dsimp only
    rw [hres]
    dsimp only
    rw [hnil]
    rfl
  · intro hne
    obtain ⟨c0, rest, hcr⟩ := List.exists_cons_of_ne_nil hne
    have hmem : res.2.foldl (fun acc v => if strLen v < strLen acc then v else acc)
        (res.2.headD "") ∈ res.2 := by
      apply foldl_min_mem strLen
      · rw [hcr]; simp
      · exact fun x hx => hx
    have hmin := (foldl_min_le strLen res.2 (res.2.headD "")).2
    obtain ⟨mid, hceq, hchain, hnodup, hunv⟩ := hcands _ hmem
    rw [List.nil_append] at hceq hnodup
    have hdeclS : (g.getRoom g.StartRoomName).isSome := hready.1
    have hplain : ∀ w ∈ g.StartRoomName :: (mid ++ [g.EndRoomName]), ∀ c ∈ w.data, c ≠ ' ' := by
      intro w hw
      rcases List.mem_cons.mp hw with h | h
      · rw [h]; exact plain_of_declared hready hdeclS
      · exact plain_of_declared hready (hunv w h).declared
    have hsplit : Split (Join (g.StartRoomName :: (mid ++ [g.EndRoomName])) " ") ' ' =
        g.StartRoomName :: (mid ++ [g.EndRoomName]) :=
      Split_Join ' ' _ (by simp) hplain
    have hmark := markAll_foldlM mid g
      (fun x hx => (hunv x (List.mem_append_left _ hx)).declared)
    refine ⟨mid, hceq ▸ hmem, fun c hc => hceq ▸ hmin c hc, hchain, hnodup, hunv, ?_⟩
    unfold bfsIter
    dsimp only
    rw [hres]
    dsimp only
    rw [hceq, if_pos (by rw [hcr]; simp), stripBrackets_Sprint]
    dsimp only
    rw [hsplit, List.tail_cons, List.dropLast_concat]
    split
    · rename_i heq
      exact Option.noConfusion (hmark.symm.trans heq)
    · rename_i g3 heq
      rw [if_pos ((strLen_ne_zero_iff _).mpr (Join_snoc_ne_empty mid _ "-" hready.2.1)),
        Option.some.inj (heq.symm.trans hmark)]

theorem DeepCopyGraph_eq (g : Graph) : DeepCopyGraph g = g := by
  cases g with
  | mk rooms s e a =>
    unfold DeepCopyGraph
    have hid : (fun room : Room =>
        ({ Roomname := room.Roomname, Connections := room.Connections,
           Visited := room.Visited } : Room)) = id := by
      funext r
      cases r
      rfl
    dsimp only
    rw [hid, List.map_id]

theorem bfsIterCount_erase (fuel : Nat) (st : (Graph × List String × List String) × Nat) :
    (bfsIterCount fuel st).map Prod.fst = bfsIter fuel st.1 := by
  unfold bfsIterCount
  cases hsp : ShortestPath fuel st.1.1 st.1.1.StartRoomName st.1.1.EndRoomName [] st.1.2.2 with
  | none =>
    unfold bfsIter
    dsimp only
    rw [hsp]
    rfl
  | some r =>
    dsimp only
    cases bfsIter fuel st.1 <;> rfl

theorem BFSCount_erase (fuel : Nat) (start end_ : String) (g : Graph)
    (paths pathArray : List String) :
    (BFSCount fuel start end_ g paths pathArray).map Prod.fst =
      BFS fuel start end_ g paths pathArray := by
  unfold BFSCount BFS
  cases g.getRoom start with
  | none => rfl
  | some begin =>
    dsimp only
    exact foldlM_erase (Prod.fst : (Graph × List String × List String) × Nat → _) _ _
      (fun acc _ => bfsIterCount_erase fuel acc) _ _

theorem bfsIterCount_spec (g : Graph) (hready : BfsReady g) (fuel : Nat)
    (hfuel : g.Rooms.length + 1 ≤ fuel) (paths : List String) (k : Nat) :
    bfsIterCount fuel ((g, paths, []), k) = some ((g, paths, []), k) ∨
    ∃ mid, List.Chain (fun a b => b ∈ g.conns a) g.StartRoomName (mid ++ [g.EndRoomName]) ∧
      (g.StartRoomName :: (mid ++ [g.EndRoomName])).Nodup ∧
      (∀ x ∈ mid ++ [g.EndRoomName], unvisitedIn g x) ∧
      bfsIterCount fuel ((g, paths, []), k) = some ((markAll g mid,
        (if contains paths (Join (mid ++ [g.EndRoomName]) "-") then paths
          else paths ++ [Join (mid ++ [g.EndRoomName]) "-"]), []), k + 1) := by
  obtain ⟨sp, cands, hsp, -, hnone, hsome⟩ := bfsIter_spec g hready fuel hfuel paths
  by_cases hc : cands = []
  · left
    unfold bfsIterCount
    dsimp only
    rw [hsp]
    dsimp only
    rw [hnone hc, hc]
    rfl
  · right
    obtain ⟨mid, -, -, hchain, hnodup, hunv, hiter⟩ := hsome hc
    refine ⟨mid, hchain, hnodup, hunv, ?_⟩
    unfold bfsIterCount
    dsimp only
    rw [hsp]
    dsimp only
    rw [hiter]
    dsimp only
    have hlen : cands.length ≠ 0 := by simpa using hc
    rw [if_pos hlen]

theorem bfs_count_loop (fuel N : Nat) (Inv : Graph → List String → Nat → Prop)
    (hsome : ∀ (g : Graph) (paths : List String) (k : Nat) (mid : List String), BfsReady g →
      g.Rooms.length = N → Inv g paths k →
      List.Chain (fun a b => b ∈ g.conns a) g.StartRoomName (mid ++ [g.EndRoomName]) →
      (g.StartRoomName :: (mid ++ [g.EndRoomName])).Nodup →
      (∀ x ∈ mid ++ [g.EndRoomName], unvisitedIn g x) →
      Inv (markAll g mid)
        (if contains paths (Join (mid ++ [g.EndRoomName]) "-") then paths
          else paths ++ [Join (mid ++ [g.EndRoomName]) "-"]) (k + 1))
    (hfuel : N + 1 ≤ fuel) :
    ∀ (is : List Nat) (g : Graph) (paths : List String) (k : Nat), BfsReady g →
      g.Rooms.length = N → Inv g paths k →
      ∃ g2 paths2 k2, is.foldlM (fun st _ => bfsIterCount fuel st) ((g, paths, []), k) =
          some ((g2, paths2, []), k2) ∧ BfsReady g2 ∧ Inv g2 paths2 k2 := by
  intro is
  induction is with
  | nil =>
    intro g paths k hready _ hinv
    exact ⟨g, paths, k, rfl, hready, hinv⟩
  | cons i is ih =>
    intro g paths k hready hlen hinv
    rw [List.foldlM_cons]
    rcases bfsIterCount_spec g hready fuel (by omega) paths k with h | ⟨mid, h1, h2, h3, h⟩
    · rw [h]
      exact ih g paths k hready hlen hinv
    · rw [h]
      obtain ⟨-, hr, -, hl, -⟩ := markAll_spec mid g
      exact ih _ _ _ (hr hready) (hl.trans hlen) (hsome g paths k mid hready hlen hinv h1 h2 h3)

theorem BfsReady_of_wellFormed (g : Graph) (hwf : WellFormed g)
    (hplain : ∀ r ∈ g.Rooms, ∀ c ∈ r.Roomname.data, c ≠ ' ') : BfsReady g :=
  ⟨hwf.2.2.1, hwf.2.1, fun r hr =>
    ⟨hplain r hr, fun c hc => ((hwf.2.2.2 r hr).2.2 c hc).2.2⟩⟩

/-- `BFS` on a graph that is ready for it returns, with an empty `pathArray`,
for every fuel above the number of rooms; `BFSCount` returns the same state
and a count, and an invariant that every iteration with a candidate preserves
holds at the end. -/
theorem BFS_total (g : Graph) (hready : BfsReady g) (fuel : Nat)
    (hfuel : g.Rooms.length + 1 ≤ fuel) (Inv : Graph → List String → Nat → Prop)
    (hsome : ∀ (g1 : Graph) (paths : List String) (k : Nat) (mid : List String), BfsReady g1 →
      Inv g1 paths k →
      List.Chain (fun a b => b ∈ g1.conns a) g1.StartRoomName (mid ++ [g1.EndRoomName]) →
      (g1.StartRoomName :: (mid ++ [g1.EndRoomName])).Nodup →
      (∀ x ∈ mid ++ [g1.EndRoomName], unvisitedIn g1 x) →
      Inv (markAll g1 mid)
        (if contains paths (Join (mid ++ [g1.EndRoomName]) "-") then paths
          else paths ++ [Join (mid ++ [g1.EndRoomName]) "-"]) (k + 1))
    (hinv : Inv g [] 0) :
    ∃ g2 paths2 k2, BFSCount fuel g.StartRoomName g.EndRoomName g [] [] =
        some ((g2, paths2, []), k2) ∧
      BFS fuel g.StartRoomName g.EndRoomName g [] [] = some (g2, paths2, []) ∧
      Inv g2 paths2 k2 := by
  obtain ⟨s, hs⟩ := Option.isSome_iff_exists.mp hready.1
  obtain ⟨g2, paths2, k2, hfold, -, hinv2⟩ := bfs_count_loop fuel g.Rooms.length Inv
    (fun g' paths k mid h1 _ h3 h4 h5 h6 => hsome g' paths k mid h1 h3 h4 h5 h6) hfuel
    (List.range s.Connections.length) g [] 0 hready rfl hinv
  have hcount : BFSCount fuel g.StartRoomName g.EndRoomName g [] [] =
      some ((g2, paths2, []), k2) := by
    unfold BFSCount
    rw [hs]
    exact hfold
  refine ⟨g2, paths2, k2, hcount, ?_, hinv2⟩
  rw [← BFSCount_erase, hcount]
  rfl

theorem chain_end_adj {g : Graph} {a e : String} {mid : List String}
    (h : List.Chain (fun a b => b ∈ g.conns a) a (mid ++ [e])) : ∃ t, e ∈ g.conns t := by
  induction mid generalizing a with
  | nil =>
    rw [List.nil_append, List.chain_cons] at h
    exact ⟨a, h.1⟩
  | cons x mid ih =>
    rw [List.cons_append, List.chain_cons] at h
    exact ih h.2

theorem not_mem_conns_of_rooms {g : Graph} {e : String}
    (hno : ∀ r ∈ g.Rooms, e ∉ r.Connections) (t : String) : e ∉ g.conns t := by
  cases ht : g.getRoom t with
  | none => simp [Graph.conns, ht]
  | some r =>
    rw [conns_of_getRoom ht]
    exact hno r (findRoom_some ht).2

theorem bfsIter_stays (g : Graph) (hS : (g.getRoom g.StartRoomName).isSome)
    (hcl : ∀ r ∈ g.Rooms, ∀ c ∈ r.Connections, (g.getRoom c).isSome)
    (hno : ∀ r ∈ g.Rooms, g.EndRoomName ∉ r.Connections) (fuel : Nat)
    (hfuel : g.Rooms.length + 1 ≤ fuel) (paths : List String) :
    bfsIter fuel (g, paths, []) = some (g, paths, []) := by
  obtain ⟨res, hres, hEnd, hNot⟩ := ShortestPath_total g hcl fuel
    g.StartRoomName [] [] (by simp) (by simp) (Or.inr hS) (by simp) (by simpa using hfuel)
  have hnil : res.2 = [] := by
    by_cases hE : g.StartRoomName = g.EndRoomName
    · rw [hEnd hE]
    · obtain ⟨-, new, hnew, hc⟩ := hNot hE
      rw [hnew, List.nil_append]
      apply List.eq_nil_iff_forall_not_mem.mpr
      intro c hcm
      obtain ⟨mid, -, hchain, -⟩ := hc c hcm
      obtain ⟨t, ht⟩ := chain_end_adj hchain
      exact not_mem_conns_of_rooms hno t ht
  unfold bfsIter
  dsimp only
  rw [hres]
  dsimp only
  rw [hnil]
  rfl

/-- C11: on a graph whose start and end rooms differ, whose start room is
declared, in which every connection names a declared room other than the
start room, no room is visited and no connection list holds the end room's
name, `DFS` and `BFS` (on the deep copy, with an empty `pathArray`) both
return, for every fuel of at least `3 * (number of rooms) + 1`, and both
return the empty route list. -/
theorem no_link_into_end_no_routes (g : Graph) (fuel : Nat) (hwf : Searchable g)
    (hno : ∀ r ∈ g.Rooms, g.EndRoomName ∉ r.Connections)
    (hfuel : 3 * g.Rooms.length + 1 ≤ fuel) :
    (∃ gd, DFS fuel g.StartRoomName g.EndRoomName g "" [] = some (gd, [])) ∧
    ∃ gb, BFS fuel g.StartRoomName g.EndRoomName (DeepCopyGraph g) [] [] =
      some (gb, [], []) := by
  constructor
  · obtain ⟨res, hres, hpaths⟩ := DFS_wellFormed g hwf fuel hfuel
    have hnil : res.2 = [] := by
      apply List.eq_nil_iff_forall_not_mem.mpr
      intro p hp
      obtain ⟨chain, -, -, hchain⟩ := hpaths p hp
      obtain ⟨t, ht⟩ := chain_last_adj hchain
      exact not_mem_conns_of_rooms hno t ht
    exact ⟨res.1, by rw [hres, ← hnil]⟩
  · rw [DeepCopyGraph_eq]
    obtain ⟨s, hs⟩ := Option.isSome_iff_exists.mp hwf.2.1
    refine ⟨g, ?_⟩
    unfold BFS
    rw [hs]
    dsimp only
    generalize List.range s.Connections.length = is
    induction is with
    | nil => rfl
    | cons i is ih =>
      rw [List.foldlM_cons, bfsIter_stays g hwf.2.1 (fun r hr => fun c hc =>
        ((hwf.2.2 r hr).2.2 c hc).2) hno fuel (by omega) []]
      exact ih

/-- Witness of `no_link_into_end_no_routes`: the colony with rooms `start`,
`a`, `end` and the single link `start-a`, with fuel 10. -/
theorem no_link_into_end_no_routes_witness :
    colony 1 "start" "end" ["start", "a", "end"] [("start", "a")] = some isolatedEndGraph ∧
    Searchable isolatedEndGraph ∧
    (∀ r ∈ isolatedEndGraph.Rooms, isolatedEndGraph.EndRoomName ∉ r.Connections) ∧
    3 * isolatedEndGraph.Rooms.length + 1 ≤ 10 ∧
    (∃ gd, DFS 10 isolatedEndGraph.StartRoomName isolatedEndGraph.EndRoomName isolatedEndGraph
      "" [] = some (gd, [])) ∧
    ∃ gb, BFS 10 isolatedEndGraph.StartRoomName isolatedEndGraph.EndRoomName
      (DeepCopyGraph isolatedEndGraph) [] [] = some (gb, [], []) :=
  ⟨by decide, ⟨by decide, by decide, by decide⟩, by decide, by decide,
    no_link_into_end_no_routes isolatedEndGraph 10 ⟨by decide, by decide, by decide⟩
      (by decide) (by decide)⟩

theorem bfsIterCount_mono (fuel : Nat) (st r : (Graph × List String × List String) × Nat)
    (hr : bfsIterCount fuel st = some r) : bfsIterCount (fuel + 1) st = some r := by
  unfold bfsIterCount at hr ⊢
  cases hs : ShortestPath fuel st.1.1 st.1.1.StartRoomName st.1.1.EndRoomName [] st.1.2.2 with
  | none => rw [hs] at hr; exact Option.noConfusion hr
  | some x =>
    rw [hs] at hr
    rw [ShortestPath_mono fuel _ _ _ _ _ x hs]
    dsimp only at hr ⊢
    cases hb : bfsIter fuel st.1 with
    | none => rw [hb] at hr; exact Option.noConfusion hr
    | some y =>
      rw [hb] at hr
      rw [bfsIter_mono fuel st.1 y hb]
      exact hr

theorem BFSCount_mono_le (fuel fuel2 : Nat) (hle : fuel ≤ fuel2) (start end_ : String)
    (g : Graph) (paths pathArray : List String)
    (r : (Graph × List String × List String) × Nat)
    (hr : BFSCount fuel start end_ g paths pathArray = some r) :
    BFSCount fuel2 start end_ g paths pathArray = some r := by
  induction fuel2 with
  | zero =>
    have : fuel = 0 := by omega
    subst this; exact hr
  | succ k ih =>
    by_cases hk : fuel ≤ k
    · have h1 := ih hk
      unfold BFSCount at h1 ⊢
      cases hg : g.getRoom start with
      | none => rw [hg] at h1; exact Option.noConfusion h1
      | some begin =>
        rw [hg] at h1
        dsimp only at h1 ⊢
        exact foldlM_option_mono _ _ (fun s _ x hx => bfsIterCount_mono k s x hx) _ _ _ h1
    · have : fuel = k + 1 := by omega
      subst this; exact hr

/-- C19, as stated, fails: in the colony with rooms `start`, `A`, `end` and
links `start-end`, `start-A`, `A-end`, both repetitions of `BFS` record
candidates, both pick the direct candidate, no room is marked, and the second
repetition adds nothing: one route is returned, for two repetitions with a
candidate. -/
theorem BFS_direct_link_counterexample :
    colony 1 "start" "end" ["start", "A", "end"]
      [("start", "end"), ("start", "A"), ("A", "end")] = some shortcutGraph ∧
    WellFormed shortcutGraph ∧
    (∀ fuel, (BFSCount (fuel + 4) "start" "end" (DeepCopyGraph shortcutGraph) [] []).map
      (fun r => (r.1.2.1, r.2)) = some (["end"], 2)) ∧
    ["end"].length ≠ 2 := by
  refine ⟨by decide, ⟨by decide, by decide, by decide, by decide⟩, ?_, by decide⟩
  intro fuel
  have h4 : (BFSCount 4 "start" "end" (DeepCopyGraph shortcutGraph) [] []).map
      (fun r => (r.1.2.1, r.2)) = some (["end"], 2) := by decide
  obtain ⟨r, hr, hr2⟩ := Option.map_eq_some'.mp h4
  rw [BFSCount_mono_le 4 (fuel + 4) (by omega) _ _ _ _ _ r hr]
  exact congrArg some hr2

theorem bfsIterCount_step (fuel : Nat) (st st2 : Graph × List String × List String)
    (k k2 : Nat) (h : bfsIterCount fuel (st, k) = some (st2, k2)) :
    (k2 = k ∨ k2 = k + 1) ∧
    (st2.2.1 = st.2.1 ∨ ∃ route, route ∉ st.2.1 ∧ st2.2.1 = st.2.1 ++ [route]) := by
  unfold bfsIterCount at h
  dsimp only at h
  cases hsp : ShortestPath fuel st.1 st.1.StartRoomName st.1.EndRoomName [] st.2.2 with
  | none => rw [hsp] at h; exact Option.noConfusion h
  | some r =>
    rw [hsp] at h
    dsimp only at h
    cases hb : bfsIter fuel st with
    | none => rw [hb] at h; exact Option.noConfusion h
    | some s2 =>
      rw [hb] at h
      dsimp only at h
      have h1 := Option.some.inj h
      have hs2 : s2 = st2 := congrArg Prod.fst h1
      have hk : (if r.2.length ≠ 0 then k + 1 else k) = k2 := congrArg Prod.snd h1
      subst hs2
      constructor
      · rw [← hk]
        split
        · exact Or.inr rfl
        · exact Or.inl rfl
      · unfold bfsIter at hb
        dsimp only at hb
        rw [hsp] at hb
        dsimp only at hb
        split at hb
        · exact Option.noConfusion hb
        · split at hb
          · exact Option.noConfusion hb
          · split at hb
            · rw [← Option.some.inj hb]
              dsimp only
              split
              · exact Or.inl rfl
              · rename_i hc
                exact Or.inr ⟨_, fun hm => hc ((contains_iff _ _).mpr hm), rfl⟩
            · rw [← Option.some.inj hb]
              exact Or.inl rfl

/-! ## Disjointness of the routes of `BFS` -/

theorem bfs_count_len (fuel : Nat) : ∀ (is : List Nat)
    (st st2 : Graph × List String × List String) (k k2 : Nat),
    is.foldlM (fun st _ => bfsIterCount fuel st) (st, k) = some (st2, k2) →
    st2.2.1.length ≤ st.2.1.length + is.length := by
  intro is
  induction is with
  | nil =>
    intro st st2 k k2 h
    have : (st, k) = (st2, k2) := by simpa using h
    have h1 : st = st2 := congrArg Prod.fst this
    rw [h1]
    simp
  | cons i is ih =>
    intro st st2 k k2 h
    rw [List.foldlM_cons] at h
    obtain ⟨a, ha, hrest⟩ := Option.bind_eq_some.mp h
    have h1 := (bfsIterCount_step fuel st a.1 k a.2 ha).2
    have h2 := ih a.1 st2 a.2 k2 hrest
    rw [List.length_cons]
    rcases h1 with h1 | ⟨route, -, h1⟩
    · rw [h1] at h2; omega
    · rw [h1, List.length_append] at h2
      simp only [List.length_singleton] at h2
      omega

theorem chain_head_adj {g : Graph} {a : String} {l : List String} (hl : l ≠ [])
    (h : List.Chain (fun a b => b ∈ g.conns a) a l) :
    ∃ first, l.head? = some first ∧ first ∈ g.conns a := by
  cases l with
  | nil => exact absurd rfl hl
  | cons x l =>
    rw [List.chain_cons] at h
    exact ⟨x, rfl, h.1⟩

/-- C22: on a well-formed graph whose room names hold neither a space nor a
`-`, `BFS` (on the deep copy, with an empty `pathArray`) returns for every fuel
above the number of rooms; the route strings it returns are pairwise
different, each splits on `-` into a route of the graph (pairwise distinct
rooms, the first a connection of the start room, the last the end room, each a
connection of the room before it) that does not hold the start room, two
different routes share no room but the end room, and there are at most as many
routes as the start room has connections. -/
theorem BFS_routes_disjoint (g : Graph) (fuel : Nat) (hwf : WellFormed g)
    (hnames : ∀ r ∈ g.Rooms, ∀ c ∈ r.Roomname.data, c ≠ ' ' ∧ c ≠ '-')
    (hfuel : g.Rooms.length + 1 ≤ fuel) :
    ∃ gb routes, BFS fuel g.StartRoomName g.EndRoomName (DeepCopyGraph g) [] [] =
        some (gb, routes, []) ∧
      routes.Nodup ∧
      (∀ p ∈ routes, IsRoute g (Split p '-') ∧ g.StartRoomName ∉ Split p '-') ∧
      routes.Pairwise (fun p q =>
        ∀ x, x ∈ Split p '-' → x ∈ Split q '-' → x = g.EndRoomName) ∧
      routes.length ≤ (g.conns g.StartRoomName).length := by
  rw [DeepCopyGraph_eq]
  have hready := BfsReady_of_wellFormed g hwf (fun r hr c hc => (hnames r hr c hc).1)
  obtain ⟨gb, routes, k, hcount, hbfs, -, -, -, -, hnd, hroutes, hpw⟩ :=
    BFS_total g hready fuel hfuel
    (fun g1 paths _ =>
      (∀ x, (g1.getRoom x).isSome → ∀ c ∈ x.data, c ≠ '-') ∧
      (∀ x, g1.conns x = g.conns x) ∧ g1.StartRoomName = g.StartRoomName ∧
      g1.EndRoomName = g.EndRoomName ∧ paths.Nodup ∧
      (∀ p ∈ paths, ∃ mid, Split p '-' = mid ++ [g.EndRoomName] ∧
        (∀ x ∈ mid, visitedIn g1 x) ∧
        List.Chain (fun a b => b ∈ g.conns a) g.StartRoomName (mid ++ [g.EndRoomName]) ∧
        (g.StartRoomName :: (mid ++ [g.EndRoomName])).Nodup) ∧
      paths.Pairwise (fun p q =>
        ∀ x, x ∈ Split p '-' → x ∈ Split q '-' → x = g.EndRoomName))
    (by
      intro g1 paths k mid hr1 hinv hchain hnodup hunv
      obtain ⟨hdash, hc1, hS1, hE1, hnd, hroutes, hpw⟩ := hinv
      obtain ⟨hrel, -, hconns, -, hvis⟩ := markAll_spec mid g1
      have hchain0 : List.Chain (fun a b => b ∈ g.conns a) g.StartRoomName
          (mid ++ [g.EndRoomName]) := by
        rw [← hS1, ← hE1]
        exact hchain.imp (fun {a b} h => by rw [← hc1 a]; exact h)
      have hdall : ∀ w ∈ mid ++ [g1.EndRoomName], ∀ c ∈ w.data, c ≠ '-' :=
        fun w hw => hdash w (hunv w hw).declared
      have hsplit : Split (Join (mid ++ [g1.EndRoomName]) "-") '-' = mid ++ [g.EndRoomName] := by
        rw [← hE1]
        exact Split_Join '-' (mid ++ [g1.EndRoomName]) (by simp) hdall
      have hbase : (∀ x, ((markAll g1 mid).getRoom x).isSome → ∀ c ∈ x.data, c ≠ '-') ∧
          (∀ x, (markAll g1 mid).conns x = g.conns x) ∧
          (markAll g1 mid).StartRoomName = g.StartRoomName ∧
          (markAll g1 mid).EndRoomName = g.EndRoomName := by
        refine ⟨?_, fun x => (hconns x).trans (hc1 x), hrel.2.1.trans hS1, hrel.2.2.trans hE1⟩
        intro x hx
        obtain ⟨r2, hr2⟩ := Option.isSome_iff_exists.mp hx
        obtain ⟨r, hr, -⟩ := getRoom_rel_back hrel hr2
        exact hdash x (by rw [hr]; rfl)
      have hold : ∀ p ∈ paths, ∃ mid2, Split p '-' = mid2 ++ [g.EndRoomName] ∧
          (∀ x ∈ mid2, visitedIn (markAll g1 mid) x) ∧
          List.Chain (fun a b => b ∈ g.conns a) g.StartRoomName (mid2 ++ [g.EndRoomName]) ∧
          (g.StartRoomName :: (mid2 ++ [g.EndRoomName])).Nodup := by
        intro p hp
        obtain ⟨mid2, h1, h2, h3, h4⟩ := hroutes p hp
        exact ⟨mid2, h1, fun x hx => visitedIn_mono hrel (h2 x hx), h3, h4⟩
      by_cases hcont : contains paths (Join (mid ++ [g1.EndRoomName]) "-") = true
      · rw [if_pos hcont]
        exact ⟨hbase.1, hbase.2.1, hbase.2.2.1, hbase.2.2.2, hnd, hold, hpw⟩
      · rw [if_neg hcont]
        have hnew : Join (mid ++ [g1.EndRoomName]) "-" ∉ paths :=
          fun h => hcont ((contains_iff _ _).mpr h)
        refine ⟨hbase.1, hbase.2.1, hbase.2.2.1, hbase.2.2.2, ?_, ?_, ?_⟩
        · rw [List.nodup_append]
          exact ⟨hnd, List.nodup_singleton _, by
            intro x hx hx2
            rw [List.mem_singleton] at hx2
            exact hnew (hx2 ▸ hx)⟩
        · intro p hp
          rcases List.mem_append.mp hp with h | h
          · exact hold p h
          · rw [List.mem_singleton] at h
            refine ⟨mid, by rw [h, hsplit], ?_, hchain0, by rw [← hS1, ← hE1]; exact hnodup⟩
            intro x hx
            exact hvis x hx (hunv x (List.mem_append_left _ hx)).declared
        · rw [List.pairwise_append]
          refine ⟨hpw, List.pairwise_singleton _ _, ?_⟩
          intro p hp q hq x hxp hxq
          rw [List.mem_singleton] at hq
          rw [hq, hsplit] at hxq
          obtain ⟨mid2, h1, h2, -, -⟩ := hroutes p hp
          rw [h1] at hxp
          by_contra hxe
          have hx1 : x ∈ mid2 := by
            rcases List.mem_append.mp hxp with h | h
            · exact h
            · exact absurd (List.mem_singleton.mp h) hxe
          have hx2 : x ∈ mid := by
            rcases List.mem_append.mp hxq with h | h
            · exact h
            · exact absurd (List.mem_singleton.mp h) hxe
          obtain ⟨r, hr, hv⟩ := h2 x hx1
          obtain ⟨r', hr', hv'⟩ := hunv x (List.mem_append_left _ hx2)
          rw [hr] at hr'
          rw [Option.some.inj hr', hv'] at hv
          exact absurd hv (by simp))
    ⟨by
      intro x hx c hc
      obtain ⟨r, hr⟩ := Option.isSome_iff_exists.mp hx
      exact (hnames r (findRoom_some hr).2 c (by rw [(findRoom_some hr).1]; exact hc)).2,
      fun _ => rfl, rfl, rfl, List.nodup_nil, by intro p hp; simp at hp, List.Pairwise.nil⟩
  refine ⟨gb, routes, hbfs, hnd, ?_, hpw, ?_⟩
  · intro p hp
    obtain ⟨mid, h1, -, h3, h4⟩ := hroutes p hp
    rw [h1]
    rw [List.nodup_cons] at h4
    refine ⟨⟨h4.2, chain_head_adj (by simp) h3, by simp, ?_⟩, h4.1⟩
    have : List.Chain' (fun a b => b ∈ g.conns a) (g.StartRoomName :: (mid ++ [g.EndRoomName])) := h3
    exact this.tail
  · unfold BFSCount at hcount
    cases hs : g.getRoom g.StartRoomName with
    | none => rw [hs] at hcount; exact Option.noConfusion hcount
    | some s =>
      rw [hs] at hcount
      have := bfs_count_len fuel _ _ _ _ _ hcount
      rw [conns_of_getRoom hs]
      simpa using this

/-- Witness of `BFS_routes_disjoint`: the diamond colony with fuel 5. -/
theorem BFS_routes_disjoint_witness :
    WellFormed diamondGraph ∧
    (∀ r ∈ diamondGraph.Rooms, ∀ c ∈ r.Roomname.data, c ≠ ' ' ∧ c ≠ '-') ∧
    diamondGraph.Rooms.length + 1 ≤ 5 ∧
    ∃ gb routes, BFS 5 diamondGraph.StartRoomName diamondGraph.EndRoomName
        (DeepCopyGraph diamondGraph) [] [] = some (gb, routes, []) ∧
      routes.Nodup ∧
      (∀ p ∈ routes, IsRoute diamondGraph (Split p '-') ∧
        diamondGraph.StartRoomName ∉ Split p '-') ∧
      routes.Pairwise (fun p q =>
        ∀ x, x ∈ Split p '-' → x ∈ Split q '-' → x = diamondGraph.EndRoomName) ∧
      routes.length ≤ (diamondGraph.conns diamondGraph.StartRoomName).length :=
  ⟨⟨by decide, by decide, by decide, by decide⟩, by decide, by decide,
    BFS_routes_disjoint diamondGraph 5 ⟨by decide, by decide, by decide, by decide⟩
      (by decide) (by decide)⟩

/-! ## Completeness of the searches -/

theorem ShortestPath_end (fuel : Nat) (g : Graph) (e : String) (path pa : List String)
    (res : List String × List String)
    (h : ShortestPath fuel g e e path pa = some res) : res = (path ++ [e], pa) := by
  cases fuel with
  | zero => exact Option.noConfusion h
  | succ fuel =>
    change shortestPathBody (ShortestPath fuel) g e e path pa = some res at h
    unfold shortestPathBody at h
    dsimp only at h
    rw [if_pos rfl] at h
    exact (Option.some.inj h).symm

theorem unvisitedIn_isVisited {g : Graph} {x : String} (h : unvisitedIn g x) :
    g.isVisited x = some false := by
  obtain ⟨r, hr, hv⟩ := h
  unfold Graph.isVisited
  rw [hr, ← hv]
  rfl

theorem sp_loop_complete (g : Graph) (fuel : Nat)
    (ih : ∀ (start : String) (path pa : List String) (res : List String × List String),
      ShortestPath fuel g start g.EndRoomName path pa = some res →
      g.StartRoomName ∈ path ++ [start] → start ≠ g.EndRoomName →
      res.1 = [] ∧ (∀ c ∈ pa, c ∈ res.2) ∧
      ∀ mid, List.Chain (fun a b => b ∈ g.conns a) start (mid ++ [g.EndRoomName]) →
        (path ++ start :: (mid ++ [g.EndRoomName])).Nodup →
        (∀ x ∈ mid ++ [g.EndRoomName], unvisitedIn g x) →
        Sprint (path ++ start :: (mid ++ [g.EndRoomName])) ∈ res.2)
    (path1 : List String) (hS : g.StartRoomName ∈ path1) :
    ∀ (nodes : List String) (pa pa2 : List String),
      nodes.foldlM
        (fun (pa : List String) node =>
          if contains path1 node then some pa
          else
            match g.isVisited node with
            | none => none
            | some true => some pa
            | some false =>
              match ShortestPath fuel g node g.EndRoomName path1 pa with
              | none => none
              | some (newPath, pa2) =>
                if newPath.length > 0 ∧ contains newPath g.StartRoomName ∧
                    contains newPath g.EndRoomName then
                  some (pa2 ++ [Sprint newPath])
                else some pa2) pa = some pa2 →
      (∀ c ∈ pa, c ∈ pa2) ∧
      ∀ node ∈ nodes, ∀ mid, (mid ++ [g.EndRoomName]).head? = some node →
        List.Chain' (fun a b => b ∈ g.conns a) (mid ++ [g.EndRoomName]) →
        (path1 ++ (mid ++ [g.EndRoomName])).Nodup →
        (∀ x ∈ mid ++ [g.EndRoomName], unvisitedIn g x) →
        Sprint (path1 ++ (mid ++ [g.EndRoomName])) ∈ pa2 := by
  intro nodes
  induction nodes with
  | nil =>
    intro pa pa2 h
    have : pa = pa2 := by simpa using h
    subst this
    exact ⟨fun c hc => hc, by simp⟩
  | cons node nodes ihl =>
    intro pa pa2 h
    rw [List.foldlM_cons] at h
    obtain ⟨a, ha, hrest⟩ := Option.bind_eq_some.mp h
    obtain ⟨hsub, hcompl⟩ := ihl a pa2 hrest
    -- what the step for `node` does
    have hstep : (∀ c ∈ pa, c ∈ a) ∧
        ∀ mid, (mid ++ [g.EndRoomName]).head? = some node →
          List.Chain' (fun a b => b ∈ g.conns a) (mid ++ [g.EndRoomName]) →
          (path1 ++ (mid ++ [g.EndRoomName])).Nodup →
          (∀ x ∈ mid ++ [g.EndRoomName], unvisitedIn g x) →
          Sprint (path1 ++ (mid ++ [g.EndRoomName])) ∈ a := by
      have hheadmem : ∀ mid : List String, (mid ++ [g.EndRoomName]).head? = some node →
          node ∈ mid ++ [g.EndRoomName] := by
        intro mid hh
        exact List.mem_of_mem_head? hh
      by_cases hcont : contains path1 node = true
      · rw [if_pos hcont] at ha
        have hpa : pa = a := Option.some.inj ha
        subst hpa
        refine ⟨fun c hc => hc, ?_⟩
        intro mid hh _ hnd _
        exfalso
        have h1 : node ∈ path1 := (contains_iff _ _).mp hcont
        exact (List.nodup_append.mp hnd).2.2 h1 (hheadmem mid hh)
      · rw [if_neg hcont] at ha
        cases hv : g.isVisited node with
        | none => rw [hv] at ha; exact Option.noConfusion ha
        | some b =>
          rw [hv] at ha
          cases b with
          | true =>
            have hpa : pa = a := Option.some.inj ha
            subst hpa
            refine ⟨fun c hc => hc, ?_⟩
            intro mid hh _ _ hunv
            have := unvisitedIn_isVisited (hunv node (hheadmem mid hh))
            rw [hv] at this
            exact absurd this (by simp)
          | false =>
            dsimp only at ha
            cases hsp : ShortestPath fuel g node g.EndRoomName path1 pa with
            | none => rw [hsp] at ha; exact Option.noConfusion ha
            | some r =>
              rw [hsp] at ha
              dsimp only at ha
              by_cases hE : node = g.EndRoomName
              · rw [hE] at hsp
                have hr := ShortestPath_end fuel g _ path1 pa r hsp
                rw [hr] at ha
                dsimp only at ha
                rw [if_pos ⟨by simp, (contains_iff _ _).mpr (List.mem_append_left _ hS),
                  (contains_iff _ _).mpr (by simp)⟩] at ha
                rw [← Option.some.inj ha]
                refine ⟨fun c hc => List.mem_append_left _ hc, ?_⟩
                intro mid hh _ hnd _
                cases mid with
                | nil => simp
                | cons x mid =>
                  exfalso
                  have hx : x = node := by simpa using hh
                  rw [hx, hE] at hnd
                  have h2 := (List.nodup_append.mp hnd).2.1
                  rw [List.cons_append, List.nodup_cons] at h2
                  exact h2.1 (by simp)
              · obtain ⟨hnil, hmono, hc⟩ := ih node path1 pa r hsp
                  (List.mem_append_left _ hS) hE
                have hform : r = ([], r.2) := Prod.ext hnil rfl
                rw [hform] at ha
                dsimp only at ha
                rw [if_neg (by simp)] at ha
                rw [← Option.some.inj ha]
                refine ⟨hmono, ?_⟩
                intro mid hh hch hnd hunv
                cases mid with
                | nil =>
                  exfalso
                  have : g.EndRoomName = node := by simpa using hh
                  exact hE this.symm
                | cons x mid =>
                  have hx : x = node := by simpa using hh
                  subst hx
                  rw [List.cons_append] at hch hnd ⊢
                  exact hc mid hch hnd (fun y hy => hunv y (by
                    rw [List.cons_append]; exact List.mem_cons_of_mem _ hy))
    refine ⟨fun c hc => hsub c (hstep.1 c hc), ?_⟩
    intro node2 hn2 mid hh hch hnd hunv
    by_cases hhead : node2 = node
    · subst hhead
      exact hsub _ (hstep.2 mid hh hch hnd hunv)
    · rcases List.mem_cons.mp hn2 with h1 | h1
      · exact absurd h1 hhead
      · exact hcompl node2 h1 mid hh hch hnd hunv

/-- Completeness of `ShortestPath`: a call for a room other than the end room
that returns keeps the candidates it was given and records every chain of
unvisited rooms that leads from that room to the end room without repeating a
room of the path. -/
theorem ShortestPath_complete (g : Graph) (fuel : Nat) :
    ∀ (start : String) (path pa : List String) (res : List String × List String),
      ShortestPath fuel g start g.EndRoomName path pa = some res →
      g.StartRoomName ∈ path ++ [start] → start ≠ g.EndRoomName →
      res.1 = [] ∧ (∀ c ∈ pa, c ∈ res.2) ∧
      ∀ mid, List.Chain (fun a b => b ∈ g.conns a) start (mid ++ [g.EndRoomName]) →
        (path ++ start :: (mid ++ [g.EndRoomName])).Nodup →
        (∀ x ∈ mid ++ [g.EndRoomName], unvisitedIn g x) →
        Sprint (path ++ start :: (mid ++ [g.EndRoomName])) ∈ res.2 := by
  induction fuel with
  | zero => intro _ _ _ _ h; exact Option.noConfusion h
  | succ fuel ih =>
    intro start path pa res h hS hE
    change shortestPathBody (ShortestPath fuel) g start g.EndRoomName path pa = some res at h
    unfold shortestPathBody at h
    dsimp only at h
    rw [if_neg hE] at h
    cases hr : g.getRoom start with
    | none => rw [hr] at h; exact Option.noConfusion h
    | some r =>
      rw [hr] at h
      dsimp only at h
      obtain ⟨pa2, hfold, hres⟩ := Option.map_eq_some'.mp h
      obtain ⟨hmono, hc⟩ := sp_loop_complete g fuel ih (path ++ [start]) hS r.Connections pa pa2
        hfold
      rw [← hres]
      refine ⟨rfl, hmono, ?_⟩
      intro mid hch hnd hunv
      have hne : mid ++ [g.EndRoomName] ≠ [] := by simp
      obtain ⟨first, rest, hfr⟩ := List.exists_cons_of_ne_nil hne
      have hfirst : first ∈ r.Connections := by
        rw [hfr, List.chain_cons] at hch
        rw [← conns_of_getRoom hr]
        exact hch.1
      have := hc first hfirst mid (by rw [hfr]; rfl)
        (by
          have h2 : List.Chain' (fun a b => b ∈ g.conns a) (start :: (mid ++ [g.EndRoomName])) :=
            hch
          exact h2.tail)
        (by simpa using hnd) hunv
      simpa using this

theorem DfsFrame.frameRefl (e : String) (g : Graph) : DfsFrame e g g :=
  fun _ r hr => ⟨r, hr, fun _ => rfl, fun h => Or.inl h, List.Perm.refl _⟩

theorem DfsFrame.frameTrans {e : String} {g g2 g3 : Graph} (h1 : DfsFrame e g g2)
    (h2 : DfsFrame e g2 g3) : DfsFrame e g g3 := by
  intro x r hr
  obtain ⟨r2, hr2, ha, hb, hc⟩ := h1 x r hr
  obtain ⟨r3, hr3, ha3, hb3, hc3⟩ := h2 x r2 hr2
  refine ⟨r3, hr3, ?_, ?_, hc3.trans hc⟩
  · intro hv
    have := ha hv
    subst this
    exact ha3 hv
  · intro hv
    rcases hb3 hv with h | h
    · exact hb h
    · exact Or.inr h

theorem DfsFrame.visited {e : String} {g g2 : Graph} (h : DfsFrame e g g2) {x : String}
    (hx : visitedIn g x) : visitedIn g2 x ∧ g2.getRoom x = g.getRoom x := by
  obtain ⟨r, hr, hv⟩ := hx
  obtain ⟨r2, hr2, ha, -, -⟩ := h x r hr
  have := ha hv
  subst this
  exact ⟨⟨r2, hr2, hv⟩, hr2.trans hr.symm⟩

theorem DfsClosed.closedRefl (g : Graph) : DfsClosed g g := by
  intro x hu hv
  obtain ⟨r, hr, hf⟩ := hu
  obtain ⟨r2, hr2, ht⟩ := hv
  rw [hr] at hr2
  rw [Option.some.inj hr2, ht] at hf
  exact absurd hf (by simp)

theorem DfsClosed.closedTrans {e : String} {g g2 g3 : Graph} (hf1 : DfsFrame e g g2)
    (hf2 : DfsFrame e g2 g3) (h1 : DfsClosed g g2) (h2 : DfsClosed g2 g3) :
    DfsClosed g g3 := by
  intro x hu hv y hy hne
  obtain ⟨r, hr, hfalse⟩ := hu
  obtain ⟨r2, hr2, -, -, -⟩ := hf1 x r hr
  cases hv2 : r2.Visited with
  | true =>
    have hx2 : visitedIn g2 x := ⟨r2, hr2, hv2⟩
    obtain ⟨-, heq⟩ := hf2.visited hx2
    have hc : g3.conns x = g2.conns x := by unfold Graph.conns; rw [heq]
    rw [hc] at hy
    exact (hf2.visited (h1 x ⟨r, hr, hfalse⟩ hx2 y hy hne)).1
  | false => exact h2 x ⟨r2, hr2, hv2⟩ hv y hy hne

/-- The loop of `DFS` over the connections of `current`, for a recursive call
`self` that keeps a non-empty path list non-empty and, when it leaves the list
empty, visits the room it was called for and closes every room it visited. -/
theorem dfs_visit_closure (e : String)
    (self : String → String → Graph → String → List String → Option (Graph × List String))
    (hself : ∀ current g path pl res, self current e g path pl = some res →
      (pl ≠ [] → res.2 ≠ []) ∧
      (res.2 = [] → unvisitedIn g current →
        DfsFrame e g res.1 ∧ visitedIn res.1 current ∧ DfsClosed g res.1))
    (current path : String) :
    ∀ (is : List Nat) (acc res : Graph × List String),
      is.foldlM (dfsVisit self current e path) acc = some res →
      (acc.2 ≠ [] → res.2 ≠ []) ∧
      (res.2 = [] → visitedIn acc.1 current →
        DfsFrame e acc.1 res.1 ∧ DfsClosed acc.1 res.1 ∧
        ∀ i ∈ is, (acc.1.conns current).getD i "" ≠ "" →
          visitedIn res.1 ((acc.1.conns current).getD i "")) := by
  intro is
  induction is with
  | nil =>
    intro acc res h
    have : acc = res := by simpa using h
    subst this
    exact ⟨fun h => h, fun _ _ => ⟨DfsFrame.frameRefl e _, DfsClosed.closedRefl _, by simp⟩⟩
  | cons i is ih =>
    intro acc res h
    rw [List.foldlM_cons] at h
    obtain ⟨a, ha, hrest⟩ := Option.bind_eq_some.mp h
    obtain ⟨hmono2, hcl2⟩ := ih a res hrest
    -- the step for index `i`
    have hstep : (acc.2 ≠ [] → a.2 ≠ []) ∧
        (a.2 = [] → visitedIn acc.1 current →
          DfsFrame e acc.1 a.1 ∧ DfsClosed acc.1 a.1 ∧
          ((acc.1.conns current).getD i "" ≠ "" →
            visitedIn a.1 ((acc.1.conns current).getD i ""))) := by
      unfold dfsVisit at ha
      cases hc : acc.1.getRoom current with
      | none => rw [hc] at ha; exact Option.noConfusion ha
      | some c =>
        rw [hc] at ha
        dsimp only at ha
        rw [conns_of_getRoom hc]
        by_cases hblank : c.Connections.getD i "" = ""
        · rw [if_pos hblank] at ha
          have := Option.some.inj ha
          subst this
          exact ⟨fun h => h, fun _ _ =>
            ⟨DfsFrame.frameRefl e _, DfsClosed.closedRefl _, fun h => absurd hblank h⟩⟩
        · rw [if_neg hblank] at ha
          cases hn : acc.1.getRoom (c.Connections.getD i "") with
          | none => rw [hn] at ha; exact Option.noConfusion ha
          | some currRoom =>
            rw [hn] at ha
            dsimp only at ha
            cases hv : currRoom.Visited with
            | true =>
              rw [hv] at ha
              have := Option.some.inj ha
              subst this
              exact ⟨fun h => h, fun _ _ =>
                ⟨DfsFrame.frameRefl e _, DfsClosed.closedRefl _, fun _ => ⟨currRoom, hn, hv⟩⟩⟩
            | false =>
              rw [hv] at ha
              rw [(findRoom_some hn).1] at ha
              obtain ⟨hm, hc2⟩ := hself _ _ _ _ _ ha
              refine ⟨hm, ?_⟩
              intro hnil _
              obtain ⟨h1, h2, h3⟩ := hc2 hnil ⟨currRoom, hn, hv⟩
              exact ⟨h1, h3, fun _ => h2⟩
    refine ⟨fun h => hmono2 (hstep.1 h), ?_⟩
    intro hnil hcur
    have hanil : a.2 = [] := by
      by_contra hne
      exact hmono2 hne hnil
    obtain ⟨hf1, hc1, hi⟩ := hstep.2 hanil hcur
    obtain ⟨hcur2, heq⟩ := hf1.visited hcur
    obtain ⟨hf2, hc2, hrest2⟩ := hcl2 hnil hcur2
    have hconns : a.1.conns current = acc.1.conns current := by
      unfold Graph.conns; rw [heq]
    refine ⟨hf1.frameTrans hf2, DfsClosed.closedTrans hf1 hf2 hc1 hc2, ?_⟩
    intro j hj hne
    rcases List.mem_cons.mp hj with h | h
    · subst h
      exact (hf2.visited (hi hne)).1
    · rw [hconns] at hrest2
      exact hrest2 j h hne

theorem getRoom_mark_front_ne (g : Graph) (current x e2 : String) (hx : x ≠ current) :
    ((g.modify current Room.markVisited).modify current (Room.endToFront e2)).getRoom x =
      g.getRoom x := by
  rw [getRoom_modify _ current x (Room.endToFront e2) (fun _ => rfl), if_neg hx,
    getRoom_modify _ current x Room.markVisited (fun _ => rfl), if_neg hx]

theorem getRoom_mark_front_self (g : Graph) (current e2 : String) (curr : Room)
    (h : g.getRoom current = some curr) :
    ((g.modify current Room.markVisited).modify current (Room.endToFront e2)).getRoom current =
      some (curr.markVisited.endToFront e2) :=
  getRoom_modify_self _ current (Room.endToFront e2) (fun _ => rfl)
    (getRoom_modify_self g current Room.markVisited (fun _ => rfl) h)

/-- A `DFS` call that returns keeps a non-empty path list non-empty; when it
returns an empty path list and was called for an unvisited room, that room is
visited afterwards, the end room is not, and every room the call visited has
all its connections visited. -/
theorem DFS_closure (e : String) (fuel : Nat) :
    ∀ (current : String) (g : Graph) (path : String) (pl : List String)
      (res : Graph × List String),
      DFS fuel current e g path pl = some res →
      (pl ≠ [] → res.2 ≠ []) ∧
      (res.2 = [] → unvisitedIn g current →
        DfsFrame e g res.1 ∧ visitedIn res.1 current ∧ DfsClosed g res.1) := by
  induction fuel with
  | zero => intro _ _ _ _ _ h; exact Option.noConfusion h
  | succ fuel ih =>
    intro current g path pl res h
    change dfsBody (DFS fuel) current e g path pl = some res at h
    unfold dfsBody at h
    cases hcurr : g.getRoom current with
    | none => rw [hcurr] at h; exact Option.noConfusion h
    | some curr =>
      rw [hcurr] at h
      dsimp only at h
      by_cases hE : current = e
      · -- the end room is entered: a route is recorded
        unfold dfsReenter at h
        rw [if_pos hE] at h
        have hreach : res.2 ≠ [] := by
          cases hs : (if current ≠ e then g.modify current Room.markVisited else g).getRoom
              (if current ≠ e then g.modify current Room.markVisited else g).StartRoomName with
          | none => rw [hs] at h; exact Option.noConfusion h
          | some s =>
            rw [hs] at h
            dsimp only at h
            cases hr : DFS fuel (if current ≠ e then g.modify current Room.markVisited
                else g).StartRoomName e
              ((if current ≠ e then g.modify current Room.markVisited else g).modify
                (if current ≠ e then g.modify current Room.markVisited else g).StartRoomName
                (Room.blankEnd
                  (if current ≠ e then g.modify current Room.markVisited else g).EndRoomName))
              "" (pl ++ [dfsPath g curr current path]) with
            | none => rw [hr] at h; exact Option.noConfusion h
            | some r =>
              rw [hr] at h
              dsimp only at h
              have hr2 : r.2 ≠ [] := (ih _ _ _ _ _ hr).1 (by simp)
              cases hc3 : (r.1.modify current (Room.endToFront r.1.EndRoomName)).getRoom
                  current with
              | none => rw [hc3] at h; exact Option.noConfusion h
              | some c3 =>
                rw [hc3] at h
                dsimp only at h
                exact (dfs_visit_closure e (DFS fuel) ih current "" _ _ res h).1 hr2
        exact ⟨fun _ => hreach, fun hnil => absurd hnil hreach⟩
      · unfold dfsReenter at h
        rw [if_neg hE, if_pos hE] at h
        dsimp only at h
        cases hc3 : ((g.modify current Room.markVisited).modify current
            (Room.endToFront (g.modify current Room.markVisited).EndRoomName)).getRoom
            current with
        | none => rw [hc3] at h; exact Option.noConfusion h
        | some c3 =>
          rw [hc3] at h
          dsimp only at h
          obtain ⟨hmono, hcl⟩ := dfs_visit_closure e (DFS fuel) ih current _ _ _ res h
          refine ⟨hmono, ?_⟩
          intro hnil hunv
          obtain ⟨r0, hr0, hv0⟩ := hunv
          rw [hcurr] at hr0
          have hr0c : curr = r0 := Option.some.inj hr0
          subst hr0c
          have h3 : ((g.modify current Room.markVisited).modify current
              (Room.endToFront (g.modify current Room.markVisited).EndRoomName)).getRoom
              current = some (curr.markVisited.endToFront
                (g.modify current Room.markVisited).EndRoomName) :=
            getRoom_mark_front_self g current _ curr hcurr
          rw [h3] at hc3
          have hc3e := Option.some.inj hc3
          have hcur3 : visitedIn ((g.modify current Room.markVisited).modify current
              (Room.endToFront (g.modify current Room.markVisited).EndRoomName)) current :=
            ⟨_, h3, rfl⟩
          obtain ⟨hf, hcd, hall⟩ := hcl hnil hcur3
          -- the frame from `g` to the graph the loop starts with
          have hf0 : DfsFrame e g ((g.modify current Room.markVisited).modify current
              (Room.endToFront (g.modify current Room.markVisited).EndRoomName)) := by
            intro x r hr
            by_cases hx : x = current
            · subst hx
              rw [hcurr] at hr
              have := Option.some.inj hr
              subst this
              refine ⟨_, h3, ?_, fun _ => Or.inr hE, ?_⟩
              · intro hv; rw [hv0] at hv; exact absurd hv (by simp)
              · exact endToFrontList_perm _ _
            · refine ⟨r, ?_, fun _ => rfl, fun h => Or.inl h, List.Perm.refl _⟩
              rw [getRoom_mark_front_ne g current x _ hx]
              exact hr
          obtain ⟨hcurEnd, heqEnd⟩ := hf.visited hcur3
          refine ⟨hf0.frameTrans hf, hcurEnd, ?_⟩
          intro x hxu hxv y hy hne
          by_cases hx : x = current
          · subst hx
            have hconns : res.1.conns x = c3.Connections := by
              unfold Graph.conns
              rw [heqEnd, h3, hc3e]
              rfl
            rw [hconns] at hy
            obtain ⟨i, hi, hget⟩ := List.getElem_of_mem hy
            have hstart : ((g.modify x Room.markVisited).modify x
                (Room.endToFront (g.modify x Room.markVisited).EndRoomName)).conns x =
                c3.Connections := by
              unfold Graph.conns
              rw [h3, hc3e]
              rfl
            have hgd : c3.Connections.getD i "" = y := by
              rw [List.getD_eq_getElem _ "" hi]
              exact hget
            have := hall i (List.mem_range.mpr hi)
            rw [hstart, hgd] at this
            exact this hne
          · obtain ⟨r, hr, hv⟩ := hxu
            refine hcd x ⟨r, ?_, hv⟩ hxv y hy hne
            exact (getRoom_mark_front_ne g current x _ hx).trans hr

theorem exists_simple_chain {α : Type} (R : α → α → Prop) (e : α) :
    ∀ (l : List α) (a : α), a ≠ e → List.Chain R a (l ++ [e]) →
      ∃ l2, List.Chain R a (l2 ++ [e]) ∧ (a :: (l2 ++ [e])).Nodup := by
  intro l
  induction l with
  | nil =>
    intro a hae h
    exact ⟨[], h, by simpa using hae⟩
  | cons b l ih =>
    intro a hae h
    rw [List.cons_append, List.chain_cons] at h
    by_cases hbe : b = e
    · refine ⟨[], ?_, by simpa using hae⟩
      rw [List.nil_append, List.chain_cons]
      exact ⟨hbe ▸ h.1, List.Chain.nil⟩
    · obtain ⟨l3, hch, hnd⟩ := ih b hbe h.2
      by_cases hmem : a ∈ b :: (l3 ++ [e])
      · have hmem2 : a ∈ b :: l3 := by
          rcases List.mem_cons.mp hmem with h1 | h1
          · exact h1 ▸ List.mem_cons_self _ _
          · rcases List.mem_append.mp h1 with h2 | h2
            · exact List.mem_cons_of_mem _ h2
            · exact absurd (List.mem_singleton.mp h2) hae
        obtain ⟨s, t, hst⟩ := List.append_of_mem hmem2
        have hfull : b :: (l3 ++ [e]) = s ++ (a :: (t ++ [e])) := by
          rw [← List.cons_append, hst]
          simp
        refine ⟨t, ?_, ?_⟩
        · have h1 : List.Chain' R (b :: (l3 ++ [e])) := hch
          rw [hfull] at h1
          exact h1.right_of_append
        · rw [hfull] at hnd
          exact hnd.sublist (List.sublist_append_right _ _)
      · refine ⟨b :: l3, ?_, ?_⟩
        · rw [List.cons_append, List.chain_cons]
          exact ⟨h.1, hch⟩
        · rw [List.cons_append, List.nodup_cons]
          exact ⟨hmem, hnd⟩

theorem chain_declared {g : Graph} (hwf : WellFormed g) :
    ∀ (l : List String) (a : String),
      List.Chain (fun a b => b ∈ g.conns a) a l → ∀ x ∈ l, unvisitedIn g x := by
  intro l
  induction l with
  | nil => intro a _ x hx; simp at hx
  | cons b l ih =>
    intro a h x hx
    rw [List.chain_cons] at h
    rcases List.mem_cons.mp hx with h1 | h1
    · subst h1
      obtain ⟨r, hr⟩ := Option.isSome_iff_exists.mp (declared_of_adj hwf.searchable h.1)
      exact ⟨r, hr, (hwf.2.2.2 r (findRoom_some hr).2).1⟩
    · exact ih b h.2 x h1

/-- On a well-formed graph in which a chain of connections leads from the
start room to the end room, a `DFS` run that returns has recorded a route. -/
theorem DFS_finds_route (g : Graph) (hwf : WellFormed g) (mid : List String)
    (hreach : List.Chain (fun a b => b ∈ g.conns a) g.StartRoomName (mid ++ [g.EndRoomName]))
    (fuel : Nat) (res : Graph × List String)
    (h : DFS fuel g.StartRoomName g.EndRoomName g "" [] = some res) : res.2 ≠ [] := by
  intro hnil
  obtain ⟨s, hs⟩ := Option.isSome_iff_exists.mp hwf.2.2.1
  have hsu : unvisitedIn g g.StartRoomName := ⟨s, hs, (hwf.2.2.2 s (findRoom_some hs).2).1⟩
  obtain ⟨hf, hvS, hcl⟩ := (DFS_closure g.EndRoomName fuel _ g "" [] res h).2 hnil hsu
  have hall : ∀ (l : List String) (a : String),
      List.Chain (fun a b => b ∈ g.conns a) a l → visitedIn res.1 a → unvisitedIn g a →
      ∀ x ∈ l, visitedIn res.1 x := by
    intro l
    induction l with
    | nil => intro a _ _ _ x hx; simp at hx
    | cons b l ih =>
      intro a hch hva hua x hx
      have hdecl := chain_declared hwf (b :: l) a hch
      rw [List.chain_cons] at hch
      have hvb : visitedIn res.1 b := by
        obtain ⟨r, hr, hv⟩ := hua
        obtain ⟨r2, hr2, -, -, hperm⟩ := hf a r hr
        have hb : b ∈ r.Connections := by
          rw [← conns_of_getRoom hr]; exact hch.1
        refine hcl a ⟨r, hr, hv⟩ hva b ?_ ((hwf.2.2.2 r (findRoom_some hr).2).2.2 b hb).1
        rw [conns_of_getRoom hr2]
        exact hperm.symm.subset hb
      rcases List.mem_cons.mp hx with h1 | h1
      · rw [h1]; exact hvb
      · exact ih b hch.2 hvb (hdecl b (List.mem_cons_self _ _)) x h1
  obtain ⟨r2, hr2, hv2⟩ := hall _ _ hreach hvS hsu g.EndRoomName (by simp)
  obtain ⟨r, hr, hv⟩ := chain_declared hwf _ _ hreach g.EndRoomName (by simp)
  obtain ⟨r3, hr3, -, hb, -⟩ := hf _ r hr
  rw [hr2] at hr3
  rw [← Option.some.inj hr3] at hb
  rcases hb hv2 with h1 | h1
  · rw [hv] at h1; exact absurd h1 (by simp)
  · exact h1 rfl

theorem bfs_keeps_routes (fuel : Nat) (g : Graph) (hready : BfsReady g)
    (hfuel : g.Rooms.length + 1 ≤ fuel) (is : List Nat) (paths : List String)
    (hne : paths ≠ []) :
    ∃ g2 paths2, is.foldlM (fun st _ => bfsIter fuel st) (g, paths, []) =
      some (g2, paths2, []) ∧ paths2 ≠ [] := by
  obtain ⟨g2, paths2, k2, hfold, -, hinv⟩ := bfs_count_loop fuel g.Rooms.length
    (fun _ paths _ => paths ≠ [])
    (by
      intro g1 paths1 k mid _ _ hinv _ _ _
      split
      · exact hinv
      · simp)
    hfuel is g paths 0 hready rfl hne
  refine ⟨g2, paths2, ?_, hinv⟩
  have := foldlM_erase (Prod.fst : (Graph × List String × List String) × Nat → _)
    (fun st (_ : Nat) => bfsIterCount fuel st) (fun st (_ : Nat) => bfsIter fuel st)
    (fun acc _ => bfsIterCount_erase fuel acc) is ((g, paths, []), 0)
  rw [hfold] at this
  exact this.symm

/-- On a well-formed graph with room names free of spaces in which a chain of
connections leads from the start room to the end room, `BFS` returns a
non-empty route list. -/
theorem BFS_finds_route (g : Graph) (hwf : WellFormed g)
    (hplain : ∀ r ∈ g.Rooms, ∀ c ∈ r.Roomname.data, c ≠ ' ') (mid : List String)
    (hreach : List.Chain (fun a b => b ∈ g.conns a) g.StartRoomName (mid ++ [g.EndRoomName]))
    (fuel : Nat) (hfuel : g.Rooms.length + 1 ≤ fuel) :
    ∃ gb routes, BFS fuel g.StartRoomName g.EndRoomName g [] [] = some (gb, routes, []) ∧
      routes ≠ [] := by
  have hready := BfsReady_of_wellFormed g hwf hplain
  obtain ⟨mid2, hch2, hnd2⟩ := exists_simple_chain _ g.EndRoomName mid g.StartRoomName hwf.1 hreach
  obtain ⟨s, hs⟩ := Option.isSome_iff_exists.mp hwf.2.2.1
  obtain ⟨first, -, hfirst⟩ := chain_head_adj (by simp) hch2
  rw [conns_of_getRoom hs] at hfirst
  obtain ⟨m, hm⟩ : ∃ m, s.Connections.length = m + 1 :=
    Nat.exists_eq_succ_of_ne_zero (by
      intro h0
      rw [List.length_eq_zero] at h0
      rw [h0] at hfirst
      simp at hfirst)
  obtain ⟨sp, cands, hsp, -, -, hsome⟩ := bfsIter_spec g hready fuel hfuel []
  have hcand : cands ≠ [] := by
    have hc := (ShortestPath_complete g fuel _ [] [] _ hsp (by simp) hwf.1).2.2 mid2 hch2
      (by simpa using hnd2) (chain_declared hwf _ _ hch2)
    intro h0
    rw [h0] at hc
    simp at hc
  obtain ⟨mid3, -, -, -, -, -, hiter⟩ := hsome hcand
  have hready3 : BfsReady (markAll g mid3) := (markAll_spec mid3 g).2.1 hready
  have hlen3 : (markAll g mid3).Rooms.length = g.Rooms.length := (markAll_spec mid3 g).2.2.2.1
  obtain ⟨gb, routes, hfold, hne⟩ := bfs_keeps_routes fuel (markAll g mid3) hready3
    (by rw [hlen3]; exact hfuel) ((List.range m).map Nat.succ)
    (if contains [] (Join (mid3 ++ [g.EndRoomName]) "-") then []
      else [] ++ [Join (mid3 ++ [g.EndRoomName]) "-"])
    (by
      split
      · rename_i hc
        exact absurd ((contains_iff _ _).mp hc) (by simp)
      · simp)
  refine ⟨gb, routes, ?_, hne⟩
  unfold BFS
  rw [hs]
  dsimp only
  rw [hm, List.range_succ_eq_map, List.foldlM_cons, hiter]
  exact hfold

/-- C23: on a well-formed graph whose room names hold no space and in which a
chain of connections leads from the start room to the end room, `DFS` and
`BFS` (the latter on the deep copy, as in `main`) both return for every fuel
of at least three times the number of rooms plus one, each with a non-empty
route list, and the sorted lists that `main` hands to `AntSender` are not
empty either. -/
theorem searches_find_route (g : Graph) (fuel : Nat) (hwf : WellFormed g)
    (hnames : ∀ r ∈ g.Rooms, ∀ c ∈ r.Roomname.data, c ≠ ' ')
    (hreach : ∃ mid, List.Chain (fun a b => b ∈ g.conns a) g.StartRoomName
      (mid ++ [g.EndRoomName]))
    (hfuel : 3 * g.Rooms.length + 1 ≤ fuel) :
    (∃ gd routes, DFS fuel g.StartRoomName g.EndRoomName g "" [] = some (gd, routes) ∧
      routes ≠ [] ∧ lenSorter routes ≠ []) ∧
    (∃ gb routes, BFS fuel (DeepCopyGraph g).StartRoomName (DeepCopyGraph g).EndRoomName
        (DeepCopyGraph g) [] [] = some (gb, routes, []) ∧
      routes ≠ [] ∧ lenSorter routes ≠ []) := by
  obtain ⟨mid, hmid⟩ := hreach
  have hsort : ∀ routes : List String, routes ≠ [] → lenSorter routes ≠ [] := by
    intro routes hne h0
    have hp := sortSlice_perm (fun a b => decide (strLen a < strLen b)) routes
    unfold lenSorter at h0
    rw [h0] at hp
    exact hne hp.nil_eq.symm
  constructor
  · obtain ⟨res, hres, -⟩ := DFS_wellFormed g hwf.searchable fuel hfuel
    have hne := DFS_finds_route g hwf mid hmid fuel res hres
    exact ⟨res.1, res.2, hres, hne, hsort _ hne⟩
  · rw [DeepCopyGraph_eq]
    obtain ⟨gb, routes, hbfs, hne⟩ := BFS_finds_route g hwf hnames mid hmid fuel (by omega)
    exact ⟨gb, routes, hbfs, hne, hsort _ hne⟩

/-- Witness of `searches_find_route`: the diamond colony with fuel 13, the end
room reached through room `A`. -/
theorem searches_find_route_witness :
    WellFormed diamondGraph ∧
    (∀ r ∈ diamondGraph.Rooms, ∀ c ∈ r.Roomname.data, c ≠ ' ') ∧
    (∃ mid, List.Chain (fun a b => b ∈ diamondGraph.conns a) diamondGraph.StartRoomName
      (mid ++ [diamondGraph.EndRoomName])) ∧
    3 * diamondGraph.Rooms.length + 1 ≤ 13 ∧
    ((∃ gd routes, DFS 13 diamondGraph.StartRoomName diamondGraph.EndRoomName diamondGraph ""
        [] = some (gd, routes) ∧ routes ≠ [] ∧ lenSorter routes ≠ []) ∧
     (∃ gb routes, BFS 13 (DeepCopyGraph diamondGraph).StartRoomName
        (DeepCopyGraph diamondGraph).EndRoomName (DeepCopyGraph diamondGraph) [] [] =
          some (gb, routes, []) ∧
      routes ≠ [] ∧ lenSorter routes ≠ [])) :=
  ⟨⟨by decide, by decide, by decide, by decide⟩, by decide, ⟨["A"], List.Chain.cons (by decide) (List.Chain.cons (by decide) List.Chain.nil)⟩, by decide,
    searches_find_route diamondGraph 13 ⟨by decide, by decide, by decide, by decide⟩
      (by decide) ⟨["A"], List.Chain.cons (by decide) (List.Chain.cons (by decide) List.Chain.nil)⟩ (by decide)⟩

/-! ## The number of turns of `AntSender` -/

theorem dashInWord_word (A : List Char) (hA : ∀ c ∈ A, c ≠ '-' ∧ isSpace c = false)
    (hne : A ≠ []) (l : List Char) : ∀ b, dashInWord b (A ++ l) = dashInWord true l := by
  induction A with
  | nil => exact absurd rfl hne
  | cons c A ih =>
    intro b
    have hc := hA c (List.mem_cons_self _ _)
    rw [List.cons_append, dashInWord, hc.2]
    have hd : decide (c ≠ '-') = true := decide_eq_true hc.1
    rw [hd]
    cases A with
    | nil => simp
    | cons d A =>
      rw [ih (fun x hx => hA x (List.mem_cons_of_mem _ hx)) (by simp)]
      simp

theorem dashInWord_room (B : List Char) (hB : ∀ c ∈ B, c ≠ '-') (rest : List Char) :
    ∀ b, dashInWord b (B ++ ' ' :: rest) = dashInWord false rest := by
  induction B with
  | nil =>
    intro b
    have hsp : isSpace ' ' = true := by rfl
    have hd : decide (' ' ≠ '-') = true := by decide
    rw [List.nil_append, dashInWord, hsp, hd]
    simp
  | cons c B ih =>
    intro b
    have hd : decide (c ≠ '-') = true := decide_eq_true (hB c (List.mem_cons_self _ _))
    rw [List.cons_append, dashInWord, hd, ih (fun x hx => hB x (List.mem_cons_of_mem _ hx))]
    simp

theorem dashInWord_renderTurn (toks : List String)
    (htoks : ∀ tok ∈ toks, ∃ A B, tok.data = A ++ '-' :: B ∧ A ≠ [] ∧
      (∀ c ∈ A, c ≠ '-' ∧ isSpace c = false) ∧ ∀ c ∈ B, c ≠ '-') :
    ∀ b, dashInWord b (renderTurn toks).data = true := by
  induction toks with
  | nil => intro b; rfl
  | cons tok toks ih =>
    intro b
    obtain ⟨A, B, hAB, hne, hA, hB⟩ := htoks tok (List.mem_cons_self _ _)
    have h1 : (renderTurn (tok :: toks)).data =
        A ++ ('-' :: (B ++ ' ' :: (renderTurn toks).data)) := by
      simp [renderTurn, hAB]
    have hdash : isSpace '-' = false := by rfl
    rw [h1, dashInWord_word A hA hne, dashInWord, hdash, dashInWord_room B hB]
    simpa using ih (fun x hx => htoks x (List.mem_cons_of_mem _ hx)) false

theorem fieldsAux_head (l : List Char) : ∀ (cur : List Char),
    dashInWord (decide (cur ≠ [])) l = true → cur.head? ≠ some '-' →
    ∀ w ∈ fieldsAux l cur, ∃ c rest, w.data = c :: rest ∧ c ≠ '-' := by
  induction l with
  | nil =>
    intro cur _ hcur w hw
    unfold fieldsAux at hw
    split at hw
    · simp at hw
    · rename_i hne
      rw [List.mem_singleton] at hw
      subst hw
      cases cur with
      | nil => exact absurd rfl hne
      | cons c rest => exact ⟨c, rest, rfl, fun h => hcur (by rw [h]; rfl)⟩
  | cons c l ih =>
    intro cur hd hcur w hw
    rw [dashInWord, Bool.and_eq_true] at hd
    unfold fieldsAux at hw
    by_cases hsp : isSpace c = true
    · rw [if_pos hsp] at hw
      have hrest : ∀ w ∈ fieldsAux l [], ∃ c rest, w.data = c :: rest ∧ c ≠ '-' := by
        apply ih []
        · have := hd.2
          rw [hsp] at this
          simpa using this
        · simp
      split at hw
      · exact hrest w hw
      · rename_i hne
        rcases List.mem_cons.mp hw with h | h
        · subst h
          cases cur with
          | nil => exact absurd rfl hne
          | cons c rest => exact ⟨c, rest, rfl, fun h => hcur (by rw [h]; rfl)⟩
        · exact hrest w h
    · rw [if_neg hsp] at hw
      apply ih (cur ++ [c]) _ _ w hw
      · have := hd.2
        have hf : isSpace c = false := by simpa using hsp
        rw [hf] at this
        simpa using this
      · cases cur with
        | nil =>
          have h1 := hd.1
          simp only [ne_eq, not_true_eq_false, decide_False, Bool.or_false,
            decide_eq_true_eq] at h1
          simpa using h1
        | cons d rest => simpa using hcur

theorem splitAux_head (sep : Char) (l : List Char) : ∀ (cur : List Char), cur ≠ [] →
    ∃ f fs, splitAux sep l cur = f :: fs ∧ f.data ≠ [] := by
  induction l with
  | nil => intro cur h; exact ⟨String.mk cur, [], rfl, h⟩
  | cons c l ih =>
    intro cur h
    unfold splitAux
    split
    · exact ⟨String.mk cur, _, rfl, h⟩
    · exact ih (cur ++ [c]) (by simp)

theorem antKey_isSome (w : String) (c : Char) (rest : List Char) (hw : w.data = c :: rest)
    (hc : c ≠ '-') : (antKey w).isSome = true := by
  obtain ⟨f, fs, hf, hne⟩ := splitAux_head '-' rest [c] (by simp)
  have hs : Split w '-' = f :: fs := by
    unfold Split
    rw [hw, splitAux, if_neg hc]
    exact hf
  unfold antKey
  rw [hs]
  cases hfd : f.data with
  | nil => exact absurd hfd hne
  | cons d ds => simp [hfd]

/-- `LexicalLsort` does not fault on a turn whose tokens have the form
`L{id}-{room}` with a room free of `-`, whatever else the room holds. -/
theorem LexicalLsort_total (toks : List String)
    (htoks : ∀ tok ∈ toks, ∃ A B, tok.data = A ++ '-' :: B ∧ A ≠ [] ∧
      (∀ c ∈ A, c ≠ '-' ∧ isSpace c = false) ∧ ∀ c ∈ B, c ≠ '-') :
    ∃ r, LexicalLsort (renderTurn toks) = some r := by
  unfold LexicalLsort
  dsimp only
  rw [if_neg]
  · exact ⟨_, rfl⟩
  · rintro ⟨-, hany⟩
    rw [List.any_eq_true] at hany
    obtain ⟨w, hw, hnone⟩ := hany
    obtain ⟨c, rest, hwd, hc⟩ := fieldsAux_head _ [] (by
      simpa using dashInWord_renderTurn toks htoks false) (by simp) w hw
    have := antKey_isSome w c rest hwd hc
    rw [Option.isNone_iff_eq_none] at hnone
    rw [hnone] at this
    simp at this

theorem mapM_total {α β : Type} (f : α → Option β) (xs : List α)
    (h : ∀ x ∈ xs, ∃ r, f x = some r) : ∃ out, xs.mapM f = some out ∧ out.length = xs.length := by
  induction xs with
  | nil => exact ⟨[], rfl, rfl⟩
  | cons x xs ih =>
    obtain ⟨r, hr⟩ := h x (List.mem_cons_self _ _)
    obtain ⟨out, hout, hlen⟩ := ih (fun y hy => h y (List.mem_cons_of_mem _ hy))
    refine ⟨r :: out, ?_, by simp [hlen]⟩
    rw [List.mapM_cons, hr, hout]
    rfl

theorem addTok_all (P : String → Prop) (fm : List (List String)) (idx : Nat) (tok : String)
    (h : ∀ l ∈ fm, ∀ x ∈ l, P x) (htok : P tok) : ∀ l ∈ addTok fm idx tok, ∀ x ∈ l, P x := by
  intro l hl x hx
  unfold addTok at hl
  split at hl
  · rcases List.mem_append.mp hl with h2 | h2
    · exact h l h2 x hx
    · rw [List.mem_singleton] at h2
      rw [h2, List.mem_singleton] at hx
      exact hx ▸ htok
  · rcases mem_modifyAt _ _ _ _ hl with h2 | ⟨y, hy, h2⟩
    · exact h l h2 x hx
    · rw [h2] at hx
      rcases List.mem_append.mp hx with h3 | h3
      · exact h y hy x h3
      · rw [List.mem_singleton] at h3
        exact h3 ▸ htok

theorem placeToks_all (P : String → Prop) (j : Nat) (moves : List String) :
    ∀ (k : Nat) (fm : List (List String)), (∀ l ∈ fm, ∀ x ∈ l, P x) → (∀ x ∈ moves, P x) →
      ∀ l ∈ placeToks j moves k fm, ∀ x ∈ l, P x := by
  induction moves with
  | nil => intro k fm h _; simpa [placeToks] using h
  | cons m rest ih =>
    intro k fm h hm
    exact ih _ _ (addTok_all P fm _ m h (hm m (List.mem_cons_self _ _)))
      (fun x hx => hm x (List.mem_cons_of_mem _ hx))

theorem placePathsToks_all (P : String → Prop) (paths : List (List String)) :
    ∀ (j : Nat) (fm : List (List String)), (∀ l ∈ fm, ∀ x ∈ l, P x) →
      (∀ moves ∈ paths, ∀ x ∈ moves, P x) →
      ∀ l ∈ placePathsToks paths j fm, ∀ x ∈ l, P x := by
  induction paths with
  | nil => intro j fm h _; simpa [placePathsToks] using h
  | cons m rest ih =>
    intro j fm h hm
    exact ih _ _ (placeToks_all P j m 0 fm h (hm m (List.mem_cons_self _ _)))
      (fun x hx => hm x (List.mem_cons_of_mem _ hx))

/-- Every token of a turn of the merge is a token of the container. -/
theorem mergeToks_all (P : String → Prop) (container : List (List (List String)))
    (hc : ∀ paths ∈ container, ∀ moves ∈ paths, ∀ x ∈ moves, P x) :
    ∀ l ∈ mergeToks container, ∀ x ∈ l, P x := by
  have h : ∀ (c : List (List (List String))) (fm : List (List String)),
      (∀ l ∈ fm, ∀ x ∈ l, P x) → (∀ paths ∈ c, ∀ moves ∈ paths, ∀ x ∈ moves, P x) →
      ∀ l ∈ c.foldl (fun fm paths => placePathsToks paths 0 fm) fm, ∀ x ∈ l, P x := by
    intro c
    induction c with
    | nil => intro fm h _; simpa using h
    | cons p c ih =>
      intro fm h hc
      exact ih _ (placePathsToks_all P p 0 fm h (hc p (List.mem_cons_self _ _)))
        (fun x hx => hc x (List.mem_cons_of_mem _ hx))
  exact h container [] (by simp) hc

theorem container_all (P : String → Prop) (pls queue : List (List String))
    (h : ∀ q ∈ queue, ∀ ant ∈ q, ∀ p ∈ pls, ∀ room ∈ p, P ("L" ++ ant ++ "-" ++ room)) :
    ∀ paths ∈ buildContainer pls queue, ∀ moves ∈ paths, ∀ x ∈ moves, P x := by
  induction queue generalizing pls with
  | nil => intro paths h; simp [buildContainer] at h
  | cons q queue ih =>
    cases pls with
    | nil => intro paths h; simp [buildContainer] at h
    | cons p pls =>
      intro paths hp moves hm x hx
      simp only [buildContainer, List.zipWith_cons_cons, List.mem_cons] at hp
      rcases hp with hp | hp
      · subst hp
        obtain ⟨ant, hant, rfl⟩ := List.mem_map.mp hm
        obtain ⟨room, hroom, rfl⟩ := List.mem_map.mp hx
        exact h q (List.mem_cons_self _ _) ant hant p (List.mem_cons_self _ _) room hroom
      · exact ih pls (fun q2 hq2 ant hant p2 hp2 room hroom =>
          h q2 (List.mem_cons_of_mem _ hq2) ant hant p2 (List.mem_cons_of_mem _ hp2) room hroom)
          paths hp moves hm x hx

theorem placePathsToks_length (L : Nat) (hpos : 0 < L) (paths : List (List String)) :
    ∀ (j : Nat) (fm : List (List String)), j ≤ fm.length →
      (∀ moves ∈ paths, moves.length = L) →
      (placePathsToks paths j fm).length =
        max fm.length (if paths.length = 0 then 0 else L + (j + paths.length) - 1) := by
  induction paths with
  | nil => intro j fm _ _; simp [placePathsToks]
  | cons moves rest ih =>
    intro j fm hj hL
    obtain ⟨hl, -⟩ := placeToks_spec j moves 0 fm (by simpa using hj)
    have hm : moves.length = L := hL moves (List.mem_cons_self _ _)
    have := ih (j + 1) (placeToks j moves 0 fm) (by rw [hl, hm]; omega)
      (fun x hx => hL x (List.mem_cons_of_mem _ hx))
    simp only [placePathsToks]
    rw [this, hl, hm]
    simp only [List.length_cons]
    by_cases hr : rest.length = 0
    · rw [if_pos hr, if_neg (by omega), hr]
      simp only [Nat.max_def]
      split_ifs <;> omega
    · rw [if_neg hr, if_neg (by omega)]
      simp only [Nat.max_def]
      split_ifs <;> omega

theorem lanesTurns_nil_right (lens : List Nat) : lanesTurns lens [] = 0 := by
  cases lens <;> rfl

/-- The merge of `AntSender` produces as many turns as independent lanes
need for the hop counts of the routes and the lengths of the queues. -/
theorem mergeToks_length (queue : List (List String)) :
    ∀ (pls : List (List String)) (fm : List (List String)), (∀ p ∈ pls, p ≠ []) →
      ((buildContainer pls queue).foldl (fun fm paths => placePathsToks paths 0 fm) fm).length =
        max fm.length (lanesTurns (pls.map List.length) (queue.map List.length)) := by
  induction queue with
  | nil =>
    intro pls fm _
    simp [buildContainer, lanesTurns_nil_right]
  | cons q queue ih =>
    intro pls fm hp
    cases pls with
    | nil => simp [buildContainer, lanesTurns]
    | cons p pls =>
      have hpne : p ≠ [] := hp p (List.mem_cons_self _ _)
      have hpos : 0 < p.length := List.length_pos.mpr hpne
      simp only [buildContainer, List.zipWith_cons_cons, List.foldl_cons, List.map_cons,
        lanesTurns]
      have h1 := placePathsToks_length p.length hpos
        (q.map fun ant => p.map fun room => "L" ++ ant ++ "-" ++ room) 0 fm (Nat.zero_le _)
        (by
          intro moves hm
          obtain ⟨ant, -, rfl⟩ := List.mem_map.mp hm
          simp)
      have h2 := ih pls (placePathsToks
        (q.map fun ant => p.map fun room => "L" ++ ant ++ "-" ++ room) 0 fm)
        (fun x hx => hp x (List.mem_cons_of_mem _ hx))
      simp only [buildContainer] at h2
      rw [h2, h1]
      simp only [List.length_map, Nat.zero_add]
      rw [max_assoc]

theorem lanesTurns_ge : ∀ (lens counts : List Nat) (k : Nat), k < lens.length →
    k < counts.length → counts.getD k 0 ≠ 0 →
    lens.getD k 0 + counts.getD k 0 - 1 ≤ lanesTurns lens counts := by
  intro lens
  induction lens with
  | nil => intro counts k hk; simp at hk
  | cons len lens ih =>
    intro counts k hk hkc hne
    cases counts with
    | nil => simp at hkc
    | cons c counts =>
      unfold lanesTurns
      cases k with
      | zero =>
        rw [List.getD_cons_zero, List.getD_cons_zero] at *
        rw [if_neg hne]
        exact le_max_left _ _
      | succ k =>
        rw [List.getD_cons_succ, List.getD_cons_succ] at *
        exact le_trans (ih counts k (by simpa using hk) (by simpa using hkc) hne)
          (le_max_right _ _)

theorem lanesTurns_attained : ∀ (lens counts : List Nat), 0 < lanesTurns lens counts →
    ∃ k, k < lens.length ∧ k < counts.length ∧ counts.getD k 0 ≠ 0 ∧
      lanesTurns lens counts = lens.getD k 0 + counts.getD k 0 - 1 := by
  intro lens
  induction lens with
  | nil => intro counts h; simp [lanesTurns] at h
  | cons len lens ih =>
    intro counts h
    cases counts with
    | nil => simp [lanesTurns] at h
    | cons c counts =>
      unfold lanesTurns at h ⊢
      by_cases hle : lanesTurns lens counts ≤ (if c = 0 then 0 else len + c - 1)
      · rw [max_eq_left hle] at h ⊢
        have hc : c ≠ 0 := by
          intro h0
          rw [if_pos h0] at h
          exact absurd h (by simp)
        refine ⟨0, by simp, by simp, ?_, ?_⟩
        · rw [List.getD_cons_zero]; exact hc
        · rw [List.getD_cons_zero, List.getD_cons_zero, if_neg hc]
      · have hle2 : (if c = 0 then 0 else len + c - 1) ≤ lanesTurns lens counts := by omega
        rw [max_eq_right hle2] at h ⊢
        obtain ⟨k, h1, h2, h3, h4⟩ := ih counts h
        refine ⟨k + 1, by simpa using h1, by simpa using h2, ?_, ?_⟩
        · rw [List.getD_cons_succ]; exact h3
        · rw [List.getD_cons_succ, List.getD_cons_succ]; exact h4

theorem sum_le_of_getD_le : ∀ (c d : List Nat), c.length = d.length →
    (∀ k, k < c.length → d.getD k 0 ≤ c.getD k 0) →
    d.sum ≤ c.sum ∧ ((∃ k, k < c.length ∧ d.getD k 0 < c.getD k 0) → d.sum < c.sum) := by
  intro c
  induction c with
  | nil =>
    intro d hlen _
    have : d = [] := List.length_eq_zero.mp hlen.symm
    subst this
    exact ⟨le_refl _, fun ⟨k, hk, _⟩ => absurd hk (by simp)⟩
  | cons x c ih =>
    intro d hlen hle
    cases d with
    | nil => simp at hlen
    | cons y d =>
      have h0 : y ≤ x := by
        have := hle 0 (by simp)
        rwa [List.getD_cons_zero, List.getD_cons_zero] at this
      obtain ⟨h1, h2⟩ := ih d (by simpa using hlen) (by
        intro k hk
        have := hle (k + 1) (by simpa using hk)
        rwa [List.getD_cons_succ, List.getD_cons_succ] at this)
      rw [List.sum_cons, List.sum_cons]
      refine ⟨by omega, ?_⟩
      rintro ⟨k, hk, hlt⟩
      cases k with
      | zero =>
        rw [List.getD_cons_zero, List.getD_cons_zero] at hlt
        omega
      | succ k =>
        rw [List.getD_cons_succ, List.getD_cons_succ] at hlt
        have := h2 ⟨k, by simpa using hk, hlt⟩
        omega

/-- A distribution in which no ant could better its arrival by standing last
in another lane needs the fewest turns among all distributions of as many
ants. -/
theorem balanced_optimal (lens c d : List Nat) (hlc : c.length = lens.length)
    (hld : d.length = lens.length)
    (hinv : ∀ j k, j < lens.length → k < lens.length → c.getD j 0 ≠ 0 →
      lens.getD j 0 + c.getD j 0 - 1 ≤ lens.getD k 0 + c.getD k 0)
    (hsum : d.sum = c.sum) : lanesTurns lens c ≤ lanesTurns lens d := by
  by_contra hlt
  have hlt2 : lanesTurns lens d < lanesTurns lens c := by omega
  obtain ⟨j, hj, hjc, hcj, hT⟩ := lanesTurns_attained lens c (by omega)
  have hle : ∀ k, k < c.length → d.getD k 0 ≤ c.getD k 0 := by
    intro k hk
    by_cases hd : d.getD k 0 = 0
    · omega
    · have h1 := lanesTurns_ge lens d k (by omega) (by omega) hd
      have h2 := hinv j k hj (by omega) hcj
      omega
  have hstrict : d.getD j 0 < c.getD j 0 := by
    by_cases hd : d.getD j 0 = 0
    · omega
    · have h1 := lanesTurns_ge lens d j hj (by omega) hd
      omega
  have := (sum_le_of_getD_le c d (by omega) hle).2 ⟨j, hjc, hstrict⟩
  omega

theorem sum_length_modifyAt (x : String) : ∀ (q : List (List String)) (j : Nat),
    j < q.length →
    ((modifyAt (fun l => l ++ [x]) q j).map List.length).sum = (q.map List.length).sum + 1 := by
  intro q
  induction q with
  | nil => intro j hj; simp at hj
  | cons a q ih =>
    intro j hj
    cases j with
    | zero => simp [modifyAt]; omega
    | succ j =>
      have := ih j (by simpa using hj)
      simp only [modifyAt, List.map_cons, List.sum_cons, this]
      omega

/-- The queues built by the assignment loop are balanced: the last ant of a
queue would not arrive earlier as a further ant of any other queue. -/
theorem assignQueues_balanced (pls : List (List String)) (hne : pls ≠ []) (n : Nat) :
    ∃ q, assignQueues n pls = some q ∧ q.length = pls.length ∧
      (q.map List.length).sum = n ∧
      ∀ j k, j < pls.length → k < pls.length → (q.getD j []).length ≠ 0 →
        (pls.getD j []).length + (q.getD j []).length - 1 ≤
          (pls.getD k []).length + (q.getD k []).length := by
  induction n with
  | zero =>
    refine ⟨List.replicate pls.length [], by simp [assignQueues], by simp, by simp, ?_⟩
    intro j k hj _ hq
    exfalso
    apply hq
    rw [List.getD_eq_getElem?_getD]
    simp [List.getElem?_replicate, hj]
  | succ n ih =>
    obtain ⟨q, hq, hlen, hsum, hinv⟩ := ih
    obtain ⟨a, ha, halt, hmin, -⟩ := minStepsIndex_spec pls q hne hlen
    refine ⟨modifyAt (fun l => l ++ [Itoa (n + 1)]) q a, ?_, ?_, ?_, ?_⟩
    · rw [assignQueues_succ, hq]
      simp [assignAnt, ha]
    · rw [modifyAt_length, hlen]
    · rw [sum_length_modifyAt _ q a (by omega), hsum]
    · intro j k hj hk hqj
      rw [modifyAt_getD] at hqj ⊢
      rw [modifyAt_getD]
      have hmk := hmin k hk
      by_cases hja : j = a
      · subst hja
        rw [if_pos ⟨rfl, by omega⟩]
        rw [List.length_append, List.length_singleton]
        split
        · rw [List.length_append, List.length_singleton]; omega
        · omega
      · rw [if_neg (by tauto)] at hqj ⊢
        have := hinv j k hj hk hqj
        split
        · rw [List.length_append, List.length_singleton]; omega
        · exact this

theorem splitAux_no_sep (sep : Char) (s : List Char) :
    ∀ (cur : List Char), (∀ c ∈ cur, c ≠ sep) →
      ∀ f ∈ splitAux sep s cur, ∀ c ∈ f.data, c ≠ sep := by
  induction s with
  | nil =>
    intro cur hcur f hf c hc
    simp only [splitAux, List.mem_singleton] at hf
    subst hf
    exact hcur c hc
  | cons a s ih =>
    intro cur hcur f hf c hc
    simp only [splitAux] at hf
    by_cases ha : a = sep
    · rw [if_pos ha] at hf
      rcases List.mem_cons.mp hf with h | h
      · subst h; exact hcur c hc
      · exact ih [] (by simp) f h c hc
    · rw [if_neg ha] at hf
      refine ih (cur ++ [a]) ?_ f hf c hc
      intro x hx
      rcases List.mem_append.mp hx with h | h
      · exact hcur x h
      · rw [List.mem_singleton] at h
        exact h ▸ ha

theorem Split_no_sep (p : String) (sep : Char) (f : String) (hf : f ∈ Split p sep)
    (c : Char) (hc : c ∈ f.data) : c ≠ sep :=
  splitAux_no_sep sep p.data [] (by simp) f hf c hc

/-- C21: for every non-empty route list, in any order, and every ant count
`n`, `AntSender(n, routes)` returns a schedule; with `counts` the lengths of
the queues of the greedy assignment (one count per route, summing to `n`), the
number of turns of the schedule is `lanesTurns` of the hop counts and
`counts`, that is, the greatest `len(R_j) + c_j - 1` over the routes with
`c_j > 0`, and no distribution `d` of `n` ants over the routes has a smaller
`lanesTurns`: the number of turns is the minimum over all distributions. -/
theorem AntSender_turns_optimal (pathList : List String) (n : Nat) (hne : pathList ≠ []) :
    ∃ (sched : List String) (counts : List Nat), AntSender n pathList = some sched ∧
      counts.length = pathList.length ∧ counts.sum = n ∧
      sched.length = lanesTurns (pathList.map hopCount) counts ∧
      ∀ d : List Nat, d.length = pathList.length → d.sum = n →
        sched.length ≤ lanesTurns (pathList.map hopCount) d := by
  have hne2 : (pathList.map fun p => Split p '-') ≠ [] := by simpa using hne
  have hlenP : (pathList.map fun p => Split p '-').length = pathList.length := by simp
  have hhops : (pathList.map fun p => Split p '-').map List.length = pathList.map hopCount := by
    rw [List.map_map]
    rfl
  obtain ⟨q, hq, hlen, hsum, hinv⟩ := assignQueues_balanced _ hne2 n
  obtain ⟨ids, hids, -, -⟩ := assignQueues_ids _ hne2 n
  have hqi : q = ids.map (List.map Itoa) := by
    rw [hq] at hids
    exact Option.some.inj hids
  have hp : ∀ p ∈ (pathList.map fun p => Split p '-'), p ≠ [] := by
    intro p hp
    obtain ⟨x, -, rfl⟩ := List.mem_map.mp hp
    exact Split_ne_nil x '-'
  have hlenM : (mergeToks (buildContainer (pathList.map fun p => Split p '-') q)).length =
      lanesTurns (pathList.map hopCount) (q.map List.length) := by
    have := mergeToks_length q _ [] hp
    rw [hhops] at this
    simpa [mergeToks] using this
  have htoks : ∀ l ∈ mergeToks (buildContainer (pathList.map fun p => Split p '-') q),
      ∀ tok ∈ l, ∃ A B, tok.data = A ++ '-' :: B ∧ A ≠ [] ∧
        (∀ c ∈ A, c ≠ '-' ∧ isSpace c = false) ∧ ∀ c ∈ B, c ≠ '-' := by
    apply mergeToks_all
    apply container_all
    intro q2 hq2 ant hant p hpm room hroom
    rw [hqi] at hq2
    obtain ⟨is, -, rfl⟩ := List.mem_map.mp hq2
    obtain ⟨i, -, rfl⟩ := List.mem_map.mp hant
    obtain ⟨R, -, rfl⟩ := List.mem_map.mp hpm
    refine ⟨'L' :: (Itoa i).data, room.data, ?_, by simp, ?_, ?_⟩
    · simp [String.data_append]
    · intro c hc
      rcases List.mem_cons.mp hc with h | h
      · subst h
        exact ⟨by decide, by rfl⟩
      · exact ⟨Itoa_no_dash i c h, Itoa_not_space i c h⟩
    · intro c hc
      exact Split_no_sep R '-' room hroom c hc
  obtain ⟨out, hout, hlenOut⟩ := mapM_total LexicalLsort
    ((mergeToks (buildContainer (pathList.map fun p => Split p '-') q)).map renderTurn)
    (by
      intro s hs
      obtain ⟨l, hl, rfl⟩ := List.mem_map.mp hs
      exact LexicalLsort_total l (htoks l hl))
  refine ⟨out, q.map List.length, ?_, by simp [hlen], hsum, ?_, ?_⟩
  · simp only [AntSender, hq]
    rw [mergeMoves_render]
    exact hout
  · rw [hlenOut, List.length_map, hlenM]
  · intro d hd hdsum
    rw [hlenOut, List.length_map, hlenM, ← hhops]
    apply balanced_optimal
    · simp [hlen]
    · simp [hd]
    · intro j k hj hk hcj
      rw [List.length_map] at hj hk
      rw [getD_map_of_lt List.length q j [] 0 (by omega)] at hcj ⊢
      rw [getD_map_of_lt List.length q k [] 0 (by omega),
        getD_map_of_lt List.length _ j [] 0 hj, getD_map_of_lt List.length _ k [] 0 hk]
      exact hinv j k hj hk hcj
    · rw [hdsum, hsum]

/-- Witness of `AntSender_turns_optimal`: three ants on the routes `B-C-end`
and `A-end`. -/
theorem AntSender_turns_optimal_witness :
    ["B-C-end", "A-end"] ≠ [] ∧
    ∃ (sched : List String) (counts : List Nat),
      AntSender 3 ["B-C-end", "A-end"] = some sched ∧
      counts.length = ["B-C-end", "A-end"].length ∧ counts.sum = 3 ∧
      sched.length = lanesTurns (["B-C-end", "A-end"].map hopCount) counts ∧
      ∀ d : List Nat, d.length = ["B-C-end", "A-end"].length → d.sum = 3 →
        sched.length ≤ lanesTurns (["B-C-end", "A-end"].map hopCount) d :=
  ⟨by decide, AntSender_turns_optimal ["B-C-end", "A-end"] 3 (by decide)⟩

/-! ## One route per repetition of `BFS` with a candidate -/

/-- The step of the invariant of `BFS` on a graph without a direct link from
start to end: the route of the chosen candidate is not among the routes found
so far, because its first room is unvisited while the first room of every
route found so far is visited, and the invariant holds again after the rooms
of the candidate have been marked and the route has been appended. -/
theorem bfs_route_step (g1 : Graph) (paths : List String) (mid : List String)
    (hdash : ∀ x, (g1.getRoom x).isSome → ∀ c ∈ x.data, c ≠ '-')
    (hnl : g1.EndRoomName ∉ g1.conns g1.StartRoomName)
    (hroutes : RoutesInv g1 paths)
    (hchain : List.Chain (fun a b => b ∈ g1.conns a) g1.StartRoomName
      (mid ++ [g1.EndRoomName]))
    (hunv : ∀ x ∈ mid ++ [g1.EndRoomName], unvisitedIn g1 x) :
    Join (mid ++ [g1.EndRoomName]) "-" ∉ paths ∧
    (∀ x, ((markAll g1 mid).getRoom x).isSome → ∀ c ∈ x.data, c ≠ '-') ∧
    (markAll g1 mid).EndRoomName ∉ (markAll g1 mid).conns (markAll g1 mid).StartRoomName ∧
    RoutesInv (markAll g1 mid) (paths ++ [Join (mid ++ [g1.EndRoomName]) "-"]) := by
  obtain ⟨hrel, -, hconns, -, hvis⟩ := markAll_spec mid g1
  cases mid with
  | nil =>
    rw [List.nil_append, List.chain_cons] at hchain
    exact absurd hchain.1 hnl
  | cons y mid =>
    have hdall : ∀ w ∈ y :: (mid ++ [g1.EndRoomName]), ∀ c ∈ w.data, c ≠ '-' :=
      fun w hw => hdash w (hunv w hw).declared
    have hnew : Join (y :: mid ++ [g1.EndRoomName]) "-" ∉ paths := by
      intro hmem
      obtain ⟨x, rest, hp, hv, hd⟩ := hroutes _ hmem
      have h1 : Split (Join (y :: mid ++ [g1.EndRoomName]) "-") '-' =
          y :: (mid ++ [g1.EndRoomName]) :=
        Split_Join '-' (y :: (mid ++ [g1.EndRoomName])) (by simp) hdall
      have h2 : Split (Join (x :: rest) "-") '-' = x :: rest :=
        Split_Join '-' (x :: rest) (by simp) hd
      rw [hp, h2] at h1
      have hyx : y = x := by
        have := congrArg List.head? h1
        simpa using this.symm
      obtain ⟨r, hr, hvr⟩ := hunv y (by simp)
      obtain ⟨r2, hr2, hvr2⟩ := hv
      rw [hyx, hr2] at hr
      rw [Option.some.inj hr, hvr] at hvr2
      exact absurd hvr2 (by simp)
    refine ⟨hnew, ?_, ?_, ?_⟩
    · intro x hx
      obtain ⟨r2, hr2⟩ := Option.isSome_iff_exists.mp hx
      obtain ⟨r, hr, -⟩ := getRoom_rel_back hrel hr2
      exact hdash x (by rw [hr]; rfl)
    · rw [hconns, hrel.2.1, hrel.2.2]
      exact hnl
    · intro p hp
      rcases List.mem_append.mp hp with h | h
      · obtain ⟨x, rest, hpe, hv, hd⟩ := hroutes p h
        exact ⟨x, rest, hpe, visitedIn_mono hrel hv, hd⟩
      · rw [List.mem_singleton] at h
        exact ⟨y, mid ++ [g1.EndRoomName], h,
          hvis y (List.mem_cons_self _ _) (hunv y (by simp)).declared, hdall⟩

/-- C19, amended: a repetition of the loop of `BFS` raises the counter of
`BFSCount` by at most one and appends at most one route, which was not in the
list before.  On a well-formed graph whose room names hold neither a space nor a
`-` and whose start room is not linked directly to the end room, for every
fuel above the number of rooms: every repetition `i` of the run of `BFS` (on
the deep copy, with an empty `pathArray`) is reached, in a state `st` with
counter `k` after `i` repetitions; `ShortestPath` returns in it with
candidates `cands`, and the repetition returns.  If `cands` is not empty, the
repetition appends exactly one route, which is not among the routes found so
far, and raises the counter by one; if `cands` is empty, it leaves routes and
counter unchanged.  At the end `BFS` returns routes that are pairwise
different, and their number is the counter, the number of repetitions in
which a candidate was recorded. -/
theorem BFS_route_per_candidate (g : Graph) (fuel : Nat) (hwf : WellFormed g)
    (hnames : ∀ r ∈ g.Rooms, ∀ c ∈ r.Roomname.data, c ≠ ' ' ∧ c ≠ '-')
    (hnolink : g.EndRoomName ∉ g.conns g.StartRoomName)
    (hfuel : g.Rooms.length + 1 ≤ fuel) :
    (∀ (st st2 : Graph × List String × List String) (k k2 : Nat),
      bfsIterCount fuel (st, k) = some (st2, k2) →
      (k2 = k ∨ k2 = k + 1) ∧
      (st2.2.1 = st.2.1 ∨ ∃ route, route ∉ st.2.1 ∧ st2.2.1 = st.2.1 ++ [route])) ∧
    (∀ i, i < (g.conns g.StartRoomName).length →
      ∃ (st st2 : Graph × List String × List String) (k k2 : Nat) (sp cands : List String),
        (List.range i).foldlM (fun st _ => bfsIterCount fuel st)
          ((DeepCopyGraph g, [], []), 0) = some (st, k) ∧
        ShortestPath fuel st.1 st.1.StartRoomName st.1.EndRoomName [] st.2.2 =
          some (sp, cands) ∧
        bfsIter fuel st = some st2 ∧
        (List.range (i + 1)).foldlM (fun st _ => bfsIterCount fuel st)
          ((DeepCopyGraph g, [], []), 0) = some (st2, k2) ∧
        (cands ≠ [] → k2 = k + 1 ∧ ∃ route, route ∉ st.2.1 ∧ st2.2.1 = st.2.1 ++ [route]) ∧
        (cands = [] → k2 = k ∧ st2.2.1 = st.2.1)) ∧
    ∃ gb routes k, BFSCount fuel g.StartRoomName g.EndRoomName (DeepCopyGraph g) [] [] =
        some ((gb, routes, []), k) ∧
      BFS fuel g.StartRoomName g.EndRoomName (DeepCopyGraph g) [] [] = some (gb, routes, []) ∧
      routes.Nodup ∧ routes.length = k := by
  refine ⟨fun st st2 k k2 h => bfsIterCount_step fuel st st2 k k2 h, ?_, ?_⟩
  · intro i _
    rw [DeepCopyGraph_eq]
    have hready := BfsReady_of_wellFormed g hwf (fun r hr c hc => (hnames r hr c hc).1)
    obtain ⟨gi, pathsi, ki, hfold, hreadyi, hdash, hnl, hroutes, hleni⟩ :=
      bfs_count_loop fuel g.Rooms.length
        (fun g1 paths _ =>
          (∀ x, (g1.getRoom x).isSome → ∀ c ∈ x.data, c ≠ '-') ∧
          g1.EndRoomName ∉ g1.conns g1.StartRoomName ∧ RoutesInv g1 paths ∧
          g1.Rooms.length = g.Rooms.length)
        (by
          intro g1 paths k mid _ hlen1 hinv hchain _ hunv
          obtain ⟨hdash, hnl, hroutes, -⟩ := hinv
          obtain ⟨hnew, h1, h2, h3⟩ := bfs_route_step g1 paths mid hdash hnl hroutes hchain hunv
          rw [if_neg (fun h => hnew ((contains_iff _ _).mp h))]
          exact ⟨h1, h2, h3, (markAll_spec mid g1).2.2.2.1.trans hlen1⟩)
        hfuel (List.range i) g [] 0 hready rfl
        ⟨by
          intro x hx c hc
          obtain ⟨r, hr⟩ := Option.isSome_iff_exists.mp hx
          exact (hnames r (findRoom_some hr).2 c (by rw [(findRoom_some hr).1]; exact hc)).2,
          hnolink, by intro p hp; simp at hp, rfl⟩
    obtain ⟨sp, cands, hsp, -, hnone, hsome⟩ :=
      bfsIter_spec gi hreadyi fuel (by rw [hleni]; exact hfuel) pathsi
    have hsucc : ∀ (st2 : Graph × List String × List String) (k2 : Nat),
        bfsIterCount fuel ((gi, pathsi, []), ki) = some (st2, k2) →
        (List.range (i + 1)).foldlM (fun st _ => bfsIterCount fuel st) ((g, [], []), 0) =
          some (st2, k2) := by
      intro st2 k2 h
      rw [List.range_succ, List.foldlM_append, hfold]
      simpa using h
    by_cases hc : cands = []
    · have hiter := hnone hc
      have hcnt : bfsIterCount fuel ((gi, pathsi, []), ki) = some ((gi, pathsi, []), ki) := by
        unfold bfsIterCount
        dsimp only
        rw [hsp]
        dsimp only
        rw [hiter, hc]
        rfl
      exact ⟨(gi, pathsi, []), (gi, pathsi, []), ki, ki, sp, cands, hfold, hsp, hiter,
        hsucc _ _ hcnt, fun h => absurd hc h, fun _ => ⟨rfl, rfl⟩⟩
    · obtain ⟨mid, -, -, hchain, -, hunv, hiter⟩ := hsome hc
      obtain ⟨hnew, -, -, -⟩ := bfs_route_step gi pathsi mid hdash hnl hroutes hchain hunv
      rw [if_neg (fun h => hnew ((contains_iff _ _).mp h))] at hiter
      have hcnt : bfsIterCount fuel ((gi, pathsi, []), ki) =
          some ((markAll gi mid, pathsi ++ [Join (mid ++ [gi.EndRoomName]) "-"], []),
            ki + 1) := by
        unfold bfsIterCount
        dsimp only
        rw [hsp]
        dsimp only
        rw [hiter]
        dsimp only
        have hlen : cands.length ≠ 0 := by simpa using hc
        rw [if_pos hlen]
      exact ⟨(gi, pathsi, []), _, ki, ki + 1, sp, cands, hfold, hsp, hiter, hsucc _ _ hcnt,
        fun _ => ⟨rfl, _, hnew, rfl⟩, fun h => absurd h hc⟩
  · rw [DeepCopyGraph_eq]
    have hready := BfsReady_of_wellFormed g hwf (fun r hr c hc => (hnames r hr c hc).1)
    obtain ⟨gb, routes, k, hcount, hbfs, -, -, -, hnd, hlen⟩ := BFS_total g hready fuel hfuel
      (fun g1 paths k =>
        (∀ x, (g1.getRoom x).isSome → ∀ c ∈ x.data, c ≠ '-') ∧
        g1.EndRoomName ∉ g1.conns g1.StartRoomName ∧ RoutesInv g1 paths ∧ paths.Nodup ∧
        paths.length = k)
      (by
        intro g1 paths k mid _ hinv hchain _ hunv
        obtain ⟨hdash, hnl, hroutes, hnd, hlen⟩ := hinv
        obtain ⟨hnew, h1, h2, h3⟩ := bfs_route_step g1 paths mid hdash hnl hroutes hchain hunv
        rw [if_neg (fun h => hnew ((contains_iff _ _).mp h))]
        refine ⟨h1, h2, h3, ?_, by rw [List.length_append, hlen]; rfl⟩
        rw [List.nodup_append]
        exact ⟨hnd, List.nodup_singleton _, by
          intro x hx hx2
          rw [List.mem_singleton] at hx2
          exact hnew (hx2 ▸ hx)⟩)
      ⟨by
        intro x hx c hc
        obtain ⟨r, hr⟩ := Option.isSome_iff_exists.mp hx
        exact (hnames r (findRoom_some hr).2 c (by rw [(findRoom_some hr).1]; exact hc)).2,
        hnolink, by intro p hp; simp at hp, List.nodup_nil, rfl⟩
    exact ⟨gb, routes, k, hcount, hbfs, hnd, hlen⟩

/-- Witness of `BFS_route_per_candidate`: the diamond colony with fuel 5. -/
theorem BFS_route_per_candidate_witness :
    WellFormed diamondGraph ∧
    (∀ r ∈ diamondGraph.Rooms, ∀ c ∈ r.Roomname.data, c ≠ ' ' ∧ c ≠ '-') ∧
    diamondGraph.EndRoomName ∉ diamondGraph.conns diamondGraph.StartRoomName ∧
    diamondGraph.Rooms.length + 1 ≤ 5 ∧
    (∀ (st st2 : Graph × List String × List String) (k k2 : Nat),
      bfsIterCount 5 (st, k) = some (st2, k2) →
      (k2 = k ∨ k2 = k + 1) ∧
      (st2.2.1 = st.2.1 ∨ ∃ route, route ∉ st.2.1 ∧ st2.2.1 = st.2.1 ++ [route])) ∧
    (∀ i, i < (diamondGraph.conns diamondGraph.StartRoomName).length →
      ∃ (st st2 : Graph × List String × List String) (k k2 : Nat) (sp cands : List String),
        (List.range i).foldlM (fun st _ => bfsIterCount 5 st)
          ((DeepCopyGraph diamondGraph, [], []), 0) = some (st, k) ∧
        ShortestPath 5 st.1 st.1.StartRoomName st.1.EndRoomName [] st.2.2 =
          some (sp, cands) ∧
        bfsIter 5 st = some st2 ∧
        (List.range (i + 1)).foldlM (fun st _ => bfsIterCount 5 st)
          ((DeepCopyGraph diamondGraph, [], []), 0) = some (st2, k2) ∧
        (cands ≠ [] → k2 = k + 1 ∧ ∃ route, route ∉ st.2.1 ∧ st2.2.1 = st.2.1 ++ [route]) ∧
        (cands = [] → k2 = k ∧ st2.2.1 = st.2.1)) ∧
    ∃ gb routes k, BFSCount 5 diamondGraph.StartRoomName diamondGraph.EndRoomName
        (DeepCopyGraph diamondGraph) [] [] = some ((gb, routes, []), k) ∧
      BFS 5 diamondGraph.StartRoomName diamondGraph.EndRoomName (DeepCopyGraph diamondGraph)
        [] [] = some (gb, routes, []) ∧
      routes.Nodup ∧ routes.length = k :=
  ⟨⟨by decide, by decide, by decide, by decide⟩, by decide, by decide, by decide,
    BFS_route_per_candidate diamondGraph 5 ⟨by decide, by decide, by decide, by decide⟩
      (by decide) (by decide) (by decide)⟩

/-! ## Entries of the end room in colonies built with `AddLinks` -/

theorem mem_modifyRoom_first (n : String) (f : Room → Room) (rs : List Room) (x : Room)
    (hx : x ∈ modifyRoom n f rs) : x ∈ rs ∨ ∃ r, findRoom n rs = some r ∧ x = f r := by
  induction rs with
  | nil => simp [modifyRoom] at hx
  | cons a rs ih =>
    unfold modifyRoom at hx
    unfold findRoom
    split at hx
    · rename_i ha
      rw [if_pos ha]
      rcases List.mem_cons.mp hx with h | h
      · exact Or.inr ⟨a, rfl, h⟩
      · exact Or.inl (List.mem_cons_of_mem _ h)
    · rename_i ha
      rw [if_neg ha]
      rcases List.mem_cons.mp hx with h | h
      · exact Or.inl (h ▸ List.mem_cons_self _ _)
      · rcases ih h with h2 | h2
        · exact Or.inl (List.mem_cons_of_mem _ h2)
        · exact Or.inr h2

theorem count_addConn_other (e c x : String) (g : Graph) (hc : c ≠ e)
    (h : ∀ r ∈ g.Rooms, r.Connections.count e ≤ 1) :
    ∀ r ∈ (g.modify x (Room.addConn c)).Rooms, r.Connections.count e ≤ 1 := by
  intro r hr
  rcases mem_modifyRoom _ _ _ r hr with h1 | ⟨r0, hr0, -, rfl⟩
  · exact h r h1
  · have := h r0 hr0
    simp only [Room.addConn, List.count_append]
    rw [List.count_singleton]
    simp only [beq_iff_eq]
    rw [if_neg hc]
    omega

theorem count_addConn_end (e x : String) (g : Graph) (r0 : Room) (hr0 : g.getRoom x = some r0)
    (hnot : e ∉ r0.Connections) (h : ∀ r ∈ g.Rooms, r.Connections.count e ≤ 1) :
    ∀ r ∈ (g.modify x (Room.addConn e)).Rooms, r.Connections.count e ≤ 1 := by
  intro r hr
  rcases mem_modifyRoom_first _ _ _ r hr with h1 | ⟨r1, hr1, rfl⟩
  · exact h r h1
  · have h01 : r1 = r0 := by
      have : g.getRoom x = some r1 := hr1
      rw [hr0] at this
      exact (Option.some.inj this).symm
    subst h01
    simp only [Room.addConn, List.count_append]
    rw [List.count_eq_zero_of_not_mem hnot]
    simp

theorem count_addConn (e c x : String) (g : Graph) (r0 : Room) (hr0 : g.getRoom x = some r0)
    (hnot : c ∉ r0.Connections) (h : ∀ r ∈ g.Rooms, r.Connections.count e ≤ 1) :
    ∀ r ∈ (g.modify x (Room.addConn c)).Rooms, r.Connections.count e ≤ 1 := by
  by_cases hc : c = e
  · subst hc
    exact count_addConn_end c x g r0 hr0 hnot h
  · exact count_addConn_other e c x g hc h

/-- A successful `AddLinks` call leaves the end room's name at most once in
every connection list: a name is appended to a list only after the test that
the list does not hold it. -/
theorem AddLinks_end_count (g g2 : Graph) (a b : String) (hg : g.AddLinks a b = some g2)
    (h : ∀ r ∈ g.Rooms, r.Connections.count g.EndRoomName ≤ 1) :
    g2.EndRoomName = g.EndRoomName ∧
      ∀ r ∈ g2.Rooms, r.Connections.count g2.EndRoomName ≤ 1 := by
  unfold Graph.AddLinks at hg
  cases hfa : g.getRoom a with
  | none => rw [hfa] at hg; simp at hg
  | some fromRoom =>
    cases hfb : g.getRoom b with
    | none => rw [hfa, hfb] at hg; simp at hg
    | some toRoom =>
      rw [hfa, hfb] at hg
      dsimp only at hg
      have hna : fromRoom.Roomname = a := (findRoom_some hfa).1
      have hnb : toRoom.Roomname = b := (findRoom_some hfb).1
      rw [hna, hnb] at hg
      by_cases hdup : (contains fromRoom.Connections b || contains toRoom.Connections a) = true
      · rw [if_pos hdup] at hg; exact Option.noConfusion hg
      · rw [if_neg hdup] at hg
        rw [Bool.or_eq_true, not_or] at hdup
        have hb : b ∉ fromRoom.Connections := fun hm => hdup.1 ((contains_iff _ _).mpr hm)
        have ha : a ∉ toRoom.Connections := fun hm => hdup.2 ((contains_iff _ _).mpr hm)
        split at hg
        · rw [← Option.some.inj hg]
          exact ⟨rfl, count_addConn _ a b g toRoom hfb ha h⟩
        · split at hg
          · rw [← Option.some.inj hg]
            exact ⟨rfl, count_addConn _ b a g fromRoom hfa hb h⟩
          · split at hg
            · rw [← Option.some.inj hg]
              exact ⟨rfl, count_addConn _ a b g toRoom hfb ha h⟩
            · split at hg
              · rw [← Option.some.inj hg]
                exact ⟨rfl, count_addConn _ b a g fromRoom hfa hb h⟩
              · rename_i hae hbe _ _
                rw [← Option.some.inj hg]
                refine ⟨rfl, ?_⟩
                exact count_addConn_other _ a b _ hae (count_addConn_other _ b a g hbe h)

/-- In a graph built from the empty graph with `AddRoom` and successful
`AddLinks` calls, no connection list holds the end room's name twice. -/
theorem build_end_count (steps : List BuildStep) : ∀ (g0 g : Graph),
    (∀ r ∈ g0.Rooms, r.Connections.count g0.EndRoomName ≤ 1) → g0.build steps = some g →
    g.EndRoomName = g0.EndRoomName ∧ ∀ r ∈ g.Rooms, r.Connections.count g.EndRoomName ≤ 1 := by
  induction steps with
  | nil =>
    intro g0 g h hg
    have : g0 = g := by simpa [Graph.build] using hg
    subst this
    exact ⟨rfl, h⟩
  | cons st steps ih =>
    intro g0 g h hg
    unfold Graph.build at hg
    rw [List.foldlM_cons] at hg
    cases st with
    | room name =>
      have h1 := ih (g0.AddRoom name) g (by
        intro r hr
        simp only [Graph.AddRoom, List.mem_append, List.mem_singleton] at hr
        rcases hr with hr | hr
        · exact h r hr
        · rw [hr]; simp) hg
      exact h1
    | link a b =>
      dsimp only at hg
      cases h1 : g0.AddLinks a b with
      | none => rw [h1] at hg; exact Option.noConfusion hg
      | some g1 =>
        rw [h1] at hg
        obtain ⟨hE, hc⟩ := AddLinks_end_count g0 g1 a b h1 h
        obtain ⟨hE2, hc2⟩ := ih g1 g hc hg
        exact ⟨hE2.trans hE, hc2⟩

/-- C17: on a colony graph, built from the empty graph with `AddRoom` and
successful `AddLinks` calls, whose start and end rooms differ, whose start
room is declared, in which every connection names a declared room, the end
room's list is empty, the start room is in no list and no room is visited,
the call `DFS(start, end, g, "", &paths)` returns for every fuel of at least
`3 * (number of rooms) + 1`.  `DFSLog`, which is `DFS` with a log of the rooms
entered, returns the same graph and paths, and in its log every room other
than start and end occurs at most once, the end room at most once per room
whose connection list holds it, and the start room once more than the end
room: it is re-entered from every entry of the end room. -/
theorem DFS_terminates_entries (ants : Int) (s e : String) (steps : List BuildStep)
    (g : Graph) (fuel : Nat)
    (hg : Graph.build { Rooms := [], StartRoomName := s, EndRoomName := e, Ants := ants }
      steps = some g)
    (hse : g.StartRoomName ≠ g.EndRoomName) (hs : (g.getRoom g.StartRoomName).isSome)
    (hdecl : ∀ r ∈ g.Rooms, ∀ c ∈ r.Connections, (g.getRoom c).isSome)
    (hend : ∀ r ∈ g.Rooms, r.Roomname = g.EndRoomName → r.Connections = [])
    (hstart : ∀ r ∈ g.Rooms, g.StartRoomName ∉ r.Connections)
    (hvis : ∀ r ∈ g.Rooms, r.Visited = false)
    (hfuel : 3 * g.Rooms.length + 1 ≤ fuel) :
    ∃ res log, DFS fuel g.StartRoomName g.EndRoomName g "" [] = some res ∧
      DFSLog fuel g.StartRoomName g.EndRoomName g "" [] [] = some (res.1, res.2, log) ∧
      (∀ x, x ≠ g.StartRoomName → x ≠ g.EndRoomName → log.count x ≤ 1) ∧
      log.count g.EndRoomName ≤
        (g.Rooms.filter fun r => decide (g.EndRoomName ∈ r.Connections)).length ∧
      log.count g.StartRoomName = log.count g.EndRoomName + 1 := by
  obtain ⟨res, log, h1, h2, h3, h4, h5⟩ :=
    DFS_entries_log g fuel hse hs hdecl hend hstart hvis hfuel
  obtain ⟨-, hcount⟩ := build_end_count steps _ g (by simp) hg
  exact ⟨res, log, h1, h2, h3, le_trans h4 (sum_count_le _ _ hcount), h5⟩

/-- Witness of `DFS_terminates_entries`: the diamond colony with fuel 13. -/
theorem DFS_terminates_entries_witness :
    Graph.build { Rooms := [], StartRoomName := "start", EndRoomName := "end", Ants := 2 }
      [BuildStep.room "start", BuildStep.room "A", BuildStep.room "B", BuildStep.room "end",
        BuildStep.link "start" "A", BuildStep.link "A" "end", BuildStep.link "start" "B",
        BuildStep.link "B" "end"] = some diamondGraph ∧
    diamondGraph.StartRoomName ≠ diamondGraph.EndRoomName ∧
    (diamondGraph.getRoom diamondGraph.StartRoomName).isSome ∧
    (∀ r ∈ diamondGraph.Rooms, ∀ c ∈ r.Connections, (diamondGraph.getRoom c).isSome) ∧
    (∀ r ∈ diamondGraph.Rooms, r.Roomname = diamondGraph.EndRoomName → r.Connections = []) ∧
    (∀ r ∈ diamondGraph.Rooms, diamondGraph.StartRoomName ∉ r.Connections) ∧
    (∀ r ∈ diamondGraph.Rooms, r.Visited = false) ∧
    3 * diamondGraph.Rooms.length + 1 ≤ 13 ∧
    ∃ res log, DFS 13 diamondGraph.StartRoomName diamondGraph.EndRoomName diamondGraph "" [] =
        some res ∧
      DFSLog 13 diamondGraph.StartRoomName diamondGraph.EndRoomName diamondGraph "" [] [] =
        some (res.1, res.2, log) ∧
      (∀ x, x ≠ diamondGraph.StartRoomName → x ≠ diamondGraph.EndRoomName → log.count x ≤ 1) ∧
      log.count diamondGraph.EndRoomName ≤
        (diamondGraph.Rooms.filter fun r =>
          decide (diamondGraph.EndRoomName ∈ r.Connections)).length ∧
      log.count diamondGraph.StartRoomName = log.count diamondGraph.EndRoomName + 1 :=
  ⟨by decide, by decide, by decide, by decide, by decide, by decide, by decide, by decide,
    DFS_terminates_entries 2 "start" "end"
      [BuildStep.room "start", BuildStep.room "A", BuildStep.room "B", BuildStep.room "end",
        BuildStep.link "start" "A", BuildStep.link "A" "end", BuildStep.link "start" "B",
        BuildStep.link "B" "end"] diamondGraph 13
      (by decide) (by decide) (by decide) (by decide) (by decide) (by decide) (by decide)
      (by decide)⟩

/-! ## The searches on the heap compute the searches on the loaded graph -/

theorem findPtr_some (heap : List Room) (name : String) : ∀ (ps : List Nat) (a : Nat) (r : Room),
    findPtr heap name ps = some (a, r) → heap[a]? = some r ∧ r.Roomname = name ∧ a ∈ ps := by
  intro ps
  induction ps with
  | nil => intro a r h; exact Option.noConfusion h
  | cons b ps ih =>
    intro a r h
    unfold findPtr at h
    cases hb : heap[b]? with
    | none =>
      rw [hb] at h
      obtain ⟨h1, h2, h3⟩ := ih a r h
      exact ⟨h1, h2, List.mem_cons_of_mem _ h3⟩
    | some rb =>
      rw [hb] at h
      dsimp only at h
      by_cases hn : rb.Roomname = name
      · rw [if_pos hn] at h
        have h1 := Option.some.inj h
        have ha : b = a := congrArg Prod.fst h1
        have hr : rb = r := congrArg Prod.snd h1
        subst ha; subst hr
        exact ⟨hb, hn, List.mem_cons_self _ _⟩
      · rw [if_neg hn] at h
        obtain ⟨h1, h2, h3⟩ := ih a r h
        exact ⟨h1, h2, List.mem_cons_of_mem _ h3⟩

theorem findPtr_load (heap : List Room) (name : String) : ∀ (ps : List Nat),
    (findPtr heap name ps).map Prod.snd = findRoom name (ps.filterMap fun a => heap[a]?) := by
  intro ps
  induction ps with
  | nil => rfl
  | cons b ps ih =>
    unfold findPtr
    cases hb : heap[b]? with
    | none =>
      rw [List.filterMap_cons_none hb]
      exact ih
    | some rb =>
      rw [List.filterMap_cons_some hb]
      dsimp only
      unfold findRoom
      by_cases hn : rb.Roomname = name
      · rw [if_pos hn, if_pos hn]; rfl
      · rw [if_neg hn, if_neg hn]; exact ih

theorem getRoomH_load (heap : List Room) (g : GraphRef) (name : String) :
    (getRoomH heap g name).map Prod.snd = (loadGraph heap g).getRoom name :=
  findPtr_load heap name g.Rooms

theorem findPtr_stable (heap heap2 : List Room) (name : String)
    (h : ∀ a : Nat, (heap2[a]?).map Room.Roomname = (heap[a]?).map Room.Roomname) :
    ∀ (ps : List Nat), (findPtr heap2 name ps).map Prod.fst = (findPtr heap name ps).map Prod.fst := by
  intro ps
  induction ps with
  | nil => rfl
  | cons b ps ih =>
    have hb := h b
    unfold findPtr
    cases h1 : heap[b]? with
    | none =>
      rw [h1] at hb
      cases h2 : heap2[b]? with
      | none => exact ih
      | some r2 => rw [h2] at hb; simp at hb
    | some r1 =>
      rw [h1] at hb
      cases h2 : heap2[b]? with
      | none => rw [h2] at hb; simp at hb
      | some r2 =>
        rw [h2] at hb
        have hn : r2.Roomname = r1.Roomname := by simpa using hb
        dsimp only
        rw [hn]
        by_cases hname : r1.Roomname = name
        · rw [if_pos hname, if_pos hname]; rfl
        · rw [if_neg hname, if_neg hname]; exact ih

theorem HeapRel.heapRefl (g : GraphRef) (heap : List Room) : HeapRel g heap heap :=
  ⟨rfl, fun _ => rfl, fun _ _ => rfl⟩

theorem HeapRel.heapTrans {g : GraphRef} {h1 h2 h3 : List Room} (a : HeapRel g h1 h2)
    (b : HeapRel g h2 h3) : HeapRel g h1 h3 :=
  ⟨b.1.trans a.1, fun x => (b.2.1 x).trans (a.2.1 x), fun x hx => (b.2.2 x hx).trans (a.2.2 x hx)⟩

theorem HeapRel.write (g : GraphRef) (heap : List Room) (a : Nat) (f : Room → Room)
    (hf : ∀ r, (f r).Roomname = r.Roomname) (ha : a ∈ g.Rooms) :
    HeapRel g heap (modifyAt f heap a) := by
  refine ⟨modifyAt_length f heap a, ?_, ?_⟩
  · intro x
    rw [modifyAt_getElem?]
    split
    · cases heap[x]? with
      | none => rfl
      | some r => simp [hf r]
    · rfl
  · intro x hx
    rw [modifyAt_getElem?, if_neg (fun h : x = a => hx (h ▸ ha))]

/-- A room found on the heap is found at the same address after a search, with
the value that the address holds then. -/
theorem getRoomH_stable {g : GraphRef} {heap heap2 : List Room} (hrel : HeapRel g heap heap2)
    (name : String) :
    (getRoomH heap g name = none → getRoomH heap2 g name = none) ∧
    ∀ a r, getRoomH heap g name = some (a, r) →
      ∃ r2, getRoomH heap2 g name = some (a, r2) ∧ heap2[a]? = some r2 := by
  have h := findPtr_stable heap heap2 name hrel.2.1 g.Rooms
  constructor
  · intro hn
    unfold getRoomH at hn ⊢
    rw [hn] at h
    cases h2 : findPtr heap2 name g.Rooms with
    | none => rfl
    | some x => rw [h2] at h; simp at h
  · intro a r hs
    unfold getRoomH at hs ⊢
    rw [hs] at h
    cases h2 : findPtr heap2 name g.Rooms with
    | none => rw [h2] at h; simp at h
    | some x =>
      rw [h2] at h
      have ha : x.1 = a := by simpa using h
      obtain ⟨h3, -, -⟩ := findPtr_some heap2 name g.Rooms x.1 x.2 h2
      refine ⟨x.2, ?_, by rw [← ha]; exact h3⟩
      rw [← ha]

/-- A write through the pointer returned by `getRoom` is the update of the
first room with that name in the loaded graph. -/
theorem loadGraph_write (heap : List Room) (g : GraphRef) (hnd : g.Rooms.Nodup) (name : String)
    (a : Nat) (r : Room) (f : Room → Room) (h : getRoomH heap g name = some (a, r)) :
    loadGraph (modifyAt f heap a) g = (loadGraph heap g).modify name f := by
  have key : ∀ (ps : List Nat), ps.Nodup → findPtr heap name ps = some (a, r) →
      (ps.filterMap fun b => (modifyAt f heap a)[b]?) =
        modifyRoom name f (ps.filterMap fun b => heap[b]?) := by
    intro ps
    induction ps with
    | nil => intro _ hf; exact Option.noConfusion hf
    | cons b ps ih =>
      intro hnd2 hf
      rw [List.nodup_cons] at hnd2
      unfold findPtr at hf
      cases hb : heap[b]? with
      | none =>
        rw [hb] at hf
        have hb2 : (modifyAt f heap a)[b]? = none := by
          rw [modifyAt_getElem?]
          split <;> simp [hb]
        rw [List.filterMap_cons_none hb2, List.filterMap_cons_none hb]
        exact ih hnd2.2 hf
      | some rb =>
        rw [hb] at hf
        dsimp only at hf
        rw [List.filterMap_cons_some hb]
        unfold modifyRoom
        by_cases hn : rb.Roomname = name
        · rw [if_pos hn] at hf
          rw [if_pos hn]
          have hab : b = a := congrArg Prod.fst (Option.some.inj hf)
          subst hab
          have hb2 : (modifyAt f heap b)[b]? = some (f rb) := by
            rw [modifyAt_getElem?, if_pos rfl, hb]; rfl
          rw [List.filterMap_cons_some hb2]
          congr 1
          apply List.filterMap_congr
          intro c hc
          rw [modifyAt_getElem?, if_neg (fun h : c = b => hnd2.1 (h ▸ hc))]
        · rw [if_neg hn] at hf
          rw [if_neg hn]
          have hamem := (findPtr_some heap name ps a r hf).2.2
          have hba : b ≠ a := fun h => hnd2.1 (h ▸ hamem)
          have hb2 : (modifyAt f heap a)[b]? = some rb := by
            rw [modifyAt_getElem?, if_neg hba, hb]
          rw [List.filterMap_cons_some hb2]
          congr 1
          exact ih hnd2.2 hf
  unfold loadGraph Graph.modify
  dsimp only
  rw [key g.Rooms hnd h]

/-- A search that only writes rooms of another graph leaves the loaded graph
as it is. -/
theorem loadGraph_frame {g c : GraphRef} {heap heap2 : List Room} (hrel : HeapRel c heap heap2)
    (hdisj : ∀ a ∈ g.Rooms, a ∉ c.Rooms) : loadGraph heap2 g = loadGraph heap g := by
  unfold loadGraph
  congr 1
  apply List.filterMap_congr
  intro a ha
  exact hrel.2.2 a (hdisj a ha)

theorem foldlM_sim {σ τ α : Type} (π : σ → τ) (R : σ → σ → Prop) (hrefl : ∀ s, R s s)
    (htrans : ∀ a b c, R a b → R b c → R a c) (s0 : σ) (stepH : σ → α → Option σ)
    (step : τ → α → Option τ)
    (h : ∀ acc i, R s0 acc → (stepH acc i).map π = step (π acc) i ∧
      ∀ r, stepH acc i = some r → R acc r) :
    ∀ (is : List α) (acc : σ), R s0 acc →
      (is.foldlM stepH acc).map π = is.foldlM step (π acc) ∧
      ∀ r, is.foldlM stepH acc = some r → R acc r := by
  intro is
  induction is with
  | nil =>
    intro acc _
    refine ⟨rfl, ?_⟩
    intro r hr
    have : acc = r := by simpa using hr
    rw [← this]
    exact hrefl acc
  | cons i is ih =>
    intro acc hacc
    rw [List.foldlM_cons, List.foldlM_cons]
    obtain ⟨h1, h2⟩ := h acc i hacc
    cases hs : stepH acc i with
    | none =>
      rw [hs] at h1
      rw [← h1]
      exact ⟨rfl, fun r hr => Option.noConfusion hr⟩
    | some a =>
      rw [hs] at h1
      rw [← h1]
      have hRa := h2 a hs
      obtain ⟨h3, h4⟩ := ih a (htrans _ _ _ hacc hRa)
      exact ⟨h3, fun r hr => htrans _ _ _ hRa (h4 r hr)⟩

theorem dfsReenterH_sim (g : GraphRef) (hnd : g.Rooms.Nodup)
    (selfH : String → String → List Room → String → List String →
      Option (List Room × List String))
    (self : String → String → Graph → String → List String → Option (Graph × List String))
    (hself : ∀ cur e heap path pl,
      (selfH cur e heap path pl).map (fun r => (loadGraph r.1 g, r.2)) =
        self cur e (loadGraph heap g) path pl ∧
      ∀ res, selfH cur e heap path pl = some res → HeapRel g heap res.1)
    (current e : String) (heap1 : List Room) (path1 : String) (pl : List String) :
    (dfsReenterH selfH g current e heap1 path1 pl).map
        (fun r => (loadGraph r.1 g, r.2.1, r.2.2)) =
      dfsReenter self current e (loadGraph heap1 g) path1 pl ∧
    ∀ res, dfsReenterH selfH g current e heap1 path1 pl = some res → HeapRel g heap1 res.1 := by
  unfold dfsReenterH dfsReenter
  have hS : (loadGraph heap1 g).StartRoomName = g.StartRoomName := rfl
  have hE : (loadGraph heap1 g).EndRoomName = g.EndRoomName := rfl
  rw [hS, hE]
  by_cases hc : current = e
  · rw [if_pos hc, if_pos hc]
    have hp := getRoomH_load heap1 g g.StartRoomName
    cases hs : getRoomH heap1 g g.StartRoomName with
    | none =>
      rw [hs] at hp
      rw [← hp]
      exact ⟨rfl, fun res hres => Option.noConfusion hres⟩
    | some s =>
      rw [hs] at hp
      rw [← hp]
      dsimp only [Option.map_some']
      have hw := loadGraph_write heap1 g hnd g.StartRoomName s.1 s.2
        (Room.blankEnd g.EndRoomName) hs
      rw [← hw]
      obtain ⟨h1, h2⟩ := hself g.StartRoomName e
        (modifyAt (Room.blankEnd g.EndRoomName) heap1 s.1) "" (pl ++ [path1])
      have hmem := (findPtr_some heap1 _ g.Rooms s.1 s.2 hs).2.2
      have hrel1 := HeapRel.write g heap1 s.1 (Room.blankEnd g.EndRoomName) (fun _ => rfl) hmem
      cases hr : selfH g.StartRoomName e (modifyAt (Room.blankEnd g.EndRoomName) heap1 s.1) ""
          (pl ++ [path1]) with
      | none =>
        rw [hr] at h1
        rw [← h1]
        exact ⟨rfl, fun res hres => Option.noConfusion hres⟩
      | some r =>
        rw [hr] at h1
        rw [← h1]
        refine ⟨rfl, ?_⟩
        intro res hres
        rw [← Option.some.inj hres]
        exact hrel1.heapTrans (h2 r hr)
  · rw [if_neg hc, if_neg hc]
    refine ⟨rfl, ?_⟩
    intro res hres
    rw [← Option.some.inj hres]
    exact HeapRel.heapRefl g heap1

theorem dfsVisitH_sim (g : GraphRef)
    (selfH : String → String → List Room → String → List String →
      Option (List Room × List String))
    (self : String → String → Graph → String → List String → Option (Graph × List String))
    (hself : ∀ cur e heap path pl,
      (selfH cur e heap path pl).map (fun r => (loadGraph r.1 g, r.2)) =
        self cur e (loadGraph heap g) path pl ∧
      ∀ res, selfH cur e heap path pl = some res → HeapRel g heap res.1)
    (current e path : String) (a : Nat) (acc : List Room × List String) (i : Nat)
    (c : Room) (hget : getRoomH acc.1 g current = some (a, c)) :
    (dfsVisitH selfH g a e path acc i).map (fun r => (loadGraph r.1 g, r.2)) =
      dfsVisit self current e path (loadGraph acc.1 g, acc.2) i ∧
    ∀ res, dfsVisitH selfH g a e path acc i = some res → HeapRel g acc.1 res.1 := by
  unfold dfsVisitH dfsVisit
  have ha := (findPtr_some acc.1 current g.Rooms a c hget).1
  have hp := getRoomH_load acc.1 g current
  rw [hget] at hp
  dsimp only
  rw [ha, ← hp]
  dsimp only [Option.map_some']
  by_cases hb : c.Connections.getD i "" = ""
  · rw [if_pos hb, if_pos hb]
    refine ⟨rfl, ?_⟩
    intro res hres
    rw [← Option.some.inj hres]
    exact HeapRel.heapRefl g acc.1
  · rw [if_neg hb, if_neg hb]
    have hp2 := getRoomH_load acc.1 g (c.Connections.getD i "")
    cases hn : getRoomH acc.1 g (c.Connections.getD i "") with
    | none =>
      rw [hn] at hp2
      rw [← hp2]
      exact ⟨rfl, fun res hres => Option.noConfusion hres⟩
    | some currRoom =>
      rw [hn] at hp2
      rw [← hp2]
      dsimp only [Option.map_some']
      by_cases hv : currRoom.2.Visited = true
      · rw [if_neg (by simpa using hv), if_neg (by simpa using hv)]
        refine ⟨rfl, ?_⟩
        intro res hres
        rw [← Option.some.inj hres]
        exact HeapRel.heapRefl g acc.1
      · rw [if_pos hv, if_pos hv]
        exact hself _ _ _ _ _

/-- `DFS` on the heap computes `DFS` on the loaded graph: it returns exactly
when `DFS` does, with the heap whose loaded graph is the graph `DFS` returns
and the same path list; it allocates and renames no room and writes only
rooms of its graph. -/
theorem DFSH_sim (g : GraphRef) (hnd : g.Rooms.Nodup) (fuel : Nat) :
    ∀ (current e : String) (heap : List Room) (path : String) (pl : List String),
      (DFSH g fuel current e heap path pl).map (fun r => (loadGraph r.1 g, r.2)) =
        DFS fuel current e (loadGraph heap g) path pl ∧
      ∀ res, DFSH g fuel current e heap path pl = some res → HeapRel g heap res.1 := by
  induction fuel with
  | zero =>
    intro current e heap path pl
    exact ⟨rfl, fun res hres => Option.noConfusion hres⟩
  | succ fuel ih =>
    intro current e heap path pl
    change (dfsBodyH (DFSH g fuel) g current e heap path pl).map
        (fun r => (loadGraph r.1 g, r.2)) =
        dfsBody (DFS fuel) current e (loadGraph heap g) path pl ∧
      ∀ res, dfsBodyH (DFSH g fuel) g current e heap path pl = some res → HeapRel g heap res.1
    unfold dfsBodyH dfsBody
    have hp := getRoomH_load heap g current
    cases hc : getRoomH heap g current with
    | none =>
      rw [hc] at hp
      rw [← hp]
      exact ⟨rfl, fun res hres => Option.noConfusion hres⟩
    | some curr =>
      rw [hc] at hp
      rw [← hp]
      dsimp only [Option.map_some']
      have hmem := (findPtr_some heap current g.Rooms curr.1 curr.2 hc).2.2
      -- the marking of the room
      have h1 : loadGraph (if current ≠ e then modifyAt Room.markVisited heap curr.1 else heap) g
          = (if current ≠ e then (loadGraph heap g).modify current Room.markVisited
              else loadGraph heap g) := by
        by_cases hce : current = e
        · rw [if_neg (by simpa using hce), if_neg (by simpa using hce)]
        · rw [if_pos hce, if_pos hce]
          exact loadGraph_write heap g hnd current curr.1 curr.2 Room.markVisited hc
      have hrel1 : HeapRel g heap
          (if current ≠ e then modifyAt Room.markVisited heap curr.1 else heap) := by
        by_cases hce : current = e
        · rw [if_neg (by simpa using hce)]
          exact HeapRel.heapRefl g heap
        · rw [if_pos hce]
          exact HeapRel.write g heap curr.1 Room.markVisited (fun _ => rfl) hmem
      rw [← h1]
      have hpath : dfsPath (loadGraph heap g) curr.2 current path =
          dfsPathH g curr.2 current path := rfl
      rw [hpath]
      obtain ⟨hre, hrerel⟩ := dfsReenterH_sim g hnd (DFSH g fuel) (DFS fuel) ih current e
        (if current ≠ e then modifyAt Room.markVisited heap curr.1 else heap)
        (dfsPathH g curr.2 current path) pl
      cases hr : dfsReenterH (DFSH g fuel) g current e
          (if current ≠ e then modifyAt Room.markVisited heap curr.1 else heap)
          (dfsPathH g curr.2 current path) pl with
      | none =>
        rw [hr] at hre
        rw [← hre]
        exact ⟨rfl, fun res hres => Option.noConfusion hres⟩
      | some r2 =>
        rw [hr] at hre
        rw [← hre]
        dsimp only [Option.map_some']
        have hrel2 : HeapRel g heap r2.1 := hrel1.heapTrans (hrerel r2 hr)
        obtain ⟨c2, hget2, -⟩ := (getRoomH_stable hrel2 current).2 curr.1 curr.2 hc
        have hE : (loadGraph r2.1 g).EndRoomName = g.EndRoomName := rfl
        rw [hE]
        have hw3 := loadGraph_write r2.1 g hnd current curr.1 c2
          (Room.endToFront g.EndRoomName) hget2
        rw [← hw3]
        have hrel3 : HeapRel g r2.1 (modifyAt (Room.endToFront g.EndRoomName) r2.1 curr.1) :=
          HeapRel.write g r2.1 curr.1 _ (fun _ => rfl) hmem
        obtain ⟨c3, hget3, hat3⟩ := (getRoomH_stable hrel3 current).2 curr.1 c2 hget2
        have hp3 := getRoomH_load (modifyAt (Room.endToFront g.EndRoomName) r2.1 curr.1) g current
        rw [hget3] at hp3
        rw [hat3, ← hp3]
        dsimp only [Option.map_some']
        obtain ⟨hl1, hl2⟩ := foldlM_sim
          (fun r : List Room × List String => (loadGraph r.1 g, r.2))
          (fun s s2 => HeapRel g s.1 s2.1) (fun s => HeapRel.heapRefl g s.1)
          (fun _ _ _ x y => x.heapTrans y)
          (modifyAt (Room.endToFront g.EndRoomName) r2.1 curr.1, r2.2.1)
          (dfsVisitH (DFSH g fuel) g curr.1 e r2.2.2)
          (dfsVisit (DFS fuel) current e r2.2.2)
          (by
            intro acc i hacc
            obtain ⟨c4, hget4, -⟩ := (getRoomH_stable hacc current).2 curr.1 c3 hget3
            exact dfsVisitH_sim g (DFSH g fuel) (DFS fuel) ih current e r2.2.2 curr.1 acc i c4
              hget4)
          (List.range c3.Connections.length)
          (modifyAt (Room.endToFront g.EndRoomName) r2.1 curr.1, r2.2.1)
          (HeapRel.heapRefl g _)
        refine ⟨hl1, ?_⟩
        intro res hres
        exact (hrel2.heapTrans hrel3).heapTrans (hl2 res hres)

theorem isVisitedH_load (heap : List Room) (g : GraphRef) (name : String) :
    isVisitedH heap g name = (loadGraph heap g).isVisited name := by
  unfold isVisitedH Graph.isVisited
  rw [← getRoomH_load]
  cases getRoomH heap g name <;> rfl

/-- `ShortestPath` on the heap computes `ShortestPath` on the loaded graph. -/
theorem ShortestPathH_sim (heap : List Room) (g : GraphRef) (fuel : Nat) :
    ∀ (start e : String) (path pa : List String),
      ShortestPathH heap g fuel start e path pa =
        ShortestPath fuel (loadGraph heap g) start e path pa := by
  induction fuel with
  | zero => intro _ _ _ _; rfl
  | succ fuel ih =>
    intro start e path pa
    change shortestPathBodyH (ShortestPathH heap g fuel) heap g start e path pa =
      shortestPathBody (ShortestPath fuel) (loadGraph heap g) start e path pa
    unfold shortestPathBodyH shortestPathBody
    dsimp only
    by_cases hse : start = e
    · rw [if_pos hse, if_pos hse]
    · rw [if_neg hse, if_neg hse]
      have hp := getRoomH_load heap g start
      cases hc : getRoomH heap g start with
      | none =>
        rw [hc] at hp
        rw [← hp]
        rfl
      | some r =>
        rw [hc] at hp
        rw [← hp]
        dsimp only [Option.map_some']
        have hS : (loadGraph heap g).StartRoomName = g.StartRoomName := rfl
        simp only [isVisitedH_load, ih, hS]

theorem markH_sim (g : GraphRef) (hnd : g.Rooms.Nodup) :
    ∀ (zs : List String) (heap : List Room),
      (zs.foldlM
        (fun (heap2 : List Room) z =>
          match getRoomH heap2 g z with
          | none => none
          | some p => some (modifyAt Room.markVisited heap2 p.1)) heap).map
          (fun h => loadGraph h g) =
        zs.foldlM
          (fun (g2 : Graph) z =>
            match g2.getRoom z with
            | none => none
            | some _ => some (g2.modify z Room.markVisited)) (loadGraph heap g) ∧
      ∀ res, zs.foldlM
        (fun (heap2 : List Room) z =>
          match getRoomH heap2 g z with
          | none => none
          | some p => some (modifyAt Room.markVisited heap2 p.1)) heap = some res →
        HeapRel g heap res := by
  intro zs heap
  refine foldlM_sim (fun h : List Room => loadGraph h g) (HeapRel g) (HeapRel.heapRefl g)
    (fun _ _ _ x y => x.heapTrans y) heap _ _ ?_ zs heap (HeapRel.heapRefl g heap)
  intro acc z _
  have hp := getRoomH_load acc g z
  cases hc : getRoomH acc g z with
  | none =>
    rw [hc] at hp
    dsimp only
    rw [← hp]
    exact ⟨rfl, fun r hr => Option.noConfusion hr⟩
  | some p =>
    rw [hc] at hp
    dsimp only
    rw [← hp]
    dsimp only [Option.map_some']
    refine ⟨congrArg some (loadGraph_write acc g hnd z p.1 p.2 Room.markVisited hc), ?_⟩
    intro r hr
    rw [← Option.some.inj hr]
    exact HeapRel.write g acc p.1 _ (fun _ => rfl) (findPtr_some acc z g.Rooms p.1 p.2 hc).2.2

theorem bfsIterH_sim (g : GraphRef) (hnd : g.Rooms.Nodup) (fuel : Nat)
    (st : List Room × List String × List String) :
    (bfsIterH fuel g st).map (fun r => (loadGraph r.1 g, r.2)) =
      bfsIter fuel (loadGraph st.1 g, st.2) ∧
    ∀ res, bfsIterH fuel g st = some res → HeapRel g st.1 res.1 := by
  unfold bfsIterH bfsIter
  dsimp only
  rw [ShortestPathH_sim]
  have hS : (loadGraph st.1 g).StartRoomName = g.StartRoomName := rfl
  have hE : (loadGraph st.1 g).EndRoomName = g.EndRoomName := rfl
  rw [hS, hE]
  cases hsp : ShortestPath fuel (loadGraph st.1 g) g.StartRoomName g.EndRoomName [] st.2.2 with
  | none => exact ⟨rfl, fun res hres => Option.noConfusion hres⟩
  | some sp =>
    dsimp only
    generalize (if sp.2.length ≠ 0 then
        stripBrackets
          (List.foldl (fun acc v => if strLen v < strLen acc then v else acc) (sp.2.headD "") sp.2)
      else
        some
          (List.foldl (fun acc v => if strLen v < strLen acc then v else acc) (sp.2.headD "")
            sp.2)) = sb
    cases sb with
    | none => exact ⟨rfl, fun res hres => Option.noConfusion hres⟩
    | some shortStorer =>
      dsimp only
      obtain ⟨hm1, hm2⟩ := markH_sim g hnd (Split shortStorer ' ').tail.dropLast st.1
      generalize (if contains st.2.1 (Join (Split shortStorer ' ').tail "-") = true then st.2.1
        else st.2.1 ++ [Join (Split shortStorer ' ').tail "-"]) = newPaths
      by_cases hc : strLen (Join (Split shortStorer ' ').tail "-") ≠ 0
      · simp only [if_pos hc]
        constructor
        · split
          · rename_i heq
            have h1 := (congrArg (Option.map fun h => loadGraph h g) heq).symm.trans hm1
            split
            · rfl
            · rename_i g3 heq2
              exact Option.noConfusion (h1.trans heq2)
          · rename_i heap3 heq
            have h1 := (congrArg (Option.map fun h => loadGraph h g) heq).symm.trans hm1
            split
            · rename_i heq2
              exact Option.noConfusion (h1.trans heq2)
            · rename_i g3 heq2
              have hg3 : loadGraph heap3 g = g3 := Option.some.inj (h1.trans heq2)
              rw [← hg3]
              rfl
        · intro res hres
          split at hres
          · exact Option.noConfusion hres
          · rename_i heap3 heq
            rw [← Option.some.inj hres]
            exact hm2 heap3 heq
      · simp only [if_neg hc]
        constructor
        · split
          · rename_i heq
            have h1 := (congrArg (Option.map fun h => loadGraph h g) heq).symm.trans hm1
            split
            · rfl
            · rename_i g3 heq2
              exact Option.noConfusion (h1.trans heq2)
          · rename_i heap3 heq
            have h1 := (congrArg (Option.map fun h => loadGraph h g) heq).symm.trans hm1
            split
            · rename_i heq2
              exact Option.noConfusion (h1.trans heq2)
            · rename_i g3 heq2
              have hg3 : loadGraph heap3 g = g3 := Option.some.inj (h1.trans heq2)
              rw [← hg3]
              rfl
        · intro res hres
          split at hres
          · exact Option.noConfusion hres
          · rename_i heap3 heq
            rw [← Option.some.inj hres]
            exact hm2 heap3 heq

/-- `BFS` on the heap computes `BFS` on the loaded graph, with the same
`paths` and `pathArray`. -/
theorem BFSH_sim (g : GraphRef) (hnd : g.Rooms.Nodup) (fuel : Nat) (start e : String)
    (heap : List Room) (paths pa : List String) :
    (BFSH fuel start e heap g paths pa).map (fun r => (loadGraph r.1 g, r.2)) =
      BFS fuel start e (loadGraph heap g) paths pa ∧
    ∀ res, BFSH fuel start e heap g paths pa = some res → HeapRel g heap res.1 := by
  unfold BFSH BFS
  have hp := getRoomH_load heap g start
  cases hc : getRoomH heap g start with
  | none =>
    rw [hc] at hp
    rw [← hp]
    exact ⟨rfl, fun res hres => Option.noConfusion hres⟩
  | some begin =>
    rw [hc] at hp
    rw [← hp]
    dsimp only [Option.map_some']
    exact foldlM_sim
      (fun r : List Room × List String × List String => (loadGraph r.1 g, r.2))
      (fun s s2 => HeapRel g s.1 s2.1) (fun s => HeapRel.heapRefl g s.1)
      (fun _ _ _ x y => x.heapTrans y) (heap, paths, pa)
      (fun st _ => bfsIterH fuel g st) (fun st _ => bfsIter fuel st)
      (fun acc _ _ => bfsIterH_sim g hnd fuel acc)
      (List.range begin.2.Connections.length) (heap, paths, pa) (HeapRel.heapRefl g heap)

/-! ## Runs of a search on fresh deep copies -/

theorem deepCopy_loop (heap : List Room) : ∀ (ps : List Nat) (acc : List Room × List Nat),
    (∀ a ∈ ps, a < heap.length) → (∃ new, acc.1 = heap ++ new) →
    (∀ q ∈ acc.2, heap.length ≤ q ∧ q < acc.1.length) → acc.2.Nodup →
    (∃ new, (ps.foldl deepCopyRoomH acc).1 = heap ++ new) ∧
    (∀ q ∈ (ps.foldl deepCopyRoomH acc).2,
      heap.length ≤ q ∧ q < (ps.foldl deepCopyRoomH acc).1.length) ∧
    (ps.foldl deepCopyRoomH acc).2.Nodup ∧
    ((ps.foldl deepCopyRoomH acc).2.filterMap fun a => (ps.foldl deepCopyRoomH acc).1[a]?) =
      (acc.2.filterMap fun a => acc.1[a]?) ++ ps.filterMap fun a => heap[a]? := by
  intro ps
  induction ps with
  | nil =>
    intro acc _ h1 h2 h3
    exact ⟨h1, h2, h3, by simp⟩
  | cons a ps ih =>
    intro acc hv h1 h2 h3
    rw [List.foldl_cons]
    obtain ⟨new, hnew⟩ := h1
    have ha : a < heap.length := hv a (List.mem_cons_self _ _)
    have hget : acc.1[a]? = heap[a]? := by
      rw [hnew, List.getElem?_append_left ha]
    have hsome : heap[a]? = some heap[a] := List.getElem?_eq_getElem ha
    have hstep : deepCopyRoomH acc a = (acc.1 ++ [heap[a]], acc.2 ++ [acc.1.length]) := by
      unfold deepCopyRoomH
      rw [hget, hsome]
    rw [hstep]
    obtain ⟨i1, i2, i3, i4⟩ := ih (acc.1 ++ [heap[a]], acc.2 ++ [acc.1.length])
      (fun x hx => hv x (List.mem_cons_of_mem _ hx))
      ⟨new ++ [heap[a]], by rw [hnew, List.append_assoc]⟩
      (by
        intro q hq
        rcases List.mem_append.mp hq with h | h
        · have := h2 q h
          exact ⟨this.1, by rw [List.length_append]; omega⟩
        · rw [List.mem_singleton] at h
          rw [h, List.length_append, hnew, List.length_append]
          simp)
      (by
        rw [List.nodup_append]
        refine ⟨h3, List.nodup_singleton _, ?_⟩
        intro x hx hx2
        rw [List.mem_singleton] at hx2
        have := (h2 x hx).2
        omega)
    refine ⟨i1, i2, i3, ?_⟩
    rw [i4, List.filterMap_cons_some hsome, List.filterMap_append]
    have hold : (acc.2.filterMap fun b => (acc.1 ++ [heap[a]])[b]?) =
        acc.2.filterMap fun b => acc.1[b]? := by
      apply List.filterMap_congr
      intro b hb
      exact List.getElem?_append_left (h2 b hb).2
    have hlast : (acc.1 ++ [heap[a]])[acc.1.length]? = some heap[a] := by
      rw [List.getElem?_append_right (le_refl _)]
      simp
    rw [hold, List.filterMap_cons_some hlast]
    simp

/-- The deep copy on the heap: the old heap is a prefix of the new one, the
rooms of the new graph are pairwise different addresses beyond the old heap,
and the new graph holds the values of the old one. -/
theorem DeepCopyGraphH_spec (heap : List Room) (g : GraphRef)
    (hv : ∀ a ∈ g.Rooms, a < heap.length) :
    (∃ new, (DeepCopyGraphH heap g).1 = heap ++ new) ∧
    (∀ q ∈ (DeepCopyGraphH heap g).2.Rooms, heap.length ≤ q) ∧
    (DeepCopyGraphH heap g).2.Rooms.Nodup ∧
    loadGraph (DeepCopyGraphH heap g).1 (DeepCopyGraphH heap g).2 = loadGraph heap g ∧
    (DeepCopyGraphH heap g).2.StartRoomName = g.StartRoomName ∧
    (DeepCopyGraphH heap g).2.EndRoomName = g.EndRoomName := by
  obtain ⟨h1, h2, h3, h4⟩ := deepCopy_loop heap g.Rooms (heap, []) hv ⟨[], by simp⟩
    (by simp) List.nodup_nil
  refine ⟨h1, fun q hq => (h2 q hq).1, h3, ?_, rfl, rfl⟩
  unfold loadGraph DeepCopyGraphH
  dsimp only
  rw [h4]
  simp

theorem loadGraph_append (heap new : List Room) (g : GraphRef)
    (hv : ∀ a ∈ g.Rooms, a < heap.length) : loadGraph (heap ++ new) g = loadGraph heap g := by
  unfold loadGraph
  congr 1
  apply List.filterMap_congr
  intro a ha
  exact List.getElem?_append_left (hv a ha)

/-- A search on a fresh deep copy writes no room of the graph that was copied. -/
theorem copy_frame (heap heap2 : List Room) (g : GraphRef)
    (hv : ∀ a ∈ g.Rooms, a < heap.length)
    (hrel : HeapRel (DeepCopyGraphH heap g).2 (DeepCopyGraphH heap g).1 heap2) :
    loadGraph heap2 g = loadGraph heap g ∧ ∀ a ∈ g.Rooms, a < heap2.length := by
  obtain ⟨⟨new, hnew⟩, hge, -, -, -, -⟩ := DeepCopyGraphH_spec heap g hv
  constructor
  · rw [loadGraph_frame hrel (fun a ha hmem => by
      have := hge a hmem
      have := hv a ha
      omega), hnew]
    exact loadGraph_append heap new g hv
  · intro a ha
    rw [hrel.1, hnew, List.length_append]
    have := hv a ha
    omega

/-- A run of `DFS` on a fresh deep copy returns the routes of `DFS` on the
graph that was copied and leaves that graph as it was. -/
theorem dfs_on_copy (heap : List Room) (g : GraphRef) (hv : ∀ a ∈ g.Rooms, a < heap.length)
    (fuel : Nat) (res : Graph × List String)
    (hres : DFS fuel g.StartRoomName g.EndRoomName (loadGraph heap g) "" [] = some res) :
    ∃ heap2, DFSH (DeepCopyGraphH heap g).2 fuel (DeepCopyGraphH heap g).2.StartRoomName
        (DeepCopyGraphH heap g).2.EndRoomName (DeepCopyGraphH heap g).1 "" [] =
        some (heap2, res.2) ∧
      loadGraph heap2 g = loadGraph heap g ∧ ∀ a ∈ g.Rooms, a < heap2.length := by
  obtain ⟨-, -, hnd, hload, hS, hE⟩ := DeepCopyGraphH_spec heap g hv
  obtain ⟨h1, h2⟩ := DFSH_sim (DeepCopyGraphH heap g).2 hnd fuel
    (DeepCopyGraphH heap g).2.StartRoomName (DeepCopyGraphH heap g).2.EndRoomName
    (DeepCopyGraphH heap g).1 "" []
  rw [hload, hS, hE, hres] at h1
  obtain ⟨r, hr, hrr⟩ := Option.map_eq_some'.mp h1
  have hr2 := h2 r (by rw [hS, hE]; exact hr)
  obtain ⟨f1, f2⟩ := copy_frame heap r.1 g hv hr2
  refine ⟨r.1, ?_, f1, f2⟩
  rw [hS, hE, hr]
  have : r.2 = res.2 := congrArg Prod.snd hrr
  rw [← this]

/-- A run of `BFS` on a fresh deep copy returns the routes and the `pathArray`
of `BFS` on the graph that was copied and leaves that graph as it was. -/
theorem bfs_on_copy (heap : List Room) (g : GraphRef) (hv : ∀ a ∈ g.Rooms, a < heap.length)
    (fuel : Nat) (pa : List String) (res : Graph × List String × List String)
    (hres : BFS fuel g.StartRoomName g.EndRoomName (loadGraph heap g) [] pa = some res) :
    ∃ heap2, BFSH fuel (DeepCopyGraphH heap g).2.StartRoomName
        (DeepCopyGraphH heap g).2.EndRoomName (DeepCopyGraphH heap g).1
        (DeepCopyGraphH heap g).2 [] pa = some (heap2, res.2) ∧
      loadGraph heap2 g = loadGraph heap g ∧ ∀ a ∈ g.Rooms, a < heap2.length := by
  obtain ⟨-, -, hnd, hload, hS, hE⟩ := DeepCopyGraphH_spec heap g hv
  obtain ⟨h1, h2⟩ := BFSH_sim (DeepCopyGraphH heap g).2 hnd fuel
    (DeepCopyGraphH heap g).2.StartRoomName (DeepCopyGraphH heap g).2.EndRoomName
    (DeepCopyGraphH heap g).1 [] pa
  rw [hload, hS, hE, hres] at h1
  obtain ⟨r, hr, hrr⟩ := Option.map_eq_some'.mp h1
  have hr2 := h2 r (by rw [hS, hE]; exact hr)
  obtain ⟨f1, f2⟩ := copy_frame heap r.1 g hv hr2
  refine ⟨r.1, ?_, f1, f2⟩
  rw [hS, hE, hr]
  have : r.2 = res.2 := congrArg Prod.snd hrr
  rw [← this]

theorem DFSH_twice_shared (g : GraphRef) (hnd : g.Rooms.Nodup) (fuel : Nat) (s e : String)
    (heap : List Room) :
    (DFSH g fuel s e heap "" []).map Prod.snd =
      (DFS fuel s e (loadGraph heap g) "" []).map Prod.snd ∧
    ((DFSH g fuel s e heap "" []).bind fun r =>
      (DFSH g fuel s e r.1 "" []).map Prod.snd) =
      ((DFS fuel s e (loadGraph heap g) "" []).bind fun r =>
        (DFS fuel s e r.1 "" []).map Prod.snd) := by
  have h1 := (DFSH_sim g hnd fuel s e heap "" []).1
  rw [← h1]
  cases hr : DFSH g fuel s e heap "" [] with
  | none => exact ⟨rfl, rfl⟩
  | some r =>
    refine ⟨rfl, ?_⟩
    have h2 := (DFSH_sim g hnd fuel s e r.1 "" []).1
    simp only [Option.map_some', Option.some_bind]
    rw [← h2, Option.map_map]
    rfl

/-- Without the deep copy a second run differs from the first: on the diamond
colony, `DFS` run twice on the same graph records its two routes in the first
run and none in the second, as the first run has left the rooms visited. -/
theorem dfs_shared_graph_differs :
    (DFSH diamondRef 13 "start" "end" diamondHeap "" []).map Prod.snd =
      some ["A-end", "B-end"] ∧
    ((DFSH diamondRef 13 "start" "end" diamondHeap "" []).bind fun r =>
      (DFSH diamondRef 13 "start" "end" r.1 "" []).map Prod.snd) = some [] := by
  have hload : loadGraph diamondHeap diamondRef = diamondGraph := by decide
  have h := DFSH_twice_shared diamondRef (by decide) 13 "start" "end" diamondHeap
  rw [hload] at h
  exact ⟨h.1.trans (by decide), h.2.trans (by decide)⟩

/-- C13: let `g` be a graph of pointers into `heap` whose loaded graph is
well-formed with room names free of spaces.  For every fuel of at least
`3 * (number of rooms) + 1`, two runs of `DFS` in a row, each on a fresh
`DeepCopyGraph(g)`, both return, with the same routes, which are the routes of
`DFS` on the loaded graph; so do two runs of `BFS`, where the first run,
started with an empty `pathArray`, returns with `pathArray` empty again
(`BFSH` on the first copy), and so does the second.  The runs write through the pointers of the copies only:
after the runs the rooms of `g` hold the values they held before. -/
theorem search_runs_repeatable (heap : List Room) (g : GraphRef) (fuel : Nat)
    (hv : ∀ a ∈ g.Rooms, a < heap.length)
    (hwf : WellFormed (loadGraph heap g))
    (hplain : ∀ r ∈ (loadGraph heap g).Rooms, ∀ c ∈ r.Roomname.data, c ≠ ' ')
    (hfuel : 3 * (loadGraph heap g).Rooms.length + 1 ≤ fuel) :
    (∃ heap4 gd routes, dfsTwice fuel heap g = some (heap4, routes, routes) ∧
      DFS fuel g.StartRoomName g.EndRoomName (loadGraph heap g) "" [] = some (gd, routes) ∧
      loadGraph heap4 g = loadGraph heap g) ∧
    (∃ heap2 heap4 gb routes, bfsTwice fuel heap g = some (heap4, routes, routes, []) ∧
      BFSH fuel (DeepCopyGraphH heap g).2.StartRoomName (DeepCopyGraphH heap g).2.EndRoomName
        (DeepCopyGraphH heap g).1 (DeepCopyGraphH heap g).2 [] [] = some (heap2, routes, []) ∧
      BFS fuel g.StartRoomName g.EndRoomName (loadGraph heap g) [] [] =
        some (gb, routes, []) ∧
      loadGraph heap4 g = loadGraph heap g) := by
  constructor
  · obtain ⟨res, hres, -⟩ := DFS_wellFormed (loadGraph heap g) hwf.searchable fuel hfuel
    have hres2 : DFS fuel g.StartRoomName g.EndRoomName (loadGraph heap g) "" [] = some res :=
      hres
    obtain ⟨heap2, h1, hl2, hv2⟩ := dfs_on_copy heap g hv fuel res hres2
    obtain ⟨heap4, h2, hl4, -⟩ := dfs_on_copy heap2 g hv2 fuel res (by rw [hl2]; exact hres2)
    refine ⟨heap4, res.1, res.2, ?_, hres2, hl4.trans hl2⟩
    unfold dfsTwice
    dsimp only
    rw [h1]
    dsimp only
    rw [h2]
  · obtain ⟨gb, routes, -, -, hbfs, -⟩ := BFS_total (loadGraph heap g)
      (BfsReady_of_wellFormed _ hwf hplain) fuel (by omega) (fun _ _ _ => True)
      (fun _ _ _ _ _ _ _ _ _ => trivial) trivial
    have hbfs2 : BFS fuel g.StartRoomName g.EndRoomName (loadGraph heap g) [] [] =
        some (gb, routes, []) := hbfs
    obtain ⟨heap2, h1, hl2, hv2⟩ := bfs_on_copy heap g hv fuel [] _ hbfs2
    obtain ⟨heap4, h2, hl4, -⟩ := bfs_on_copy heap2 g hv2 fuel [] _
      (by rw [hl2]; exact hbfs2)
    refine ⟨heap2, heap4, gb, routes, ?_, h1, hbfs2, hl4.trans hl2⟩
    unfold bfsTwice
    dsimp only
    rw [h1]
    dsimp only
    rw [h2]

/-- Witness of `search_runs_repeatable`: the diamond colony on the heap, with
fuel 13. -/
theorem search_runs_repeatable_witness :
    (∀ a ∈ diamondRef.Rooms, a < diamondHeap.length) ∧
    WellFormed (loadGraph diamondHeap diamondRef) ∧
    (∀ r ∈ (loadGraph diamondHeap diamondRef).Rooms, ∀ c ∈ r.Roomname.data, c ≠ ' ') ∧
    3 * (loadGraph diamondHeap diamondRef).Rooms.length + 1 ≤ 13 ∧
    (∃ heap4 gd routes, dfsTwice 13 diamondHeap diamondRef = some (heap4, routes, routes) ∧
      DFS 13 diamondRef.StartRoomName diamondRef.EndRoomName
        (loadGraph diamondHeap diamondRef) "" [] = some (gd, routes) ∧
      loadGraph heap4 diamondRef = loadGraph diamondHeap diamondRef) ∧
    (∃ heap2 heap4 gb routes,
      bfsTwice 13 diamondHeap diamondRef = some (heap4, routes, routes, []) ∧
      BFSH 13 (DeepCopyGraphH diamondHeap diamondRef).2.StartRoomName
        (DeepCopyGraphH diamondHeap diamondRef).2.EndRoomName
        (DeepCopyGraphH diamondHeap diamondRef).1 (DeepCopyGraphH diamondHeap diamondRef).2
        [] [] = some (heap2, routes, []) ∧
      BFS 13 diamondRef.StartRoomName diamondRef.EndRoomName
        (loadGraph diamondHeap diamondRef) [] [] = some (gb, routes, []) ∧
      loadGraph heap4 diamondRef = loadGraph diamondHeap diamondRef) :=
  ⟨by decide, ⟨by decide, by decide, by decide, by decide⟩, by decide, by decide,
    search_runs_repeatable diamondHeap diamondRef 13 (by decide)
      ⟨by decide, by decide, by decide, by decide⟩ (by decide) (by decide)⟩

end LemIn
